import Mathlib

/-!
# Deque: a two-level double-ended queue (src/deque.h)

Shallow embedding of `Deque<T>` and of its `base_iterator`.

* `size_t` values are natural numbers reduced modulo `2 ^ 64`; an `int` is an
  integer in `[-2 ^ 31, 2 ^ 31)`, and the conversions between the two are
  explicit (`toInt32`, `toSizeT`).
* Memory is an explicit heap: index arrays (`T**`) and element blocks (`T*`)
  live at addresses; a slot of an index array is `none` for `nullptr`; a cell of
  a block is `none` while it holds no constructed element.
* An operation returns an `Outcome`: it returns normally, it propagates an
  exception (the state is the one left behind after unwinding), or it performs
  an access that C++ leaves undefined (outside an array, through `nullptr`,
  through a freed pointer).
-/

/-- The data members of `Deque<T>`; `arr` is the address of the index array. -/
structure Deque where
  min_row : Nat
  min_col : Nat
  size_ : Nat
  capacity : Nat
  arr : Nat
deriving DecidableEq, Repr

namespace Deque

/-- The constant `BLOCK_SIZE` of `Deque<T>`. -/
def BLOCK_SIZE : Nat := 64

/-- Number of values of `size_t`. -/
def SIZE_MOD : Nat := 2 ^ 64

/-- Conversion of an integer value to `int` (two's complement, 32 bits). -/
def toInt32 (z : Int) : Int := (z + 2 ^ 31) % 2 ^ 32 - 2 ^ 31

/-- Conversion of an integer value to `size_t`. -/
def toSizeT (z : Int) : Nat := (z % 2 ^ 64).toNat

/-- Conversion of a `size_t` value to `ptrdiff_t` (two's complement, 64 bits). -/
def toPtrdiff (n : Nat) : Int := ((n : Int) + 2 ^ 63) % 2 ^ 64 - 2 ^ 63

/-- Addition of `size_t` values. -/
def wadd (a b : Nat) : Nat := (a + b) % SIZE_MOD

/-- Subtraction of `size_t` values. -/
def wsub (a b : Nat) : Nat := (a + (SIZE_MOD - b % SIZE_MOD)) % SIZE_MOD

/-- Multiplication of `size_t` values. -/
def wmul (a b : Nat) : Nat := (a * b) % SIZE_MOD

/-! ## base_iterator -/

/-- The fields of `base_iterator`: the index array it looks through, `row`, `col`. -/
structure Iter where
  arr : Nat
  row : Nat
  col : Nat
deriving DecidableEq, Repr

namespace Iter

/-- Linear position `row * BLOCK_SIZE + col`, as the `size_t` expression computes it. -/
def lin (it : Iter) : Nat := wadd (wmul it.row BLOCK_SIZE) it.col

/-- The `operator++()` of the iterator. -/
def inc (it : Iter) : Iter :=
  let col := wadd it.col 1
  if col = BLOCK_SIZE then { it with col := 0, row := wadd it.row 1 }
  else { it with col := col }

/-- The `operator--()` of the iterator. -/
def dec (it : Iter) : Iter :=
  if it.col = 0 then { it with col := wsub BLOCK_SIZE 1, row := wsub it.row 1 }
  else { it with col := wsub it.col 1 }

/-- The `operator+=(int num)` and `operator+(int num)` of the iterator. -/
def add (it : Iter) (num : Int) : Iter :=
  { it with
    row := wadd (wadd (wmul it.row BLOCK_SIZE) it.col) (toSizeT num) / BLOCK_SIZE
    col := wadd it.col (toSizeT num) % BLOCK_SIZE }

/-- The `operator-=(int num)` and `operator-(int num)` of the iterator. -/
def sub (it : Iter) (num : Int) : Iter :=
  { it with
    row := wsub (wadd (wmul it.row BLOCK_SIZE) it.col) (toSizeT num) / BLOCK_SIZE
    col := wadd (wsub it.col (toSizeT num) % BLOCK_SIZE) BLOCK_SIZE % BLOCK_SIZE }

/-- The `operator-(const base_iterator&)`: the difference, a `ptrdiff_t`. -/
def diff (a b : Iter) : Int :=
  toPtrdiff (wsub (wsub (wadd (wmul a.row BLOCK_SIZE) a.col) (wmul b.row BLOCK_SIZE)) b.col)

end Iter

/-! ## Memory -/

/-- The heap: index arrays and blocks by address, and the next fresh addresses. -/
structure Heap (α : Type) where
  index : Nat → Option (List (Option Nat))
  block : Nat → Option (List (Option α))
  nextIndex : Nat
  nextBlock : Nat

/-- How a call ends. -/
inductive Outcome (σ : Type) where
  | ok : σ → Outcome σ
  | threw : σ → Outcome σ
  | ub : Outcome σ

/-- Which fallible steps of one call succeed: `new T*[n]`, `new char[...]`, `T(elem)`. -/
structure Faults where
  indexAlloc : Bool
  blockAlloc : Bool
  ctor : Bool
deriving DecidableEq, Repr

/-- Every step succeeds. -/
def noFault : Faults := ⟨true, true, true⟩

namespace Heap

variable {α : Type}

/-- The heap with nothing allocated. -/
def empty : Heap α := ⟨fun _ => none, fun _ => none, 0, 0⟩

/-- Read `arr[row]`: `none` when the access is outside a live array. -/
def slot (h : Heap α) (arr row : Nat) : Option (Option Nat) :=
  match h.index arr with
  | none => none
  | some l => l[row]?

/-- Write `arr[row] = p`: `none` when the access is outside a live array. -/
def setSlot (h : Heap α) (arr row : Nat) (p : Option Nat) : Option (Heap α) :=
  match h.index arr with
  | none => none
  | some l =>
    if row < l.length then some { h with index := Function.update h.index arr (some (l.set row p)) }
    else none

/-- The `new T*[n]` with every slot then set to the given contents. -/
def newIndex (h : Heap α) (l : List (Option Nat)) : Heap α × Nat :=
  ({ h with index := Function.update h.index h.nextIndex (some l), nextIndex := h.nextIndex + 1 },
    h.nextIndex)

/-- The `delete[]` of an index array: `none` when it is not a live array. -/
def freeIndex (h : Heap α) (arr : Nat) : Option (Heap α) :=
  match h.index arr with
  | none => none
  | some _ => some { h with index := Function.update h.index arr none }

/-- The `new char[BLOCK_SIZE * sizeof(T)]`: a block of raw cells. -/
def newBlock (h : Heap α) : Heap α × Nat :=
  ({ h with block := Function.update h.block h.nextBlock (some (List.replicate BLOCK_SIZE none)),
            nextBlock := h.nextBlock + 1 },
    h.nextBlock)

/-- The `delete[]` of a block pointer; deleting `nullptr` does nothing. -/
def freeBlock (h : Heap α) (p : Option Nat) : Option (Heap α) :=
  match p with
  | none => some h
  | some b =>
    match h.block b with
    | none => none
    | some _ => some { h with block := Function.update h.block b none }

/-- Read the cell `p[col]` of a block. -/
def cell (h : Heap α) (p : Option Nat) (col : Nat) : Option (Option α) :=
  match p with
  | none => none
  | some b =>
    match h.block b with
    | none => none
    | some cs => cs[col]?

/-- Write the cell `p[col]` of a block. -/
def setCell (h : Heap α) (p : Option Nat) (col : Nat) (v : Option α) : Option (Heap α) :=
  match p with
  | none => none
  | some b =>
    match h.block b with
    | none => none
    | some cs =>
      if col < cs.length then some { h with block := Function.update h.block b (some (cs.set col v)) }
      else none

end Heap

/-! ## Private helpers of the container -/

variable {α : Type}

/-- The `begin()` / `cbegin()` of the container. -/
def begin (d : Deque) : Iter := ⟨d.arr, d.min_row, d.min_col⟩

/-- The `end()` / `cend()`: `begin() + size_`, the `size_t` passed as an `int`. -/
def end_ (d : Deque) : Iter := (begin d).add (toInt32 d.size_)

/-- Placement construction `new(&*it) T(v)`: `none` when `&*it` is no valid cell. -/
def Iter.construct (h : Heap α) (it : Iter) (v : α) : Option (Heap α) :=
  match h.slot it.arr it.row with
  | none => none
  | some p => h.setCell p it.col (some v)

/-- Destruction `it->~T()`: `none` when `&*it` is no valid cell. -/
def Iter.destroy (h : Heap α) (it : Iter) : Option (Heap α) :=
  match h.slot it.arr it.row with
  | none => none
  | some p => h.setCell p it.col none

/-- Reading `*it`: `none` when `&*it` is no valid cell or holds no element. -/
def Iter.load (h : Heap α) (it : Iter) : Option α :=
  match h.slot it.arr it.row with
  | none => none
  | some p =>
    match h.cell p it.col with
    | none => none
    | some c => c

/-- The contents of `new_arr` in `relocate()` after the `std::fill` with `nullptr` and the
loop `new_arr[add + i] = arr[i]`, `i < capacity`; `n` is the length of `new_arr`. -/
def relocated (old : List (Option Nat)) (capacity add n : Nat) : List (Option Nat) :=
  (List.range n).map fun j =>
    if add ≤ j ∧ j < add + capacity then (old[j - add]?).getD none else none

/-- The `relocate()` of the container. -/
def relocate (f : Faults) (h : Heap α) (d : Deque) : Outcome (Heap α × Deque) :=
  let add := wadd d.capacity 1 / 2
  let n := wadd d.capacity (wmul add 2)
  if f.indexAlloc = false then .threw (h, d)
  else
    match h.index d.arr with
    | none => .ub
    | some old =>
      if old.length < d.capacity ∨ n < wadd add d.capacity then .ub
      else
        let (h1, new_arr) := h.newIndex (relocated old d.capacity add n)
        .ok (h1, { d with arr := new_arr, min_row := wadd d.min_row add, capacity := n })

/-- The `next()` of the container. -/
def next (d : Deque) : Deque :=
  let c := wadd d.min_col 1
  if c = BLOCK_SIZE then { d with min_col := 0, min_row := wadd d.min_row 1 }
  else { d with min_col := c }

/-- The `prev()` of the container. -/
def prev (d : Deque) : Deque :=
  if d.min_col = 0 then { d with min_col := wsub BLOCK_SIZE 1, min_row := wsub d.min_row 1 }
  else { d with min_col := wsub d.min_col 1 }

/-- The `make_exist(row)` of the container. -/
def make_exist (f : Faults) (h : Heap α) (d : Deque) (row : Nat) : Outcome (Heap α) :=
  match h.slot d.arr row with
  | none => .ub
  | some (some _) => .ok h
  | some none =>
    if f.blockAlloc = false then .threw h
    else
      let (h1, b) := h.newBlock
      match h1.setSlot d.arr row (some b) with
      | none => .ub
      | some h2 => .ok h2

/-- The `full_at_back()` of the container. -/
def full_at_back (d : Deque) : Bool := (end_ d).row = d.capacity

/-! ## Public operations -/

/-- The default constructor `Deque()`. -/
def mk_default (h : Heap α) : Heap α × Deque :=
  let (h1, a) := h.newIndex [none]
  (h1, { min_row := 0, min_col := BLOCK_SIZE / 2, size_ := 0, capacity := 1, arr := a })

/-- The `size()` of the container. -/
def size (d : Deque) : Nat := d.size_

/-- The `operator[](pos)`, read: `*(begin() + pos)`, the `size_t` passed as an `int`. -/
def subscript (h : Heap α) (d : Deque) (pos : Nat) : Option α :=
  ((begin d).add (toInt32 pos)).load h

/-- The `at(pos)`, read: `.error ()` stands for `std::out_of_range`. -/
def at_ (h : Heap α) (d : Deque) (pos : Nat) : Except Unit (Option α) :=
  if d.size_ ≤ pos then .error ()
  else .ok (((begin d).add (toInt32 pos)).load h)

/-- The `delete[] previous` guarded by `arr != previous`. -/
def dropPrevious (h : Heap α) (d : Deque) (previous : Nat) : Option (Heap α) :=
  if d.arr ≠ previous then h.freeIndex previous else some h

/-- The `try` block of `push_back`; the flag is the local `new_row`. -/
def push_back_try (f : Faults) (elem : α) (previous : Nat) (h : Heap α) (d : Deque) :
    Outcome (Heap α × Deque × Bool) :=
  match h.slot d.arr (end_ d).row with
  | none => .ub
  | some p =>
    let new_row := p.isNone
    match make_exist f h d (end_ d).row with
    | .ub => .ub
    | .threw h1 => .threw (h1, d, new_row)
    | .ok h1 =>
      if f.ctor = false then .threw (h1, d, new_row)
      else
        match (end_ d).construct h1 elem with
        | none => .ub
        | some h2 =>
          let d2 := { d with size_ := wadd d.size_ 1 }
          match dropPrevious h2 d2 previous with
          | none => .ub
          | some h3 => .ok (h3, d2, new_row)

/-- The `catch (...)` block of `push_back` and of `push_front`, after its first `if`. -/
def push_restore (previous previous_row old_capacity : Nat) (h : Heap α) (d : Deque) :
    Option (Heap α × Deque) :=
  if d.arr ≠ previous then
    match h.freeIndex d.arr with
    | none => none
    | some h1 => some (h1, { d with arr := previous, min_row := previous_row, capacity := old_capacity })
  else some (h, { d with min_row := previous_row, capacity := old_capacity })

/-- The `if (new_row)` statement of a `catch (...)` block, for the row it names. -/
def push_unmake (new_row : Bool) (row : Nat) (h : Heap α) (d : Deque) : Option (Heap α) :=
  if new_row then
    match h.slot d.arr row with
    | none => none
    | some p =>
      match h.freeBlock p with
      | none => none
      | some h1 => h1.setSlot d.arr row none
  else some h

/-- The `catch (...)` block of `push_back`. -/
def push_back_catch (previous previous_row old_capacity : Nat) (h : Heap α) (d : Deque)
    (new_row : Bool) : Outcome (Heap α × Deque) :=
  match push_unmake new_row (end_ d).row h d with
  | none => .ub
  | some h1 =>
    match push_restore previous previous_row old_capacity h1 d with
    | none => .ub
    | some s => .threw s

/-- The `try` / `catch` statement of `push_back`, with the locals `previous`, `previous_row`
and `old_capacity` saved at the start of the call. -/
def push_back_body (f : Faults) (elem : α) (previous previous_row old_capacity : Nat)
    (h : Heap α) (d : Deque) : Outcome (Heap α × Deque) :=
  match push_back_try f elem previous h d with
  | .ub => .ub
  | .ok (h2, d2, _) => .ok (h2, d2)
  | .threw (h2, d2, new_row) => push_back_catch previous previous_row old_capacity h2 d2 new_row

/-- The `push_back(elem)` of the container. -/
def push_back (f : Faults) (elem : α) (h : Heap α) (d : Deque) : Outcome (Heap α × Deque) :=
  if full_at_back d then
    match relocate f h d with
    | .ub => .ub
    | .threw s => .threw s
    | .ok (h1, d1) => push_back_body f elem d.arr d.min_row d.capacity h1 d1
  else push_back_body f elem d.arr d.min_row d.capacity h d

/-- The `try` block of `push_front`; the flag is the local `new_row`. -/
def push_front_try (f : Faults) (elem : α) (previous : Nat) (h : Heap α) (d : Deque) :
    Outcome (Heap α × Deque × Bool) :=
  let it := (begin d).dec
  match h.slot d.arr it.row with
  | none => .ub
  | some p =>
    let new_row := p.isNone
    match make_exist f h d it.row with
    | .ub => .ub
    | .threw h1 => .threw (h1, d, new_row)
    | .ok h1 =>
      if f.ctor = false then .threw (h1, d, new_row)
      else
        match it.construct h1 elem with
        | none => .ub
        | some h2 =>
          let d2 := { prev d with size_ := wadd d.size_ 1 }
          match dropPrevious h2 d2 previous with
          | none => .ub
          | some h3 => .ok (h3, d2, new_row)

/-- The `catch (...)` block of `push_front`. -/
def push_front_catch (previous previous_row old_capacity : Nat) (h : Heap α) (d : Deque)
    (new_row : Bool) : Outcome (Heap α × Deque) :=
  match push_unmake new_row (wsub (begin d).row 1) h d with
  | none => .ub
  | some h1 =>
    match push_restore previous previous_row old_capacity h1 d with
    | none => .ub
    | some s => .threw s

/-- The `try` / `catch` statement of `push_front`, with the locals `previous`, `previous_row`
and `old_capacity` saved at the start of the call. -/
def push_front_body (f : Faults) (elem : α) (previous previous_row old_capacity : Nat)
    (h : Heap α) (d : Deque) : Outcome (Heap α × Deque) :=
  match push_front_try f elem previous h d with
  | .ub => .ub
  | .ok (h2, d2, _) => .ok (h2, d2)
  | .threw (h2, d2, new_row) => push_front_catch previous previous_row old_capacity h2 d2 new_row

/-- The `push_front(elem)` of the container. -/
def push_front (f : Faults) (elem : α) (h : Heap α) (d : Deque) : Outcome (Heap α × Deque) :=
  if d.min_row = 0 ∧ d.min_col = 0 then
    match relocate f h d with
    | .ub => .ub
    | .threw s => .threw s
    | .ok (h1, d1) => push_front_body f elem d.arr d.min_row d.capacity h1 d1
  else push_front_body f elem d.arr d.min_row d.capacity h d

/-- The `pop_front()` of the container. -/
def pop_front (h : Heap α) (d : Deque) : Outcome (Heap α × Deque) :=
  match (begin d).destroy h with
  | none => .ub
  | some h1 => .ok (h1, { next d with size_ := wsub d.size_ 1 })

/-- The `pop_back()` of the container. -/
def pop_back (h : Heap α) (d : Deque) : Outcome (Heap α × Deque) :=
  match (end_ d).dec.destroy h with
  | none => .ub
  | some h1 => .ok (h1, { d with size_ := wsub d.size_ 1 })

/-! ## Representation invariant -/

/-- Linear position `min_row * BLOCK_SIZE + min_col` of the front element. -/
def front (d : Deque) : Nat := d.min_row * BLOCK_SIZE + d.min_col

/-- The element stored at linear position `p` of the index array contents `l`. -/
def peekLin (h : Heap α) (l : List (Option Nat)) (p : Nat) : Option α :=
  match l[p / BLOCK_SIZE]? with
  | some (some b) =>
    match h.block b with
    | some cs => (cs[p % BLOCK_SIZE]?).join
    | none => none
  | _ => none

/-- The layout of a container state whose index array holds `l`: the data-model invariant on the
members (`min_col < BLOCK_SIZE`, the live range within the rows of the index array), and the
well-formedness of the heap model (the index array is live and has `capacity` slots, the blocks it
points to are live, distinct and of `BLOCK_SIZE` cells, addresses not yet handed out are free).
There is no bound on `size_`. -/
structure Layout (h : Heap α) (d : Deque) (l : List (Option Nat)) : Prop where
  col_lt : d.min_col < BLOCK_SIZE
  cap_rep : d.capacity * BLOCK_SIZE < SIZE_MOD
  fits : front d + d.size_ ≤ d.capacity * BLOCK_SIZE
  arr_lt : d.arr < h.nextIndex
  index_eq : h.index d.arr = some l
  length_eq : l.length = d.capacity
  blocks : ∀ (r b : Nat), l[r]? = some (some b) →
    b < h.nextBlock ∧ ∃ cs, h.block b = some cs ∧ cs.length = BLOCK_SIZE
  inj : ∀ (r r2 b : Nat), l[r]? = some (some b) → l[r2]? = some (some b) → r = r2
  index_fresh : ∀ (a : Nat), h.nextIndex ≤ a → h.index a = none
  block_fresh : ∀ (b : Nat), h.nextBlock ≤ b → h.block b = none

/-- A layout whose `size_` is in the range of `int`: `Layout` together with `size_ < 2 ^ 31`. This
is the range in which `end()` and `operator[]`, which pass `size_` and the index to
`operator+(int)`, address the live range. The bound is not part of the data-model invariant and
is not kept by `push_back` and `push_front`; it is the proof invariant of the runs shorter than
`2 ^ 31` calls, and a theorem that needs it states it as a hypothesis of its own. -/
structure Shape (h : Heap α) (d : Deque) (l : List (Option Nat)) : Prop where
  col_lt : d.min_col < BLOCK_SIZE
  cap_rep : d.capacity * BLOCK_SIZE < SIZE_MOD
  size_int : d.size_ < 2 ^ 31
  fits : front d + d.size_ ≤ d.capacity * BLOCK_SIZE
  arr_lt : d.arr < h.nextIndex
  index_eq : h.index d.arr = some l
  length_eq : l.length = d.capacity
  blocks : ∀ (r b : Nat), l[r]? = some (some b) →
    b < h.nextBlock ∧ ∃ cs, h.block b = some cs ∧ cs.length = BLOCK_SIZE
  inj : ∀ (r r2 b : Nat), l[r]? = some (some b) → l[r2]? = some (some b) → r = r2
  index_fresh : ∀ (a : Nat), h.nextIndex ≤ a → h.index a = none
  block_fresh : ∀ (b : Nat), h.nextBlock ≤ b → h.block b = none

/-- The state `(h, d)`, of size in the range of `int`, is well formed and holds exactly the
elements `m`, front first. -/
def Repr (h : Heap α) (d : Deque) (l : List (Option Nat)) (m : List α) : Prop :=
  Shape h d l ∧ d.size_ = m.length ∧
    ∀ (i : Nat), i < m.length → peekLin h l (front d + i) = m[i]?

/-- A valid container state whose size is in the range of `int`. -/
def ValidInt (h : Heap α) (d : Deque) : Prop := ∃ l m, Repr h d l m

/-- The state `(h, d)` is well laid out, its index array holding `l`, and holds exactly the
elements `m`, front first, at the live positions. The size is not bounded. -/
def Stores (h : Heap α) (d : Deque) (l : List (Option Nat)) (m : List α) : Prop :=
  Layout h d l ∧ d.size_ = m.length ∧
    ∀ (i : Nat), i < m.length → peekLin h l (front d + i) = m[i]?

/-- A valid container state: well laid out, every live position holding an element. The size is
not bounded. -/
def Valid (h : Heap α) (d : Deque) : Prop :=
  ∃ (l : List (Option Nat)) (m : List α), Stores h d l m

/-- The heap with the contents of block `b` replaced. -/
def Heap.withBlock (h : Heap α) (b : Nat) (cs : List (Option α)) : Heap α :=
  { h with block := Function.update h.block b (some cs) }

/-- The heap after `make_exist(row)` has allocated a block for the null slot `row` of `arr`,
whose contents were `l`. -/
def Heap.withNewBlock (h : Heap α) (arr : Nat) (l : List (Option Nat)) (row : Nat) : Heap α :=
  { h with
    index := Function.update h.index arr (some (l.set row (some h.nextBlock)))
    block := Function.update h.block h.nextBlock (some (List.replicate BLOCK_SIZE none))
    nextBlock := h.nextBlock + 1 }

/-- The `add` of `relocate()` for a container of the given capacity. -/
def growth (capacity : Nat) : Nat := (capacity + 1) / 2

/-- The state `relocate()` leaves when the index array held `l`. -/
def relocatedState (h : Heap α) (d : Deque) (l : List (Option Nat)) : Heap α × Deque :=
  ({ h with
     index := Function.update h.index h.nextIndex
       (some (relocated l d.capacity (growth d.capacity) (d.capacity + 2 * growth d.capacity)))
     nextIndex := h.nextIndex + 1 },
   { d with arr := h.nextIndex, min_row := d.min_row + growth d.capacity,
            capacity := d.capacity + 2 * growth d.capacity })

/-! ## Sequences of calls and the reference model -/

/-- A call of one of the four end operations. -/
inductive Op (α : Type) where
  | push_front (v : α)
  | push_back (v : α)
  | pop_front
  | pop_back

/-- The call `op` on the container, every allocation and construction succeeding. -/
def Op.apply (op : Op α) (s : Heap α × Deque) : Outcome (Heap α × Deque) :=
  match op with
  | .push_front v => Deque.push_front noFault v s.1 s.2
  | .push_back v => Deque.push_back noFault v s.1 s.2
  | .pop_front => Deque.pop_front s.1 s.2
  | .pop_back => Deque.pop_back s.1 s.2

/-- The calls `ops`, in order, on the container. -/
def run : List (Op α) → Heap α × Deque → Outcome (Heap α × Deque)
  | [], s => .ok s
  | op :: ops, s =>
    match op.apply s with
    | .ok s1 => run ops s1
    | .threw s1 => .threw s1
    | .ub => .ub

/-- Reference list model of one call; `none` when a pop is issued on the empty list. -/
def Op.model (op : Op α) (m : List α) : Option (List α) :=
  match op with
  | .push_front v => some (v :: m)
  | .push_back v => some (m ++ [v])
  | .pop_front => if m.length = 0 then none else some (m.drop 1)
  | .pop_back => if m.length = 0 then none else some m.dropLast

/-- Reference list model of a sequence of calls. -/
def modelRun : List (Op α) → List α → Option (List α)
  | [], m => some m
  | op :: ops, m =>
    match op.model m with
    | none => none
    | some m1 => modelRun ops m1

/-- A heap whose fresh addresses are unused. -/
def Heap.WF (h : Heap α) : Prop :=
  (∀ a, h.nextIndex ≤ a → h.index a = none) ∧ (∀ b, h.nextBlock ≤ b → h.block b = none)

/-- Bounds that hold after `k` calls on a default-constructed container: the potential of the
proofs about runs. It is derived there from the run; no theorem about a claim assumes it. -/
structure Budget (d : Deque) (k : Nat) : Prop where
  cap_pos : 0 < d.capacity
  size_le : d.size_ ≤ k
  slack_front : 32 * d.capacity ≤ k + front d
  slack_back : 32 * d.capacity + front d + d.size_ ≤ k + 64 * d.capacity
  cap_le : 16 * d.capacity ≤ k + 16

/-- The scenario of the specification: three `push_back`, one `push_front`, one `pop_back`. -/
def scenario : List (Op Nat) :=
  [.push_back 1, .push_back 2, .push_back 3, .push_front 0, .pop_back]

/-- The container `d` with its front moved to linear position `p` and its size set to `n`. -/
def withFront (d : Deque) (p n : Nat) : Deque :=
  { d with min_row := p / BLOCK_SIZE, min_col := p % BLOCK_SIZE, size_ := n }

/-- The `operator++(int)` of the iterator: the value returned, and the iterator afterwards. -/
def Iter.postInc (it : Iter) : Iter × Iter := (it, it.inc)

/-- The `operator--(int)` of the iterator: the value returned, and the iterator afterwards. -/
def Iter.postDec (it : Iter) : Iter × Iter := (it, it.dec)

/-- The `operator<=>` of the iterator: the linear positions, as `size_t` values, compared. -/
def Iter.cmp (a b : Iter) : Ordering := compare a.lin b.lin

/-- The defaulted `operator==` of the iterator: memberwise on `arr`, `row`, `col`. -/
def Iter.eq (a b : Iter) : Bool := a.arr = b.arr ∧ a.row = b.row ∧ a.col = b.col

/-- The state of a run that returned normally (the empty heap otherwise). -/
def Outcome.state (o : Outcome (Heap α × Deque)) : Heap α × Deque :=
  match o with
  | .ok s => s
  | .threw s => s
  | .ub => (Heap.empty, ⟨0, 0, 0, 0, 0⟩)

/-- The container after the scenario of the specification, built in the empty heap. -/
def scenarioState : Heap Nat × Deque := (run scenario (mk_default Heap.empty)).state

/-- What a call on the container with index array `arr` holding `l` may have done to the heap
`h`: other index arrays and blocks the container does not own are untouched, the new index array
`arr2` and the blocks of its contents `l2` are the old ones or freshly allocated. -/
structure Effect (h h2 : Heap α) (arr arr2 : Nat) (l l2 : List (Option Nat)) : Prop where
  index_other : ∀ (a : Nat), a ≠ arr → a < h.nextIndex → h2.index a = h.index a
  block_other : ∀ (b : Nat), b < h.nextBlock → (∀ (r : Nat), l[r]? ≠ some (some b)) →
    h2.block b = h.block b
  nextIndex_le : h.nextIndex ≤ h2.nextIndex
  nextBlock_le : h.nextBlock ≤ h2.nextBlock
  arr_origin : arr2 = arr ∨ h.nextIndex ≤ arr2
  block_origin : ∀ (r b : Nat), l2[r]? = some (some b) →
    (∃ (r0 : Nat), l[r0]? = some (some b)) ∨ h.nextBlock ≤ b

/-- Every block handle of `l` is in `l2`, `k` rows further. -/
def Keeps (k : Nat) (l l2 : List (Option Nat)) : Prop :=
  ∀ (r b : Nat), l[r]? = some (some b) → l2[r + k]? = some (some b)

/-- The heap after `delete[]` of the index array at `a`. -/
def Heap.dropIndex (h : Heap α) (a : Nat) : Heap α :=
  { h with index := Function.update h.index a none }

/-- The cell `(row, col)` holds a live element of the container. -/
def live (d : Deque) (row col : Nat) : Prop :=
  col < BLOCK_SIZE ∧ front d ≤ row * BLOCK_SIZE + col ∧ row * BLOCK_SIZE + col < front d + d.size_

/-! ## Sized constructors -/

/-- The loop `for (; row < capacity; ++row) arr[row] = new char[...]` of `init()`, with `n` rows
left to allocate. -/
def init_rows (arr : Nat) : Nat → Nat → Heap α → Option (Heap α)
  | 0, _, h => some h
  | n + 1, row, h =>
    match (h.newBlock).1.setSlot arr row (some (h.newBlock).2) with
    | none => none
    | some h2 => init_rows arr n (row + 1) h2

/-- The `init()` of the container, every allocation succeeding: the heap and the new `arr`;
`none` stands for an access outside the index array. -/
def init (h : Heap α) (capacity : Nat) : Option (Heap α × Nat) :=
  match init_rows (h.newIndex (List.replicate capacity none)).2 capacity 0
      (h.newIndex (List.replicate capacity none)).1 with
  | none => none
  | some h2 => some (h2, (h.newIndex (List.replicate capacity none)).2)

/-- The loop `for (; it != last; ++it) new(&*it) T(elem)` of the sized constructors, run for at
most `fuel` iterations: `none` when it has not stopped by then. -/
def fill_loop (elem : α) (last : Iter) : Nat → Heap α → Iter → Option (Outcome (Heap α))
  | 0, h, it => if it.eq last then some (.ok h) else none
  | fuel + 1, h, it =>
    if it.eq last then some (.ok h)
    else
      match it.construct h elem with
      | none => some .ub
      | some h1 => fill_loop elem last fuel h1 it.inc

/-- The body of the sized constructors once `size_` and `capacity` are initialised: `init()`,
then the construction loop, which is given `size_` iterations. -/
def mk_with (size_ capacity : Nat) (elem : α) (h : Heap α) : Option (Outcome (Heap α × Deque)) :=
  match init h capacity with
  | none => some .ub
  | some (h1, arr) =>
    match fill_loop elem (end_ ⟨0, 0, size_, capacity, arr⟩) size_ h1
        (begin ⟨0, 0, size_, capacity, arr⟩) with
    | none => none
    | some (.ok h2) => some (.ok (h2, ⟨0, 0, size_, capacity, arr⟩))
    | some (.threw h2) => some (.threw (h2, ⟨0, 0, size_, capacity, arr⟩))
    | some .ub => some .ub

/-- The constructor `Deque(int size, const T& elem)`, every allocation and construction
succeeding: `size_(size)`, `capacity((size + BLOCK_SIZE - 1) / BLOCK_SIZE)`. -/
def mk_filled (size : Int) (elem : α) (h : Heap α) : Option (Outcome (Heap α × Deque)) :=
  mk_with (toSizeT size) (wsub (wadd (toSizeT size) BLOCK_SIZE) 1 / BLOCK_SIZE) elem h

/-- The constructor `Deque(int size)`: as `Deque(size, elem)` with every element constructed by
`T()`, whose value is `dflt`. -/
def mk_sized (size : Int) (dflt : α) (h : Heap α) : Option (Outcome (Heap α × Deque)) :=
  mk_filled size dflt h

/-- The state `Deque(0, elem)` leaves in the empty heap: an index array of length 0, no block,
`min_row = min_col = size_ = capacity = 0`. -/
def emptySized : Heap Nat × Deque := ((Heap.empty.newIndex []).1, ⟨0, 0, 0, 0, 0⟩)

/-! ## insert and erase -/

/-- The `std::swap(*a, *b)` of two elements: `none` when a cell is invalid or holds no element. -/
def swapCells (h : Heap α) (a b : Iter) : Option (Heap α) :=
  match a.load h with
  | none => none
  | some x =>
    match b.load h with
    | none => none
    | some y =>
      match a.construct h y with
      | none => none
      | some h1 => b.construct h1 x

/-- The loop `for (iter = --end(); iter != it; --iter) std::swap(*iter, *(iter - 1))` of
`insert`, run for at most `fuel` iterations: `none` when it has not stopped by then. -/
def insert_loop (it : Iter) : Nat → Heap α → Iter → Option (Outcome (Heap α))
  | 0, h, iter => if iter.eq it then some (.ok h) else none
  | fuel + 1, h, iter =>
    if iter.eq it then some (.ok h)
    else
      match swapCells h iter (iter.sub 1) with
      | none => some .ub
      | some h1 => insert_loop it fuel h1 iter.dec

/-- The result of `insert` once its loop has stopped (`none`: it has not). -/
def insert_done (d1 : Deque) :
    Option (Outcome (Heap α)) → Option (Outcome (Heap α × Deque))
  | none => none
  | some (.ok h2) => some (.ok (h2, d1))
  | some (.threw h2) => some (.threw (h2, d1))
  | some .ub => some .ub

/-- The statements of `insert` after `push_back(elem)`: `it.arr = arr`, then the loop, which is
given `size_` iterations. -/
def insert_after (it : Iter) :
    Outcome (Heap α × Deque) → Option (Outcome (Heap α × Deque))
  | .ub => some .ub
  | .threw s => some (.threw s)
  | .ok (h1, d1) =>
    insert_done d1 (insert_loop { it with arr := d1.arr } d1.size_ h1 (end_ d1).dec)

/-- The statements of `insert` after its first `if`: `push_back(elem)`, `it.arr = arr`, and the
loop. -/
def insert_body (f : Faults) (it : Iter) (elem : α) (h : Heap α) (d : Deque) :
    Option (Outcome (Heap α × Deque)) :=
  insert_after it (push_back f elem h d)

/-- The `insert(it, elem)` of the container. -/
def insert (f : Faults) (it : Iter) (elem : α) (h : Heap α) (d : Deque) :
    Option (Outcome (Heap α × Deque)) :=
  if full_at_back d then
    insert_body f { it with row := wadd it.row (wadd d.capacity 1 / 2) } elem h d
  else insert_body f it elem h d

/-- The loop `while (it + 1 != end()) { std::swap(*it, *(it + 1)); ++it; }` of `erase`, run for
at most `fuel` iterations: `none` when it has not stopped by then. -/
def erase_loop (last : Iter) : Nat → Heap α → Iter → Option (Outcome (Heap α))
  | 0, h, it => if (it.add 1).eq last then some (.ok h) else none
  | fuel + 1, h, it =>
    if (it.add 1).eq last then some (.ok h)
    else
      match swapCells h it (it.add 1) with
      | none => some .ub
      | some h1 => erase_loop last fuel h1 it.inc

/-- The `pop_back()` that ends `erase`, once the loop has stopped (`none`: it has not). -/
def erase_done (d : Deque) :
    Option (Outcome (Heap α)) → Option (Outcome (Heap α × Deque))
  | none => none
  | some (.ok h1) => some (pop_back h1 d)
  | some (.threw h1) => some (.threw (h1, d))
  | some .ub => some .ub

/-- The `erase(it)` of the container; the loop is given `size_` iterations. -/
def erase (it : Iter) (h : Heap α) (d : Deque) : Option (Outcome (Heap α × Deque)) :=
  erase_done d (erase_loop (end_ d) d.size_ h it)

/-! ## Sequences of calls that include insert and erase -/

/-- A call of one of the six modifying operations; `insert` and `erase` are given the iterator
`begin() + p`. -/
inductive Call (α : Type) where
  | push_front (v : α)
  | push_back (v : α)
  | pop_front
  | pop_back
  | insert (p : Nat) (v : α)
  | erase (p : Nat)

/-- The call `c` on the container, every allocation and construction succeeding; `none` when a
loop has not stopped within its iterations. The iterator of `insert` and `erase` is
`begin() + p`, the position narrowed to the `int` parameter of `operator+`. -/
def Call.apply (c : Call α) (s : Heap α × Deque) : Option (Outcome (Heap α × Deque)) :=
  match c with
  | .push_front v => some (Deque.push_front noFault v s.1 s.2)
  | .push_back v => some (Deque.push_back noFault v s.1 s.2)
  | .pop_front => some (Deque.pop_front s.1 s.2)
  | .pop_back => some (Deque.pop_back s.1 s.2)
  | .insert p v => Deque.insert noFault ((begin s.2).add (toInt32 p)) v s.1 s.2
  | .erase p => Deque.erase ((begin s.2).add (toInt32 p)) s.1 s.2

/-- What is left to run after a call: the remaining calls when it returned normally. -/
def calls_after (rest : Heap α × Deque → Option (Outcome (Heap α × Deque))) :
    Option (Outcome (Heap α × Deque)) → Option (Outcome (Heap α × Deque))
  | some (.ok s1) => rest s1
  | r => r

/-- The calls `cs`, in order, on the container. -/
def calls : List (Call α) → Heap α × Deque → Option (Outcome (Heap α × Deque))
  | [], s => some (.ok s)
  | c :: cs, s => calls_after (calls cs) (c.apply s)

/-- Reference list model of one call; `none` when its precondition does not hold: a pop or an
erase on the empty list, a position outside the list. -/
def Call.model (c : Call α) (m : List α) : Option (List α) :=
  match c with
  | .push_front v => some (v :: m)
  | .push_back v => some (m ++ [v])
  | .pop_front => if m.length = 0 then none else some (m.drop 1)
  | .pop_back => if m.length = 0 then none else some m.dropLast
  | .insert p v => if p ≤ m.length then some (m.take p ++ v :: m.drop p) else none
  | .erase p => if p < m.length then some (m.take p ++ m.drop (p + 1)) else none

/-- Reference list model of a sequence of calls. -/
def modelCalls : List (Call α) → List α → Option (List α)
  | [], m => some m
  | c :: cs, m =>
    match c.model m with
    | none => none
    | some m1 => modelCalls cs m1

/-- The invariant of the data model: `min_col < BLOCK_SIZE`; the rows from `min_row` that the live
range `[front, front + size_)` touches lie within `capacity`; and `arr[row]` is a non-null
pointer to an allocated block for every row holding a live position. -/
def Invariant (h : Heap α) (d : Deque) : Prop :=
  d.min_col < BLOCK_SIZE ∧
  d.min_row + (d.min_col + d.size_ + (BLOCK_SIZE - 1)) / BLOCK_SIZE ≤ d.capacity ∧
  ∀ (row col : Nat), live d row col →
    ∃ b cs, h.slot d.arr row = some (some b) ∧ h.block b = some cs

/-- The `at(pos)` as a call on the container: how it ends and the state it leaves, with the
element it returns (`threw` stands for `std::out_of_range`). -/
def at_call (h : Heap α) (d : Deque) (pos : Nat) : Outcome (Heap α × Deque) × Option α :=
  if d.size_ ≤ pos then (.threw (h, d), none)
  else (.ok (h, d), ((begin d).add (toInt32 pos)).load h)

/-- The faults of a call in which `T(elem)` throws. -/
def ctorFails : Faults := ⟨true, true, false⟩

/-- The faults of a call in which `new char[...]` throws. -/
def blockAllocFails : Faults := ⟨true, false, true⟩

/-- The state `Deque()` leaves in the empty heap: a one-slot index array holding `nullptr`,
`min_row = 0`, `min_col = 32`, `size_ = 0`, `capacity = 1`. -/
def emptyDefault : Heap Nat × Deque := mk_default Heap.empty

/-! ## Copy construction, destruction, assignment -/

/-- Which fallible steps of a copy construction succeed: `new T*[n]`; the `new char[...]` of
every row but `blockFailAt`; the `T(*j)` of every element but the one numbered `ctorFailAt`
(counted from 0 in logical order). -/
structure CopyFaults where
  indexAlloc : Bool
  blockFailAt : Option Nat
  ctorFailAt : Option Nat
deriving DecidableEq

/-- Every step of the copy construction succeeds. -/
def noCopyFault : CopyFaults := ⟨true, none, none⟩

/-- How a constructor ends: with the new object; with an exception, the heap then being the one
left after unwinding, together with the cells whose destructor `clear_elements` has run, in
order; or with an undefined access. -/
inductive Built (α : Type) where
  | ok (h : Heap α) (d : Deque)
  | threw (h : Heap α) (destroyed : List Iter)
  | ub

/-- The loop `while (row) delete[] arr[--row]` of `clear`. -/
def clear_rows (arr : Nat) : Nat → Heap α → Option (Heap α)
  | 0, h => some h
  | row + 1, h =>
    match h.slot arr row with
    | none => none
    | some p =>
      match h.freeBlock p with
      | none => none
      | some h1 => clear_rows arr row h1

/-- The statement `if (arr_created) delete[] arr` that ends `clear`. -/
def clear_index (arr : Nat) (arr_created : Bool) : Option (Heap α) → Option (Heap α)
  | none => none
  | some h1 => if arr_created then h1.freeIndex arr else some h1

/-- The `clear(row, arr_created)` of the container whose index array is `arr`: `none` when a
`delete[]` is given an invalid pointer. -/
def clear (arr row : Nat) (arr_created : Bool) (h : Heap α) : Option (Heap α) :=
  clear_index arr arr_created (clear_rows arr row h)

/-- The loop `for (del = begin(); del != last; ++del) del->~T()` of `clear_elements`, run for at
most `fuel` iterations, `log` being the cells destroyed so far: `none` when it has not stopped by
then, `some none` when `del` does not refer to a constructed element. -/
def destroy_loop (last : Iter) :
    Nat → Heap α → Iter → List Iter → Option (Option (Heap α × List Iter))
  | 0, h, del, log => if del.eq last then some (some (h, log)) else none
  | fuel + 1, h, del, log =>
    if del.eq last then some (some (h, log))
    else
      match del.load h with
      | none => some none
      | some _ =>
        match del.destroy h with
        | none => some none
        | some h1 => destroy_loop last fuel h1 del.inc (log ++ [del])

/-- The `clear(capacity, true)` that ends `clear_elements`, once the loop has stopped. -/
def clear_elements_rest (d : Deque) :
    Option (Option (Heap α × List Iter)) → Option (Option (Heap α × List Iter))
  | none => none
  | some none => some none
  | some (some (h1, log)) =>
    match clear d.arr d.capacity true h1 with
    | none => some none
    | some h2 => some (some (h2, log))

/-- The `clear_elements(last)` of the container; the loop is given `size_` iterations. The
result is the heap left and the cells whose destructor has run. -/
def clear_elements (h : Heap α) (d : Deque) (last : Iter) :
    Option (Option (Heap α × List Iter)) :=
  clear_elements_rest d (destroy_loop last d.size_ h (begin d) [])

/-- The destructor `~Deque()`. -/
def destruct (h : Heap α) (d : Deque) : Option (Option (Heap α × List Iter)) :=
  clear_elements h d (end_ d)

/-- The loop `for (; row < capacity; ++row)` of the copy constructor with `n` rows left:
`arr[row]` becomes `nullptr` or a new block according to `other.arr[row]`. An exception leaves
the heap and the `row` reached. -/
def copy_rows (f : CopyFaults) (src arr : Nat) : Nat → Nat → Heap α → Outcome (Heap α × Nat)
  | 0, row, h => .ok (h, row)
  | n + 1, row, h =>
    match h.slot src row with
    | none => .ub
    | some none =>
      match h.setSlot arr row none with
      | none => .ub
      | some h1 => copy_rows f src arr n (row + 1) h1
    | some (some _) =>
      if f.blockFailAt = some row then .threw (h, row)
      else
        match (h.newBlock).1.setSlot arr row (some (h.newBlock).2) with
        | none => .ub
        | some h1 => copy_rows f src arr n (row + 1) h1

/-- The loop `for (j = other.cbegin(); j != other.cend(); ++it, ++j) new(&*it) T(*j)` of the
copy constructor, run for at most `fuel` iterations, `c` elements being copied so far: `none`
when it has not stopped by then. An exception leaves the heap and the `it` reached. -/
def copy_loop (f : CopyFaults) (last : Iter) :
    Nat → Nat → Heap α → Iter → Iter → Option (Outcome (Heap α × Iter))
  | 0, _, h, it, j => if j.eq last then some (.ok (h, it)) else none
  | fuel + 1, c, h, it, j =>
    if j.eq last then some (.ok (h, it))
    else
      match j.load h with
      | none => some .ub
      | some v =>
        if f.ctorFailAt = some c then some (.threw (h, it))
        else
          match it.construct h v with
          | none => some .ub
          | some h1 => copy_loop f last fuel (c + 1) h1 it.inc j.inc

/-- The rethrow that ends the second `catch (...)` of the copy constructor, after
`clear_elements(it)`. -/
def copy_unwound : Option (Option (Heap α × List Iter)) → Option (Built α)
  | none => none
  | some none => some .ub
  | some (some (h, log)) => some (.threw h log)

/-- The end of the copy constructor, once the element loop has stopped: the object is built, or
the second `catch (...)` runs `clear_elements(it)`. -/
def copy_done (d : Deque) : Option (Outcome (Heap α × Iter)) → Option (Built α)
  | none => none
  | some .ub => some .ub
  | some (.ok (h, _)) => some (.ok h d)
  | some (.threw (h, it)) => copy_unwound (clear_elements h d it)

/-- The rethrow that ends the first `catch (...)` of the copy constructor, after
`clear(row, arr_created)`. -/
def copy_cleared : Option (Heap α) → Option (Built α)
  | none => some .ub
  | some h => some (.threw h [])

/-- The copy constructor after its row loop: the first `catch (...)` when an allocation threw,
the element loop, given `size_` iterations, otherwise. -/
def copy_filled (f : CopyFaults) (other d : Deque) : Outcome (Heap α × Nat) → Option (Built α)
  | .ub => some .ub
  | .threw (h, row) => copy_cleared (clear d.arr row true h)
  | .ok (h, _) => copy_done d (copy_loop f (end_ other) other.size_ 0 h (begin d) (begin other))

/-- The copy constructor `Deque(const Deque& other)`. -/
def mk_copy (f : CopyFaults) (h : Heap α) (other : Deque) : Option (Built α) :=
  if f.indexAlloc = false then some (.threw h [])
  else
    copy_filled f other
      { other with arr := (h.newIndex (List.replicate other.capacity none)).2 }
      (copy_rows f other.arr (h.newIndex (List.replicate other.capacity none)).2
        other.capacity 0 (h.newIndex (List.replicate other.capacity none)).1)

/-- The `swap(other)` of the container: the five data members are exchanged; the result is
`(*this, other)` after the call. -/
def swap (this other : Deque) : Deque × Deque :=
  ({ arr := other.arr, min_row := other.min_row, min_col := other.min_col,
     size_ := other.size_, capacity := other.capacity },
   { arr := this.arr, min_row := this.min_row, min_col := this.min_col,
     size_ := this.size_, capacity := this.capacity })

/-- The return of `operator=`, once the parameter `other` has been destroyed. -/
def assign_destroyed (this : Deque) :
    Option (Option (Heap α × List Iter)) → Option (Outcome (Heap α × Deque))
  | none => none
  | some none => some .ub
  | some (some (h, _)) => some (.ok (h, this))

/-- The body of `operator=(Deque other)` once its parameter has been copy-constructed:
`swap(other)`, then the destructor of `other`. When the copy threw, `*this` was not touched. -/
def assign_copied (this : Deque) : Option (Built α) → Option (Outcome (Heap α × Deque))
  | none => none
  | some .ub => some .ub
  | some (.threw h _) => some (.threw (h, this))
  | some (.ok h other) => assign_destroyed (swap this other).1 (destruct h (swap this other).2)

/-- The assignment `*this = source`: `operator=(Deque other)` with `other` copy-constructed
from `source`. -/
def assign (f : CopyFaults) (h : Heap α) (this source : Deque) :
    Option (Outcome (Heap α × Deque)) :=
  assign_copied this (mk_copy f h source)

/-- The assignment `d[pos] = v` through the reference `operator[](pos)` returns: undefined when
the reference is to no constructed element. -/
def store_at (h : Heap α) (d : Deque) (pos : Nat) (v : α) : Outcome (Heap α × Deque) :=
  match ((begin d).add (toInt32 pos)).load h with
  | none => .ub
  | some _ =>
    match ((begin d).add (toInt32 pos)).construct h v with
    | none => .ub
    | some h1 => .ok (h1, d)

/-- Two containers in one heap own different index arrays and have no block in common. -/
def Apart (a b : Deque) (la lb : List (Option Nat)) : Prop :=
  a.arr ≠ b.arr ∧ ∀ (r r2 b0 : Nat), la[r]? = some (some b0) → lb[r2]? ≠ some (some b0)

/-- The heap `h` of a constructor at work, started in `h0`: everything but its index array `arr`
and the blocks of `l`, the contents of `arr`, is as in `h0`, where these were not allocated. -/
structure Building (h0 h : Heap α) (arr : Nat) (l : List (Option Nat)) : Prop where
  index_other : ∀ (a : Nat), a ≠ arr → h.index a = h0.index a
  block_other : ∀ (b : Nat), (∀ (r : Nat), l[r]? ≠ some (some b)) → h.block b = h0.block b
  arr_fresh : h0.nextIndex ≤ arr
  block_fresh : ∀ (r b : Nat), l[r]? = some (some b) → h0.nextBlock ≤ b
  nextIndex_le : h0.nextIndex ≤ h.nextIndex
  nextBlock_le : h0.nextBlock ≤ h.nextBlock

/-- Pushing the values `0, 1, ..., n - 1` alternately: even ones at the front, odd ones at the
back. -/
def alternating (n : Nat) : List (Op Nat) :=
  (List.range n).map fun i => if i % 2 = 0 then Op.push_front i else Op.push_back i

/-- A mutation of a container: one of the six calls, or the write `d[pos] = v`. -/
inductive Mutation (α : Type) where
  | call (c : Call α)
  | store (pos : Nat) (v : α)

/-- The mutation on the container, every allocation and construction succeeding. -/
def Mutation.apply (x : Mutation α) (s : Heap α × Deque) :
    Option (Outcome (Heap α × Deque)) :=
  match x with
  | .call c => c.apply s
  | .store pos v => some (store_at s.1 s.2 pos v)

/-- Reference list model of a mutation; `none` when its precondition does not hold. -/
def Mutation.model (x : Mutation α) (m : List α) : Option (List α) :=
  match x with
  | .call c => c.model m
  | .store pos v => if pos < m.length then some (m.set pos v) else none

/-- What is left to do after a mutation of one of two containers, `put` giving the pair its
new state: the remaining mutations when it returned normally. -/
def pair_after (rest : Heap α × Deque × Deque → Option (Outcome (Heap α × Deque × Deque)))
    (put : Heap α × Deque → Heap α × Deque × Deque) :
    Option (Outcome (Heap α × Deque)) → Option (Outcome (Heap α × Deque × Deque))
  | none => none
  | some .ub => some .ub
  | some (.threw s) => some (.threw (put s))
  | some (.ok s) => rest (put s)

/-- Two containers in one heap, mutated in turn: `(true, x)` applies `x` to the first of them,
`(false, x)` to the second. -/
def mutate_pair : List (Bool × Mutation α) → Heap α × Deque × Deque →
    Option (Outcome (Heap α × Deque × Deque))
  | [], s => some (.ok s)
  | (true, x) :: xs, s =>
    pair_after (mutate_pair xs) (fun s1 => (s1.1, s1.2, s.2.2)) (x.apply (s.1, s.2.1))
  | (false, x) :: xs, s =>
    pair_after (mutate_pair xs) (fun s1 => (s1.1, s.2.1, s1.2)) (x.apply (s.1, s.2.2))

/-- Reference model of the mutations of two containers: two lists, each changed by its own
mutations only. -/
def modelPair : List (Bool × Mutation α) → List α × List α → Option (List α × List α)
  | [], ms => some ms
  | (true, x) :: xs, ms =>
    match x.model ms.1 with
    | none => none
    | some m1 => modelPair xs (m1, ms.2)
  | (false, x) :: xs, ms =>
    match x.model ms.2 with
    | none => none
    | some m1 => modelPair xs (ms.1, m1)

/-- The scenario's container and a copy of it in one heap: the heap, the source, the copy. -/
def scenarioCopy : Heap Nat × Deque × Deque :=
  match mk_copy noCopyFault scenarioState.1 scenarioState.2 with
  | some (.ok h d) => (h, scenarioState.2, d)
  | _ => (scenarioState.1, scenarioState.2, scenarioState.2)

/-- The members of the container after `Deque(INT_MAX, v)` in the empty heap. -/
def maxSized : Deque := ⟨0, 0, 2 ^ 31 - 1, 2 ^ 25, 0⟩

/-- The members after `Deque(INT_MAX, v)` followed by one `push_back`: `2 ^ 31` elements from
linear position 0 in the `2 ^ 25` blocks of the index array. -/
def bigDeque : Deque := ⟨0, 0, 2 ^ 31, 2 ^ 25, 0⟩

end Deque

/-! # StackStorage and List (src/stackallocator.h) -/

/-- The data members of `StackStorage<N>`, with the template parameter `N`: `base` is the
address of `arr`, `begin` the member of that name. -/
structure StackStorage where
  N : Nat
  base : Nat
  begin : Nat
deriving DecidableEq

namespace StackStorage

/-- The library function `std::align(alignment, size, ptr, space)`, which `src/` does not
contain, after [ptr.align] of the C++ standard: when `size` bytes aligned by `alignment` fit into
the `space` bytes at `ptr`, `ptr` becomes the first such address, `space` decreases by the bytes
used for alignment and the new `ptr` is returned; otherwise nothing changes and the result is
null (`none`). The result is the pointer returned and the new `space`. -/
def std_align (alignment size ptr space : Nat) : Option Nat × Nat :=
  let aligned := (ptr + alignment - 1) / alignment * alignment
  if aligned - ptr + size ≤ space then (some aligned, space - (aligned - ptr))
  else (none, space)

/-- The `get_pointer(size, align_)` of the storage: the pointer returned and the storage
afterwards. `space` and `begin` are computed in `size_t`. -/
def get_pointer (s : StackStorage) (size align_ : Nat) : Option Nat × StackStorage :=
  let ptr := s.base + s.begin
  let space := Deque.wsub (Deque.wsub s.N s.begin) size
  ((std_align align_ size ptr space).1,
    { s with begin := Deque.wsub s.N (std_align align_ size ptr space).2 })

/-- The default constructor `StackStorage()` for a buffer at address `base`. -/
def mk_storage (N base : Nat) : StackStorage := ⟨N, base, 0⟩

end StackStorage

/-- The data members of `List<T, Alloc>`: the address of the sentinel `fake`, a `BaseNode` that
is a member of the object, and `size_`. -/
structure LinkedList where
  fake : Nat
  size_ : Nat
deriving DecidableEq

namespace LinkedList

variable {α : Type}

/-- Node memory, field by field: `next` and `prev` of the `BaseNode` at an address (`none` where
no node lives), `value` of the `Node` at an address (`none` for a bare `BaseNode`), and the next
unused address. -/
structure Mem (α : Type) where
  next : Nat → Option Nat
  prev : Nat → Option Nat
  value : Nat → Option α
  fresh : Nat

namespace Mem

/-- No node anywhere. -/
def empty : Mem α := ⟨fun _ => none, fun _ => none, fun _ => none, 0⟩

/-- The assignment `a->next = x`: `none` when no node lives at `a`. -/
def setNext (m : Mem α) (a x : Nat) : Option (Mem α) :=
  match m.next a with
  | none => none
  | some _ => some { m with next := Function.update m.next a (some x) }

/-- The assignment `a->prev = x`: `none` when no node lives at `a`. -/
def setPrev (m : Mem α) (a x : Nat) : Option (Mem α) :=
  match m.prev a with
  | none => none
  | some _ => some { m with prev := Function.update m.prev a (some x) }

/-- A `BaseNode()` placed at a fresh address: `prev(this), next(this)`, and no value. -/
def newBase (m : Mem α) : Mem α × Nat :=
  ({ m with next := Function.update m.next m.fresh (some m.fresh)
            prev := Function.update m.prev m.fresh (some m.fresh)
            value := Function.update m.value m.fresh none
            fresh := m.fresh + 1 },
    m.fresh)

/-- The `allocate(alloc, 1)` and `construct(alloc, node, value)` of `add_node`, both succeeding:
a `Node(value)` at a fresh address, linked to itself by `BaseNode()`. -/
def newNode (m : Mem α) (v : α) : Mem α × Nat :=
  ({ m with next := Function.update m.next m.fresh (some m.fresh)
            prev := Function.update m.prev m.fresh (some m.fresh)
            value := Function.update m.value m.fresh (some v)
            fresh := m.fresh + 1 },
    m.fresh)

/-- The `destroy(alloc, node)` and `deallocate(alloc, node, 1)` of a `Node`: `none` when `node`
is not a `Node` holding a value. -/
def free (m : Mem α) (a : Nat) : Option (Mem α) :=
  match m.value a with
  | none => none
  | some _ =>
    some { m with next := Function.update m.next a none
                  prev := Function.update m.prev a none
                  value := Function.update m.value a none }

/-- The end of the lifetime of a local `BaseNode`. -/
def dropBase (m : Mem α) (a : Nat) : Mem α :=
  { m with next := Function.update m.next a none, prev := Function.update m.prev a none }

end Mem

/-- The `merge(left, middle, right)` of the list: four assignments in order. -/
def merge (m : Mem α) (left middle right : Nat) : Option (Mem α) :=
  match m.setNext left middle with
  | none => none
  | some m1 =>
    match m1.setPrev middle left with
    | none => none
    | some m2 =>
      match m2.setNext middle right with
      | none => none
      | some m3 => m3.setPrev right middle

/-- The `add_node(alloc, next, value)` of the list, allocation and construction succeeding:
`none` when a pointer that is followed leads to no node. -/
def add_node (m : Mem α) (l : LinkedList) (next : Nat) (value : α) :
    Option (Mem α × LinkedList) :=
  match (m.newNode value).1.prev next with
  | none => none
  | some left =>
    match merge (m.newNode value).1 left (m.newNode value).2 next with
    | none => none
    | some m2 => some (m2, { l with size_ := Deque.wadd l.size_ 1 })

/-- The second half of `del_node`: `node->next->prev = node->prev`, destruction, deallocation,
`--size_`. -/
def del_node_rest (m : Mem α) (l : LinkedList) (node : Nat) : Option (Mem α × LinkedList) :=
  match m.next node with
  | none => none
  | some n =>
    match m.prev node with
    | none => none
    | some p =>
      match m.setPrev n p with
      | none => none
      | some m2 =>
        match m2.free node with
        | none => none
        | some m3 => some (m3, { l with size_ := Deque.wsub l.size_ 1 })

/-- The `del_node(node)` of the list: `none` when a pointer that is followed leads to no node, or
`node` holds no value. -/
def del_node (m : Mem α) (l : LinkedList) (node : Nat) : Option (Mem α × LinkedList) :=
  match m.prev node with
  | none => none
  | some p =>
    match m.next node with
    | none => none
    | some n =>
      match m.setNext p n with
      | none => none
      | some m1 => del_node_rest m1 l node

/-- The constructor `List(Alloc alloc)`: `fake(), size_(0)`; the object, with its member
`fake`, is placed at a fresh address. -/
def mk_alloc (m : Mem α) : Mem α × LinkedList :=
  ((m.newBase).1, { fake := (m.newBase).2, size_ := 0 })

/-- The loop `for (pos = 0; pos < sz; ++pos) add_node(alloc, &fake, value)` of the sized
constructors, with `n` iterations left. -/
def fill_nodes (value : α) : Nat → Mem α → LinkedList → Option (Mem α × LinkedList)
  | 0, m, l => some (m, l)
  | n + 1, m, l =>
    match add_node m l l.fake value with
    | none => none
    | some (m1, l1) => fill_nodes value n m1 l1

/-- The constructors `List(size_t sz)` and `List(size_t sz, const T& value)`, allocations and
constructions succeeding; for the first, `value` is the value-initialised `T()`. -/
def mk_sized (sz : Nat) (value : α) (m : Mem α) : Option (Mem α × LinkedList) :=
  fill_nodes value sz (mk_alloc m).1 (mk_alloc m).2

/-- The `size()` of the list. -/
def size (l : LinkedList) : Nat := l.size_

/-- The node of `begin()`: `fake.next`. -/
def begin (m : Mem α) (l : LinkedList) : Option Nat := m.next l.fake

/-- The node of `end()`: `&fake`. -/
def end_ (l : LinkedList) : Nat := l.fake

/-- The iterator reached from `it` by `n` applications of `operator++`. -/
def advance (m : Mem α) : Nat → Option Nat → Option Nat
  | 0, it => it
  | n + 1, it =>
    match it with
    | none => none
    | some a => advance m n (m.next a)

/-- The `push_back(value)` of the list. -/
def push_back (m : Mem α) (l : LinkedList) (value : α) : Option (Mem α × LinkedList) :=
  add_node m l l.fake value

/-- The `push_front(value)` of the list. -/
def push_front (m : Mem α) (l : LinkedList) (value : α) : Option (Mem α × LinkedList) :=
  match m.next l.fake with
  | none => none
  | some b => add_node m l b value

/-- The `insert(it, value)` of the list, `it` given by its node. -/
def insert (m : Mem α) (l : LinkedList) (it : Option Nat) (value : α) :
    Option (Mem α × LinkedList) :=
  match it with
  | none => none
  | some a => add_node m l a value

/-- The `pop_front()` of the list. -/
def pop_front (m : Mem α) (l : LinkedList) : Option (Mem α × LinkedList) :=
  match m.next l.fake with
  | none => none
  | some b => del_node m l b

/-- The `pop_back()` of the list. -/
def pop_back (m : Mem α) (l : LinkedList) : Option (Mem α × LinkedList) :=
  match m.prev l.fake with
  | none => none
  | some b => del_node m l b

/-- The `erase(it)` of the list, `it` given by its node. -/
def erase (m : Mem α) (l : LinkedList) (it : Option Nat) : Option (Mem α × LinkedList) :=
  match it with
  | none => none
  | some a => del_node m l a

/-- The values `*it` read by the traversal `for (it = first; it != last; ++it)`, run for at
most `fuel` iterations: `none` when it has not reached `last` by then or follows a pointer to no
`Node`. -/
def traverse (m : Mem α) (last : Nat) : Nat → Nat → Option (List α)
  | 0, it => if it = last then some [] else none
  | fuel + 1, it =>
    if it = last then some []
    else
      match m.value it with
      | none => none
      | some v =>
        match m.next it with
        | none => none
        | some nx =>
          match traverse m last fuel nx with
          | none => none
          | some vs => some (v :: vs)

/-- The elements of the list in the order `begin()` to `end()` visits them, the traversal being
given `fuel` iterations. -/
def toList (m : Mem α) (l : LinkedList) (fuel : Nat) : Option (List α) :=
  match m.next l.fake with
  | none => none
  | some b => traverse m l.fake fuel b

/-- The loop of `clear()`: `prev = it++`, then destruction and deallocation of `prev.node`, run
for at most `fuel` iterations: `none` when it has not stopped by then or a pointer leads to no
`Node`. -/
def clear_loop (last : Nat) : Nat → Mem α → Nat → Option (Mem α)
  | 0, m, it => if it = last then some m else none
  | fuel + 1, m, it =>
    if it = last then some m
    else
      match m.next it with
      | none => none
      | some nx =>
        match m.free it with
        | none => none
        | some m1 => clear_loop last fuel m1 nx

/-- The `clear()` of the list; the loop is given `fuel` iterations. -/
def clear (m : Mem α) (l : LinkedList) (fuel : Nat) : Option (Mem α) :=
  match m.next l.fake with
  | none => none
  | some b => clear_loop l.fake fuel m b

/-- The loop `for (it = other.begin(); it != other.end(); ++it) { add_node(newalloc, &newfake,
*it); --size_; }` of `operator=`, run for at most `fuel` iterations. -/
def assign_loop (last newfake : Nat) :
    Nat → Mem α → LinkedList → Nat → Option (Mem α × LinkedList)
  | 0, m, l, it => if it = last then some (m, l) else none
  | fuel + 1, m, l, it =>
    if it = last then some (m, l)
    else
      match m.value it with
      | none => none
      | some v =>
        match add_node m l newfake v with
        | none => none
        | some (m1, l1) =>
          match m1.next it with
          | none => none
          | some nx => assign_loop last newfake fuel m1 { l1 with size_ := Deque.wsub l1.size_ 1 } nx

/-- The statements of `operator=` after its loop: `clear()`, `size_ = other.size_`,
`merge(newfake.prev, &fake, newfake.next)`, and the end of the lifetime of the local
`newfake`. -/
def assign_rest (other_size newfake fuel : Nat) (m : Mem α) (l : LinkedList) :
    Option (Mem α × LinkedList) :=
  match clear m l fuel with
  | none => none
  | some m1 =>
    match m1.prev newfake with
    | none => none
    | some left =>
      match m1.next newfake with
      | none => none
      | some right =>
        match merge m1 left l.fake right with
        | none => none
        | some m2 => some (m2.dropBase newfake, { l with size_ := other_size })

/-- The copy assignment `*this = other` of the list, allocations and constructions succeeding;
the two loops are given `fuel` iterations each. -/
def assign (m : Mem α) (this other : LinkedList) (fuel : Nat) : Option (Mem α × LinkedList) :=
  match (m.newBase).1.next other.fake with
  | none => none
  | some b =>
    match assign_loop other.fake (m.newBase).2 fuel (m.newBase).1 this b with
    | none => none
    | some (m1, l1) => assign_rest other.size_ (m.newBase).2 fuel m1 l1

end LinkedList

namespace LinkedList

variable {α : Type}

/-- The call `c`, one of the six of the reference model, on the list; `insert` and `erase` are
given the iterator reached from `begin()` by `p` applications of `operator++`. `none` when a
pointer that is followed leads to no node. -/
def apply_call (c : Deque.Call α) (s : Mem α × LinkedList) : Option (Mem α × LinkedList) :=
  match c with
  | .push_front v => push_front s.1 s.2 v
  | .push_back v => push_back s.1 s.2 v
  | .pop_front => pop_front s.1 s.2
  | .pop_back => pop_back s.1 s.2
  | .insert p v => insert s.1 s.2 (advance s.1 p (begin s.1 s.2)) v
  | .erase p => erase s.1 s.2 (advance s.1 p (begin s.1 s.2))

/-- The calls `cs`, in order, on the list. -/
def run_calls : List (Deque.Call α) → Mem α × LinkedList → Option (Mem α × LinkedList)
  | [], s => some s
  | c :: cs, s =>
    match apply_call c s with
    | none => none
    | some s1 => run_calls cs s1

/-- The node at position `i` of the ring through the sentinel `fake` and the nodes `ns`: the
sentinel at positions `0` and `ns.length + 1`, the node `ns[i - 1]` between. -/
def ringAt (fake : Nat) (ns : List Nat) (i : Nat) : Nat :=
  match i with
  | 0 => fake
  | j + 1 => (ns[j]?).getD fake

/-- The list `l` consists of the nodes `ns`, in order, holding the values `vs`: the sentinel
and the nodes are distinct live nodes, linked forwards and backwards into one ring. -/
structure Ring (m : Mem α) (l : LinkedList) (ns : List Nat) (vs : List α) : Prop where
  nodup : (l.fake :: ns).Nodup
  length_eq : ns.length = vs.length
  size_eq : l.size_ = ns.length
  next_eq : ∀ (i : Nat), i ≤ ns.length →
    m.next (ringAt l.fake ns i) = some (ringAt l.fake ns (i + 1))
  prev_eq : ∀ (i : Nat), i ≤ ns.length →
    m.prev (ringAt l.fake ns (i + 1)) = some (ringAt l.fake ns i)
  value_eq : ∀ (i : Nat), i < ns.length → m.value (ringAt l.fake ns (i + 1)) = vs[i]?
  fake_value : m.value l.fake = none
  fresh : ∀ (a : Nat), a ∈ l.fake :: ns → a < m.fresh

/-- The links of the node at `x` are consistent: `x.next.prev == x` and `x.prev.next == x`. -/
def Linked (m : Mem α) (x : Nat) : Prop :=
  (∃ y, m.next x = some y ∧ m.prev y = some x) ∧ (∃ y, m.prev x = some y ∧ m.next y = some x)

/-- The list `[1]` built by `List(alloc)` and `push_back(1)` in empty memory, together with a
list built by `List(alloc)` after it: the memory, the first list, the second list. -/
def oneAndEmpty : Option (Mem Nat × LinkedList × LinkedList) :=
  match push_back (mk_alloc (Mem.empty : Mem Nat)).1 (mk_alloc (Mem.empty : Mem Nat)).2 1 with
  | none => none
  | some (m, a) => some ((mk_alloc m).1, a, (mk_alloc m).2)

end LinkedList

/-! # Point and Polygon equality (src/geometry.h)

The `double` coordinates are modelled as rationals, on which `fabs`, `-` and `<` are exact;
`Polygon::operator==` uses the coordinates only through `Point::operator==`. -/

namespace Geometry

/-- The `Geometry::equal(first, second, eps)`: `fabs(first - second) < eps`. -/
def equal (first second eps : ℚ) : Bool := decide (|first - second| < eps)

end Geometry

/-- The `struct Point`: its coordinates. -/
structure Point where
  x : ℚ
  y : ℚ
deriving DecidableEq

namespace Point

/-- The constant `Point::eps = 1e-7`. -/
def eps : ℚ := 1 / 10000000

/-- The `Point::operator==(other)`. -/
def eq (p other : Point) : Bool :=
  Geometry.equal p.x other.x eps && Geometry.equal p.y other.y eps

end Point

/-- The data member `points` of `class Polygon`, the only one `operator==` reads. -/
structure Polygon where
  points : List Point
deriving DecidableEq

namespace Polygon

/-- The `verticesCount()`: `points.size()`. -/
def verticesCount (p : Polygon) : Nat := p.points.length

/-- The inner loop `for (size_t j = 0; j < verticesCount(); ++j)` of `operator==` with `k`
iterations left, `n` being `verticesCount()` and the pair the locals `equal_left`,
`equal_right`: each iteration assigns both. The subscripts are computed in `size_t`; `none`
when one is outside its vector. -/
def eq_inner (points other : List Point) (n i : Nat) :
    Nat → Nat → Bool × Bool → Option (Bool × Bool)
  | 0, _, s => some s
  | k + 1, j, _ =>
    match points[j]?, other[Deque.wadd i j % n]?,
        other[Deque.wsub (Deque.wadd i n) j % n]? with
    | some a, some b, some c => eq_inner points other n i k (j + 1) (a.eq b, a.eq c)
    | _, _, _ => none

/-- What `operator==` does with the flags after the inner loop: `return true` when one of them
is set, the remaining iterations `rest` otherwise. -/
def eq_flags (rest : Option Bool) : Option (Bool × Bool) → Option Bool
  | none => none
  | some (equal_left, equal_right) => if equal_left || equal_right then some true else rest

/-- The outer loop `for (size_t i = 0; i < verticesCount(); ++i)` of `operator==` with `k`
iterations left, followed by the `return false` after it. -/
def eq_outer (points other : List Point) (n : Nat) : Nat → Nat → Option Bool
  | 0, _ => some false
  | k + 1, i =>
    eq_flags (eq_outer points other n k (i + 1)) (eq_inner points other n i n 0 (true, true))

/-- The `Polygon::operator==(const Polygon& other)`: `none` when a subscript is outside its
vector. -/
def eq (p other : Polygon) : Option Bool :=
  if p.verticesCount ≠ other.verticesCount then some false
  else eq_outer p.points other.points p.verticesCount p.verticesCount 0

/-- Vertex `j` of `points` and vertex `k` of `other` exist and compare equal by
`Point::operator==`. -/
def matchAt (points other : List Point) (j k : Nat) : Bool :=
  match points[j]?, other[k]? with
  | some a, some b => a.eq b
  | _, _ => false

/-- The relation of the specification, in its words: `p` and `q` have the same number `n` of
vertices and there are a shift `i` and a direction such that every vertex `j` of `p` equals
vertex `(i + j) mod n` of `q`, or every vertex `j` of `p` equals vertex `(i - j) mod n` of
`q`. -/
def CoincideUpToRotation (p q : Polygon) : Prop :=
  p.verticesCount = q.verticesCount ∧ ∃ (i : Nat),
    (∀ j, j < p.verticesCount →
      matchAt p.points q.points j ((i + j) % p.verticesCount) = true) ∨
    (∀ j, j < p.verticesCount →
      matchAt p.points q.points j
        ((((i : Int) - (j : Int)) % (p.verticesCount : Int)).toNat) = true)

/-- The polygon with vertices `(0, 0)`, `(1, 1)`. -/
def twoA : Polygon := ⟨[⟨0, 0⟩, ⟨1, 1⟩]⟩

/-- The polygon with vertices `(5, 5)`, `(1, 1)`. -/
def twoB : Polygon := ⟨[⟨5, 5⟩, ⟨1, 1⟩]⟩

end Polygon

/-! # Theorems about Deque -/

namespace Deque

variable {α : Type}

/-! ## Arithmetic of positions -/

theorem layout_of_shape {h : Heap α} {d : Deque} {l : List (Option Nat)} (hs : Shape h d l) :
    Layout h d l :=
  ⟨hs.col_lt, hs.cap_rep, hs.fits, hs.arr_lt, hs.index_eq, hs.length_eq, hs.blocks, hs.inj,
    hs.index_fresh, hs.block_fresh⟩

theorem shape_of_layout {h : Heap α} {d : Deque} {l : List (Option Nat)} (hl : Layout h d l)
    (hsz : d.size_ < 2 ^ 31) : Shape h d l :=
  ⟨hl.col_lt, hl.cap_rep, hsz, hl.fits, hl.arr_lt, hl.index_eq, hl.length_eq, hl.blocks, hl.inj,
    hl.index_fresh, hl.block_fresh⟩

theorem shape_resize {h : Heap α} {d : Deque} {l : List (Option Nat)} (hl : Layout h d l)
    (n : Nat) (hn : n < 2 ^ 31) (hfit : front d + n ≤ d.capacity * BLOCK_SIZE) :
    Shape h { d with size_ := n } l :=
  ⟨hl.col_lt, hl.cap_rep, hn, hfit, hl.arr_lt, hl.index_eq, hl.length_eq, hl.blocks, hl.inj,
    hl.index_fresh, hl.block_fresh⟩

theorem stores_of_repr {h : Heap α} {d : Deque} {l : List (Option Nat)} {m : List α}
    (hr : Repr h d l m) : Stores h d l m :=
  ⟨layout_of_shape hr.1, hr.2.1, hr.2.2⟩

theorem valid_of_repr {h : Heap α} {d : Deque} {l : List (Option Nat)} {m : List α}
    (hr : Repr h d l m) : Valid h d :=
  ⟨l, m, stores_of_repr hr⟩

theorem valid_of_validInt {h : Heap α} {d : Deque} (hv : ValidInt h d) : Valid h d :=
  let ⟨_, _, hr⟩ := hv
  valid_of_repr hr

theorem validInt_of_valid {h : Heap α} {d : Deque} (hv : Valid h d) (hsz : d.size_ < 2 ^ 31) :
    ValidInt h d :=
  let ⟨l, m, hl, hn, hp⟩ := hv
  ⟨l, m, shape_of_layout hl hsz, hn, hp⟩

theorem validInt_size {h : Heap α} {d : Deque} (hv : ValidInt h d) : d.size_ < 2 ^ 31 :=
  let ⟨_, _, hr⟩ := hv
  hr.1.size_int

theorem toInt32_nat (n : Nat) (hn : n < 2 ^ 31) : toInt32 (n : Int) = n := by
  unfold toInt32; omega

theorem Iter.add_nat (it : Iter) (n : Nat) (hc : it.col < BLOCK_SIZE) (hn : n < 2 ^ 31)
    (hb : it.row * BLOCK_SIZE + it.col + n < SIZE_MOD) :
    it.add (toInt32 n) = ⟨it.arr, (it.row * BLOCK_SIZE + it.col + n) / BLOCK_SIZE,
      (it.row * BLOCK_SIZE + it.col + n) % BLOCK_SIZE⟩ := by
  rw [toInt32_nat n hn]
  simp only [Iter.add, toSizeT, wadd, wmul, BLOCK_SIZE, SIZE_MOD] at *
  congr 1 <;> omega

theorem begin_add {h : Heap α} {d : Deque} {l : List (Option Nat)} (hs : Shape h d l)
    (n : Nat) (hn : n ≤ d.size_) :
    (begin d).add (toInt32 n) = ⟨d.arr, (front d + n) / BLOCK_SIZE, (front d + n) % BLOCK_SIZE⟩ := by
  have h1 := hs.fits
  have h2 := hs.cap_rep
  have h3 := hs.size_int
  have := Iter.add_nat (begin d) n hs.col_lt (by omega)
    (by simp only [begin, front] at *; omega)
  simpa [begin, front] using this

theorem end_eq {h : Heap α} {d : Deque} {l : List (Option Nat)} (hs : Shape h d l) :
    end_ d = ⟨d.arr, (front d + d.size_) / BLOCK_SIZE, (front d + d.size_) % BLOCK_SIZE⟩ :=
  begin_add hs d.size_ le_rfl

theorem load_eq_peekLin {h : Heap α} {d : Deque} {l : List (Option Nat)} (hs : Shape h d l)
    (p : Nat) : Iter.load h ⟨d.arr, p / BLOCK_SIZE, p % BLOCK_SIZE⟩ = peekLin h l p := by
  simp only [Iter.load, Heap.slot, hs.index_eq, peekLin, Heap.cell]
  rcases l[p / BLOCK_SIZE]? with _ | _ | b
  · rfl
  · rfl
  · simp only
    rcases h.block b with _ | cs
    · rfl
    · simp only
      rcases cs[p % BLOCK_SIZE]? with _ | c <;> rfl

theorem subscript_eq {h : Heap α} {d : Deque} {l : List (Option Nat)} {m : List α}
    (hr : Repr h d l m) (i : Nat) (hi : i < m.length) : subscript h d i = m[i]? := by
  obtain ⟨hs, hsz, he⟩ := hr
  rw [subscript, begin_add hs i (by omega), load_eq_peekLin hs, he i hi]

/-! ## Writing a cell -/

theorem setCell_eq {h : Heap α} {b c : Nat} {cs : List (Option α)} (x : Option α)
    (hb : h.block b = some cs) (hc : c < cs.length) :
    h.setCell (some b) c x = some (h.withBlock b (cs.set c x)) := by
  simp [Heap.setCell, hb, hc, Heap.withBlock]

theorem shape_withBlock {h : Heap α} {d : Deque} {l : List (Option Nat)} (hs : Shape h d l)
    (b : Nat) (cs : List (Option α)) (hlen : cs.length = BLOCK_SIZE) (hlt : b < h.nextBlock) :
    Shape (h.withBlock b cs) d l := by
  refine { hs with blocks := ?_, block_fresh := ?_ }
  rotate_left
  · intro b2 hb2
    have : b2 ≠ b := by intro e; subst e; exact absurd hlt (by simpa [Heap.withBlock] using hb2)
    simpa [Heap.withBlock, Function.update_noteq this] using hs.block_fresh b2 hb2
  intro r b2 hr
  obtain ⟨h1, cs2, h2, h3⟩ := hs.blocks r b2 hr
  refine ⟨h1, ?_⟩
  by_cases hbb : b2 = b
  · subst hbb; exact ⟨cs, by simp [Heap.withBlock], hlen⟩
  · exact ⟨cs2, by simp [Heap.withBlock, Function.update_noteq hbb, h2], h3⟩

theorem peekLin_withBlock {h : Heap α} {d : Deque} {l : List (Option Nat)} (hs : Shape h d l)
    {p b : Nat} {cs : List (Option α)} (x : Option α)
    (hl : l[p / BLOCK_SIZE]? = some (some b)) (hb : h.block b = some cs)
    (q : Nat) :
    peekLin (h.withBlock b (cs.set (p % BLOCK_SIZE) x)) l q
      = if q = p then x else peekLin h l q := by
  have hlen : cs.length = BLOCK_SIZE := by
    obtain ⟨_, cs2, h2, h3⟩ := hs.blocks _ _ hl
    rw [hb] at h2; cases h2; exact h3
  have hp : p % BLOCK_SIZE < cs.length := by rw [hlen]; exact Nat.mod_lt _ (by decide)
  unfold peekLin
  rcases hq : l[q / BLOCK_SIZE]? with _ | _ | b2
  · have : q ≠ p := by rintro rfl; rw [hl] at hq; cases hq
    simp [this]
  · have : q ≠ p := by rintro rfl; rw [hl] at hq; cases hq
    simp [this]
  · simp only
    by_cases hbb : b2 = b
    · subst hbb
      have hrow : q / BLOCK_SIZE = p / BLOCK_SIZE := hs.inj _ _ _ hq hl
      simp only [Heap.withBlock, Function.update_same, hb]
      by_cases hqp : q = p
      · subst hqp; simp [List.getElem?_set, hp]
      · have : p % BLOCK_SIZE ≠ q % BLOCK_SIZE := by
          intro hmod; apply hqp
          have h1 := Nat.div_add_mod q BLOCK_SIZE
          have h2 := Nat.div_add_mod p BLOCK_SIZE
          rw [hrow, ← hmod] at h1; omega
        simp [hqp, List.getElem?_set, this]
    · have : q ≠ p := by rintro rfl; rw [hl] at hq; cases hq; exact hbb rfl
      simp [this, Heap.withBlock, Function.update_noteq hbb]

/-! ## make_exist -/

theorem make_exist_present {h : Heap α} {d : Deque} {l : List (Option Nat)} (hs : Shape h d l)
    (f : Faults) {row b : Nat} (hl : l[row]? = some (some b)) :
    make_exist f h d row = .ok h := by
  simp [make_exist, Heap.slot, hs.index_eq, hl]

theorem make_exist_fail {h : Heap α} {d : Deque} {l : List (Option Nat)} (hs : Shape h d l)
    (f : Faults) {row : Nat} (hl : l[row]? = some none) (hf : f.blockAlloc = false) :
    make_exist f h d row = .threw h := by
  simp [make_exist, Heap.slot, hs.index_eq, hl, hf]

theorem make_exist_alloc {h : Heap α} {d : Deque} {l : List (Option Nat)} (hs : Shape h d l)
    (f : Faults) {row : Nat} (hl : l[row]? = some none) (hf : f.blockAlloc = true) :
    make_exist f h d row = .ok (h.withNewBlock d.arr l row) := by
  have hrow : row < l.length := by
    by_contra hc
    rw [List.getElem?_eq_none (by omega)] at hl; cases hl
  simp [make_exist, Heap.slot, hs.index_eq, hl, hf, Heap.newBlock, Heap.setSlot, hrow,
    Heap.withNewBlock]

theorem shape_withNewBlock {h : Heap α} {d : Deque} {l : List (Option Nat)} (hs : Shape h d l)
    {row : Nat} (hl : l[row]? = some none) :
    Shape (h.withNewBlock d.arr l row) d (l.set row (some h.nextBlock)) := by
  have hrow : row < l.length := by
    by_contra hc
    rw [List.getElem?_eq_none (by omega)] at hl; cases hl
  refine { hs with index_eq := ?_, length_eq := ?_, blocks := ?_, inj := ?_, index_fresh := ?_,
                   block_fresh := ?_ }
  · simp [Heap.withNewBlock]
  · simp [hs.length_eq]
  · intro r b hr
    rw [List.getElem?_set] at hr
    split at hr
    · cases hr
      exact ⟨by simp [Heap.withNewBlock], List.replicate BLOCK_SIZE none,
        by simp [Heap.withNewBlock], List.length_replicate _ _⟩
    · obtain ⟨h1, cs, h2, h3⟩ := hs.blocks r b hr
      have hne : b ≠ h.nextBlock := by omega
      exact ⟨by simp only [Heap.withNewBlock]; omega, cs,
        by simp [Heap.withNewBlock, Function.update_noteq hne, h2], h3⟩
  · intro r r2 b hr hr2
    rw [List.getElem?_set] at hr hr2
    split at hr <;> split at hr2
    · omega
    · cases hr
      have := (hs.blocks r2 _ hr2).1
      omega
    · cases hr2
      have := (hs.blocks r _ hr).1
      omega
    · exact hs.inj r r2 b hr hr2
  · intro a ha
    have hne : a ≠ d.arr := by have := hs.arr_lt; simp only [Heap.withNewBlock] at ha; omega
    simpa [Heap.withNewBlock, Function.update_noteq hne] using hs.index_fresh a ha
  · intro b hb
    simp only [Heap.withNewBlock] at hb
    have hne : b ≠ h.nextBlock := by omega
    simpa [Heap.withNewBlock, Function.update_noteq hne] using hs.block_fresh b (by omega)

theorem peekLin_withNewBlock {h : Heap α} {d : Deque} {l : List (Option Nat)} (hs : Shape h d l)
    {row : Nat} (hl : l[row]? = some none) (q : Nat) :
    peekLin (h.withNewBlock d.arr l row) (l.set row (some h.nextBlock)) q = peekLin h l q := by
  have hrow : row < l.length := by
    by_contra hc
    rw [List.getElem?_eq_none (by omega)] at hl; cases hl
  unfold peekLin
  rw [List.getElem?_set]
  by_cases hq : row = q / BLOCK_SIZE
  · subst hq
    simp only [if_true, hrow, hl, Heap.withNewBlock, Function.update_same]
    rcases hc : (List.replicate BLOCK_SIZE (none : Option α))[q % BLOCK_SIZE]? with _ | c
    · rfl
    · rw [List.getElem?_replicate] at hc
      split at hc
      · cases hc; rfl
      · cases hc
  · simp only [hq, if_false]
    rcases hq2 : l[q / BLOCK_SIZE]? with _ | _ | b
    · rfl
    · rfl
    · have hne : b ≠ h.nextBlock := by have := (hs.blocks _ _ hq2).1; omega
      simp [Heap.withNewBlock, Function.update_noteq hne]

/-! ## relocate -/

theorem relocated_get (old : List (Option Nat)) (capacity add n j : Nat) :
    (relocated old capacity add n)[j]? =
      if j < n then some (if add ≤ j ∧ j < add + capacity then (old[j - add]?).getD none else none)
      else none := by
  unfold relocated
  rw [List.getElem?_map]
  by_cases hj : j < n
  · rw [List.getElem?_range hj]; simp [hj]
  · rw [List.getElem?_eq_none (by simpa using hj)]; simp [hj]

theorem relocated_some {old : List (Option Nat)} {capacity add n j b : Nat}
    (hj : (relocated old capacity add n)[j]? = some (some b)) :
    add ≤ j ∧ old[j - add]? = some (some b) := by
  rw [relocated_get] at hj
  split at hj
  · simp only [Option.some.injEq] at hj
    split at hj
    · rename_i h2
      refine ⟨h2.1, ?_⟩
      rcases ho : old[j - add]? with _ | x
      · rw [ho] at hj; cases hj
      · rw [ho] at hj; simp at hj; rw [hj]
    · cases hj
  · cases hj

theorem relocate_eq {h : Heap α} {d : Deque} {l : List (Option Nat)} (hs : Shape h d l)
    (f : Faults) (hf : f.indexAlloc = true)
    (hcap : (d.capacity + 2 * growth d.capacity) * BLOCK_SIZE < SIZE_MOD) :
    relocate f h d = .ok (relocatedState h d l) := by
  have h1 := hs.fits
  have h2 := hs.length_eq
  simp only [growth, BLOCK_SIZE, SIZE_MOD, front] at *
  have e1 : wadd d.capacity 1 / 2 = (d.capacity + 1) / 2 := by
    simp only [wadd, SIZE_MOD]; omega
  have e2 : wadd d.capacity (wmul ((d.capacity + 1) / 2) 2) = d.capacity + 2 * ((d.capacity + 1) / 2) := by
    simp only [wadd, wmul, SIZE_MOD]; omega
  have e3 : wadd ((d.capacity + 1) / 2) d.capacity = (d.capacity + 1) / 2 + d.capacity := by
    simp only [wadd, SIZE_MOD]; omega
  have e4 : wadd d.min_row ((d.capacity + 1) / 2) = d.min_row + (d.capacity + 1) / 2 := by
    simp only [wadd, SIZE_MOD]; omega
  have e5 : ¬ (l.length < d.capacity ∨
      d.capacity + 2 * ((d.capacity + 1) / 2) < (d.capacity + 1) / 2 + d.capacity) := by omega
  simp only [relocate, hf, hs.index_eq, e1, e2, e3, e4, e5, Heap.newIndex, relocatedState, growth]
  simp

theorem shape_relocated {h : Heap α} {d : Deque} {l : List (Option Nat)} (hs : Shape h d l)
    (hcap : (d.capacity + 2 * growth d.capacity) * BLOCK_SIZE < SIZE_MOD) :
    Shape (relocatedState h d l).1 (relocatedState h d l).2
      (relocated l d.capacity (growth d.capacity) (d.capacity + 2 * growth d.capacity)) := by
  constructor
  · exact hs.col_lt
  · exact hcap
  · exact hs.size_int
  · have := hs.fits
    simp only [relocatedState, front, BLOCK_SIZE] at *
    omega
  · simp [relocatedState]
  · simp [relocatedState]
  · simp [relocatedState, Deque.relocated]
  · intro r b hr
    exact hs.blocks _ b (relocated_some hr).2
  · intro r r2 b hr hr2
    have h1 := relocated_some hr
    have h2 := relocated_some hr2
    have := hs.inj _ _ _ h1.2 h2.2
    omega
  · intro a ha
    simp only [relocatedState] at ha
    have hne : a ≠ h.nextIndex := by omega
    simpa [relocatedState, Function.update_noteq hne] using hs.index_fresh a (by omega)
  · exact hs.block_fresh

theorem peekLin_relocated {h : Heap α} {d : Deque} {l : List (Option Nat)} (hs : Shape h d l)
    (q : Nat) :
    peekLin (relocatedState h d l).1
      (relocated l d.capacity (growth d.capacity) (d.capacity + 2 * growth d.capacity))
      (q + growth d.capacity * BLOCK_SIZE) = peekLin h l q := by
  have hdiv : (q + growth d.capacity * BLOCK_SIZE) / BLOCK_SIZE = q / BLOCK_SIZE + growth d.capacity := by
    simp only [BLOCK_SIZE]; omega
  have hmod : (q + growth d.capacity * BLOCK_SIZE) % BLOCK_SIZE = q % BLOCK_SIZE := by
    simp only [BLOCK_SIZE]; omega
  unfold peekLin
  rw [hdiv, hmod, relocated_get]
  have hlen := hs.length_eq
  generalize q / BLOCK_SIZE = a at *
  by_cases hq : a < d.capacity
  · have c1 : a + growth d.capacity < d.capacity + 2 * growth d.capacity := by omega
    have c2 : growth d.capacity ≤ a + growth d.capacity ∧
        a + growth d.capacity < growth d.capacity + d.capacity := by omega
    simp only [c1, c2, if_true, and_self, Nat.add_sub_cancel]
    rcases l[a]? with _ | _ | b <;> simp [relocatedState]
  · have c3 : l[a]? = none := List.getElem?_eq_none (by omega)
    have c2 : ¬ (growth d.capacity ≤ a + growth d.capacity ∧
        a + growth d.capacity < growth d.capacity + d.capacity) := by omega
    simp only [c2, if_false, c3]
    by_cases c1 : a + growth d.capacity < d.capacity + 2 * growth d.capacity <;> simp [c1]

/-! ## Storing and destroying an element -/

theorem construct_eq {h : Heap α} {d : Deque} {l : List (Option Nat)} (hs : Shape h d l)
    {p b : Nat} (v : α) (hl : l[p / BLOCK_SIZE]? = some (some b)) :
    ∃ cs, h.block b = some cs ∧
      Iter.construct h ⟨d.arr, p / BLOCK_SIZE, p % BLOCK_SIZE⟩ v
        = some (h.withBlock b (cs.set (p % BLOCK_SIZE) (some v))) := by
  obtain ⟨_, cs, h2, h3⟩ := hs.blocks _ _ hl
  refine ⟨cs, h2, ?_⟩
  have hp : p % BLOCK_SIZE < cs.length := by rw [h3]; exact Nat.mod_lt _ (by decide)
  simp only [Iter.construct, Heap.slot, hs.index_eq, hl]
  exact setCell_eq _ h2 hp

theorem destroy_eq {h : Heap α} {d : Deque} {l : List (Option Nat)} (hs : Shape h d l)
    {p b : Nat} (hl : l[p / BLOCK_SIZE]? = some (some b)) :
    ∃ cs, h.block b = some cs ∧
      Iter.destroy h ⟨d.arr, p / BLOCK_SIZE, p % BLOCK_SIZE⟩
        = some (h.withBlock b (cs.set (p % BLOCK_SIZE) none)) := by
  obtain ⟨_, cs, h2, h3⟩ := hs.blocks _ _ hl
  refine ⟨cs, h2, ?_⟩
  have hp : p % BLOCK_SIZE < cs.length := by rw [h3]; exact Nat.mod_lt _ (by decide)
  simp only [Iter.destroy, Heap.slot, hs.index_eq, hl]
  exact setCell_eq _ h2 hp

/-- Writing `x` into the cell at linear position `p` of a well-formed state. -/
theorem write_ok {h : Heap α} {d : Deque} {l : List (Option Nat)} (hs : Shape h d l)
    {p b : Nat} {cs : List (Option α)} (x : Option α)
    (hl : l[p / BLOCK_SIZE]? = some (some b)) (hb : h.block b = some cs) :
    Shape (h.withBlock b (cs.set (p % BLOCK_SIZE) x)) d l ∧
    (∀ q, peekLin (h.withBlock b (cs.set (p % BLOCK_SIZE) x)) l q
      = if q = p then x else peekLin h l q) := by
  obtain ⟨hlt, cs2, h2, h3⟩ := hs.blocks _ _ hl
  rw [hb] at h2; cases h2
  exact ⟨shape_withBlock hs b _ (by simpa using h3) hlt, peekLin_withBlock hs x hl hb⟩

/-! ## Effect of a call on the heap -/

theorem effect_refl (h : Heap α) (arr : Nat) (l : List (Option Nat)) : Effect h h arr arr l l :=
  ⟨fun _ _ _ => rfl, fun _ _ _ => rfl, le_rfl, le_rfl, Or.inl rfl, fun r _ hb => Or.inl ⟨r, hb⟩⟩

theorem effect_trans {h h1 h2 : Heap α} {a a1 a2 : Nat} {l l1 l2 : List (Option Nat)}
    (e1 : Effect h h1 a a1 l l1) (e2 : Effect h1 h2 a1 a2 l1 l2) : Effect h h2 a a2 l l2 := by
  constructor
  · intro x hx hlt
    have hx1 : x ≠ a1 := by
      rcases e1.arr_origin with e | e
      · rw [e]; exact hx
      · omega
    rw [e2.index_other x hx1 (lt_of_lt_of_le hlt e1.nextIndex_le), e1.index_other x hx hlt]
  · intro b hb hnot
    have hnot1 : ∀ (r : Nat), l1[r]? ≠ some (some b) := by
      intro r hr
      rcases e1.block_origin r b hr with ⟨r0, h0⟩ | h0
      · exact hnot r0 h0
      · omega
    rw [e2.block_other b (lt_of_lt_of_le hb e1.nextBlock_le) hnot1, e1.block_other b hb hnot]
  · exact le_trans e1.nextIndex_le e2.nextIndex_le
  · exact le_trans e1.nextBlock_le e2.nextBlock_le
  · rcases e2.arr_origin with e | e
    · rw [e]; exact e1.arr_origin
    · exact Or.inr (le_trans e1.nextIndex_le e)
  · intro r b hr
    rcases e2.block_origin r b hr with ⟨r0, h0⟩ | h0
    · exact e1.block_origin r0 b h0
    · exact Or.inr (le_trans e1.nextBlock_le h0)

theorem effect_withBlock (h : Heap α) (arr : Nat) {l : List (Option Nat)} {r b : Nat}
    (cs : List (Option α)) (hl : l[r]? = some (some b)) :
    Effect h (h.withBlock b cs) arr arr l l := by
  refine ⟨fun _ _ _ => rfl, ?_, le_rfl, le_rfl, Or.inl rfl, fun r b hb => Or.inl ⟨r, hb⟩⟩
  intro b2 _ hnot
  have hne : b2 ≠ b := by rintro rfl; exact hnot r hl
  simp [Heap.withBlock, Function.update_noteq hne]

theorem effect_withNewBlock (h : Heap α) (arr : Nat) (l : List (Option Nat)) (row : Nat) :
    Effect h (h.withNewBlock arr l row) arr arr l (l.set row (some h.nextBlock)) := by
  refine ⟨?_, ?_, le_rfl, Nat.le_succ _, Or.inl rfl, ?_⟩
  · intro a ha _
    simp [Heap.withNewBlock, Function.update_noteq ha]
  · intro b hb _
    have hne : b ≠ h.nextBlock := by omega
    simp [Heap.withNewBlock, Function.update_noteq hne]
  · intro r b hr
    rw [List.getElem?_set] at hr
    split at hr
    · split at hr
      · cases hr; exact Or.inr le_rfl
      · cases hr
    · exact Or.inl ⟨r, hr⟩

theorem keeps_refl (l : List (Option Nat)) : Keeps 0 l l := fun _ _ h => h

theorem keeps_set {l : List (Option Nat)} {row : Nat} (hl : l[row]? = some none) (x : Option Nat) :
    Keeps 0 l (l.set row x) := by
  intro r b hr
  rw [Nat.add_zero, List.getElem?_set]
  have hne : row ≠ r := by rintro rfl; rw [hl] at hr; cases hr
  rw [if_neg hne]; exact hr

theorem keeps_trans {k k2 : Nat} {l l1 l2 : List (Option Nat)} (h1 : Keeps k l l1)
    (h2 : Keeps k2 l1 l2) : Keeps (k + k2) l l2 := by
  intro r b hr
  rw [← Nat.add_assoc]
  exact h2 _ _ (h1 _ _ hr)

theorem effect_dropIndex {h h2 : Heap α} {a a2 : Nat} {l l2 : List (Option Nat)}
    (e : Effect h h2 a a2 l l2) : Effect h (h2.dropIndex a) a a2 l l2 := by
  refine { e with index_other := ?_ }
  intro x hx hlt
  rw [← e.index_other x hx hlt]
  simp [Heap.dropIndex, Function.update_noteq hx]

theorem shape_dropIndex {h : Heap α} {d : Deque} {l : List (Option Nat)} (hs : Shape h d l)
    {a : Nat} (ha : a ≠ d.arr) : Shape (h.dropIndex a) d l := by
  refine { hs with index_eq := ?_, index_fresh := ?_ }
  · simpa [Heap.dropIndex, Function.update_noteq ha.symm] using hs.index_eq
  · intro a2 ha2
    by_cases e : a2 = a
    · subst e; simp [Heap.dropIndex]
    · simpa [Heap.dropIndex, Function.update_noteq e] using hs.index_fresh a2 ha2

theorem dropPrevious_eq (h : Heap α) (d : Deque) (previous : Nat)
    (hp : previous = d.arr ∨ ∃ lp, h.index previous = some lp) :
    dropPrevious h d previous = some (if d.arr = previous then h else h.dropIndex previous) := by
  by_cases e : d.arr = previous
  · simp [dropPrevious, e]
  · rcases hp with hp | ⟨lp, hp⟩
    · exact absurd hp.symm e
    · simp only [dropPrevious, ne_eq, e, not_false_eq_true, if_true, if_false, Heap.freeIndex, hp,
        Heap.dropIndex]

theorem shape_dropPrevious {h : Heap α} {d : Deque} {l : List (Option Nat)} (hs : Shape h d l)
    (previous : Nat) : Shape (if d.arr = previous then h else h.dropIndex previous) d l := by
  by_cases e : d.arr = previous
  · rw [if_pos e]; exact hs
  · rw [if_neg e]; exact shape_dropIndex hs (Ne.symm e)

theorem peekLin_dropPrevious (h : Heap α) (a b : Nat) (l : List (Option Nat)) (q : Nat) :
    peekLin (if a = b then h else h.dropIndex b) l q = peekLin h l q := by
  by_cases e : a = b
  · rw [if_pos e]
  · rw [if_neg e]; rfl

/-- The pair `make_exist(row)`, `new(&*it) T(v)` on a well-formed state, every step succeeding. -/
theorem store_ok {h : Heap α} {d : Deque} {l : List (Option Nat)} (hs : Shape h d l)
    (f : Faults) (p : Nat) (v : α)
    (hf : f.blockAlloc = true ∨ ∃ b, l[p / BLOCK_SIZE]? = some (some b))
    (hp : p / BLOCK_SIZE < d.capacity) :
    ∃ h1 h2 l2, make_exist f h d (p / BLOCK_SIZE) = .ok h1 ∧
      Iter.construct h1 ⟨d.arr, p / BLOCK_SIZE, p % BLOCK_SIZE⟩ v = some h2 ∧
      Shape h2 d l2 ∧
      (∀ q, peekLin h2 l2 q = if q = p then some v else peekLin h l q) ∧
      Effect h h2 d.arr d.arr l l2 ∧ Keeps 0 l l2 ∧
      (∀ a, a ≠ d.arr → h2.index a = h.index a) := by
  have hlen := hs.length_eq
  rcases hx : l[p / BLOCK_SIZE]? with _ | _ | b
  · rw [List.getElem?_eq_none_iff] at hx; omega
  · have hf1 : f.blockAlloc = true := by
      rcases hf with hf | ⟨b, hb⟩
      · exact hf
      · rw [hx] at hb; cases hb
    have hs1 := shape_withNewBlock hs hx
    have hl1 : (l.set (p / BLOCK_SIZE) (some h.nextBlock))[p / BLOCK_SIZE]? = some (some h.nextBlock) := by
      rw [List.getElem?_set]; simp; omega
    obtain ⟨cs, hb, hc⟩ := construct_eq hs1 v hl1
    obtain ⟨hs2, hpk⟩ := write_ok hs1 (some v) hl1 hb
    refine ⟨_, _, _, make_exist_alloc hs f hx hf1, hc, hs2, ?_,
      effect_trans (effect_withNewBlock h d.arr l _) (effect_withBlock _ d.arr _ hl1),
      keeps_set hx _, ?_⟩
    · intro q; rw [hpk q, peekLin_withNewBlock hs hx]
    · intro a ha
      simp [Heap.withBlock, Heap.withNewBlock, Function.update_noteq ha]
  · obtain ⟨cs, hb, hc⟩ := construct_eq hs v hx
    obtain ⟨hs2, hpk⟩ := write_ok hs (some v) hx hb
    exact ⟨_, _, _, make_exist_present hs f hx, hc, hs2, hpk, effect_withBlock h d.arr _ hx,
      keeps_refl l, fun a _ => rfl⟩

/-! ## push_back, every step succeeding -/

theorem repr_relocated {h : Heap α} {d : Deque} {l : List (Option Nat)} {m : List α}
    (hr : Repr h d l m)
    (hcap : (d.capacity + 2 * growth d.capacity) * BLOCK_SIZE < SIZE_MOD) :
    Repr (relocatedState h d l).1 (relocatedState h d l).2
      (relocated l d.capacity (growth d.capacity) (d.capacity + 2 * growth d.capacity)) m := by
  obtain ⟨hs, hsz, he⟩ := hr
  refine ⟨shape_relocated hs hcap, hsz, fun i hi => ?_⟩
  have : front (relocatedState h d l).2 + i = (front d + i) + growth d.capacity * BLOCK_SIZE := by
    simp only [relocatedState, front]; ring
  rw [this, peekLin_relocated hs, he i hi]

theorem effect_relocated {h : Heap α} {d : Deque} {l : List (Option Nat)} (hs : Shape h d l) :
    Effect h (relocatedState h d l).1 d.arr (relocatedState h d l).2.arr l
      (relocated l d.capacity (growth d.capacity) (d.capacity + 2 * growth d.capacity)) ∧
    Keeps (growth d.capacity) l
      (relocated l d.capacity (growth d.capacity) (d.capacity + 2 * growth d.capacity)) ∧
    (relocatedState h d l).1.index d.arr = some l := by
  have hlt := hs.arr_lt
  refine ⟨⟨?_, fun _ _ _ => rfl, Nat.le_succ _, le_rfl, Or.inr le_rfl, ?_⟩, ?_, ?_⟩
  · intro a _ ha
    have hne : a ≠ h.nextIndex := by omega
    simp [relocatedState, Function.update_noteq hne]
  · intro r b hr
    exact Or.inl ⟨_, (relocated_some hr).2⟩
  · intro r b hr
    have hlen := hs.length_eq
    have hr2 : r < l.length := by
      by_contra hc
      rw [List.getElem?_eq_none (by omega)] at hr; cases hr
    rw [relocated_get]
    have c1 : r + growth d.capacity < d.capacity + 2 * growth d.capacity := by omega
    have c2 : growth d.capacity ≤ r + growth d.capacity ∧
        r + growth d.capacity < growth d.capacity + d.capacity := by omega
    simp only [c1, c2, if_true, and_self, Nat.add_sub_cancel, hr, Option.getD_some]
  · have hne : d.arr ≠ h.nextIndex := by omega
    simp [relocatedState, Function.update_noteq hne, hs.index_eq]

theorem push_back_try_ok {h : Heap α} {d : Deque} {l : List (Option Nat)} (hs : Shape h d l)
    (f : Faults) (v : α)
    (hf1 : f.blockAlloc = true ∨ ∃ b, l[(front d + d.size_) / BLOCK_SIZE]? = some (some b))
    (hf2 : f.ctor = true)
    (hroom : (front d + d.size_) / BLOCK_SIZE < d.capacity)
    (previous : Nat) (hp : previous = d.arr ∨ ∃ lp, h.index previous = some lp) :
    ∃ h2 l2 nr, push_back_try f v previous h d
        = .ok (if d.arr = previous then h2 else h2.dropIndex previous,
               { d with size_ := d.size_ + 1 }, nr) ∧
      Shape h2 d l2 ∧
      (∀ q, peekLin h2 l2 q = if q = front d + d.size_ then some v else peekLin h l q) ∧
      Effect h h2 d.arr d.arr l l2 ∧ Keeps 0 l l2 := by
  have hlen := hs.length_eq
  obtain ⟨h1, h2, l2, hme, hc, hs2, hpk, heff, hkeep, hidx⟩ :=
    store_ok hs f (front d + d.size_) v hf1 hroom
  have hp2 : previous = d.arr ∨ ∃ lp, h2.index previous = some lp := by
    rcases hp with hp | ⟨lp, hp⟩
    · exact Or.inl hp
    · by_cases e : previous = d.arr
      · exact Or.inl e
      · exact Or.inr ⟨lp, by rw [hidx _ e, hp]⟩
  have hd := dropPrevious_eq h2 { d with size_ := d.size_ + 1 } previous hp2
  have hw : wadd d.size_ 1 = d.size_ + 1 := by
    have := hs.size_int; simp only [wadd, SIZE_MOD]; omega
  have hslot : h.slot d.arr ((front d + d.size_) / BLOCK_SIZE)
      = l[(front d + d.size_) / BLOCK_SIZE]? := by simp [Heap.slot, hs.index_eq]
  obtain ⟨x, hx⟩ : ∃ x, l[(front d + d.size_) / BLOCK_SIZE]? = some x := by
    rcases hx : l[(front d + d.size_) / BLOCK_SIZE]? with _ | x
    · rw [List.getElem?_eq_none_iff] at hx; omega
    · exact ⟨x, rfl⟩
  refine ⟨h2, l2, x.isNone, ?_, hs2, hpk, heff, hkeep⟩
  unfold push_back_try
  simp only [end_eq hs, hslot, hx, hme, hf2, hc, hw, hd]
  simp

theorem repr_pushed_back {h h2 : Heap α} {d : Deque} {l l2 : List (Option Nat)} {m : List α}
    {v : α} (hr : Repr h d l m) (hs2 : Shape h2 d l2)
    (hpk : ∀ q, peekLin h2 l2 q = if q = front d + d.size_ then some v else peekLin h l q)
    (hroom : (front d + d.size_) / BLOCK_SIZE < d.capacity) (hsz : d.size_ + 1 < 2 ^ 31) :
    Repr h2 { d with size_ := d.size_ + 1 } l2 (m ++ [v]) := by
  obtain ⟨hs, hsize, he⟩ := hr
  refine ⟨?_, by simp [hsize], ?_⟩
  · refine { hs2 with size_int := hsz, fits := ?_ }
    have := hs.fits
    simp only [front, BLOCK_SIZE] at *
    omega
  · intro i hi
    show peekLin h2 l2 (front d + i) = _
    rw [hpk]
    simp only [List.length_append, List.length_singleton] at hi
    by_cases e : i = m.length
    · subst e; simp [hsize]
    · have hi2 : i < m.length := by omega
      have : front d + i ≠ front d + d.size_ := by omega
      simp only [this, if_false]
      rw [he i hi2, List.getElem?_append_left hi2]

theorem repr_dropPrevious {h : Heap α} {d : Deque} {l : List (Option Nat)} {m : List α}
    (hr : Repr h d l m) (previous : Nat) :
    Repr (if d.arr = previous then h else h.dropIndex previous) d l m :=
  ⟨shape_dropPrevious hr.1 previous, hr.2.1,
    fun i hi => by rw [peekLin_dropPrevious]; exact hr.2.2 i hi⟩

theorem full_at_back_iff {h : Heap α} {d : Deque} {l : List (Option Nat)} (hs : Shape h d l) :
    full_at_back d = true ↔ (front d + d.size_) / BLOCK_SIZE = d.capacity := by
  simp [full_at_back, end_eq hs]

theorem push_back_ok {h : Heap α} {d : Deque} {l : List (Option Nat)} {m : List α}
    (hr : Repr h d l m) (f : Faults) (hf0 : f.indexAlloc = true) (hf1 : f.blockAlloc = true)
    (hf2 : f.ctor = true) (v : α) (hpos : 0 < d.capacity)
    (hcap : (d.capacity + 2 * growth d.capacity) * BLOCK_SIZE < SIZE_MOD) :
    ∃ h3 d3 l3 k, push_back f v h d = .ok (h3, d3) ∧
      (d.size_ + 1 < 2 ^ 31 → Repr h3 d3 l3 (m ++ [v])) ∧
      ((front d + d.size_ = d.capacity * BLOCK_SIZE ∧ k = growth d.capacity ∧
          d3 = { (relocatedState h d l).2 with size_ := d.size_ + 1 }) ∨
       (front d + d.size_ < d.capacity * BLOCK_SIZE ∧ k = 0 ∧
          d3 = { d with size_ := d.size_ + 1 })) ∧
      (∀ q, peekLin h3 l3 (q + k * BLOCK_SIZE)
        = if q = front d + d.size_ then some v else peekLin h l q) ∧
      Effect h h3 d.arr d3.arr l l3 ∧ Keeps k l l3 := by
  have hs := hr.1
  have hfits := hs.fits
  by_cases hfull : full_at_back d = true
  · have hfull2 := (full_at_back_iff hs).1 hfull
    have hr1 := repr_relocated hr hcap
    have hroom : (front (relocatedState h d l).2 + (relocatedState h d l).2.size_) / BLOCK_SIZE
        < (relocatedState h d l).2.capacity := by
      simp only [relocatedState, front, growth, BLOCK_SIZE] at hfull2 hfits hpos ⊢
      omega
    obtain ⟨heff1, hkeep1, hold⟩ := effect_relocated hs
    obtain ⟨h2, l2, nr, htry, hs2, hpk, heff2, hkeep2⟩ :=
      push_back_try_ok hr1.1 f v (Or.inl hf1) hf2 hroom d.arr (Or.inr ⟨l, hold⟩)
    have hne : ¬ (relocatedState h d l).2.arr = d.arr := by
      have := hs.arr_lt
      simp only [relocatedState]; omega
    rw [if_neg hne] at htry
    refine ⟨h2.dropIndex d.arr, _, l2, growth d.capacity, ?_, ?_, Or.inl ⟨?_, rfl, rfl⟩, ?_,
      effect_dropIndex (effect_trans heff1 heff2), ?_⟩
    · unfold push_back
      rw [if_pos hfull, relocate_eq hs f hf0 hcap]
      show push_back_body f v d.arr d.min_row d.capacity (relocatedState h d l).1
        (relocatedState h d l).2 = _
      unfold push_back_body
      rw [htry]
      rfl
    · intro hsz
      have hr2 := repr_pushed_back hr1 hs2 hpk hroom hsz
      have hr3 := repr_dropPrevious hr2 d.arr
      rw [if_neg hne] at hr3
      exact hr3
    · simp only [front, BLOCK_SIZE] at hfull2 hfits ⊢
      omega
    · intro q
      show peekLin h2 l2 _ = _
      rw [hpk, peekLin_relocated hs]
      have e1 : front (relocatedState h d l).2 + (relocatedState h d l).2.size_
          = front d + d.size_ + growth d.capacity * BLOCK_SIZE := by
        simp only [relocatedState, front]; ring
      rw [e1]
      by_cases e : q = front d + d.size_
      · rw [if_pos e, if_pos (by omega)]
      · rw [if_neg e, if_neg (by omega)]
    · have := keeps_trans hkeep1 hkeep2
      simpa using this
  · have hroom : (front d + d.size_) / BLOCK_SIZE < d.capacity := by
      have hne : (front d + d.size_) / BLOCK_SIZE ≠ d.capacity :=
        fun e => hfull ((full_at_back_iff hs).2 e)
      have hc := hs.cap_rep
      simp only [front, BLOCK_SIZE] at hne hfits hc ⊢
      omega
    obtain ⟨h2, l2, nr, htry, hs2, hpk, heff2, hkeep2⟩ :=
      push_back_try_ok hs f v (Or.inl hf1) hf2 hroom d.arr (Or.inl rfl)
    rw [if_pos rfl] at htry
    refine ⟨h2, { d with size_ := d.size_ + 1 }, l2, 0, ?_, ?_, Or.inr ⟨?_, rfl, rfl⟩, ?_,
      heff2, hkeep2⟩
    · unfold push_back
      rw [if_neg hfull]
      unfold push_back_body
      rw [htry]
    · intro hsz
      exact repr_pushed_back hr hs2 hpk hroom hsz
    · simp only [front, BLOCK_SIZE] at hroom hfits ⊢
      omega
    · intro q
      rw [Nat.zero_mul, Nat.add_zero]
      exact hpk q

/-! ## push_front, every step succeeding -/

theorem begin_dec {h : Heap α} {d : Deque} {l : List (Option Nat)} (hs : Shape h d l)
    (hpos : 0 < front d) :
    (begin d).dec = ⟨d.arr, (front d - 1) / BLOCK_SIZE, (front d - 1) % BLOCK_SIZE⟩ := by
  have h1 := hs.fits
  have h2 := hs.cap_rep
  have h3 := hs.col_lt
  simp only [begin, Iter.dec, front, wsub, BLOCK_SIZE, SIZE_MOD] at *
  by_cases hc : d.min_col = 0
  · rw [if_pos hc, Iter.mk.injEq]; exact ⟨rfl, by omega, by omega⟩
  · rw [if_neg hc, Iter.mk.injEq]; exact ⟨rfl, by omega, by omega⟩

theorem prev_eq {h : Heap α} {d : Deque} {l : List (Option Nat)} (hs : Shape h d l)
    (hpos : 0 < front d) :
    prev d = { d with min_row := (front d - 1) / BLOCK_SIZE, min_col := (front d - 1) % BLOCK_SIZE } := by
  have h1 := hs.fits
  have h2 := hs.cap_rep
  have h3 := hs.col_lt
  simp only [prev, front, wsub, BLOCK_SIZE, SIZE_MOD] at *
  by_cases hc : d.min_col = 0
  · rw [if_pos hc, Deque.mk.injEq]; exact ⟨by omega, by omega, rfl, rfl, rfl⟩
  · rw [if_neg hc, Deque.mk.injEq]; exact ⟨by omega, by omega, rfl, rfl, rfl⟩

theorem front_withFront (d : Deque) (p n : Nat) : front (withFront d p n) = p := by
  simp only [front, withFront, BLOCK_SIZE]; omega

theorem push_front_try_ok {h : Heap α} {d : Deque} {l : List (Option Nat)} (hs : Shape h d l)
    (f : Faults) (v : α)
    (hf1 : f.blockAlloc = true ∨ ∃ b, l[(front d - 1) / BLOCK_SIZE]? = some (some b))
    (hf2 : f.ctor = true) (hpos : 0 < front d)
    (previous : Nat) (hp : previous = d.arr ∨ ∃ lp, h.index previous = some lp) :
    ∃ h2 l2 nr, push_front_try f v previous h d
        = .ok (if d.arr = previous then h2 else h2.dropIndex previous,
               withFront d (front d - 1) (d.size_ + 1), nr) ∧
      Shape h2 d l2 ∧
      (∀ q, peekLin h2 l2 q = if q = front d - 1 then some v else peekLin h l q) ∧
      Effect h h2 d.arr d.arr l l2 ∧ Keeps 0 l l2 := by
  have hlen := hs.length_eq
  have hfits := hs.fits
  have hroom : (front d - 1) / BLOCK_SIZE < d.capacity := by
    simp only [BLOCK_SIZE] at hfits ⊢
    omega
  obtain ⟨h1, h2, l2, hme, hc, hs2, hpk, heff, hkeep, hidx⟩ :=
    store_ok hs f (front d - 1) v hf1 hroom
  have hp2 : previous = d.arr ∨ ∃ lp, h2.index previous = some lp := by
    rcases hp with hp | ⟨lp, hp⟩
    · exact Or.inl hp
    · by_cases e : previous = d.arr
      · exact Or.inl e
      · exact Or.inr ⟨lp, by rw [hidx _ e, hp]⟩
  have hd := dropPrevious_eq h2 { prev d with size_ := d.size_ + 1 } previous
    (by rw [prev_eq hs hpos]; exact hp2)
  have hw : wadd d.size_ 1 = d.size_ + 1 := by
    have := hs.size_int; simp only [wadd, SIZE_MOD]; omega
  have hslot : h.slot d.arr ((front d - 1) / BLOCK_SIZE)
      = l[(front d - 1) / BLOCK_SIZE]? := by simp [Heap.slot, hs.index_eq]
  obtain ⟨x, hx⟩ : ∃ x, l[(front d - 1) / BLOCK_SIZE]? = some x := by
    rcases hx : l[(front d - 1) / BLOCK_SIZE]? with _ | x
    · rw [List.getElem?_eq_none_iff] at hx; omega
    · exact ⟨x, rfl⟩
  refine ⟨h2, l2, x.isNone, ?_, hs2, hpk, heff, hkeep⟩
  unfold push_front_try
  simp only [begin_dec hs hpos, hslot, hx, hme, hf2, hc, hw, hd]
  simp [prev_eq hs hpos, withFront]

theorem repr_pushed_front {h h2 : Heap α} {d : Deque} {l l2 : List (Option Nat)} {m : List α}
    {v : α} (hr : Repr h d l m) (hs2 : Shape h2 d l2)
    (hpk : ∀ q, peekLin h2 l2 q = if q = front d - 1 then some v else peekLin h l q)
    (hpos : 0 < front d) (hsz : d.size_ + 1 < 2 ^ 31) :
    Repr h2 (withFront d (front d - 1) (d.size_ + 1)) l2 (v :: m) := by
  obtain ⟨hs, hsize, he⟩ := hr
  have hfits := hs.fits
  have hfr := front_withFront d (front d - 1) (d.size_ + 1)
  refine ⟨?_, by simp [withFront, hsize], ?_⟩
  · refine { hs2 with size_int := hsz, fits := ?_, col_lt := ?_ }
    · exact Nat.mod_lt _ (by decide)
    · rw [hfr]; show front d - 1 + (d.size_ + 1) ≤ d.capacity * BLOCK_SIZE; omega
  · intro i hi
    rw [hfr, hpk]
    simp only [List.length_cons] at hi
    rcases i with _ | j
    · simp
    · have : front d - 1 + (j + 1) ≠ front d - 1 := by omega
      simp only [this, if_false]
      have e2 : front d - 1 + (j + 1) = front d + j := by omega
      rw [e2, he j (by omega)]
      simp

theorem repr_dropPrevious_arr {h : Heap α} {d d2 : Deque} {l : List (Option Nat)} {m : List α}
    (hr : Repr h d2 l m) (previous : Nat) (harr : d2.arr = d.arr) :
    Repr (if d.arr = previous then h else h.dropIndex previous) d2 l m := by
  rw [← harr]; exact repr_dropPrevious hr previous

theorem push_front_ok {h : Heap α} {d : Deque} {l : List (Option Nat)} {m : List α}
    (hr : Repr h d l m) (f : Faults) (hf0 : f.indexAlloc = true) (hf1 : f.blockAlloc = true)
    (hf2 : f.ctor = true) (v : α) (hpos : 0 < d.capacity)
    (hcap : (d.capacity + 2 * growth d.capacity) * BLOCK_SIZE < SIZE_MOD) :
    ∃ h3 d3 l3 k, push_front f v h d = .ok (h3, d3) ∧
      (d.size_ + 1 < 2 ^ 31 → Repr h3 d3 l3 (v :: m)) ∧
      ((front d = 0 ∧ k = growth d.capacity ∧
          d3 = withFront (relocatedState h d l).2 (front (relocatedState h d l).2 - 1)
                 (d.size_ + 1)) ∨
       (0 < front d ∧ k = 0 ∧ d3 = withFront d (front d - 1) (d.size_ + 1))) ∧
      peekLin h3 l3 (front d + k * BLOCK_SIZE - 1) = some v ∧
      (∀ q, q + k * BLOCK_SIZE ≠ front d + k * BLOCK_SIZE - 1 →
        peekLin h3 l3 (q + k * BLOCK_SIZE) = peekLin h l q) ∧
      Effect h h3 d.arr d3.arr l l3 ∧ Keeps k l l3 := by
  have hs := hr.1
  have hfits := hs.fits
  by_cases hz : d.min_row = 0 ∧ d.min_col = 0
  · have hr1 := repr_relocated hr hcap
    have hfr1 : front (relocatedState h d l).2 = front d + growth d.capacity * BLOCK_SIZE := by
      simp only [relocatedState, front]; ring
    have hpos1 : 0 < front (relocatedState h d l).2 := by
      rw [hfr1]
      simp only [growth, BLOCK_SIZE] at hpos ⊢
      omega
    obtain ⟨heff1, hkeep1, hold⟩ := effect_relocated hs
    obtain ⟨h2, l2, nr, htry, hs2, hpk, heff2, hkeep2⟩ :=
      push_front_try_ok hr1.1 f v (Or.inl hf1) hf2 hpos1 d.arr (Or.inr ⟨l, hold⟩)
    have hne : ¬ (relocatedState h d l).2.arr = d.arr := by
      have := hs.arr_lt
      simp only [relocatedState]; omega
    rw [if_neg hne] at htry
    refine ⟨h2.dropIndex d.arr, _, l2, growth d.capacity, ?_, ?_, Or.inl ⟨?_, rfl, rfl⟩, ?_, ?_,
      effect_dropIndex (effect_trans heff1 heff2), ?_⟩
    · unfold push_front
      rw [if_pos hz, relocate_eq hs f hf0 hcap]
      show push_front_body f v d.arr d.min_row d.capacity (relocatedState h d l).1
        (relocatedState h d l).2 = _
      unfold push_front_body
      rw [htry]
      rfl
    · intro hsz
      have hr2 := repr_pushed_front hr1 hs2 hpk hpos1 hsz
      have hr3 := repr_dropPrevious hr2 d.arr
      rw [show (withFront (relocatedState h d l).2 (front (relocatedState h d l).2 - 1)
        ((relocatedState h d l).2.size_ + 1)).arr = (relocatedState h d l).2.arr from rfl,
        if_neg hne] at hr3
      exact hr3
    · simp only [front, BLOCK_SIZE]
      omega
    · show peekLin h2 l2 _ = _
      rw [hpk, hfr1, if_pos rfl]
    · intro q hq
      show peekLin h2 l2 _ = _
      rw [hpk, hfr1, if_neg hq, peekLin_relocated hs]
    · have := keeps_trans hkeep1 hkeep2
      simpa using this
  · have hpos1 : 0 < front d := by
      simp only [front, BLOCK_SIZE]
      omega
    obtain ⟨h2, l2, nr, htry, hs2, hpk, heff2, hkeep2⟩ :=
      push_front_try_ok hs f v (Or.inl hf1) hf2 hpos1 d.arr (Or.inl rfl)
    rw [if_pos rfl] at htry
    refine ⟨h2, _, l2, 0, ?_, ?_, Or.inr ⟨hpos1, rfl, rfl⟩, ?_, ?_, heff2, hkeep2⟩
    · unfold push_front
      rw [if_neg hz]
      unfold push_front_body
      rw [htry]
    · intro hsz
      exact repr_pushed_front hr hs2 hpk hpos1 hsz
    · rw [Nat.zero_mul, Nat.add_zero, hpk, if_pos rfl]
    · intro q hq
      rw [Nat.zero_mul, Nat.add_zero, Nat.add_zero] at hq
      rw [Nat.zero_mul, Nat.add_zero, hpk, if_neg hq]

/-! ## pop_front and pop_back -/

theorem peekLin_some {h : Heap α} {l : List (Option Nat)} {p : Nat} {v : α}
    (hp : peekLin h l p = some v) : ∃ b, l[p / BLOCK_SIZE]? = some (some b) := by
  unfold peekLin at hp
  rcases hx : l[p / BLOCK_SIZE]? with _ | _ | b
  · rw [hx] at hp; cases hp
  · rw [hx] at hp; cases hp
  · exact ⟨b, rfl⟩

theorem begin_eq {h : Heap α} {d : Deque} {l : List (Option Nat)} (hs : Shape h d l) :
    begin d = ⟨d.arr, front d / BLOCK_SIZE, front d % BLOCK_SIZE⟩ := by
  have h3 := hs.col_lt
  simp only [begin, front, BLOCK_SIZE] at *
  rw [Iter.mk.injEq]; exact ⟨rfl, by omega, by omega⟩

theorem next_eq {h : Heap α} {d : Deque} {l : List (Option Nat)} (hs : Shape h d l) :
    next d = { d with min_row := (front d + 1) / BLOCK_SIZE, min_col := (front d + 1) % BLOCK_SIZE } := by
  have h1 := hs.fits
  have h2 := hs.cap_rep
  have h3 := hs.col_lt
  simp only [next, front, wadd, BLOCK_SIZE, SIZE_MOD] at *
  by_cases hc : (d.min_col + 1) % 2 ^ 64 = 64
  · rw [if_pos hc, Deque.mk.injEq]; exact ⟨by omega, by omega, rfl, rfl, rfl⟩
  · rw [if_neg hc, Deque.mk.injEq]; exact ⟨by omega, by omega, rfl, rfl, rfl⟩

theorem pop_front_ok {h : Heap α} {d : Deque} {l : List (Option Nat)} {m : List α} {x : α}
    (hr : Repr h d l (x :: m)) :
    ∃ h3, pop_front h d = .ok (h3, withFront d (front d + 1) (d.size_ - 1)) ∧
      Repr h3 (withFront d (front d + 1) (d.size_ - 1)) l m ∧
      (∀ q, peekLin h3 l q = if q = front d then none else peekLin h l q) ∧
      Effect h h3 d.arr d.arr l l := by
  obtain ⟨hs, hsize, he⟩ := hr
  simp only [List.length_cons] at hsize he
  obtain ⟨b, hb⟩ := peekLin_some (v := x) (by simpa using he 0 (by omega))
  obtain ⟨cs, hcs, hd⟩ := destroy_eq hs hb
  obtain ⟨hs2, hpk⟩ := write_ok hs none hb hcs
  have hfits := hs.fits
  have hfr := front_withFront d (front d + 1) (d.size_ - 1)
  have hw : wsub d.size_ 1 = d.size_ - 1 := by
    have := hs.size_int; simp only [wsub, SIZE_MOD]; omega
  refine ⟨h.withBlock b (cs.set (front d % BLOCK_SIZE) none), ?_, ⟨?_, by simp [withFront, hsize], ?_⟩,
    hpk, effect_withBlock h d.arr _ hb⟩
  · unfold pop_front
    rw [begin_eq hs, hd, next_eq hs, hw]
    rfl
  · refine { hs2 with size_int := ?_, fits := ?_, col_lt := ?_ }
    · exact Nat.mod_lt _ (by decide)
    · have := hs.size_int; show d.size_ - 1 < _; omega
    · rw [hfr]; show front d + 1 + (d.size_ - 1) ≤ d.capacity * BLOCK_SIZE; omega
  · intro i hi
    rw [hfr, hpk]
    have : front d + 1 + i ≠ front d := by omega
    simp only [this, if_false]
    have e2 : front d + 1 + i = front d + (i + 1) := by omega
    rw [e2, he (i + 1) (by omega)]
    simp

theorem dec_lin (a p : Nat) (hp : 0 < p) (hlt : p < SIZE_MOD) :
    Iter.dec ⟨a, p / BLOCK_SIZE, p % BLOCK_SIZE⟩
      = ⟨a, (p - 1) / BLOCK_SIZE, (p - 1) % BLOCK_SIZE⟩ := by
  simp only [Iter.dec, wsub, BLOCK_SIZE, SIZE_MOD] at *
  by_cases hc : p % 64 = 0
  · rw [if_pos hc, Iter.mk.injEq]; exact ⟨rfl, by omega, by omega⟩
  · rw [if_neg hc, Iter.mk.injEq]; exact ⟨rfl, by omega, by omega⟩

theorem pop_back_ok {h : Heap α} {d : Deque} {l : List (Option Nat)} {m : List α} {x : α}
    (hr : Repr h d l (m ++ [x])) :
    ∃ h3, pop_back h d = .ok (h3, { d with size_ := d.size_ - 1 }) ∧
      Repr h3 { d with size_ := d.size_ - 1 } l m ∧
      (∀ q, peekLin h3 l q = if q = front d + d.size_ - 1 then none else peekLin h l q) ∧
      Effect h h3 d.arr d.arr l l := by
  obtain ⟨hs, hsize, he⟩ := hr
  simp only [List.length_append, List.length_singleton] at hsize he
  have hfits := hs.fits
  have hcap := hs.cap_rep
  have hlast : front d + m.length = front d + d.size_ - 1 := by omega
  obtain ⟨b, hb⟩ := peekLin_some (v := x) (by simpa using he m.length (by omega))
  rw [hlast] at hb
  obtain ⟨cs, hcs, hd⟩ := destroy_eq hs hb
  obtain ⟨hs2, hpk⟩ := write_ok hs none hb hcs
  have hw : wsub d.size_ 1 = d.size_ - 1 := by
    have := hs.size_int; simp only [wsub, SIZE_MOD]; omega
  refine ⟨h.withBlock b (cs.set ((front d + d.size_ - 1) % BLOCK_SIZE) none), ?_,
    ⟨?_, by simp [hsize], ?_⟩, hpk, effect_withBlock h d.arr _ hb⟩
  · unfold pop_back
    rw [end_eq hs, dec_lin d.arr (front d + d.size_) (by omega) (by omega), hd, hw]
  · refine { hs2 with size_int := ?_, fits := ?_ }
    · have := hs.size_int; show d.size_ - 1 < _; omega
    · show front d + (d.size_ - 1) ≤ d.capacity * BLOCK_SIZE; omega
  · intro i hi
    show peekLin _ l (front d + i) = _
    rw [hpk]
    have : front d + i ≠ front d + d.size_ - 1 := by omega
    simp only [this, if_false]
    rw [he i (by omega), List.getElem?_append_left hi]

/-! ## Sequences of end operations -/

theorem mk_default_repr (h0 : Heap α) (hwf : h0.WF) :
    Repr (mk_default h0).1 (mk_default h0).2 [none] ([] : List α) := by
  refine ⟨?_, rfl, fun i hi => by simp at hi⟩
  constructor
  · show BLOCK_SIZE / 2 < BLOCK_SIZE; decide
  · show 1 * BLOCK_SIZE < SIZE_MOD; simp only [BLOCK_SIZE, SIZE_MOD]; omega
  · show 0 < 2 ^ 31; omega
  · show 0 * BLOCK_SIZE + BLOCK_SIZE / 2 + 0 ≤ 1 * BLOCK_SIZE; decide
  · simp [mk_default, Heap.newIndex]
  · simp [mk_default, Heap.newIndex]
  · rfl
  · intro r b hr
    rcases r with _ | r <;> simp at hr
  · intro r r2 b hr
    rcases r with _ | r <;> simp at hr
  · intro a ha
    simp only [mk_default, Heap.newIndex] at ha ⊢
    have hne : a ≠ h0.nextIndex := by omega
    simpa [Function.update_noteq hne] using hwf.1 a (by omega)
  · exact hwf.2



theorem mk_default_budget (h0 : Heap α) : Budget (mk_default h0).2 0 := by
  constructor <;> simp [mk_default, Heap.newIndex, front, BLOCK_SIZE]

theorem run_cons_ok {op : Op α} {ops : List (Op α)} {s s1 : Heap α × Deque}
    (hop : op.apply s = .ok s1) : run (op :: ops) s = run ops s1 := by
  rw [run, hop]

theorem apply_push_front (v : α) (h : Heap α) (d : Deque) :
    (Op.push_front v).apply (h, d) = push_front noFault v h d := rfl

theorem apply_push_back (v : α) (h : Heap α) (d : Deque) :
    (Op.push_back v).apply (h, d) = push_back noFault v h d := rfl

theorem apply_pop_front (h : Heap α) (d : Deque) :
    (Op.pop_front : Op α).apply (h, d) = pop_front h d := rfl

theorem apply_pop_back (h : Heap α) (d : Deque) :
    (Op.pop_back : Op α).apply (h, d) = pop_back h d := rfl

theorem run_refines (ops : List (Op α)) :
    ∀ (h : Heap α) (d : Deque) (l : List (Option Nat)) (m : List α) (k : Nat) (m2 : List α),
      Repr h d l m → Budget d k → k + ops.length < 2 ^ 31 → modelRun ops m = some m2 →
      ∃ h2 d2 l2, run ops (h, d) = .ok (h2, d2) ∧ Repr h2 d2 l2 m2 := by
  induction ops with
  | nil =>
    intro h d l m k m2 hr _ _ hm
    simp only [modelRun, Option.some.injEq] at hm
    subst hm
    exact ⟨h, d, l, rfl, hr⟩
  | cons op ops ih =>
    intro h d l m k m2 hr hb hk hm
    simp only [List.length_cons] at hk
    have hs := hr.1
    have hfits := hs.fits
    have hsz : d.size_ + 1 < 2 ^ 31 := by have := hb.size_le; omega
    have hcap : (d.capacity + 2 * growth d.capacity) * BLOCK_SIZE < SIZE_MOD := by
      have := hb.cap_le
      simp only [growth, BLOCK_SIZE, SIZE_MOD]
      omega
    have b1 := hb.cap_pos
    have b2 := hb.size_le
    have b3 := hb.slack_front
    have b4 := hb.slack_back
    have b5 := hb.cap_le
    cases op with
    | push_front v =>
      simp only [modelRun, Op.model] at hm
      obtain ⟨h3, d3, l3, k3, hrun, hr3f, hd3, _⟩ := push_front_ok hr noFault rfl rfl rfl v b1 hcap
      have hr3 := hr3f hsz
      have hb3 : Budget d3 (k + 1) := by
        rcases hd3 with ⟨hz, _, rfl⟩ | ⟨hz, _, rfl⟩
        · constructor <;>
            simp only [relocatedState, front, withFront, growth, BLOCK_SIZE] at hz hfits b3 b4 ⊢ <;> omega
        · constructor <;> simp only [front, withFront, BLOCK_SIZE] at hz hfits b3 b4 ⊢ <;> omega
      obtain ⟨h4, d4, l4, hrun4, hr4⟩ := ih h3 d3 l3 _ (k + 1) m2 hr3 hb3 (by omega) hm
      exact ⟨h4, d4, l4, by rw [run_cons_ok ((apply_push_front v h d).trans hrun), hrun4], hr4⟩
    | push_back v =>
      simp only [modelRun, Op.model] at hm
      obtain ⟨h3, d3, l3, k3, hrun, hr3f, hd3, _⟩ := push_back_ok hr noFault rfl rfl rfl v b1 hcap
      have hr3 := hr3f hsz
      have hb3 : Budget d3 (k + 1) := by
        rcases hd3 with ⟨hz, _, rfl⟩ | ⟨hz, _, rfl⟩
        · constructor <;>
            simp only [relocatedState, front, growth, BLOCK_SIZE] at hz hfits b3 b4 ⊢ <;> omega
        · constructor <;> simp only [front, BLOCK_SIZE] at hz hfits b3 b4 ⊢ <;> omega
      obtain ⟨h4, d4, l4, hrun4, hr4⟩ := ih h3 d3 l3 _ (k + 1) m2 hr3 hb3 (by omega) hm
      exact ⟨h4, d4, l4, by rw [run_cons_ok ((apply_push_back v h d).trans hrun), hrun4], hr4⟩
    | pop_front =>
      rcases m with _ | ⟨x, m1⟩
      · simp [modelRun, Op.model] at hm
      · simp only [modelRun, Op.model, List.length_cons, Nat.add_one_ne_zero, if_false,
          List.drop_succ_cons, List.drop_zero] at hm
        obtain ⟨h3, hrun, hr3, _⟩ := pop_front_ok hr
        have hsize : d.size_ = m1.length + 1 := by simpa using hr.2.1
        have hb3 : Budget (withFront d (front d + 1) (d.size_ - 1)) (k + 1) := by
          constructor <;> simp only [front, withFront, BLOCK_SIZE] at hfits b3 b4 ⊢ <;> omega
        obtain ⟨h4, d4, l4, hrun4, hr4⟩ := ih h3 _ l _ (k + 1) m2 hr3 hb3 (by omega) hm
        exact ⟨h4, d4, l4, by rw [run_cons_ok ((apply_pop_front h d).trans hrun), hrun4], hr4⟩
    | pop_back =>
      rcases List.eq_nil_or_concat m with rfl | ⟨m1, x, hmx⟩
      · simp [modelRun, Op.model] at hm
      · rw [List.concat_eq_append] at hmx
        subst hmx
        simp only [modelRun, Op.model, List.length_append, List.length_singleton,
          Nat.add_one_ne_zero, if_false, List.dropLast_concat] at hm
        obtain ⟨h3, hrun, hr3, _⟩ := pop_back_ok hr
        have hsize : d.size_ = m1.length + 1 := by simpa using hr.2.1
        have hb3 : Budget { d with size_ := d.size_ - 1 } (k + 1) := by
          constructor <;> simp only [front, BLOCK_SIZE] at hfits b3 b4 ⊢ <;> omega
        obtain ⟨h4, d4, l4, hrun4, hr4⟩ := ih h3 _ l _ (k + 1) m2 hr3 hb3 (by omega) hm
        exact ⟨h4, d4, l4, by rw [run_cons_ok ((apply_pop_back h d).trans hrun), hrun4], hr4⟩

theorem empty_wf : (Heap.empty : Heap α).WF := ⟨fun _ _ => rfl, fun _ _ => rfl⟩


theorem add_lin (it : Iter) (n : Int) (hcol : it.col < BLOCK_SIZE)
    (h0 : 0 ≤ (it.row * BLOCK_SIZE + it.col : Int) + n)
    (h1 : (it.row * BLOCK_SIZE + it.col : Int) + n < SIZE_MOD) :
    (((it.add n).row * BLOCK_SIZE + (it.add n).col : Nat) : Int)
        = (it.row * BLOCK_SIZE + it.col : Int) + n ∧
      (it.add n).col < BLOCK_SIZE ∧ (it.add n).arr = it.arr := by
  simp only [Iter.add, toSizeT, wadd, wmul, BLOCK_SIZE, SIZE_MOD] at *
  refine ⟨?_, ?_, trivial⟩ <;> omega

theorem sub_lin (it : Iter) (n : Int)
    (h0 : 0 ≤ (it.row * BLOCK_SIZE + it.col : Int) - n)
    (h1 : (it.row * BLOCK_SIZE + it.col : Int) - n < SIZE_MOD) :
    (((it.sub n).row * BLOCK_SIZE + (it.sub n).col : Nat) : Int)
        = (it.row * BLOCK_SIZE + it.col : Int) - n ∧
      (it.sub n).col < BLOCK_SIZE ∧ (it.sub n).arr = it.arr := by
  simp only [Iter.sub, toSizeT, wadd, wsub, wmul, BLOCK_SIZE, SIZE_MOD] at *
  refine ⟨?_, ?_, trivial⟩ <;> omega

theorem sub_eq_add_neg (it : Iter) (n : Int) :
    it.sub n = it.add (-n) := by
  simp only [Iter.sub, Iter.add, toSizeT, wadd, wsub, wmul, BLOCK_SIZE, SIZE_MOD] at *
  rw [Iter.mk.injEq]
  refine ⟨rfl, ?_, ?_⟩ <;> omega
/-- C20: with `row`, `col` and the converted offset in arithmetic modulo `2 ^ 64`, `it += n` lands
on linear position `L + n` and `it -= k` on `L - k`, with `col < BLOCK_SIZE`, whenever that position
lies in `[0, 2 ^ 64)`, for offsets of either sign; and `it - k` is `it + (-k)`. -/
theorem C20_offset_moves_linear_position (it : Iter) (n k : Int) (hcol : it.col < BLOCK_SIZE)
    (hn0 : 0 ≤ (it.row * BLOCK_SIZE + it.col : Int) + n)
    (hn1 : (it.row * BLOCK_SIZE + it.col : Int) + n < SIZE_MOD)
    (hk0 : 0 ≤ (it.row * BLOCK_SIZE + it.col : Int) - k)
    (hk1 : (it.row * BLOCK_SIZE + it.col : Int) - k < SIZE_MOD) :
    ((((it.add n).row * BLOCK_SIZE + (it.add n).col : Nat) : Int)
        = (it.row * BLOCK_SIZE + it.col : Int) + n ∧ (it.add n).col < BLOCK_SIZE) ∧
    ((((it.sub k).row * BLOCK_SIZE + (it.sub k).col : Nat) : Int)
        = (it.row * BLOCK_SIZE + it.col : Int) - k ∧ (it.sub k).col < BLOCK_SIZE) ∧
    it.sub k = it.add (-k) :=
  ⟨⟨(add_lin it n hcol hn0 hn1).1, (add_lin it n hcol hn0 hn1).2.1⟩,
   ⟨(sub_lin it k hk0 hk1).1, (sub_lin it k hk0 hk1).2.1⟩,
   sub_eq_add_neg it k⟩

/-- C20 at `(row, col) = (2, 5)`, linear position 133, with the offsets `-70` and `-130`: the
iterator moves to `(0, 63)` and to `(4, 7)`. -/
theorem C20_offsets_at_2_5 :
    (Iter.add ⟨0, 2, 5⟩ (-70) = ⟨0, 0, 63⟩ ∧ Iter.sub ⟨0, 2, 5⟩ (-130) = ⟨0, 4, 7⟩) ∧
    ((((Iter.add ⟨0, 2, 5⟩ (-70)).row * BLOCK_SIZE + (Iter.add ⟨0, 2, 5⟩ (-70)).col : Nat) : Int)
        = ((2 : Nat) * BLOCK_SIZE + (5 : Nat) : Int) + (-70) ∧
      (Iter.add ⟨0, 2, 5⟩ (-70)).col < BLOCK_SIZE) ∧
    ((((Iter.sub ⟨0, 2, 5⟩ (-130)).row * BLOCK_SIZE + (Iter.sub ⟨0, 2, 5⟩ (-130)).col : Nat) : Int)
        = ((2 : Nat) * BLOCK_SIZE + (5 : Nat) : Int) - (-130) ∧
      (Iter.sub ⟨0, 2, 5⟩ (-130)).col < BLOCK_SIZE) ∧
    Iter.sub ⟨0, 2, 5⟩ (-130) = Iter.add ⟨0, 2, 5⟩ (-(-130)) :=
  ⟨⟨by decide, by decide⟩,
    C20_offset_moves_linear_position ⟨0, 2, 5⟩ (-70) (-130) (by decide) (by decide) (by decide)
      (by decide) (by decide)⟩

theorem inc_eq (it : Iter) (hcol : it.col < BLOCK_SIZE) :
    it.inc = if it.col = BLOCK_SIZE - 1 then ⟨it.arr, wadd it.row 1, 0⟩
      else ⟨it.arr, it.row, it.col + 1⟩ := by
  simp only [Iter.inc, wadd, BLOCK_SIZE, SIZE_MOD] at *
  by_cases hc : it.col = 64 - 1
  · have e : (it.col + 1) % 2 ^ 64 = 64 := by omega
    rw [if_pos e, if_pos hc]
  · have e : ¬ (it.col + 1) % 2 ^ 64 = 64 := by omega
    rw [if_neg e, if_neg hc, Iter.mk.injEq]
    exact ⟨rfl, rfl, by omega⟩

theorem dec_eq (it : Iter) (hcol : it.col < BLOCK_SIZE) :
    it.dec = if it.col = 0 then ⟨it.arr, wsub it.row 1, BLOCK_SIZE - 1⟩
      else ⟨it.arr, it.row, it.col - 1⟩ := by
  simp only [Iter.dec, wsub, BLOCK_SIZE, SIZE_MOD] at *
  by_cases hc : it.col = 0
  · rw [if_pos hc, if_pos hc, Iter.mk.injEq]
    exact ⟨rfl, rfl, by omega⟩
  · rw [if_neg hc, if_neg hc, Iter.mk.injEq]
    exact ⟨rfl, rfl, by omega⟩

theorem inc_lin (it : Iter) (hcol : it.col < BLOCK_SIZE) : it.inc.lin = wadd it.lin 1 := by
  rw [inc_eq it hcol]
  simp only [Iter.lin, wadd, wmul, BLOCK_SIZE, SIZE_MOD] at *
  by_cases hc : it.col = 64 - 1
  · rw [if_pos hc]; simp only []; omega
  · rw [if_neg hc]; simp only []; omega

theorem dec_inc (it : Iter) (hcol : it.col < BLOCK_SIZE) (hrow : it.row < SIZE_MOD) :
    it.inc.dec = it := by
  rw [inc_eq it hcol]
  by_cases hc : it.col = BLOCK_SIZE - 1
  · rw [if_pos hc, dec_eq _ (show (0 : Nat) < BLOCK_SIZE by decide), if_pos rfl]
    cases it with
    | mk a r c =>
      simp only [wadd, wsub, BLOCK_SIZE, SIZE_MOD, Iter.mk.injEq] at *
      exact ⟨trivial, by omega, by omega⟩
  · have h2 : it.col + 1 < BLOCK_SIZE := by simp only [BLOCK_SIZE] at *; omega
    rw [if_neg hc, dec_eq _ h2, if_neg (Nat.succ_ne_zero _)]
    cases it with
    | mk a r c => simp

theorem inc_dec (it : Iter) (hcol : it.col < BLOCK_SIZE) (hrow : it.row < SIZE_MOD) :
    it.dec.inc = it := by
  rw [dec_eq it hcol]
  by_cases hc : it.col = 0
  · rw [if_pos hc, inc_eq _ (show BLOCK_SIZE - 1 < BLOCK_SIZE by decide), if_pos rfl]
    cases it with
    | mk a r c =>
      simp only [wadd, wsub, BLOCK_SIZE, SIZE_MOD, Iter.mk.injEq] at *
      exact ⟨trivial, by omega, by omega⟩
  · have h2 : it.col - 1 < BLOCK_SIZE := by simp only [BLOCK_SIZE] at *; omega
    have h3 : ¬ (it.col - 1 = BLOCK_SIZE - 1) := by simp only [BLOCK_SIZE] at *; omega
    rw [if_neg hc, inc_eq _ h2, if_neg h3]
    cases it with
    | mk a r c =>
      simp only [Iter.mk.injEq] at *
      exact ⟨trivial, trivial, by omega⟩

/-- C19: for an iterator with `col < BLOCK_SIZE` (`row` a `size_t`), `it++` returns the old value
and leaves `it` one linear position further; `++` goes to `(row + 1, 0)` at the last column and to
`(row, col + 1)` otherwise; `--` goes to `(row - 1, BLOCK_SIZE - 1)` at column 0 and to
`(row, col - 1)` otherwise; and `--(++it) == it`, `++(--it) == it`. -/
theorem C19_increment_decrement (it : Iter) (hcol : it.col < BLOCK_SIZE)
    (hrow : it.row < SIZE_MOD) :
    it.postInc.1 = it ∧ it.postInc.2 = it.inc ∧ it.inc.lin = wadd it.lin 1 ∧
    (it.col = BLOCK_SIZE - 1 → it.inc = ⟨it.arr, wadd it.row 1, 0⟩) ∧
    (it.col ≠ BLOCK_SIZE - 1 → it.inc = ⟨it.arr, it.row, it.col + 1⟩) ∧
    (it.col = 0 → it.dec = ⟨it.arr, wsub it.row 1, BLOCK_SIZE - 1⟩) ∧
    (it.col ≠ 0 → it.dec = ⟨it.arr, it.row, it.col - 1⟩) ∧
    it.inc.dec = it ∧ it.dec.inc = it := by
  refine ⟨rfl, rfl, inc_lin it hcol, ?_, ?_, ?_, ?_, dec_inc it hcol hrow, inc_dec it hcol hrow⟩
  · intro hc; rw [inc_eq it hcol, if_pos hc]
  · intro hc; rw [inc_eq it hcol, if_neg hc]
  · intro hc; rw [dec_eq it hcol, if_pos hc]
  · intro hc; rw [dec_eq it hcol, if_neg hc]

/-- C19 at the block boundary `(row, col) = (3, 63)`: `++` gives `(4, 0)`, and `--` takes it back. -/
theorem C19_at_block_boundary :
    Iter.inc ⟨0, 3, 63⟩ = ⟨0, 4, 0⟩ ∧ Iter.dec ⟨0, 4, 0⟩ = ⟨0, 3, 63⟩ ∧
    ((Iter.postInc ⟨0, 3, 63⟩).1 = ⟨0, 3, 63⟩ ∧ (Iter.postInc ⟨0, 3, 63⟩).2 = Iter.inc ⟨0, 3, 63⟩ ∧
     (Iter.inc ⟨0, 3, 63⟩).lin = wadd (Iter.lin ⟨0, 3, 63⟩) 1 ∧
     ((63 : Nat) = BLOCK_SIZE - 1 → Iter.inc ⟨0, 3, 63⟩ = ⟨0, wadd 3 1, 0⟩) ∧
     ((63 : Nat) ≠ BLOCK_SIZE - 1 → Iter.inc ⟨0, 3, 63⟩ = ⟨0, 3, 63 + 1⟩) ∧
     ((63 : Nat) = 0 → Iter.dec ⟨0, 3, 63⟩ = ⟨0, wsub 3 1, BLOCK_SIZE - 1⟩) ∧
     ((63 : Nat) ≠ 0 → Iter.dec ⟨0, 3, 63⟩ = ⟨0, 3, 63 - 1⟩) ∧
     (Iter.inc ⟨0, 3, 63⟩).dec = ⟨0, 3, 63⟩ ∧ (Iter.dec ⟨0, 3, 63⟩).inc = ⟨0, 3, 63⟩) :=
  ⟨by decide, by decide, C19_increment_decrement ⟨0, 3, 63⟩ (by decide) (by decide)⟩

theorem diff_lin (a b : Iter) (hLa : a.row * BLOCK_SIZE + a.col < 2 ^ 63)
    (hLb : b.row * BLOCK_SIZE + b.col < 2 ^ 63) :
    a.diff b = (a.row * BLOCK_SIZE + a.col : Int) - (b.row * BLOCK_SIZE + b.col : Int) := by
  simp only [Iter.diff, toPtrdiff, wadd, wsub, wmul, BLOCK_SIZE, SIZE_MOD] at *
  omega

theorem lin_small (a : Iter) (hLa : a.row * BLOCK_SIZE + a.col < SIZE_MOD) :
    a.lin = a.row * BLOCK_SIZE + a.col := by
  simp only [Iter.lin, wadd, wmul, BLOCK_SIZE, SIZE_MOD] at *
  omega

theorem eq_iff_lin (a b : Iter) (ha : a.col < BLOCK_SIZE) (hb : b.col < BLOCK_SIZE)
    (harr : a.arr = b.arr) :
    a.eq b = true ↔ a.row * BLOCK_SIZE + a.col = b.row * BLOCK_SIZE + b.col := by
  simp only [Iter.eq, harr, true_and, decide_eq_true_eq, BLOCK_SIZE] at *
  constructor
  · rintro ⟨h1, h2⟩; rw [h1, h2]
  · intro h; constructor <;> omega

/-- C15: for iterators with `col < BLOCK_SIZE` whose linear positions `La`, `Lb` are representable
in the signed result type, `a - b` is the integer `La - Lb`, `a <=> b` is the comparison of `La`
with `Lb`, and for iterators into the same index array `a == b` holds exactly when `La = Lb`,
that is exactly when `a - b == 0`. -/
theorem C15_difference_ordering_equality (a b : Iter) (ha : a.col < BLOCK_SIZE)
    (hb : b.col < BLOCK_SIZE) (hLa : a.row * BLOCK_SIZE + a.col < 2 ^ 63)
    (hLb : b.row * BLOCK_SIZE + b.col < 2 ^ 63) :
    a.diff b = (a.row * BLOCK_SIZE + a.col : Int) - (b.row * BLOCK_SIZE + b.col : Int) ∧
    a.cmp b = compare (a.row * BLOCK_SIZE + a.col) (b.row * BLOCK_SIZE + b.col) ∧
    (a.arr = b.arr →
      (a.eq b = true ↔ a.row * BLOCK_SIZE + a.col = b.row * BLOCK_SIZE + b.col) ∧
      (a.eq b = true ↔ a.diff b = 0)) := by
  have hd := diff_lin a b hLa hLb
  have hla := lin_small a (by simp only [SIZE_MOD]; omega)
  have hlb := lin_small b (by simp only [SIZE_MOD]; omega)
  refine ⟨hd, by rw [Iter.cmp, hla, hlb], fun harr => ⟨eq_iff_lin a b ha hb harr, ?_⟩⟩
  rw [eq_iff_lin a b ha hb harr, hd]
  omega

/-- C15 at `a = (2, 5)`, `b = (1, 60)`: `a - b` is `9`, `a` is greater than `b`, unequal. -/
theorem C15_at_2_5_and_1_60 :
    Iter.diff ⟨0, 2, 5⟩ ⟨0, 1, 60⟩ = 9 ∧ Iter.cmp ⟨0, 2, 5⟩ ⟨0, 1, 60⟩ = Ordering.gt ∧
    Iter.eq ⟨0, 2, 5⟩ ⟨0, 1, 60⟩ = false ∧
    (Iter.diff ⟨0, 2, 5⟩ ⟨0, 1, 60⟩
        = ((2 : Nat) * BLOCK_SIZE + (5 : Nat) : Int) - ((1 : Nat) * BLOCK_SIZE + (60 : Nat) : Int) ∧
      Iter.cmp ⟨0, 2, 5⟩ ⟨0, 1, 60⟩ = compare (2 * BLOCK_SIZE + 5) (1 * BLOCK_SIZE + 60) ∧
      ((0 : Nat) = 0 →
        (Iter.eq ⟨0, 2, 5⟩ ⟨0, 1, 60⟩ = true ↔ 2 * BLOCK_SIZE + 5 = 1 * BLOCK_SIZE + 60) ∧
        (Iter.eq ⟨0, 2, 5⟩ ⟨0, 1, 60⟩ = true ↔ Iter.diff ⟨0, 2, 5⟩ ⟨0, 1, 60⟩ = 0))) :=
  ⟨by decide, by decide, by decide,
    C15_difference_ordering_equality ⟨0, 2, 5⟩ ⟨0, 1, 60⟩ (by decide) (by decide) (by decide)
      (by decide)⟩

theorem add_diff_self (it : Iter) (n : Int) (hc : it.col < BLOCK_SIZE)
    (hL : it.row * BLOCK_SIZE + it.col < 2 ^ 63)
    (hn0 : 0 ≤ (it.row * BLOCK_SIZE + it.col : Int) + n)
    (hn1 : (it.row * BLOCK_SIZE + it.col : Int) + n < 2 ^ 63) :
    (it.add n).diff it = n := by
  have h1 := (add_lin it n hc hn0 (by simp only [SIZE_MOD]; omega)).1
  have h2 : (it.add n).row * BLOCK_SIZE + (it.add n).col < 2 ^ 63 := by omega
  rw [diff_lin _ _ h2 hL]
  push_cast at h1
  omega

theorem add_diff_other (it it2 : Iter) (hc : it.col < BLOCK_SIZE) (hc2 : it2.col < BLOCK_SIZE)
    (harr : it.arr = it2.arr) (hL : it.row * BLOCK_SIZE + it.col < 2 ^ 63)
    (hL2 : it2.row * BLOCK_SIZE + it2.col < 2 ^ 63)
    (hlo : -2 ^ 31 ≤ (it2.row * BLOCK_SIZE + it2.col : Int) - (it.row * BLOCK_SIZE + it.col : Int))
    (hhi : (it2.row * BLOCK_SIZE + it2.col : Int) - (it.row * BLOCK_SIZE + it.col : Int) < 2 ^ 31) :
    it.add (toInt32 (it2.diff it)) = it2 := by
  rw [diff_lin it2 it hL2 hL]
  have e : toInt32 ((it2.row * BLOCK_SIZE + it2.col : Int) - (it.row * BLOCK_SIZE + it.col : Int))
      = (it2.row * BLOCK_SIZE + it2.col : Int) - (it.row * BLOCK_SIZE + it.col : Int) := by
    unfold toInt32; omega
  rw [e]
  cases it with
  | mk a r c =>
    cases it2 with
    | mk a2 r2 c2 =>
      simp only [Iter.add, toSizeT, wadd, wmul, BLOCK_SIZE, SIZE_MOD, Iter.mk.injEq] at *
      exact ⟨harr, by omega, by omega⟩

/-- C10, as amended: for iterators `it`, `it2` into the same index array with `col < BLOCK_SIZE`
and representable linear positions, `(it + n) - it == n` whenever `it + n` is at a non-negative
representable position, and `it + (it2 - it) == it2` whenever the difference `it2 - it` fits the
`int` parameter of `operator+`. -/
theorem C10_iterator_laws_int_offsets (it it2 : Iter) (n : Int) (hc : it.col < BLOCK_SIZE)
    (hc2 : it2.col < BLOCK_SIZE) (harr : it.arr = it2.arr)
    (hL : it.row * BLOCK_SIZE + it.col < 2 ^ 63) (hL2 : it2.row * BLOCK_SIZE + it2.col < 2 ^ 63)
    (hn0 : 0 ≤ (it.row * BLOCK_SIZE + it.col : Int) + n)
    (hn1 : (it.row * BLOCK_SIZE + it.col : Int) + n < 2 ^ 63)
    (hlo : -2 ^ 31 ≤ (it2.row * BLOCK_SIZE + it2.col : Int) - (it.row * BLOCK_SIZE + it.col : Int))
    (hhi : (it2.row * BLOCK_SIZE + it2.col : Int) - (it.row * BLOCK_SIZE + it.col : Int) < 2 ^ 31) :
    (it.add n).diff it = n ∧ it.add (toInt32 (it2.diff it)) = it2 :=
  ⟨add_diff_self it n hc hL hn0 hn1, add_diff_other it it2 hc hc2 harr hL hL2 hlo hhi⟩

/-- C10 at `it = (1, 60)`, `it2 = (2, 5)`, `n = -3`. -/
theorem C10_at_1_60_and_2_5 :
    (Iter.add ⟨0, 1, 60⟩ (-3)).diff ⟨0, 1, 60⟩ = -3 ∧
    Iter.add ⟨0, 1, 60⟩ (toInt32 (Iter.diff ⟨0, 2, 5⟩ ⟨0, 1, 60⟩)) = ⟨0, 2, 5⟩ :=
  C10_iterator_laws_int_offsets ⟨0, 1, 60⟩ ⟨0, 2, 5⟩ (-3) (by decide) (by decide) rfl (by decide)
    (by decide) (by decide) (by decide) (by decide) (by decide)

/-- C10, as stated, fails: with `it = (0, 0)` and `it2 = (2 ^ 25, 0)` in the same index array the
difference `it2 - it` is `2 ^ 31`, which the `int` parameter of `operator+` turns into `-2 ^ 31`,
and `it + (it2 - it)` is at row `2 ^ 58 - 2 ^ 25`, not at `it2`. -/
theorem C10_difference_beyond_int :
    (0 : Nat) < BLOCK_SIZE ∧ (2 ^ 25 * BLOCK_SIZE + 0 : Nat) < 2 ^ 63 ∧
    Iter.diff ⟨0, 2 ^ 25, 0⟩ ⟨0, 0, 0⟩ = 2 ^ 31 ∧
    Iter.add ⟨0, 0, 0⟩ (toInt32 (Iter.diff ⟨0, 2 ^ 25, 0⟩ ⟨0, 0, 0⟩)) = ⟨0, 2 ^ 58 - 2 ^ 25, 0⟩ ∧
    Iter.add ⟨0, 0, 0⟩ (toInt32 (Iter.diff ⟨0, 2 ^ 25, 0⟩ ⟨0, 0, 0⟩)) ≠ ⟨0, 2 ^ 25, 0⟩ := by
  refine ⟨by decide, by decide, by decide, by decide, by decide⟩

/-! ## Traversal -/

theorem inc_at (a p : Nat) (hlt : p + 1 < SIZE_MOD) :
    Iter.inc ⟨a, p / BLOCK_SIZE, p % BLOCK_SIZE⟩
      = ⟨a, (p + 1) / BLOCK_SIZE, (p + 1) % BLOCK_SIZE⟩ := by
  simp only [Iter.inc, wadd, BLOCK_SIZE, SIZE_MOD] at *
  by_cases hc : (p % 64 + 1) % 2 ^ 64 = 64
  · rw [if_pos hc, Iter.mk.injEq]; exact ⟨rfl, by omega, by omega⟩
  · rw [if_neg hc, Iter.mk.injEq]; exact ⟨rfl, by omega, by omega⟩

theorem iterate_inc_at (a p : Nat) (k : Nat) (hlt : p + k < SIZE_MOD) :
    Iter.inc^[k] ⟨a, p / BLOCK_SIZE, p % BLOCK_SIZE⟩
      = ⟨a, (p + k) / BLOCK_SIZE, (p + k) % BLOCK_SIZE⟩ := by
  induction k with
  | zero => rfl
  | succ k ih =>
    rw [Function.iterate_succ_apply', ih (by omega), inc_at a (p + k) (by omega)]
    rfl

theorem iterate_dec_at (a p : Nat) (k : Nat) (hk : k ≤ p) (hlt : p < SIZE_MOD) :
    Iter.dec^[k] ⟨a, p / BLOCK_SIZE, p % BLOCK_SIZE⟩
      = ⟨a, (p - k) / BLOCK_SIZE, (p - k) % BLOCK_SIZE⟩ := by
  induction k with
  | zero => rfl
  | succ k ih =>
    rw [Function.iterate_succ_apply', ih (by omega), dec_lin a (p - k) (by omega) (by omega)]
    rfl

theorem at_ne_of_ne (a p q : Nat) (h : p ≠ q) :
    (⟨a, p / BLOCK_SIZE, p % BLOCK_SIZE⟩ : Iter) ≠ ⟨a, q / BLOCK_SIZE, q % BLOCK_SIZE⟩ := by
  intro e
  rw [Iter.mk.injEq] at e
  simp only [BLOCK_SIZE] at e
  omega

theorem end_diff_begin {h : Heap α} {d : Deque} {l : List (Option Nat)} (hs : Shape h d l) :
    (end_ d).diff (begin d) = d.size_ := by
  have h1 := hs.fits
  have h2 := hs.cap_rep
  have h3 := hs.size_int
  rw [end_eq hs, begin_eq hs]
  simp only [Iter.diff, toPtrdiff, wadd, wsub, wmul, BLOCK_SIZE, SIZE_MOD] at *
  omega

theorem scenario_repr : ∃ l, Repr scenarioState.1 scenarioState.2 l [0, 1, 2] := by
  obtain ⟨h2, d2, l2, hrun, hr⟩ :=
    run_refines scenario _ _ _ [] 0 [0, 1, 2] (mk_default_repr Heap.empty empty_wf)
      (mk_default_budget Heap.empty) (by decide) rfl
  refine ⟨l2, ?_⟩
  have e : scenarioState = (h2, d2) := by rw [scenarioState, hrun]; rfl
  rw [e]; exact hr

theorem scenario_valid : ValidInt scenarioState.1 scenarioState.2 :=
  let ⟨l, hr⟩ := scenario_repr
  ⟨l, _, hr⟩

theorem scenario_honest : Valid scenarioState.1 scenarioState.2 :=
  valid_of_validInt scenario_valid

/-- C16, as amended: in a valid state of fewer than `2 ^ 31` elements `end() - begin() == size()`; `*(begin() + i)` is `operator[](i)`, a live
element, for every `i < size()`; `++` applied to `begin()` reaches `end()` after exactly `size()`
steps; and `--` applied from `end()` visits the elements in reverse logical order and reaches
`begin()` after exactly `size()` steps. -/
theorem C16_begin_end_traversal (h : Heap α) (d : Deque) (hv : Valid h d) (hint : size d < 2 ^ 31) :
    (end_ d).diff (begin d) = size d ∧
    (∀ i, i < size d →
      ((begin d).add (toInt32 i)).load h = subscript h d i ∧ (subscript h d i).isSome = true) ∧
    Iter.inc^[size d] (begin d) = end_ d ∧
    (∀ k, k < size d → Iter.inc^[k] (begin d) ≠ end_ d) ∧
    (∀ k, k < size d → (Iter.dec^[k + 1] (end_ d)).load h = subscript h d (size d - 1 - k)) ∧
    Iter.dec^[size d] (end_ d) = begin d ∧
    (∀ k, k < size d → Iter.dec^[k] (end_ d) ≠ begin d) := by
  have hv : ValidInt h d := validInt_of_valid hv hint
  obtain ⟨l, m, hr⟩ := hv
  have hs := hr.1
  have h1 := hs.fits
  have h2 := hs.cap_rep
  have hsz : d.size_ = m.length := hr.2.1
  simp only [BLOCK_SIZE, SIZE_MOD] at h1 h2
  refine ⟨end_diff_begin hs, ?_, ?_, ?_, ?_, ?_, ?_⟩
  · intro i hi
    refine ⟨rfl, ?_⟩
    have hi2 : i < m.length := by rw [← hsz]; exact hi
    rw [subscript_eq hr i hi2, List.getElem?_eq_getElem hi2]; rfl
  · rw [begin_eq hs, end_eq hs]
    exact iterate_inc_at _ _ _ (by simp only [size, SIZE_MOD]; omega)
  · intro k hk
    simp only [size] at hk
    rw [begin_eq hs, end_eq hs, iterate_inc_at _ _ _ (by simp only [SIZE_MOD]; omega)]
    exact at_ne_of_ne _ _ _ (by omega)
  · intro k hk
    simp only [size] at hk ⊢
    rw [end_eq hs, iterate_dec_at _ _ _ (by omega) (by simp only [SIZE_MOD]; omega),
      subscript, begin_add hs _ (by omega)]
    have e : front d + d.size_ - (k + 1) = front d + (d.size_ - 1 - k) := by omega
    rw [e]
  · rw [end_eq hs, begin_eq hs, iterate_dec_at _ _ _ (by simp only [size]; omega)
      (by simp only [SIZE_MOD]; omega)]
    simp only [size, Nat.add_sub_cancel]
  · intro k hk
    simp only [size] at hk
    rw [end_eq hs, begin_eq hs, iterate_dec_at _ _ _ (by omega) (by simp only [SIZE_MOD]; omega)]
    exact at_ne_of_ne _ _ _ (by omega)

/-- C16 on the container `[0, 1, 2]` of the scenario. -/
theorem C16_on_scenario :
    Valid scenarioState.1 scenarioState.2 ∧ size scenarioState.2 < 2 ^ 31 ∧ size scenarioState.2 = 3 ∧
    ((end_ scenarioState.2).diff (begin scenarioState.2) = size scenarioState.2 ∧
    (∀ i, i < size scenarioState.2 →
      ((begin scenarioState.2).add (toInt32 i)).load scenarioState.1
          = subscript scenarioState.1 scenarioState.2 i ∧
        (subscript scenarioState.1 scenarioState.2 i).isSome = true) ∧
    Iter.inc^[size scenarioState.2] (begin scenarioState.2) = end_ scenarioState.2 ∧
    (∀ k, k < size scenarioState.2 → Iter.inc^[k] (begin scenarioState.2) ≠ end_ scenarioState.2) ∧
    (∀ k, k < size scenarioState.2 →
      (Iter.dec^[k + 1] (end_ scenarioState.2)).load scenarioState.1
        = subscript scenarioState.1 scenarioState.2 (size scenarioState.2 - 1 - k)) ∧
    Iter.dec^[size scenarioState.2] (end_ scenarioState.2) = begin scenarioState.2 ∧
    (∀ k, k < size scenarioState.2 →
      Iter.dec^[k] (end_ scenarioState.2) ≠ begin scenarioState.2)) :=
  ⟨scenario_honest, by decide, by decide, C16_begin_end_traversal _ _ scenario_honest (by decide)⟩

/-! ## Frame of the end operations -/

theorem load_at {h : Heap α} {d : Deque} {l : List (Option Nat)} (hs : Shape h d l)
    (row col : Nat) (hc : col < BLOCK_SIZE) :
    Iter.load h ⟨d.arr, row, col⟩ = peekLin h l (row * BLOCK_SIZE + col) := by
  have e1 : (row * BLOCK_SIZE + col) / BLOCK_SIZE = row := by
    simp only [BLOCK_SIZE] at *; omega
  have e2 : (row * BLOCK_SIZE + col) % BLOCK_SIZE = col := by
    simp only [BLOCK_SIZE] at *; omega
  have := load_eq_peekLin hs (row * BLOCK_SIZE + col)
  rw [e1, e2] at this
  exact this

theorem push_back_frame {h : Heap α} {d : Deque} (hv : ValidInt h d) (v : α)
    (hnf : full_at_back d = false) :
    ∃ h3, push_back noFault v h d = .ok (h3, { d with size_ := d.size_ + 1 }) ∧
      (∀ row col, live d row col →
        Iter.load h3 ⟨d.arr, row, col⟩ = Iter.load h ⟨d.arr, row, col⟩) ∧
      Iter.load h3 (end_ d) = some v := by
  obtain ⟨l, m, hr⟩ := hv
  have hs := hr.1
  have hfits := hs.fits
  have hfull : ¬ full_at_back d = true := by rw [hnf]; decide
  have hroom : (front d + d.size_) / BLOCK_SIZE < d.capacity := by
    have hne : (front d + d.size_) / BLOCK_SIZE ≠ d.capacity :=
      fun e => hfull ((full_at_back_iff hs).2 e)
    simp only [front, BLOCK_SIZE] at hne hfits ⊢
    omega
  obtain ⟨h2, l2, nr, htry, hs2, hpk, heff2, hkeep2⟩ :=
    push_back_try_ok hs noFault v (Or.inl rfl) rfl hroom d.arr (Or.inl rfl)
  rw [if_pos rfl] at htry
  refine ⟨h2, ?_, ?_, ?_⟩
  · unfold push_back
    rw [if_neg hfull]
    unfold push_back_body
    rw [htry]
  · intro row col hl
    rw [load_at hs2 row col hl.1, load_at hs row col hl.1, hpk, if_neg (by have := hl.2.2; omega)]
  · rw [end_eq hs, load_eq_peekLin hs2, hpk, if_pos rfl]

theorem push_front_frame {h : Heap α} {d : Deque} (hv : ValidInt h d) (v : α)
    (hnz : ¬ (d.min_row = 0 ∧ d.min_col = 0)) :
    ∃ h3, push_front noFault v h d = .ok (h3, withFront d (front d - 1) (d.size_ + 1)) ∧
      (∀ row col, live d row col →
        Iter.load h3 ⟨d.arr, row, col⟩ = Iter.load h ⟨d.arr, row, col⟩) ∧
      Iter.load h3 (begin d).dec = some v := by
  obtain ⟨l, m, hr⟩ := hv
  have hs := hr.1
  have hpos1 : 0 < front d := by
    simp only [front, BLOCK_SIZE]
    omega
  obtain ⟨h2, l2, nr, htry, hs2, hpk, heff2, hkeep2⟩ :=
    push_front_try_ok hs noFault v (Or.inl rfl) rfl hpos1 d.arr (Or.inl rfl)
  rw [if_pos rfl] at htry
  refine ⟨h2, ?_, ?_, ?_⟩
  · unfold push_front
    rw [if_neg hnz]
    unfold push_front_body
    rw [htry]
  · intro row col hl
    rw [load_at hs2 row col hl.1, load_at hs row col hl.1, hpk, if_neg (by have := hl.2.1; omega)]
  · rw [begin_dec hs hpos1, load_eq_peekLin hs2, hpk, if_pos rfl]

theorem valid_nonempty {h : Heap α} {d : Deque} (hv : ValidInt h d) (hpos : 0 < d.size_) :
    ∃ l x m, Repr h d l (x :: m) := by
  obtain ⟨l, m, hr⟩ := hv
  rcases m with _ | ⟨x, m⟩
  · have := hr.2.1; simp at this; omega
  · exact ⟨l, x, m, hr⟩

theorem valid_nonempty_back {h : Heap α} {d : Deque} (hv : ValidInt h d) (hpos : 0 < d.size_) :
    ∃ l m x, Repr h d l (m ++ [x]) := by
  obtain ⟨l, m, hr⟩ := hv
  rcases List.eq_nil_or_concat m with rfl | ⟨m1, x, hmx⟩
  · have := hr.2.1; simp at this; omega
  · rw [List.concat_eq_append] at hmx
    subst hmx
    exact ⟨l, m1, x, hr⟩

theorem pop_back_frame {h : Heap α} {d : Deque} (hv : ValidInt h d) (hpos : 0 < d.size_) :
    ∃ h3, pop_back h d = .ok (h3, { d with size_ := d.size_ - 1 }) ∧
      (∀ row col, live { d with size_ := d.size_ - 1 } row col →
        Iter.load h3 ⟨d.arr, row, col⟩ = Iter.load h ⟨d.arr, row, col⟩) := by
  obtain ⟨l, m, x, hr⟩ := valid_nonempty_back hv hpos
  obtain ⟨h3, hpop, hr3, hpk, _⟩ := pop_back_ok hr
  refine ⟨h3, hpop, fun row col hl => ?_⟩
  have h1 := hl.2.1
  have h2 := hl.2.2
  rw [load_at hr3.1 row col hl.1, load_at hr.1 row col hl.1, hpk, if_neg]
  show ¬ row * BLOCK_SIZE + col = front d + d.size_ - 1
  have h2b : row * BLOCK_SIZE + col < front d + (d.size_ - 1) := h2
  omega

theorem pop_front_frame {h : Heap α} {d : Deque} (hv : ValidInt h d) (hpos : 0 < d.size_) :
    ∃ h3, pop_front h d = .ok (h3, withFront d (front d + 1) (d.size_ - 1)) ∧
      (∀ row col, live (withFront d (front d + 1) (d.size_ - 1)) row col →
        Iter.load h3 ⟨d.arr, row, col⟩ = Iter.load h ⟨d.arr, row, col⟩) := by
  obtain ⟨l, x, m, hr⟩ := valid_nonempty hv hpos
  obtain ⟨h3, hpop, hr3, hpk, _⟩ := pop_front_ok hr
  refine ⟨h3, hpop, fun row col hl => ?_⟩
  have h1 := hl.2.1
  rw [front_withFront] at h1
  have e := load_at hr3.1 row col hl.1
  rw [show (withFront d (front d + 1) (d.size_ - 1)).arr = d.arr from rfl] at e
  rw [e, load_at hr.1 row col hl.1, hpk, if_neg (by omega)]
/-- C18, as amended: in a valid state of fewer than `2 ^ 31` elements, a `push_back` or `push_front` that does not relocate, and a `pop_back`
or `pop_front` on a non-empty container, succeed, keep `arr` and `capacity`, and leave the element
of every cell `(row, col)` that is live before and after the call unchanged; the cells live after
the call are those live before it plus the pushed one, respectively minus the popped one. -/
theorem C18_end_operations_frame (h : Heap α) (d : Deque) (v : α) (hv : Valid h d) (hint : size d < 2 ^ 31) :
    (full_at_back d = false →
      ∃ h3 d3, push_back noFault v h d = .ok (h3, d3) ∧ d3.arr = d.arr ∧
        d3.capacity = d.capacity ∧
        (∀ row col, live d row col →
          Iter.load h3 ⟨d.arr, row, col⟩ = Iter.load h ⟨d.arr, row, col⟩) ∧
        (∀ row col, live d3 row col ↔
          live d row col ∨ (col < BLOCK_SIZE ∧ row * BLOCK_SIZE + col = front d + d.size_))) ∧
    (¬ (d.min_row = 0 ∧ d.min_col = 0) →
      ∃ h3 d3, push_front noFault v h d = .ok (h3, d3) ∧ d3.arr = d.arr ∧
        d3.capacity = d.capacity ∧
        (∀ row col, live d row col →
          Iter.load h3 ⟨d.arr, row, col⟩ = Iter.load h ⟨d.arr, row, col⟩) ∧
        (∀ row col, live d3 row col ↔
          live d row col ∨ (col < BLOCK_SIZE ∧ row * BLOCK_SIZE + col + 1 = front d))) ∧
    (0 < d.size_ →
      ∃ h3 d3, pop_back h d = .ok (h3, d3) ∧ d3.arr = d.arr ∧ d3.capacity = d.capacity ∧
        (∀ row col, live d3 row col →
          Iter.load h3 ⟨d.arr, row, col⟩ = Iter.load h ⟨d.arr, row, col⟩) ∧
        (∀ row col, live d row col ↔
          live d3 row col ∨ (col < BLOCK_SIZE ∧ row * BLOCK_SIZE + col + 1 = front d + d.size_))) ∧
    (0 < d.size_ →
      ∃ h3 d3, pop_front h d = .ok (h3, d3) ∧ d3.arr = d.arr ∧ d3.capacity = d.capacity ∧
        (∀ row col, live d3 row col →
          Iter.load h3 ⟨d.arr, row, col⟩ = Iter.load h ⟨d.arr, row, col⟩) ∧
        (∀ row col, live d row col ↔
          live d3 row col ∨ (col < BLOCK_SIZE ∧ row * BLOCK_SIZE + col = front d))) := by
  have hv : ValidInt h d := validInt_of_valid hv hint
  refine ⟨fun hnf => ?_, fun hnz => ?_, fun hpos => ?_, fun hpos => ?_⟩
  · obtain ⟨h3, hp, hfr, _⟩ := push_back_frame hv v hnf
    refine ⟨h3, _, hp, rfl, rfl, hfr, fun row col => ?_⟩
    simp only [live, front]
    constructor
    · rintro ⟨h1, h2, h3⟩; omega
    · rintro (⟨h1, h2, h3⟩ | ⟨h1, h2⟩) <;> omega
  · obtain ⟨h3, hp, hfr, _⟩ := push_front_frame hv v hnz
    refine ⟨h3, _, hp, rfl, rfl, hfr, fun row col => ?_⟩
    have hpos1 : 0 < front d := by
      simp only [front, BLOCK_SIZE]
      omega
    simp only [live, front_withFront]
    show (col < BLOCK_SIZE ∧ front d - 1 ≤ row * BLOCK_SIZE + col ∧
      row * BLOCK_SIZE + col < front d - 1 + (d.size_ + 1)) ↔ _
    constructor
    · rintro ⟨h1, h2, h3⟩; omega
    · rintro (⟨h1, h2, h3⟩ | ⟨h1, h2⟩) <;> omega
  · obtain ⟨h3, hp, hfr⟩ := pop_back_frame hv hpos
    refine ⟨h3, _, hp, rfl, rfl, hfr, fun row col => ?_⟩
    simp only [live, front]
    constructor
    · rintro ⟨h1, h2, h3⟩; omega
    · rintro (⟨h1, h2, h3⟩ | ⟨h1, h2⟩) <;> omega
  · obtain ⟨h3, hp, hfr⟩ := pop_front_frame hv hpos
    refine ⟨h3, _, hp, rfl, rfl, hfr, fun row col => ?_⟩
    simp only [live, front_withFront]
    show _ ↔ (col < BLOCK_SIZE ∧ front d + 1 ≤ row * BLOCK_SIZE + col ∧
      row * BLOCK_SIZE + col < front d + 1 + (d.size_ - 1)) ∨ _
    constructor
    · rintro ⟨h1, h2, h3⟩; omega
    · rintro (⟨h1, h2, h3⟩ | ⟨h1, h2⟩) <;> omega

/-- C18 on the container `[0, 1, 2]` of the scenario: `push_back(9)` does not relocate there and
keeps every live cell, and so does `pop_front()`. -/
theorem C18_on_scenario :
    Valid scenarioState.1 scenarioState.2 ∧ size scenarioState.2 < 2 ^ 31 ∧
    (∃ h3 d3, push_back noFault 9 scenarioState.1 scenarioState.2 = .ok (h3, d3) ∧
      d3.arr = scenarioState.2.arr ∧ d3.capacity = scenarioState.2.capacity ∧
      (∀ row col, live scenarioState.2 row col →
        Iter.load h3 ⟨scenarioState.2.arr, row, col⟩
          = Iter.load scenarioState.1 ⟨scenarioState.2.arr, row, col⟩) ∧
      (∀ row col, live d3 row col ↔
        live scenarioState.2 row col ∨
          (col < BLOCK_SIZE ∧
            row * BLOCK_SIZE + col = front scenarioState.2 + scenarioState.2.size_))) ∧
    (∃ h3 d3, pop_front scenarioState.1 scenarioState.2 = .ok (h3, d3) ∧
      d3.arr = scenarioState.2.arr ∧ d3.capacity = scenarioState.2.capacity ∧
      (∀ row col, live d3 row col →
        Iter.load h3 ⟨scenarioState.2.arr, row, col⟩
          = Iter.load scenarioState.1 ⟨scenarioState.2.arr, row, col⟩) ∧
      (∀ row col, live scenarioState.2 row col ↔
        live d3 row col ∨
          (col < BLOCK_SIZE ∧ row * BLOCK_SIZE + col = front scenarioState.2))) :=
  ⟨scenario_honest, by decide,
    (C18_end_operations_frame scenarioState.1 scenarioState.2 9 scenario_honest (by decide)).1 (by decide),
    (C18_end_operations_frame scenarioState.1 scenarioState.2 9 scenario_honest (by decide)).2.2.2
      (by decide)⟩

/-! ## Sized constructors -/

theorem setSlot_newBlock {h : Heap α} {arr row : Nat} {l : List (Option Nat)}
    (hi : h.index arr = some l) (hrow : row < l.length) :
    (h.newBlock).1.setSlot arr row (some (h.newBlock).2) = some (h.withNewBlock arr l row) := by
  simp [Heap.newBlock, Heap.setSlot, hi, hrow, Heap.withNewBlock]

theorem init_rows_ok (arr cap : Nat) :
    ∀ (n row : Nat) (h : Heap α) (l : List (Option Nat)),
      Shape h ⟨0, 0, 0, cap, arr⟩ l → row + n = cap →
      (∀ r, row ≤ r → r < cap → l[r]? = some none) →
      (∀ r, r < row → ∃ b, l[r]? = some (some b)) →
      ∃ h2 l2, init_rows arr n row h = some h2 ∧ Shape h2 ⟨0, 0, 0, cap, arr⟩ l2 ∧
        (∀ r, r < cap → ∃ b, l2[r]? = some (some b)) ∧
        (∀ q, peekLin h2 l2 q = peekLin h l q) ∧
        Effect h h2 arr arr l l2 := by
  intro n
  induction n with
  | zero =>
    intro row h l hs hrow _ hfull
    exact ⟨h, l, rfl, hs, fun r hr => hfull r (by omega), fun _ => rfl, effect_refl h arr l⟩
  | succ n ih =>
    intro row h l hs hrow hnull hfull
    have hlen : l.length = cap := hs.length_eq
    have hl : l[row]? = some none := hnull row le_rfl (by omega)
    have hs1 := shape_withNewBlock hs hl
    obtain ⟨h2, l2, hrun, hs2, hall, hpk, heff⟩ :=
      ih (row + 1) (h.withNewBlock arr l row) (l.set row (some h.nextBlock)) hs1 (by omega)
        (by
          intro r hr1 hr2
          rw [List.getElem?_set, if_neg (by omega)]
          exact hnull r (by omega) hr2)
        (by
          intro r hr
          rw [List.getElem?_set]
          by_cases e : row = r
          · rw [if_pos e]; exact ⟨h.nextBlock, by simp; omega⟩
          · rw [if_neg e]; exact hfull r (by omega))
    refine ⟨h2, l2, ?_, hs2, hall, ?_, effect_trans (effect_withNewBlock h arr l row) heff⟩
    · rw [init_rows, setSlot_newBlock hs.index_eq (by omega)]
      exact hrun
    · intro q
      rw [hpk q]
      exact peekLin_withNewBlock hs hl q

theorem shape_newIndex (h0 : Heap α) (hwf : h0.WF) (cap : Nat)
    (hcap : cap * BLOCK_SIZE < SIZE_MOD) :
    Shape (h0.newIndex (List.replicate cap none)).1
      ⟨0, 0, 0, cap, (h0.newIndex (List.replicate cap none)).2⟩ (List.replicate cap none) := by
  constructor
  · show 0 < BLOCK_SIZE; decide
  · exact hcap
  · show 0 < 2 ^ 31; omega
  · show 0 * BLOCK_SIZE + 0 + 0 ≤ cap * BLOCK_SIZE; omega
  · simp [Heap.newIndex]
  · simp [Heap.newIndex]
  · simp
  · intro r b hr
    rw [List.getElem?_replicate] at hr
    split at hr <;> cases hr
  · intro r r2 b hr
    rw [List.getElem?_replicate] at hr
    split at hr <;> cases hr
  · intro a ha
    simp only [Heap.newIndex] at ha ⊢
    have hne : a ≠ h0.nextIndex := by omega
    simpa [Function.update_noteq hne] using hwf.1 a (by omega)
  · exact hwf.2

theorem peekLin_replicate (h : Heap α) (cap q : Nat) :
    peekLin h (List.replicate cap none) q = none := by
  unfold peekLin
  rw [List.getElem?_replicate]
  by_cases e : q / BLOCK_SIZE < cap
  · rw [if_pos e]
  · rw [if_neg e]

theorem init_ok (h0 : Heap α) (hwf : h0.WF) (cap : Nat) (hcap : cap * BLOCK_SIZE < SIZE_MOD) :
    ∃ h1 l1, init h0 cap = some (h1, h0.nextIndex) ∧ Shape h1 ⟨0, 0, 0, cap, h0.nextIndex⟩ l1 ∧
      (∀ r, r < cap → ∃ b, l1[r]? = some (some b)) ∧ (∀ q, peekLin h1 l1 q = none) ∧
      (∀ a, a < h0.nextIndex → h1.index a = h0.index a) ∧
      (∀ b, b < h0.nextBlock → h1.block b = h0.block b) ∧
      (∀ (r b : Nat), l1[r]? = some (some b) → h0.nextBlock ≤ b) ∧
      h0.nextBlock ≤ h1.nextBlock := by
  have hs0 := shape_newIndex h0 hwf cap hcap
  obtain ⟨h2, l2, hrun, hs2, hall, hpk, heff⟩ :=
    init_rows_ok (α := α) h0.nextIndex cap cap 0 _ _ hs0 (by omega)
      (by
        intro r _ hr
        rw [List.getElem?_replicate, if_pos hr])
      (by intro r hr; omega)
  refine ⟨h2, l2, ?_, hs2, hall, ?_, ?_, ?_, ?_, heff.nextBlock_le⟩
  · unfold init
    show (match init_rows h0.nextIndex cap 0 (h0.newIndex (List.replicate cap none)).1 with
      | none => none
      | some h2 => some (h2, h0.nextIndex)) = _
    rw [hrun]
  · intro q
    rw [hpk q]
    exact peekLin_replicate _ cap q
  · intro a ha
    have hne : a ≠ h0.nextIndex := by omega
    rw [heff.index_other a hne (by simp only [Heap.newIndex]; omega)]
    simp [Heap.newIndex, Function.update_noteq hne]
  · intro b hb
    rw [heff.block_other b hb (by
      intro r hr
      rw [List.getElem?_replicate] at hr
      split at hr <;> cases hr)]
    rfl
  · intro r b hr
    rcases heff.block_origin r b hr with ⟨r0, h0r⟩ | hge
    · rw [List.getElem?_replicate] at h0r
      split at h0r <;> cases h0r
    · exact hge

theorem eq_at_iff (a p q : Nat) :
    Iter.eq ⟨a, p / BLOCK_SIZE, p % BLOCK_SIZE⟩ ⟨a, q / BLOCK_SIZE, q % BLOCK_SIZE⟩ = true ↔ p = q := by
  simp only [Iter.eq, true_and, decide_eq_true_eq, BLOCK_SIZE]
  omega

theorem fill_loop_ok (elem : α) (arr n : Nat) (hn : n < SIZE_MOD) (d : Deque)
    (hd : d.arr = arr) (l : List (Option Nat))
    (hall : ∀ q, q < n → ∃ b, l[q / BLOCK_SIZE]? = some (some b)) :
    ∀ (j k fuel : Nat) (h : Heap α), k + j = n → j ≤ fuel → Shape h d l →
      (∀ q, q < k → peekLin h l q = some elem) →
      ∃ h2, fill_loop elem ⟨arr, n / BLOCK_SIZE, n % BLOCK_SIZE⟩ fuel h
          ⟨arr, k / BLOCK_SIZE, k % BLOCK_SIZE⟩ = some (.ok h2) ∧
        Shape h2 d l ∧ (∀ q, q < n → peekLin h2 l q = some elem) ∧
        (∀ q, n ≤ q → peekLin h2 l q = peekLin h l q) ∧ Effect h h2 arr arr l l := by
  intro j
  induction j with
  | zero =>
    intro k fuel h hk _ hs hpk
    have hkn : k = n := by omega
    subst hkn
    refine ⟨h, ?_, hs, hpk, fun _ _ => rfl, effect_refl h arr l⟩
    cases fuel with
    | zero => rw [fill_loop, if_pos ((eq_at_iff _ _ _).2 rfl)]
    | succ f => rw [fill_loop, if_pos ((eq_at_iff _ _ _).2 rfl)]
  | succ j ih =>
    intro k fuel h hk hfuel hs hpk
    obtain ⟨f, rfl⟩ : ∃ f, fuel = f + 1 := ⟨fuel - 1, by omega⟩
    have hne : ¬ Iter.eq ⟨arr, k / BLOCK_SIZE, k % BLOCK_SIZE⟩
        ⟨arr, n / BLOCK_SIZE, n % BLOCK_SIZE⟩ = true := by
      rw [eq_at_iff]; omega
    obtain ⟨b, hb⟩ := hall k (by omega)
    obtain ⟨cs, hcs, hc⟩ := construct_eq hs elem hb
    rw [hd] at hc
    obtain ⟨hs2, hpk2⟩ := write_ok hs (some elem) hb hcs
    obtain ⟨h3, hrun, hs3, hpk3, hout3, heff3⟩ := ih (k + 1) f _ (by omega) (by omega) hs2 (by
      intro q hq
      rw [hpk2]
      by_cases e : q = k
      · rw [if_pos e]
      · rw [if_neg e]; exact hpk q (by omega))
    refine ⟨h3, ?_, hs3, hpk3, ?_, effect_trans (effect_withBlock h arr _ hb) heff3⟩
    · rw [fill_loop, if_neg hne, hc]
      show fill_loop elem _ f _ (Iter.inc ⟨arr, k / BLOCK_SIZE, k % BLOCK_SIZE⟩) = _
      rw [inc_at arr k (by omega)]
      exact hrun
    · intro q hq
      rw [hout3 q hq, hpk2, if_neg (by omega)]

theorem sized_capacity (n : Nat) (hn : n < 2 ^ 31) :
    wsub (wadd (toSizeT (n : Int)) BLOCK_SIZE) 1 / BLOCK_SIZE = (n + 63) / 64 ∧
    toSizeT (n : Int) = n := by
  simp only [toSizeT, wadd, wsub, BLOCK_SIZE, SIZE_MOD]
  omega

theorem mk_filled_ok (h0 : Heap α) (hwf : h0.WF) (n : Nat) (hn : n < 2 ^ 31) (v : α) :
    ∃ h l, mk_filled (n : Int) v h0 = some (.ok (h, ⟨0, 0, n, (n + 63) / 64, h0.nextIndex⟩)) ∧
      Repr h ⟨0, 0, n, (n + 63) / 64, h0.nextIndex⟩ l (List.replicate n v) ∧
      (∀ a, a < h0.nextIndex → h.index a = h0.index a) ∧
      (∀ b, b < h0.nextBlock → h.block b = h0.block b) := by
  obtain ⟨hc1, hc2⟩ := sized_capacity n hn
  have hcap : (n + 63) / 64 * BLOCK_SIZE < SIZE_MOD := by
    simp only [BLOCK_SIZE, SIZE_MOD]; omega
  obtain ⟨h1, l1, hinit, hs1, hall, hnone, hfi, hfb, hfresh, hnb⟩ := init_ok h0 hwf ((n + 63) / 64) hcap
  have hs1b : Shape h1 ⟨0, 0, n, (n + 63) / 64, h0.nextIndex⟩ l1 := by
    refine { hs1 with size_int := hn, fits := ?_ }
    show 0 * BLOCK_SIZE + 0 + n ≤ (n + 63) / 64 * BLOCK_SIZE
    simp only [BLOCK_SIZE]; omega
  have hall2 : ∀ q, q < n → ∃ b, l1[q / BLOCK_SIZE]? = some (some b) := by
    intro q hq
    exact hall _ (by simp only [BLOCK_SIZE]; omega)
  obtain ⟨h2, hrun, hs2, hpk, _, heff⟩ :=
    fill_loop_ok v h0.nextIndex n (by simp only [SIZE_MOD]; omega)
      ⟨0, 0, n, (n + 63) / 64, h0.nextIndex⟩ rfl l1 hall2 n 0 n h1 (by omega) le_rfl hs1b
      (by intro q hq; omega)
  have hend : end_ ⟨0, 0, n, (n + 63) / 64, h0.nextIndex⟩
      = ⟨h0.nextIndex, n / BLOCK_SIZE, n % BLOCK_SIZE⟩ := by
    rw [end_eq hs1b]
    simp [front]
  have hbeg : begin ⟨0, 0, n, (n + 63) / 64, h0.nextIndex⟩
      = ⟨h0.nextIndex, 0 / BLOCK_SIZE, 0 % BLOCK_SIZE⟩ := rfl
  refine ⟨h2, l1, ?_, ⟨hs2, by simp, ?_⟩, ?_, ?_⟩
  · unfold mk_filled
    rw [hc1, hc2]
    unfold mk_with
    rw [hinit]
    simp only []
    rw [hend, hbeg, hrun]
  · intro i hi
    simp only [List.length_replicate] at hi
    have e : front ⟨0, 0, n, (n + 63) / 64, h0.nextIndex⟩ + i = i := by simp [front]
    rw [e, hpk i hi, List.getElem?_replicate, if_pos hi]
  · intro a ha
    have hne : a ≠ h0.nextIndex := by omega
    rw [heff.index_other a hne (by have := hs1.arr_lt; exact lt_trans ha this), hfi a ha]
  · intro b hb
    rw [heff.block_other b (by omega) (fun r hr => by have := hfresh r b hr; omega), hfb b hb]

theorem begin_eq_end_of_empty {h : Heap α} {d : Deque} {l : List (Option Nat)}
    (hs : Shape h d l) (hz : d.size_ = 0) : (begin d).eq (end_ d) = true := by
  rw [end_eq hs, begin_eq hs, hz, Nat.add_zero]
  exact (eq_at_iff _ _ _).2 rfl

/-- C11: the default constructor yields `size() == 0` with `begin() == end()`; for every `n` in
the non-negative range of `int`, `Deque(n)` yields `size() == n` with every `operator[](i)`,
`i < n`, the default-constructed element, and `Deque(n, v)` yields `size() == n` with every
`operator[](i)`, `i < n`, equal to `v`. -/
theorem C11_constructors (h0 : Heap α) (n : Nat) (v dflt : α) (hwf : h0.WF) (hn : n < 2 ^ 31) :
    (size (mk_default h0).2 = 0 ∧
      (begin (mk_default h0).2).eq (end_ (mk_default h0).2) = true) ∧
    (∃ h d, mk_sized (n : Int) dflt h0 = some (.ok (h, d)) ∧ size d = n ∧
      ∀ i, i < n → subscript h d i = some dflt) ∧
    (∃ h d, mk_filled (n : Int) v h0 = some (.ok (h, d)) ∧ size d = n ∧
      ∀ i, i < n → subscript h d i = some v) := by
  refine ⟨⟨rfl, begin_eq_end_of_empty (mk_default_repr h0 hwf).1 rfl⟩, ?_, ?_⟩
  · obtain ⟨h, l, hmk, hr, _⟩ := mk_filled_ok h0 hwf n hn dflt
    refine ⟨h, _, hmk, rfl, fun i hi => ?_⟩
    rw [subscript_eq hr i (by simpa using hi), List.getElem?_replicate, if_pos hi]
  · obtain ⟨h, l, hmk, hr, _⟩ := mk_filled_ok h0 hwf n hn v
    refine ⟨h, _, hmk, rfl, fun i hi => ?_⟩
    rw [subscript_eq hr i (by simpa using hi), List.getElem?_replicate, if_pos hi]

/-- C11 in the empty heap with `n = 3`, `v = 7` and default value `0`. -/
theorem C11_three_elements :
    (Heap.empty : Heap Nat).WF ∧ (3 : Nat) < 2 ^ 31 ∧
    ((size (mk_default (Heap.empty : Heap Nat)).2 = 0 ∧
      (begin (mk_default (Heap.empty : Heap Nat)).2).eq
        (end_ (mk_default (Heap.empty : Heap Nat)).2) = true) ∧
    (∃ h d, mk_sized ((3 : Nat) : Int) 0 (Heap.empty : Heap Nat) = some (.ok (h, d)) ∧
      size d = 3 ∧ ∀ i, i < 3 → subscript h d i = some 0) ∧
    (∃ h d, mk_filled ((3 : Nat) : Int) 7 (Heap.empty : Heap Nat) = some (.ok (h, d)) ∧
      size d = 3 ∧ ∀ i, i < 3 → subscript h d i = some 7)) :=
  ⟨empty_wf, by decide, C11_constructors Heap.empty 3 7 0 empty_wf (by decide)⟩

theorem push_after_filled_ok (h0 : Heap α) (hwf : h0.WF) (n : Nat) (hn : n + 1 < 2 ^ 31)
    (hpos : 0 < n) (v x : α) :
    ∃ h d, mk_filled (n : Int) v h0 = some (.ok (h, d)) ∧
      (∃ h3 d3, push_back noFault x h d = .ok (h3, d3) ∧ size d3 = n + 1 ∧
        ∀ i, i < n + 1 → subscript h3 d3 i = (List.replicate n v ++ [x])[i]?) ∧
      (∃ h3 d3, push_front noFault x h d = .ok (h3, d3) ∧ size d3 = n + 1 ∧
        ∀ i, i < n + 1 → subscript h3 d3 i = (x :: List.replicate n v)[i]?) := by
  obtain ⟨h, l, hmk, hr, _⟩ := mk_filled_ok h0 hwf n (by omega) v
  have hcpos : 0 < (⟨0, 0, n, (n + 63) / 64, h0.nextIndex⟩ : Deque).capacity := by
    show 0 < (n + 63) / 64; omega
  have hcap : ((⟨0, 0, n, (n + 63) / 64, h0.nextIndex⟩ : Deque).capacity
      + 2 * growth (⟨0, 0, n, (n + 63) / 64, h0.nextIndex⟩ : Deque).capacity) * BLOCK_SIZE
      < SIZE_MOD := by
    show ((n + 63) / 64 + 2 * growth ((n + 63) / 64)) * BLOCK_SIZE < SIZE_MOD
    simp only [growth, BLOCK_SIZE, SIZE_MOD]; omega
  refine ⟨h, _, hmk, ?_, ?_⟩
  · obtain ⟨h3, d3, l3, k, hp, hr3, _⟩ := push_back_ok hr noFault rfl rfl rfl x hcpos hcap
    have hr3b := hr3 hn
    refine ⟨h3, d3, hp, by rw [size, hr3b.2.1]; simp, fun i hi => ?_⟩
    exact subscript_eq hr3b i (by simpa using hi)
  · obtain ⟨h3, d3, l3, k, hp, hr3, _⟩ := push_front_ok hr noFault rfl rfl rfl x hcpos hcap
    have hr3b := hr3 hn
    refine ⟨h3, d3, hp, by rw [size, hr3b.2.1]; simp, fun i hi => ?_⟩
    exact subscript_eq hr3b i (by simpa using hi)

/-- C12 fails for `n = 0`: `Deque(0, 7)` has `capacity == 0`, `relocate` then adds `0` slots, and
both `push_back(1)` and `push_front(1)` index the empty index array. -/
theorem C12_push_on_empty_sized_is_undefined :
    mk_filled 0 7 (Heap.empty : Heap Nat) = some (.ok emptySized) ∧
    emptySized.2.capacity = 0 ∧
    relocate noFault emptySized.1 emptySized.2
      = .ok ((emptySized.1.newIndex []).1, ⟨0, 0, 0, 0, 1⟩) ∧
    push_back noFault 1 emptySized.1 emptySized.2 = .ub ∧
    push_front noFault 1 emptySized.1 emptySized.2 = .ub :=
  ⟨rfl, rfl, rfl, rfl, rfl⟩

/-! ## insert and erase -/

theorem sub_one_at (a p : Nat) (hp : 0 < p) (hlt : p < SIZE_MOD) :
    Iter.sub ⟨a, p / BLOCK_SIZE, p % BLOCK_SIZE⟩ 1
      = ⟨a, (p - 1) / BLOCK_SIZE, (p - 1) % BLOCK_SIZE⟩ := by
  simp only [Iter.sub, toSizeT, wadd, wsub, wmul, BLOCK_SIZE, SIZE_MOD] at *
  rw [Iter.mk.injEq]; exact ⟨rfl, by omega, by omega⟩

theorem add_one_at (a p : Nat) (hlt : p + 1 < SIZE_MOD) :
    Iter.add ⟨a, p / BLOCK_SIZE, p % BLOCK_SIZE⟩ 1
      = ⟨a, (p + 1) / BLOCK_SIZE, (p + 1) % BLOCK_SIZE⟩ := by
  simp only [Iter.add, toSizeT, wadd, wmul, BLOCK_SIZE, SIZE_MOD] at *
  rw [Iter.mk.injEq]; exact ⟨rfl, by omega, by omega⟩

/-- Swapping the elements at the linear positions `p` and `q` of a well-formed state. -/
theorem swap_ok {h : Heap α} {d : Deque} {l : List (Option Nat)} (hs : Shape h d l)
    {p q : Nat} {x y : α} (hx : peekLin h l p = some x) (hy : peekLin h l q = some y) :
    ∃ h2, swapCells h ⟨d.arr, p / BLOCK_SIZE, p % BLOCK_SIZE⟩
        ⟨d.arr, q / BLOCK_SIZE, q % BLOCK_SIZE⟩ = some h2 ∧
      Shape h2 d l ∧
      (∀ r, peekLin h2 l r = if r = q then some x else if r = p then some y else peekLin h l r) ∧
      Effect h h2 d.arr d.arr l l := by
  obtain ⟨b1, hb1⟩ := peekLin_some hx
  obtain ⟨b2, hb2⟩ := peekLin_some hy
  obtain ⟨cs1, hcs1, hc1⟩ := construct_eq hs y hb1
  obtain ⟨hs1, hpk1⟩ := write_ok hs (some y) hb1 hcs1
  obtain ⟨cs2, hcs2, hc2⟩ := construct_eq hs1 x hb2
  obtain ⟨hs2, hpk2⟩ := write_ok hs1 (some x) hb2 hcs2
  refine ⟨_, ?_, hs2, ?_, effect_trans (effect_withBlock h d.arr _ hb1)
    (effect_withBlock _ d.arr _ hb2)⟩
  · unfold swapCells
    rw [load_eq_peekLin hs, hx, load_eq_peekLin hs, hy]
    simp only []
    rw [hc1]
    simp only []
    rw [hc2]
  · intro r
    rw [hpk2, hpk1]

theorem getElem?_insertAt (m : List α) (p : Nat) (v : α) (hp : p ≤ m.length) (i : Nat) :
    (m.take p ++ v :: m.drop p)[i]?
      = if i < p then m[i]? else if i = p then some v else m[i - 1]? := by
  have hlen : (m.take p).length = p := by simp [hp]
  by_cases h1 : i < p
  · rw [if_pos h1, List.getElem?_append_left (by omega), List.getElem?_take_of_lt h1]
  · rw [if_neg h1, List.getElem?_append_right (by omega), hlen]
    by_cases h2 : i = p
    · subst h2; simp
    · rw [if_neg h2]
      obtain ⟨k, hk⟩ : ∃ k, i - p = k + 1 := ⟨i - p - 1, by omega⟩
      rw [hk, List.getElem?_cons_succ, List.getElem?_drop]
      congr 1; omega

theorem getElem?_eraseAt (m : List α) (p : Nat) (hp : p < m.length) (i : Nat) :
    (m.take p ++ m.drop (p + 1))[i]? = if i < p then m[i]? else m[i + 1]? := by
  have hlen : (m.take p).length = p := by simp; omega
  by_cases h1 : i < p
  · rw [if_pos h1, List.getElem?_append_left (by omega), List.getElem?_take_of_lt h1]
  · rw [if_neg h1, List.getElem?_append_right (by omega), hlen, List.getElem?_drop]
    congr 1; omega

theorem insert_loop_ok {d : Deque} {l : List (Option Nat)} (m : List α) (v : α) (p n F : Nat)
    (hm : m.length = n) (hF : F + n < SIZE_MOD) :
    ∀ (c fuel : Nat) (h : Heap α), p + c ≤ n → c ≤ fuel → Shape h d l →
      (∀ i, i ≤ n → peekLin h l (F + i)
        = if i < p + c then m[i]? else if i = p + c then some v else m[i - 1]?) →
      ∃ h2, insert_loop ⟨d.arr, (F + p) / BLOCK_SIZE, (F + p) % BLOCK_SIZE⟩ fuel h
          ⟨d.arr, (F + (p + c)) / BLOCK_SIZE, (F + (p + c)) % BLOCK_SIZE⟩ = some (.ok h2) ∧
        Shape h2 d l ∧
        (∀ i, i ≤ n → peekLin h2 l (F + i)
          = if i < p then m[i]? else if i = p then some v else m[i - 1]?) ∧
        (∀ q, q < F ∨ F + n < q → peekLin h2 l q = peekLin h l q) ∧
        Effect h h2 d.arr d.arr l l := by
  intro c
  induction c with
  | zero =>
    intro fuel h _ _ hs hpk
    refine ⟨h, ?_, hs, hpk, fun _ _ => rfl, effect_refl h d.arr l⟩
    have e : Iter.eq ⟨d.arr, (F + (p + 0)) / BLOCK_SIZE, (F + (p + 0)) % BLOCK_SIZE⟩
        ⟨d.arr, (F + p) / BLOCK_SIZE, (F + p) % BLOCK_SIZE⟩ = true := (eq_at_iff _ _ _).2 rfl
    cases fuel with
    | zero => rw [insert_loop, if_pos e]
    | succ f => rw [insert_loop, if_pos e]
  | succ c ih =>
    intro fuel h hle hfuel hs hpk
    obtain ⟨f, rfl⟩ : ∃ f, fuel = f + 1 := ⟨fuel - 1, by omega⟩
    have hne : ¬ Iter.eq ⟨d.arr, (F + (p + (c + 1))) / BLOCK_SIZE, (F + (p + (c + 1))) % BLOCK_SIZE⟩
        ⟨d.arr, (F + p) / BLOCK_SIZE, (F + p) % BLOCK_SIZE⟩ = true := by
      rw [eq_at_iff]; omega
    have hx : peekLin h l (F + (p + (c + 1))) = some v := by
      rw [hpk _ hle, if_neg (by omega), if_pos rfl]
    obtain ⟨y, hy0⟩ : ∃ y, m[p + c]? = some y :=
      ⟨m[p + c], List.getElem?_eq_getElem (by omega)⟩
    have hy : peekLin h l (F + (p + (c + 1)) - 1) = some y := by
      have e : F + (p + (c + 1)) - 1 = F + (p + c) := by omega
      rw [e, hpk _ (by omega), if_pos (by omega), hy0]
    obtain ⟨h2, hsw, hs2, hpk2, heff2⟩ := swap_ok hs hx hy
    obtain ⟨h3, hrun, hs3, hpk3, hout3, heff3⟩ := ih f h2 (by omega) (by omega) hs2 (by
      intro i hi
      rw [hpk2]
      by_cases e1 : F + i = F + (p + (c + 1)) - 1
      · have : i = p + c := by omega
        subst this
        rw [if_pos e1, if_neg (by omega), if_pos rfl]
      · rw [if_neg e1]
        by_cases e2 : F + i = F + (p + (c + 1))
        · have : i = p + c + 1 := by omega
          subst this
          rw [if_pos e2, if_neg (by omega), if_neg (by omega), ← hy0]
          rfl
        · rw [if_neg e2, hpk i hi]
          by_cases e3 : i < p + c
          · rw [if_pos (by omega), if_pos e3]
          · rw [if_neg (by omega), if_neg (by omega), if_neg e3, if_neg (by omega)])
    refine ⟨h3, ?_, hs3, hpk3, ?_, effect_trans heff2 heff3⟩
    · rw [insert_loop, if_neg hne, sub_one_at _ _ (by omega) (by omega), hsw]
      show insert_loop _ f h2 (Iter.dec _) = _
      rw [dec_lin _ _ (by omega) (by omega)]
      have e : F + (p + (c + 1)) - 1 = F + (p + c) := by omega
      rw [e]
      exact hrun
    · intro q hq
      rw [hout3 q hq, hpk2, if_neg (by omega), if_neg (by omega)]

theorem insert_body_ok {h : Heap α} {d : Deque} {l : List (Option Nat)} {m : List α}
    (hr : Repr h d l m) (v : α) (p : Nat) (hp : p ≤ d.size_) (hpos : 0 < d.capacity)
    (hsz : d.size_ + 1 < 2 ^ 31)
    (hcap : (d.capacity + 2 * growth d.capacity) * BLOCK_SIZE < SIZE_MOD)
    (it : Iter) (a : Nat)
    (hit : ∀ k, (front d + d.size_ = d.capacity * BLOCK_SIZE ∧ k = growth d.capacity) ∨
        (front d + d.size_ < d.capacity * BLOCK_SIZE ∧ k = 0) →
      it = ⟨a, (front d + k * BLOCK_SIZE + p) / BLOCK_SIZE,
        (front d + k * BLOCK_SIZE + p) % BLOCK_SIZE⟩) :
    ∃ h3 d3 l3 k, insert_body noFault it v h d = some (.ok (h3, d3)) ∧
      Repr h3 d3 l3 (m.take p ++ v :: m.drop p) ∧
      ((front d + d.size_ = d.capacity * BLOCK_SIZE ∧ k = growth d.capacity ∧
          d3 = { (relocatedState h d l).2 with size_ := d.size_ + 1 }) ∨
       (front d + d.size_ < d.capacity * BLOCK_SIZE ∧ k = 0 ∧
          d3 = { d with size_ := d.size_ + 1 })) ∧
      Effect h h3 d.arr d3.arr l l3 ∧ Keeps k l l3 := by
  obtain ⟨h1, d1, l1, k, hpush, hr1f, hd1, _, heff1, hkeep1⟩ :=
    push_back_ok hr noFault rfl rfl rfl v hpos hcap
  have hr1 := hr1f hsz
  have hs := hr.1
  have hs1 := hr1.1
  have hn : d.size_ = m.length := hr.2.1
  have hsz1 : d1.size_ = d.size_ + 1 := by
    rcases hd1 with ⟨_, _, rfl⟩ | ⟨_, _, rfl⟩ <;> rfl
  have hF1 : front d1 = front d + k * BLOCK_SIZE := by
    rcases hd1 with ⟨_, hk, rfl⟩ | ⟨_, hk, rfl⟩
    · rw [hk]; simp only [relocatedState, front]; ring
    · rw [hk]; simp [front]
  have hitk := hit k (by
    rcases hd1 with ⟨h1, hk, _⟩ | ⟨h1, hk, _⟩
    · exact Or.inl ⟨h1, hk⟩
    · exact Or.inr ⟨h1, hk⟩)
  have hfits1 := hs1.fits
  have hcap1 := hs1.cap_rep
  have hend : (end_ d1).dec = ⟨d1.arr, (front d1 + (p + (d.size_ - p))) / BLOCK_SIZE,
      (front d1 + (p + (d.size_ - p))) % BLOCK_SIZE⟩ := by
    rw [end_eq hs1, dec_lin _ _ (by omega) (by omega), hsz1]
    have e : front d1 + (d.size_ + 1) - 1 = front d1 + (p + (d.size_ - p)) := by omega
    rw [e]
  have htarget : ({ it with arr := d1.arr } : Iter)
      = ⟨d1.arr, (front d1 + p) / BLOCK_SIZE, (front d1 + p) % BLOCK_SIZE⟩ := by
    rw [hitk, hF1]
  obtain ⟨h2, hloop, hs2, hpk2, _, heff2⟩ :=
    insert_loop_ok (d := d1) (l := l1) m v p d.size_ (front d1) hn.symm (by omega)
      (d.size_ - p) d1.size_ h1 (by omega) (by omega) hs1 (by
        intro i hi
        rw [hr1.2.2 i (by simp; omega)]
        have e : p + (d.size_ - p) = d.size_ := by omega
        rw [e]
        by_cases e1 : i < d.size_
        · rw [if_pos e1, List.getElem?_append_left (by omega)]
        · have : i = d.size_ := by omega
          subst this
          rw [if_neg e1, if_pos rfl, List.getElem?_append_right (by omega)]
          simp [hn])
  refine ⟨h2, d1, l1, k, ?_, ⟨hs2, ?_, ?_⟩, hd1, effect_trans heff1 ?_, hkeep1⟩
  · unfold insert_body
    rw [hpush]
    show insert_done d1 (insert_loop _ d1.size_ h1 (end_ d1).dec) = _
    rw [htarget, hend, hloop]
    rfl
  · rw [hsz1, hn]
    simp
    omega
  · intro i hi
    have hlen : (m.take p ++ v :: m.drop p).length = d.size_ + 1 := by
      simp; omega
    rw [hpk2 i (by omega), getElem?_insertAt m p v (by omega)]
  · rcases hd1 with ⟨_, _, rfl⟩ | ⟨_, _, rfl⟩
    · exact heff2
    · exact heff2

theorem begin_add_int {h : Heap α} {d : Deque} {l : List (Option Nat)} (hs : Shape h d l)
    (p : Nat) (hp : p ≤ d.size_) :
    (begin d).add (toInt32 p) = ⟨d.arr, (front d + p) / BLOCK_SIZE, (front d + p) % BLOCK_SIZE⟩ :=
  begin_add hs p hp

theorem insert_ok {h : Heap α} {d : Deque} {l : List (Option Nat)} {m : List α}
    (hr : Repr h d l m) (v : α) (p : Nat) (hp : p ≤ d.size_) (hpos : 0 < d.capacity)
    (hsz : d.size_ + 1 < 2 ^ 31)
    (hcap : (d.capacity + 2 * growth d.capacity) * BLOCK_SIZE < SIZE_MOD) :
    ∃ h3 d3 l3 k, insert noFault ((begin d).add (toInt32 p)) v h d = some (.ok (h3, d3)) ∧
      Repr h3 d3 l3 (m.take p ++ v :: m.drop p) ∧
      ((front d + d.size_ = d.capacity * BLOCK_SIZE ∧ k = growth d.capacity ∧
          d3 = { (relocatedState h d l).2 with size_ := d.size_ + 1 }) ∨
       (front d + d.size_ < d.capacity * BLOCK_SIZE ∧ k = 0 ∧
          d3 = { d with size_ := d.size_ + 1 })) ∧
      Effect h h3 d.arr d3.arr l l3 ∧ Keeps k l l3 := by
  have hs := hr.1
  have hfits := hs.fits
  have hrep := hs.cap_rep
  rw [begin_add_int hs p hp]
  unfold insert
  by_cases hfull : full_at_back d = true
  · rw [if_pos hfull]
    have hq := (full_at_back_iff hs).1 hfull
    have hfe : front d + d.size_ = d.capacity * BLOCK_SIZE := by
      simp only [BLOCK_SIZE] at *; omega
    refine insert_body_ok hr v p hp hpos hsz hcap _ d.arr ?_
    intro k hk
    rcases hk with ⟨_, hk⟩ | ⟨hlt, _⟩
    · subst hk
      rw [Iter.mk.injEq]
      refine ⟨rfl, ?_, ?_⟩
      · show wadd ((front d + p) / BLOCK_SIZE) (wadd d.capacity 1 / 2) = _
        simp only [wadd, growth, BLOCK_SIZE, SIZE_MOD] at hrep hcap hfe ⊢
        omega
      · show (front d + p) % BLOCK_SIZE = _
        simp only [growth, BLOCK_SIZE]
        omega
    · omega
  · rw [if_neg hfull]
    have hq : ¬ (front d + d.size_) / BLOCK_SIZE = d.capacity :=
      fun e => hfull ((full_at_back_iff hs).2 e)
    have hfe : front d + d.size_ < d.capacity * BLOCK_SIZE := by
      simp only [BLOCK_SIZE] at *; omega
    refine insert_body_ok hr v p hp hpos hsz hcap _ d.arr ?_
    intro k hk
    rcases hk with ⟨he, _⟩ | ⟨_, hk⟩
    · omega
    · subst hk
      rw [Iter.mk.injEq]
      exact ⟨rfl, by simp, by simp⟩

theorem erase_loop_ok {d : Deque} {l : List (Option Nat)} (m : List α) (p n F : Nat)
    (hm : m.length = n) (hF : F + n < SIZE_MOD) (hp : p < n) :
    ∀ (c fuel j : Nat) (h : Heap α), j + c + 1 = n → p ≤ j → c ≤ fuel → Shape h d l →
      (∀ i, i < n → peekLin h l (F + i)
        = if i < p then m[i]? else if i < j then m[i + 1]? else if i = j then m[p]? else m[i]?) →
      ∃ h2, erase_loop ⟨d.arr, (F + n) / BLOCK_SIZE, (F + n) % BLOCK_SIZE⟩ fuel h
          ⟨d.arr, (F + j) / BLOCK_SIZE, (F + j) % BLOCK_SIZE⟩ = some (.ok h2) ∧
        Shape h2 d l ∧
        (∀ i, i < n → peekLin h2 l (F + i)
          = if i < p then m[i]? else if i < n - 1 then m[i + 1]? else m[p]?) ∧
        (∀ q, q < F ∨ F + n ≤ q → peekLin h2 l q = peekLin h l q) ∧
        Effect h h2 d.arr d.arr l l := by
  intro c
  induction c with
  | zero =>
    intro fuel j h hj hpj _ hs hpk
    refine ⟨h, ?_, hs, ?_, fun _ _ => rfl, effect_refl h d.arr l⟩
    · have e : Iter.eq (Iter.add ⟨d.arr, (F + j) / BLOCK_SIZE, (F + j) % BLOCK_SIZE⟩ 1)
          ⟨d.arr, (F + n) / BLOCK_SIZE, (F + n) % BLOCK_SIZE⟩ = true := by
        rw [add_one_at _ _ (by omega), eq_at_iff]; omega
      cases fuel with
      | zero => rw [erase_loop, if_pos e]
      | succ f => rw [erase_loop, if_pos e]
    · intro i hi
      rw [hpk i hi]
      by_cases e1 : i < p
      · rw [if_pos e1, if_pos e1]
      · rw [if_neg e1, if_neg e1]
        by_cases e2 : i < j
        · rw [if_pos e2, if_pos (by omega)]
        · rw [if_neg e2, if_pos (by omega), if_neg (by omega)]
  | succ c ih =>
    intro fuel j h hj hpj hfuel hs hpk
    obtain ⟨f, rfl⟩ : ∃ f, fuel = f + 1 := ⟨fuel - 1, by omega⟩
    have hne : ¬ Iter.eq (Iter.add ⟨d.arr, (F + j) / BLOCK_SIZE, (F + j) % BLOCK_SIZE⟩ 1)
        ⟨d.arr, (F + n) / BLOCK_SIZE, (F + n) % BLOCK_SIZE⟩ = true := by
      rw [add_one_at _ _ (by omega), eq_at_iff]; omega
    obtain ⟨x, hx0⟩ : ∃ x, m[p]? = some x := ⟨m[p], List.getElem?_eq_getElem (by omega)⟩
    obtain ⟨y, hy0⟩ : ∃ y, m[j + 1]? = some y :=
      ⟨m[j + 1], List.getElem?_eq_getElem (by omega)⟩
    have hx : peekLin h l (F + j) = some x := by
      rw [hpk j (by omega), if_neg (by omega), if_neg (by omega), if_pos rfl, hx0]
    have hy : peekLin h l (F + j + 1) = some y := by
      have e : F + j + 1 = F + (j + 1) := by omega
      rw [e, hpk (j + 1) (by omega), if_neg (by omega), if_neg (by omega), if_neg (by omega), hy0]
    obtain ⟨h2, hsw, hs2, hpk2, heff2⟩ := swap_ok hs hx hy
    obtain ⟨h3, hrun, hs3, hpk3, hout3, heff3⟩ := ih f (j + 1) h2 (by omega) (by omega)
      (by omega) hs2 (by
      intro i hi
      rw [hpk2]
      by_cases e1 : F + i = F + j + 1
      · have : i = j + 1 := by omega
        subst this
        rw [if_pos e1, if_neg (by omega), if_neg (by omega), if_pos rfl, hx0]
      · rw [if_neg e1]
        by_cases e2 : F + i = F + j
        · have : i = j := by omega
          subst this
          rw [if_pos e2]
          by_cases e3 : i < p
          · omega
          · rw [if_neg e3, if_pos (by omega), hy0]
        · rw [if_neg e2, hpk i hi]
          by_cases e3 : i < p
          · rw [if_pos e3, if_pos e3]
          · rw [if_neg e3, if_neg e3]
            by_cases e4 : i < j
            · rw [if_pos e4, if_pos (by omega)]
            · rw [if_neg e4, if_neg (by omega), if_neg (by omega), if_neg (by omega)])
    refine ⟨h3, ?_, hs3, hpk3, ?_, effect_trans heff2 heff3⟩
    · rw [erase_loop, if_neg hne, add_one_at _ _ (by omega), hsw]
      show erase_loop _ f h2 (Iter.inc _) = _
      rw [inc_at _ _ (by omega)]
      have e : F + j + 1 = F + (j + 1) := by omega
      rw [e]
      exact hrun
    · intro q hq
      rw [hout3 q hq, hpk2, if_neg (by omega), if_neg (by omega)]

theorem erase_done_ok (d : Deque) (h1 : Heap α) :
    erase_done d (some (.ok h1)) = some (pop_back h1 d) := rfl

theorem erase_ok {h : Heap α} {d : Deque} {l : List (Option Nat)} {m : List α}
    (hr : Repr h d l m) (p : Nat) (hp : p < d.size_) :
    ∃ h3, erase ((begin d).add (toInt32 p)) h d = some (.ok (h3, { d with size_ := d.size_ - 1 })) ∧
      Repr h3 { d with size_ := d.size_ - 1 } l (m.take p ++ m.drop (p + 1)) ∧
      Effect h h3 d.arr d.arr l l := by
  have hs := hr.1
  have hfits := hs.fits
  have hrep := hs.cap_rep
  have hn : d.size_ = m.length := hr.2.1
  obtain ⟨x, hx0⟩ : ∃ x, m[p]? = some x := ⟨m[p], List.getElem?_eq_getElem (by omega)⟩
  obtain ⟨h1, hloop, hs1, hpk1, _, heff1⟩ :=
    erase_loop_ok (d := d) (l := l) m p d.size_ (front d) hn.symm (by omega) hp
      (d.size_ - 1 - p) d.size_ p h (by omega) le_rfl (by omega) hs (by
        intro i hi
        rw [hr.2.2 i (by omega)]
        by_cases e1 : i < p
        · rw [if_pos e1]
        · rw [if_neg e1, if_neg (by omega)]
          by_cases e2 : i = p
          · subst e2; rw [if_pos rfl]
          · rw [if_neg e2])
  have hr1 : Repr h1 d l ((m.take p ++ m.drop (p + 1)) ++ [x]) := by
    refine ⟨hs1, ?_, ?_⟩
    · simp; omega
    · intro i hi
      have hlen : (m.take p ++ m.drop (p + 1) ++ [x]).length = d.size_ := by simp; omega
      rw [hlen] at hi
      rw [hpk1 i hi]
      by_cases e1 : i < d.size_ - 1
      · rw [List.getElem?_append_left (by simp; omega), getElem?_eraseAt m p (by omega)]
        by_cases e2 : i < p
        · rw [if_pos e2, if_pos e2]
        · rw [if_neg e2, if_neg e2, if_pos e1]
      · rw [if_neg (by omega), if_neg e1, List.getElem?_append_right (by simp; omega), hx0]
        have e : i - (m.take p ++ m.drop (p + 1)).length = 0 := by simp; omega
        rw [e]
        rfl
  obtain ⟨h3, hpop, hr3, _, heff3⟩ := pop_back_ok hr1
  refine ⟨h3, ?_, hr3, effect_trans heff1 heff3⟩
  unfold erase
  rw [begin_add_int hs p (by omega), end_eq hs, hloop, erase_done_ok, hpop]

theorem calls_cons_ok {c : Call α} {cs : List (Call α)} {s s1 : Heap α × Deque}
    (hc : c.apply s = some (.ok s1)) : calls (c :: cs) s = calls cs s1 := by
  show calls_after (calls cs) (c.apply s) = _
  rw [hc]
  rfl

theorem apply_call_push_front (v : α) (h : Heap α) (d : Deque) :
    (Call.push_front v).apply (h, d) = some (push_front noFault v h d) := rfl

theorem apply_call_push_back (v : α) (h : Heap α) (d : Deque) :
    (Call.push_back v).apply (h, d) = some (push_back noFault v h d) := rfl

theorem apply_call_pop_front (h : Heap α) (d : Deque) :
    (Call.pop_front : Call α).apply (h, d) = some (pop_front h d) := rfl

theorem apply_call_pop_back (h : Heap α) (d : Deque) :
    (Call.pop_back : Call α).apply (h, d) = some (pop_back h d) := rfl

theorem apply_call_insert (p : Nat) (v : α) (h : Heap α) (d : Deque) :
    (Call.insert p v).apply (h, d) = insert noFault ((begin d).add (toInt32 p)) v h d := rfl

theorem apply_call_erase (p : Nat) (h : Heap α) (d : Deque) :
    (Call.erase p : Call α).apply (h, d) = erase ((begin d).add (toInt32 p)) h d := rfl

theorem budget_pushed_back {h : Heap α} {d d3 : Deque} {l : List (Option Nat)} {k k3 : Nat}
    (hb : Budget d k)
    (hd3 : (front d + d.size_ = d.capacity * BLOCK_SIZE ∧ k3 = growth d.capacity ∧
          d3 = { (relocatedState h d l).2 with size_ := d.size_ + 1 }) ∨
       (front d + d.size_ < d.capacity * BLOCK_SIZE ∧ k3 = 0 ∧
          d3 = { d with size_ := d.size_ + 1 })) : Budget d3 (k + 1) := by
  have b1 := hb.cap_pos
  have b2 := hb.size_le
  have b3 := hb.slack_front
  have b4 := hb.slack_back
  have b5 := hb.cap_le
  rcases hd3 with ⟨hz, _, rfl⟩ | ⟨hz, _, rfl⟩
  · constructor <;>
      simp only [relocatedState, front, growth, BLOCK_SIZE] at hz b3 b4 ⊢ <;> omega
  · constructor <;> simp only [front, BLOCK_SIZE] at hz b3 b4 ⊢ <;> omega

theorem calls_refine (ops : List (Call α)) :
    ∀ (h : Heap α) (d : Deque) (l : List (Option Nat)) (m : List α) (k : Nat) (m2 : List α),
      Repr h d l m → Budget d k → k + ops.length < 2 ^ 31 → modelCalls ops m = some m2 →
      ∃ h2 d2 l2, calls ops (h, d) = some (.ok (h2, d2)) ∧ Repr h2 d2 l2 m2 ∧
        Budget d2 (k + ops.length) := by
  induction ops with
  | nil =>
    intro h d l m k m2 hr hb _ hm
    simp only [modelCalls, Option.some.injEq] at hm
    subst hm
    exact ⟨h, d, l, rfl, hr, hb⟩
  | cons op ops ih =>
    intro h d l m k m2 hr hb hk hm
    simp only [List.length_cons] at hk ⊢
    have hs := hr.1
    have hfits := hs.fits
    have hsz : d.size_ + 1 < 2 ^ 31 := by have := hb.size_le; omega
    have hcap : (d.capacity + 2 * growth d.capacity) * BLOCK_SIZE < SIZE_MOD := by
      have := hb.cap_le
      simp only [growth, BLOCK_SIZE, SIZE_MOD]
      omega
    have b1 := hb.cap_pos
    have b2 := hb.size_le
    have b3 := hb.slack_front
    have b4 := hb.slack_back
    have b5 := hb.cap_le
    have hk1 : k + (ops.length + 1) = k + 1 + ops.length := by omega
    rw [hk1]
    cases op with
    | push_front v =>
      simp only [modelCalls, Call.model] at hm
      obtain ⟨h3, d3, l3, k3, hrun, hr3f, hd3, _⟩ := push_front_ok hr noFault rfl rfl rfl v b1 hcap
      have hr3 := hr3f hsz
      have hb3 : Budget d3 (k + 1) := by
        rcases hd3 with ⟨hz, _, rfl⟩ | ⟨hz, _, rfl⟩
        · constructor <;>
            simp only [relocatedState, front, withFront, growth, BLOCK_SIZE] at hz hfits b3 b4 ⊢ <;> omega
        · constructor <;> simp only [front, withFront, BLOCK_SIZE] at hz hfits b3 b4 ⊢ <;> omega
      obtain ⟨h4, d4, l4, hrun4, hr4, hb4⟩ := ih h3 d3 l3 _ (k + 1) m2 hr3 hb3 (by omega) hm
      exact ⟨h4, d4, l4,
        by rw [calls_cons_ok ((apply_call_push_front v h d).trans (congrArg some hrun)), hrun4],
        hr4, hb4⟩
    | push_back v =>
      simp only [modelCalls, Call.model] at hm
      obtain ⟨h3, d3, l3, k3, hrun, hr3f, hd3, _⟩ := push_back_ok hr noFault rfl rfl rfl v b1 hcap
      have hr3 := hr3f hsz
      have hb3 : Budget d3 (k + 1) := budget_pushed_back hb hd3
      obtain ⟨h4, d4, l4, hrun4, hr4, hb4⟩ := ih h3 d3 l3 _ (k + 1) m2 hr3 hb3 (by omega) hm
      exact ⟨h4, d4, l4,
        by rw [calls_cons_ok ((apply_call_push_back v h d).trans (congrArg some hrun)), hrun4],
        hr4, hb4⟩
    | pop_front =>
      rcases m with _ | ⟨x, m1⟩
      · simp [modelCalls, Call.model] at hm
      · simp only [modelCalls, Call.model, List.length_cons, Nat.add_one_ne_zero, if_false,
          List.drop_succ_cons, List.drop_zero] at hm
        obtain ⟨h3, hrun, hr3, _⟩ := pop_front_ok hr
        have hsize : d.size_ = m1.length + 1 := by simpa using hr.2.1
        have hb3 : Budget (withFront d (front d + 1) (d.size_ - 1)) (k + 1) := by
          constructor <;> simp only [front, withFront, BLOCK_SIZE] at hfits b3 b4 ⊢ <;> omega
        obtain ⟨h4, d4, l4, hrun4, hr4, hb4⟩ := ih h3 _ l _ (k + 1) m2 hr3 hb3 (by omega) hm
        exact ⟨h4, d4, l4,
          by rw [calls_cons_ok ((apply_call_pop_front h d).trans (congrArg some hrun)), hrun4],
          hr4, hb4⟩
    | pop_back =>
      rcases List.eq_nil_or_concat m with rfl | ⟨m1, x, hmx⟩
      · simp [modelCalls, Call.model] at hm
      · rw [List.concat_eq_append] at hmx
        subst hmx
        simp only [modelCalls, Call.model, List.length_append, List.length_singleton,
          Nat.add_one_ne_zero, if_false, List.dropLast_concat] at hm
        obtain ⟨h3, hrun, hr3, _⟩ := pop_back_ok hr
        have hsize : d.size_ = m1.length + 1 := by simpa using hr.2.1
        have hb3 : Budget { d with size_ := d.size_ - 1 } (k + 1) := by
          constructor <;> simp only [front, BLOCK_SIZE] at hfits b3 b4 ⊢ <;> omega
        obtain ⟨h4, d4, l4, hrun4, hr4, hb4⟩ := ih h3 _ l _ (k + 1) m2 hr3 hb3 (by omega) hm
        exact ⟨h4, d4, l4,
          by rw [calls_cons_ok ((apply_call_pop_back h d).trans (congrArg some hrun)), hrun4],
          hr4, hb4⟩
    | insert p v =>
      have hn : d.size_ = m.length := hr.2.1
      by_cases hp : p ≤ m.length
      · simp only [modelCalls, Call.model, if_pos hp] at hm
        obtain ⟨h3, d3, l3, k3, hrun, hr3, hd3, _⟩ := insert_ok hr v p (by omega) b1 hsz hcap
        have hb3 : Budget d3 (k + 1) := budget_pushed_back hb hd3
        obtain ⟨h4, d4, l4, hrun4, hr4, hb4⟩ := ih h3 d3 l3 _ (k + 1) m2 hr3 hb3 (by omega) hm
        exact ⟨h4, d4, l4,
          by rw [calls_cons_ok ((apply_call_insert p v h d).trans hrun), hrun4], hr4, hb4⟩
      · simp [modelCalls, Call.model, if_neg hp] at hm
    | erase p =>
      have hn : d.size_ = m.length := hr.2.1
      by_cases hp : p < m.length
      · simp only [modelCalls, Call.model, if_pos hp] at hm
        obtain ⟨h3, hrun, hr3, _⟩ := erase_ok hr p (by omega)
        have hb3 : Budget { d with size_ := d.size_ - 1 } (k + 1) := by
          constructor <;> simp only [front, BLOCK_SIZE] at hfits b3 b4 ⊢ <;> omega
        obtain ⟨h4, d4, l4, hrun4, hr4, hb4⟩ := ih h3 _ l _ (k + 1) m2 hr3 hb3 (by omega) hm
        exact ⟨h4, d4, l4,
          by rw [calls_cons_ok ((apply_call_erase p h d).trans hrun), hrun4], hr4, hb4⟩
      · simp [modelCalls, Call.model, if_neg hp] at hm

/-- C4: `at(pos)` throws exactly when `pos >= size()`; for `pos < size()` it returns normally the
element `operator[](pos)` reads and agrees with the read-only `at`; and however it ends, the heap
and every field of the container are the ones before the call. -/
theorem C4_at_checks_bounds (h : Heap α) (d : Deque) (pos : Nat) :
    ((∃ s, (at_call h d pos).1 = .threw s) ↔ size d ≤ pos) ∧
    (at_ h d pos = .error () ↔ size d ≤ pos) ∧
    (pos < size d → at_call h d pos = (.ok (h, d), subscript h d pos) ∧
      at_ h d pos = .ok (subscript h d pos)) ∧
    (∀ s, (at_call h d pos).1 = .threw s ∨ (at_call h d pos).1 = .ok s → s = (h, d)) := by
  by_cases hp : d.size_ ≤ pos
  · have e1 : at_call h d pos = (.threw (h, d), none) := by
      unfold at_call; rw [if_pos hp]
    have e2 : at_ h d pos = .error () := by
      unfold at_; rw [if_pos hp]
    refine ⟨⟨fun _ => hp, fun _ => ⟨(h, d), by rw [e1]⟩⟩, ⟨fun _ => hp, fun _ => e2⟩, ?_, ?_⟩
    · intro hlt
      exact absurd hp (Nat.not_le.2 hlt)
    · intro s hs
      rw [e1] at hs
      rcases hs with hs | hs
      · exact (Outcome.threw.inj hs).symm
      · cases hs
  · have e1 : at_call h d pos = (.ok (h, d), subscript h d pos) := by
      unfold at_call; rw [if_neg hp]; rfl
    have e2 : at_ h d pos = .ok (subscript h d pos) := by
      unfold at_; rw [if_neg hp]; rfl
    refine ⟨⟨?_, fun hle => absurd hle hp⟩, ⟨?_, fun hle => absurd hle hp⟩, fun _ => ⟨e1, e2⟩, ?_⟩
    · rintro ⟨s, hs⟩
      rw [e1] at hs
      cases hs
    · intro he
      rw [e2] at he
      cases he
    · intro s hs
      rw [e1] at hs
      rcases hs with hs | hs
      · cases hs
      · exact (Outcome.ok.inj hs).symm

/-- C3: on a default-constructed container (`min_row = 0`, `min_col = 32`, `arr[0] == nullptr`),
a `push_front` whose element construction throws allocates the block of row 0 (the target
position is `(0, 31)`) and sets `new_row`; its `catch` block then names the row
`begin().row - 1`, which is `SIZE_MAX`, outside the one-slot index array, so the call is
undefined. The same holds when the block allocation throws. `push_back`, whose `catch` names the
row it allocated, rolls the same state back. -/
theorem C3_push_front_rollback_leaves_the_array :
    push_front_try ctorFails 1 emptyDefault.2.arr emptyDefault.1 emptyDefault.2
      = .threw (emptyDefault.1.withNewBlock 0 [none] 0, emptyDefault.2, true) ∧
    (begin emptyDefault.2).dec.row = 0 ∧
    wsub (begin emptyDefault.2).row 1 = 2 ^ 64 - 1 ∧
    (emptyDefault.1.withNewBlock 0 [none] 0).slot 0 (2 ^ 64 - 1) = none ∧
    push_front ctorFails 1 emptyDefault.1 emptyDefault.2 = .ub ∧
    push_front blockAllocFails 1 emptyDefault.1 emptyDefault.2 = .ub ∧
    (∃ h2, push_back ctorFails 1 emptyDefault.1 emptyDefault.2 = .threw (h2, emptyDefault.2) ∧
      h2.slot 0 0 = some none) :=
  ⟨rfl, rfl, rfl, rfl, rfl, rfl, _, rfl, rfl⟩

/-- C27: `a.swap(b)` leaves in `a` exactly the five data members `b` had and in `b` those `a`
had; the heap is not an argument of `swap`, so every element stays where it was, and `size()` and
`operator[]` are exchanged with the members; swapping twice restores both containers and
`a.swap(a)` changes nothing. -/
theorem C27_swap_exchanges_state (h : Heap α) (a b : Deque) :
    swap a b = (b, a) ∧
    ((swap a b).1.arr = b.arr ∧ (swap a b).1.min_row = b.min_row ∧
      (swap a b).1.min_col = b.min_col ∧ (swap a b).1.size_ = b.size_ ∧
      (swap a b).1.capacity = b.capacity) ∧
    ((swap a b).2.arr = a.arr ∧ (swap a b).2.min_row = a.min_row ∧
      (swap a b).2.min_col = a.min_col ∧ (swap a b).2.size_ = a.size_ ∧
      (swap a b).2.capacity = a.capacity) ∧
    (size (swap a b).1 = size b ∧ size (swap a b).2 = size a) ∧
    (∀ i, subscript h (swap a b).1 i = subscript h b i ∧
      subscript h (swap a b).2 i = subscript h a i) ∧
    swap (swap a b).1 (swap a b).2 = (a, b) ∧
    swap a a = (a, a) :=
  ⟨rfl, ⟨rfl, rfl, rfl, rfl, rfl⟩, ⟨rfl, rfl, rfl, rfl, rfl⟩, ⟨rfl, rfl⟩,
    fun _ => ⟨rfl, rfl⟩, rfl, rfl⟩

theorem inc_eq_add_one (it : Iter) (hcol : it.col < BLOCK_SIZE)
    (hrep : it.row * BLOCK_SIZE + it.col + 1 < SIZE_MOD) : it.inc = it.add 1 := by
  simp only [Iter.inc, Iter.add, toSizeT, wadd, wmul, BLOCK_SIZE, SIZE_MOD] at *
  by_cases hc : (it.col + 1) % 2 ^ 64 = 64
  · rw [if_pos hc, Iter.mk.injEq]; exact ⟨rfl, by omega, by omega⟩
  · rw [if_neg hc, Iter.mk.injEq]; exact ⟨rfl, by omega, by omega⟩

theorem dec_eq_sub_one (it : Iter) (hcol : it.col < BLOCK_SIZE)
    (hpos : 1 ≤ it.row * BLOCK_SIZE + it.col)
    (hrep : it.row * BLOCK_SIZE + it.col < SIZE_MOD) : it.dec = it.sub 1 := by
  simp only [Iter.dec, Iter.sub, toSizeT, wadd, wsub, wmul, BLOCK_SIZE, SIZE_MOD] at *
  by_cases hc : it.col = 0
  · rw [if_pos hc, Iter.mk.injEq]; exact ⟨rfl, by omega, by omega⟩
  · rw [if_neg hc, Iter.mk.injEq]; exact ⟨rfl, by omega, by omega⟩

theorem inc_col_lt (it : Iter) (hcol : it.col < BLOCK_SIZE) : it.inc.col < BLOCK_SIZE := by
  rw [inc_eq it hcol]
  by_cases hc : it.col = BLOCK_SIZE - 1
  · rw [if_pos hc]; show (0 : Nat) < BLOCK_SIZE; decide
  · rw [if_neg hc]
    simp only [BLOCK_SIZE] at *
    omega

theorem dec_col_lt (it : Iter) (hcol : it.col < BLOCK_SIZE) : it.dec.col < BLOCK_SIZE := by
  rw [dec_eq it hcol]
  by_cases hc : it.col = 0
  · rw [if_pos hc]; show BLOCK_SIZE - 1 < BLOCK_SIZE; decide
  · rw [if_neg hc]
    simp only [BLOCK_SIZE] at *
    omega

theorem add_col_lt (it : Iter) (n : Int) : (it.add n).col < BLOCK_SIZE := by
  simp only [Iter.add, BLOCK_SIZE]
  omega

theorem sub_col_lt (it : Iter) (n : Int) : (it.sub n).col < BLOCK_SIZE := by
  simp only [Iter.sub, BLOCK_SIZE]
  omega

/-- C25, amended: for an iterator with `col < BLOCK_SIZE` whose next linear position
`row * BLOCK_SIZE + col + 1` is a `size_t` value, `++it` is `it + 1`; for one whose linear
position is a `size_t` value and at least 1, `--it` is `it - 1`; and `++`, `--` (on
`col < BLOCK_SIZE`) and `+=`, `-=`, `+`, `-` (on any iterator, any offset) return
`col < BLOCK_SIZE`. -/
theorem C25_steps_agree_with_offsets (it : Iter) (n : Int) (hcol : it.col < BLOCK_SIZE)
    (hrep : it.row * BLOCK_SIZE + it.col + 1 < SIZE_MOD) :
    it.inc = it.add 1 ∧
    (1 ≤ it.row * BLOCK_SIZE + it.col → it.dec = it.sub 1) ∧
    it.inc.col < BLOCK_SIZE ∧ it.dec.col < BLOCK_SIZE ∧
    (it.add n).col < BLOCK_SIZE ∧ (it.sub n).col < BLOCK_SIZE :=
  ⟨inc_eq_add_one it hcol hrep, fun hpos => dec_eq_sub_one it hcol hpos (by omega),
    inc_col_lt it hcol, dec_col_lt it hcol, add_col_lt it n, sub_col_lt it n⟩

/-- C25 at the block boundary `(3, 63)` and at `(4, 0)`. -/
theorem C25_at_block_boundary :
    (Iter.inc ⟨0, 3, 63⟩ = ⟨0, 4, 0⟩ ∧ Iter.dec ⟨0, 4, 0⟩ = ⟨0, 3, 63⟩) ∧
    (Iter.inc ⟨0, 3, 63⟩ = Iter.add ⟨0, 3, 63⟩ 1 ∧
      (1 ≤ 3 * BLOCK_SIZE + 63 → Iter.dec ⟨0, 3, 63⟩ = Iter.sub ⟨0, 3, 63⟩ 1) ∧
      (Iter.inc ⟨0, 3, 63⟩).col < BLOCK_SIZE ∧ (Iter.dec ⟨0, 3, 63⟩).col < BLOCK_SIZE ∧
      (Iter.add ⟨0, 3, 63⟩ (-200)).col < BLOCK_SIZE ∧
      (Iter.sub ⟨0, 3, 63⟩ (-200)).col < BLOCK_SIZE) :=
  ⟨⟨by decide, by decide⟩,
    C25_steps_agree_with_offsets ⟨0, 3, 63⟩ (-200) (by decide) (by decide)⟩

/-- C25 as stated fails where `row * BLOCK_SIZE` leaves `size_t`: at `(row, col) = (2 ^ 58, 0)`
and at `(2 ^ 58, 1)`, both with `col < BLOCK_SIZE`, `++it` and `--it` keep the row while `it + 1`
and `it - 1`, computed from `row * BLOCK_SIZE` modulo `2 ^ 64`, land in row 0. -/
theorem C25_row_beyond_size_t :
    (⟨0, 2 ^ 58, 0⟩ : Iter).col < BLOCK_SIZE ∧
    Iter.inc ⟨0, 2 ^ 58, 0⟩ = ⟨0, 2 ^ 58, 1⟩ ∧ Iter.add ⟨0, 2 ^ 58, 0⟩ 1 = ⟨0, 0, 1⟩ ∧
    Iter.inc ⟨0, 2 ^ 58, 0⟩ ≠ Iter.add ⟨0, 2 ^ 58, 0⟩ 1 ∧
    Iter.dec ⟨0, 2 ^ 58, 1⟩ = ⟨0, 2 ^ 58, 0⟩ ∧ Iter.sub ⟨0, 2 ^ 58, 1⟩ 1 = ⟨0, 0, 0⟩ ∧
    Iter.dec ⟨0, 2 ^ 58, 1⟩ ≠ Iter.sub ⟨0, 2 ^ 58, 1⟩ 1 := by
  refine ⟨by decide, by decide, by decide, by decide, by decide, by decide, by decide⟩

theorem growth_grows (c : Nat) (hc : 0 < c) :
    c < c + 2 * growth c ∧ 2 * c ≤ c + 2 * growth c := by
  simp only [growth]
  omega

/-- C21: on the container `Deque(0, v)` leaves (capacity 0), `relocate` returns normally with
`add = (0 + 1) / 2 = 0`: the new index array has length 0 and the capacity is still 0, not
greater than before. For a capacity `c ≥ 1` the new capacity `c + 2 * add` is greater than `c`
and at least `2 * c`. -/
theorem C21_relocate_keeps_capacity_zero :
    emptySized.2.capacity = 0 ∧ growth 0 = 0 ∧
    relocate noFault emptySized.1 emptySized.2
      = .ok ((emptySized.1.newIndex []).1, { emptySized.2 with arr := 1 }) ∧
    ((emptySized.1.newIndex []).1.index 1 = some []) ∧
    ¬ (emptySized.2.capacity < ({ emptySized.2 with arr := 1 } : Deque).capacity) ∧
    (∀ c, 0 < c → c < c + 2 * growth c ∧ 2 * c ≤ c + 2 * growth c) :=
  ⟨rfl, rfl, rfl, rfl, by decide, growth_grows⟩

theorem modelRun_pushes (ops : List (Op α))
    (hall : ∀ op, op ∈ ops → (∃ v, op = Op.push_front v) ∨ (∃ v, op = Op.push_back v)) :
    ∀ (m : List α), ∃ m2, modelRun ops m = some m2 ∧ m2.length = m.length + ops.length := by
  induction ops with
  | nil => intro m; exact ⟨m, rfl, rfl⟩
  | cons op ops ih =>
    intro m
    have hall2 : ∀ op2, op2 ∈ ops → (∃ v, op2 = Op.push_front v) ∨ (∃ v, op2 = Op.push_back v) :=
      fun op2 h2 => hall op2 (List.mem_cons_of_mem _ h2)
    rcases hall op (List.mem_cons_self _ _) with ⟨v, rfl⟩ | ⟨v, rfl⟩
    · obtain ⟨m2, h1, h2⟩ := ih hall2 (v :: m)
      refine ⟨m2, ?_, ?_⟩
      · simp only [modelRun, Op.model]; exact h1
      · rw [h2]; simp; omega
    · obtain ⟨m2, h1, h2⟩ := ih hall2 (m ++ [v])
      refine ⟨m2, ?_, ?_⟩
      · simp only [modelRun, Op.model]; exact h1
      · rw [h2]; simp; omega

theorem alternating_pushes (n : Nat) :
    ∀ op, op ∈ alternating n → (∃ v, op = Op.push_front v) ∨ (∃ v, op = Op.push_back v) := by
  intro op hop
  simp only [alternating, List.mem_map, List.mem_range] at hop
  obtain ⟨i, _, rfl⟩ := hop
  by_cases e : i % 2 = 0
  · rw [if_pos e]; exact Or.inl ⟨i, rfl⟩
  · rw [if_neg e]; exact Or.inr ⟨i, rfl⟩

theorem alternating_length (n : Nat) : (alternating n).length = n := by
  simp [alternating]

/-- C22, as amended: in a valid state of fewer than `2 ^ 31` elements whose grown index array
is addressable, `relocate` returns normally
and leaves `size()` and every `operator[](i)`, `i < size()`, as they were, each reading an
element; and for `n < 2 ^ 31` values pushed alternately at the front and at the back of a
default-constructed container, the run returns normally, `size()` is `n` and `operator[]` reads
exactly the list of the reference model, the index array having grown to hold `n` positions. -/
theorem C22_growth_keeps_contents (h : Heap α) (d : Deque) (h0 : Heap Nat) (n : Nat)
    (hv : Valid h d) (hint : size d < 2 ^ 31)
    (hcap : (d.capacity + 2 * growth d.capacity) * BLOCK_SIZE < SIZE_MOD)
    (hwf : h0.WF) (hn : n < 2 ^ 31) :
    (∃ h2 d2, relocate noFault h d = .ok (h2, d2) ∧ size d2 = size d ∧
      d2.capacity = d.capacity + 2 * growth d.capacity ∧
      ∀ i, i < size d → subscript h2 d2 i = subscript h d i ∧ (subscript h d i).isSome) ∧
    (∃ m h1 d1, modelRun (alternating n) [] = some m ∧
      run (alternating n) (mk_default h0) = .ok (h1, d1) ∧ size d1 = n ∧
      (∀ i, i < n → subscript h1 d1 i = m[i]?) ∧ n ≤ d1.capacity * BLOCK_SIZE) := by
  have hv : ValidInt h d := validInt_of_valid hv hint
  constructor
  · obtain ⟨l, m, hr⟩ := hv
    have hr2 := repr_relocated hr hcap
    refine ⟨(relocatedState h d l).1, (relocatedState h d l).2,
      relocate_eq hr.1 noFault rfl hcap, rfl, rfl, ?_⟩
    intro i hi
    have hi2 : i < m.length := by
      have := hr.2.1
      simp only [size] at hi
      omega
    rw [subscript_eq hr2 i hi2, subscript_eq hr i hi2, List.getElem?_eq_getElem hi2]
    exact ⟨rfl, rfl⟩
  · obtain ⟨m, hm, hlen⟩ := modelRun_pushes (alternating n) (alternating_pushes n) []
    rw [alternating_length] at hlen
    obtain ⟨h1, d1, l1, hrun, hr1⟩ :=
      run_refines (alternating n) _ _ _ [] 0 m (mk_default_repr h0 hwf) (mk_default_budget h0)
        (by rw [alternating_length]; omega) hm
    have hlen2 : m.length = n := by rw [hlen]; simp
    have hsz : d1.size_ = n := by rw [hr1.2.1, hlen2]
    refine ⟨m, h1, d1, hm, hrun, hsz, ?_, ?_⟩
    · intro i hi
      exact subscript_eq hr1 i (by omega)
    · have := hr1.1.fits
      omega

/-- C22 on the scenario container and for `n = 200 * BLOCK_SIZE` pushes. -/
theorem C22_on_scenario_and_200_blocks :
    Valid scenarioState.1 scenarioState.2 ∧ size scenarioState.2 < 2 ^ 31 ∧
    (scenarioState.2.capacity + 2 * growth scenarioState.2.capacity) * BLOCK_SIZE < SIZE_MOD ∧
    (Heap.empty : Heap Nat).WF ∧ 200 * BLOCK_SIZE < 2 ^ 31 ∧
    (∃ h2 d2, relocate noFault scenarioState.1 scenarioState.2 = .ok (h2, d2) ∧
      size d2 = size scenarioState.2 ∧
      d2.capacity = scenarioState.2.capacity + 2 * growth scenarioState.2.capacity ∧
      ∀ i, i < size scenarioState.2 →
        subscript h2 d2 i = subscript scenarioState.1 scenarioState.2 i ∧
        (subscript scenarioState.1 scenarioState.2 i).isSome) ∧
    (∃ m h1 d1, modelRun (alternating (200 * BLOCK_SIZE)) [] = some m ∧
      run (alternating (200 * BLOCK_SIZE)) (mk_default Heap.empty) = .ok (h1, d1) ∧
      size d1 = 200 * BLOCK_SIZE ∧
      (∀ i, i < 200 * BLOCK_SIZE → subscript h1 d1 i = m[i]?) ∧
      200 * BLOCK_SIZE ≤ d1.capacity * BLOCK_SIZE) :=
  ⟨scenario_honest, by decide, by decide, empty_wf, by decide,
    C22_growth_keeps_contents scenarioState.1 scenarioState.2 Heap.empty (200 * BLOCK_SIZE)
      scenario_honest (by decide) (by decide) empty_wf (by decide)⟩

theorem peekLin_congr {h h2 : Heap α} {l : List (Option Nat)}
    (hb : ∀ (r b : Nat), l[r]? = some (some b) → h2.block b = h.block b) (q : Nat) :
    peekLin h2 l q = peekLin h l q := by
  unfold peekLin
  rcases hx : l[q / BLOCK_SIZE]? with _ | _ | b
  · rfl
  · rfl
  · simp only []
    rw [hb _ b hx]

theorem shape_frame {h h2 : Heap α} {o : Deque} {lo : List (Option Nat)} (hs : Shape h o lo)
    (hi : h2.index o.arr = h.index o.arr)
    (hb : ∀ (r b : Nat), lo[r]? = some (some b) → h2.block b = h.block b)
    (hni : h.nextIndex ≤ h2.nextIndex) (hnb : h.nextBlock ≤ h2.nextBlock) (hwf : h2.WF) :
    Shape h2 o lo := by
  refine { hs with arr_lt := ?_, index_eq := ?_, blocks := ?_, index_fresh := hwf.1,
                   block_fresh := hwf.2 }
  · have := hs.arr_lt; omega
  · rw [hi]; exact hs.index_eq
  · intro r b hr
    obtain ⟨h1, cs, hcs, hlen⟩ := hs.blocks r b hr
    exact ⟨by omega, cs, by rw [hb r b hr]; exact hcs, hlen⟩

theorem repr_frame {h h2 : Heap α} {o : Deque} {lo : List (Option Nat)} {m : List α}
    (hr : Repr h o lo m)
    (hi : h2.index o.arr = h.index o.arr)
    (hb : ∀ (r b : Nat), lo[r]? = some (some b) → h2.block b = h.block b)
    (hni : h.nextIndex ≤ h2.nextIndex) (hnb : h.nextBlock ≤ h2.nextBlock) (hwf : h2.WF) :
    Repr h2 o lo m :=
  ⟨shape_frame hr.1 hi hb hni hnb hwf, hr.2.1, fun i hi2 => by
    rw [peekLin_congr hb]; exact hr.2.2 i hi2⟩

theorem shape_wf {h : Heap α} {d : Deque} {l : List (Option Nat)} (hs : Shape h d l) : h.WF :=
  ⟨hs.index_fresh, hs.block_fresh⟩

theorem repr_of_effect {h h2 : Heap α} {o : Deque} {lo la la2 : List (Option Nat)} {m : List α}
    {a a2 : Nat} (hr : Repr h o lo m) (he : Effect h h2 a a2 la la2) (hne : o.arr ≠ a)
    (hdis : ∀ (r r2 b : Nat), lo[r]? = some (some b) → la[r2]? ≠ some (some b))
    (hwf : h2.WF) : Repr h2 o lo m :=
  repr_frame hr (he.index_other _ hne hr.1.arr_lt)
    (fun r b hb => he.block_other b (hr.1.blocks r b hb).1 (fun r2 => hdis r r2 b hb))
    he.nextIndex_le he.nextBlock_le hwf

theorem apart_of_effect {h h2 : Heap α} {o : Deque} {lo la la2 : List (Option Nat)}
    {a a2 : Nat} (hs : Shape h o lo) (he : Effect h h2 a a2 la la2) (hne : o.arr ≠ a)
    (hdis : ∀ (r r2 b : Nat), lo[r]? = some (some b) → la[r2]? ≠ some (some b)) :
    o.arr ≠ a2 ∧ ∀ (r r2 b : Nat), lo[r]? = some (some b) → la2[r2]? ≠ some (some b) := by
  constructor
  · rcases he.arr_origin with e | e
    · rw [e]; exact hne
    · have := hs.arr_lt; omega
  · intro r r2 b hb hb2
    rcases he.block_origin r2 b hb2 with ⟨r0, e⟩ | e
    · exact hdis r r0 b hb e
    · have := (hs.blocks r b hb).1; omega

theorem setSlot_same {h : Heap α} {arr row : Nat} {l : List (Option Nat)} {p : Option Nat}
    (hi : h.index arr = some l) (hl : l[row]? = some p) : h.setSlot arr row p = some h := by
  have hrow : row < l.length := by
    rcases Nat.lt_or_ge row l.length with e | e
    · exact e
    · rw [List.getElem?_eq_none e] at hl; cases hl
  have hset : l.set row p = l := by
    apply List.ext_getElem?
    intro i
    rw [List.getElem?_set]
    by_cases e : row = i
    · subst e; rw [if_pos rfl, if_pos hrow, hl]
    · rw [if_neg e]
  unfold Heap.setSlot
  rw [hi]
  simp only []
  rw [if_pos hrow, hset, ← hi, Function.update_eq_self]

theorem building_newIndex (h0 : Heap α) (cap : Nat) :
    Building h0 (h0.newIndex (List.replicate cap none)).1 h0.nextIndex
      (List.replicate cap none) := by
  constructor
  · intro a ha
    simp [Heap.newIndex, Function.update_noteq ha]
  · intro b _
    rfl
  · exact le_rfl
  · intro r b hr
    rw [List.getElem?_replicate] at hr
    split at hr <;> cases hr
  · simp [Heap.newIndex]
  · exact le_rfl

theorem building_withNewBlock {h0 h : Heap α} {arr : Nat} {l : List (Option Nat)}
    (hb : Building h0 h arr l) {row : Nat} (hl : l[row]? = some none) :
    Building h0 (h.withNewBlock arr l row) arr (l.set row (some h.nextBlock)) := by
  have h1 := hb.nextBlock_le
  have hrow : row < l.length := by
    rcases Nat.lt_or_ge row l.length with e | e
    · exact e
    · rw [List.getElem?_eq_none e] at hl; cases hl
  constructor
  · intro a ha
    simp only [Heap.withNewBlock, Function.update_noteq ha]
    exact hb.index_other a ha
  · intro b hnot
    have hne : b ≠ h.nextBlock := by
      intro e
      exact hnot row (by rw [List.getElem?_set, if_pos rfl, if_pos hrow, e])
    simp only [Heap.withNewBlock, Function.update_noteq hne]
    apply hb.block_other
    intro r hr
    by_cases e : row = r
    · subst e; rw [hl] at hr; cases hr
    · exact hnot r (by rw [List.getElem?_set, if_neg e]; exact hr)
  · exact hb.arr_fresh
  · intro r b hr
    rw [List.getElem?_set] at hr
    by_cases e : row = r
    · rw [if_pos e, if_pos hrow] at hr
      cases hr
      exact h1
    · rw [if_neg e] at hr
      exact hb.block_fresh r b hr
  · exact hb.nextIndex_le
  · simp only [Heap.withNewBlock]; omega

theorem building_withBlock {h0 h : Heap α} {arr : Nat} {l : List (Option Nat)}
    (hb : Building h0 h arr l) {r b : Nat} (cs : List (Option α))
    (hl : l[r]? = some (some b)) : Building h0 (h.withBlock b cs) arr l := by
  refine { hb with block_other := ?_ }
  intro b2 hnot
  have hne : b2 ≠ b := by
    intro e
    rw [e] at hnot
    exact hnot r hl
  simp only [Heap.withBlock, Function.update_noteq hne]
  exact hb.block_other b2 hnot

theorem copy_rows_ok (f : CopyFaults) (h0 : Heap α) (src arr cap e : Nat)
    (lo : List (Option Nat)) (hsrc : h0.index src = some lo) (hne : src ≠ arr)
    (hlo : lo.length = cap) (he : e ≤ cap)
    (hstop : e = cap ∨ (f.blockFailAt = some e ∧ ∃ b, lo[e]? = some (some b))) :
    ∀ (j row : Nat) (h : Heap α) (l : List (Option Nat)),
      Shape h ⟨0, 0, 0, cap, arr⟩ l → Building h0 h arr l → row + j = e →
      (∀ r, r < e → f.blockFailAt ≠ some r ∨ lo[r]? = some none) →
      (∀ r, row ≤ r → r < cap → l[r]? = some none) →
      (∀ r, r < row → (l[r]? = some none ↔ lo[r]? = some none)) →
      ∃ h2 l2, copy_rows f src arr (j + (cap - e)) row h
          = (if e = cap then .ok (h2, cap) else .threw (h2, e)) ∧
        Shape h2 ⟨0, 0, 0, cap, arr⟩ l2 ∧ Building h0 h2 arr l2 ∧
        (∀ r, r < e → (l2[r]? = some none ↔ lo[r]? = some none)) ∧
        (∀ r, e ≤ r → r < cap → l2[r]? = some none) ∧
        (∀ q, peekLin h2 l2 q = peekLin h l q) := by
  intro j
  induction j with
  | zero =>
    intro row h l hs hb hrow _ hnull hdone
    have e1 : row = e := by omega
    subst e1
    refine ⟨h, l, ?_, hs, hb, hdone, hnull, fun _ => rfl⟩
    by_cases hc : row = cap
    · rw [if_pos hc]
      have e2 : 0 + (cap - row) = 0 := by omega
      rw [e2, copy_rows, hc]
    · rw [if_neg hc]
      obtain ⟨hfail, b, hb2⟩ : f.blockFailAt = some row ∧ ∃ b, lo[row]? = some (some b) := by
        rcases hstop with e2 | e2
        · exact absurd e2 hc
        · exact e2
      have e2 : 0 + (cap - row) = (cap - row - 1) + 1 := by omega
      have hsl : h.slot src row = lo[row]? := by
        unfold Heap.slot
        rw [hb.index_other src hne, hsrc]
      rw [e2, copy_rows, hsl, hb2]
      simp only []
      rw [if_pos hfail]
  | succ j ih =>
    intro row h l hs hb hrow hfault hnull hdone
    have hlen : l.length = cap := hs.length_eq
    have hl : l[row]? = some none := hnull row le_rfl (by omega)
    have hsl : h.slot src row = lo[row]? := by
      unfold Heap.slot
      rw [hb.index_other src hne, hsrc]
    have e2 : j + 1 + (cap - e) = (j + (cap - e)) + 1 := by omega
    rcases hx : lo[row]? with _ | _ | b
    · rw [List.getElem?_eq_none_iff] at hx; omega
    · obtain ⟨h2, l2, hrun, hs2, hb2, hpat, hrest, hpk⟩ :=
        ih (row + 1) h l hs hb (by omega) hfault
          (fun r hr1 hr2 => hnull r (by omega) hr2)
          (by
            intro r hr
            by_cases e3 : r = row
            · subst e3; rw [hl, hx]
            · exact hdone r (by omega))
      refine ⟨h2, l2, ?_, hs2, hb2, hpat, hrest, hpk⟩
      rw [e2, copy_rows, hsl, hx]
      simp only []
      rw [setSlot_same hs.index_eq hl]
      exact hrun
    · have hnf : ¬ f.blockFailAt = some row := by
        rcases hfault row (by omega) with e3 | e3
        · exact e3
        · rw [hx] at e3; cases e3
      have hs1 := shape_withNewBlock hs hl
      obtain ⟨h2, l2, hrun, hs2, hb2, hpat, hrest, hpk⟩ :=
        ih (row + 1) (h.withNewBlock arr l row) (l.set row (some h.nextBlock)) hs1
          (building_withNewBlock hb hl) (by omega) hfault
          (by
            intro r hr1 hr2
            rw [List.getElem?_set, if_neg (by omega)]
            exact hnull r (by omega) hr2)
          (by
            intro r hr
            rw [List.getElem?_set]
            by_cases e3 : row = r
            · subst e3
              rw [if_pos rfl, if_pos (by omega), hx]
              simp
            · rw [if_neg e3]; exact hdone r (by omega))
      refine ⟨h2, l2, ?_, hs2, hb2, hpat, hrest, ?_⟩
      · rw [e2, copy_rows, hsl, hx]
        simp only []
        rw [if_neg hnf, setSlot_newBlock hs.index_eq (by omega)]
        exact hrun
      · intro q
        rw [hpk q]
        exact peekLin_withNewBlock hs hl q

theorem withBlock_other (h : Heap α) {b b2 : Nat} (cs : List (Option α)) (hne : b2 ≠ b) :
    (h.withBlock b cs).block b2 = h.block b2 := by
  simp only [Heap.withBlock, Function.update_noteq hne]

theorem copy_loop_ok (f : CopyFaults) (h0 : Heap α) (o d : Deque) (lo l : List (Option Nat))
    (mo : List α) (n e F : Nat) (hm : mo.length = n) (hF : F + n < SIZE_MOD) (he : e ≤ n)
    (hstop : e = n ∨ f.ctorFailAt = some e)
    (hdis : ∀ (r r2 b : Nat), lo[r]? = some (some b) → l[r2]? ≠ some (some b))
    (hall : ∀ q, q < n → ∃ b, l[(F + q) / BLOCK_SIZE]? = some (some b)) :
    ∀ (j k fuel : Nat) (h : Heap α), k + j = e → j + (if e = n then 0 else 1) ≤ fuel →
      (∀ c, k ≤ c → c < e → f.ctorFailAt ≠ some c) →
      Shape h d l → Shape h o lo → Building h0 h d.arr l →
      (∀ i, i < n → peekLin h lo (F + i) = mo[i]?) →
      (∀ i, i < k → peekLin h l (F + i) = mo[i]?) →
      ∃ h2, copy_loop f ⟨o.arr, (F + n) / BLOCK_SIZE, (F + n) % BLOCK_SIZE⟩ fuel k h
          ⟨d.arr, (F + k) / BLOCK_SIZE, (F + k) % BLOCK_SIZE⟩
          ⟨o.arr, (F + k) / BLOCK_SIZE, (F + k) % BLOCK_SIZE⟩
          = some (if e = n then .ok (h2, ⟨d.arr, (F + e) / BLOCK_SIZE, (F + e) % BLOCK_SIZE⟩)
              else .threw (h2, ⟨d.arr, (F + e) / BLOCK_SIZE, (F + e) % BLOCK_SIZE⟩)) ∧
        Shape h2 d l ∧ Shape h2 o lo ∧ Building h0 h2 d.arr l ∧
        (∀ i, i < e → peekLin h2 l (F + i) = mo[i]?) ∧
        (∀ q, q < F ∨ F + e ≤ q → peekLin h2 l q = peekLin h l q) ∧
        (∀ q, peekLin h2 lo q = peekLin h lo q) := by
  intro j
  induction j with
  | zero =>
    intro k fuel h hk hfuel _ hs hso hb hsrc hpk
    have hke : k = e := by omega
    subst hke
    refine ⟨h, ?_, hs, hso, hb, hpk, fun _ _ => rfl, fun _ => rfl⟩
    by_cases hen : k = n
    · rw [if_pos hen]
      have e1 : Iter.eq ⟨o.arr, (F + k) / BLOCK_SIZE, (F + k) % BLOCK_SIZE⟩
          ⟨o.arr, (F + n) / BLOCK_SIZE, (F + n) % BLOCK_SIZE⟩ = true := by
        rw [eq_at_iff]; omega
      cases fuel with
      | zero => rw [copy_loop, if_pos e1]
      | succ f2 => rw [copy_loop, if_pos e1]
    · rw [if_neg hen] at hfuel ⊢
      obtain ⟨f2, rfl⟩ : ∃ f2, fuel = f2 + 1 := ⟨fuel - 1, by omega⟩
      have e1 : ¬ Iter.eq ⟨o.arr, (F + k) / BLOCK_SIZE, (F + k) % BLOCK_SIZE⟩
          ⟨o.arr, (F + n) / BLOCK_SIZE, (F + n) % BLOCK_SIZE⟩ = true := by
        rw [eq_at_iff]; omega
      have hfail : f.ctorFailAt = some k := by
        rcases hstop with e2 | e2
        · exact absurd e2 hen
        · exact e2
      obtain ⟨x, hx⟩ : ∃ x, mo[k]? = some x := ⟨mo[k], List.getElem?_eq_getElem (by omega)⟩
      have hld : Iter.load h ⟨o.arr, (F + k) / BLOCK_SIZE, (F + k) % BLOCK_SIZE⟩ = some x := by
        rw [load_eq_peekLin hso, hsrc k (by omega), hx]
      rw [copy_loop, if_neg e1, hld]
      simp only []
      rw [if_pos hfail]
  | succ j ih =>
    intro k fuel h hk hfuel hnf hs hso hb hsrc hpk
    obtain ⟨f2, rfl⟩ : ∃ f2, fuel = f2 + 1 := ⟨fuel - 1, by omega⟩
    have e1 : ¬ Iter.eq ⟨o.arr, (F + k) / BLOCK_SIZE, (F + k) % BLOCK_SIZE⟩
        ⟨o.arr, (F + n) / BLOCK_SIZE, (F + n) % BLOCK_SIZE⟩ = true := by
      rw [eq_at_iff]; omega
    obtain ⟨x, hx⟩ : ∃ x, mo[k]? = some x := ⟨mo[k], List.getElem?_eq_getElem (by omega)⟩
    have hld : Iter.load h ⟨o.arr, (F + k) / BLOCK_SIZE, (F + k) % BLOCK_SIZE⟩ = some x := by
      rw [load_eq_peekLin hso, hsrc k (by omega), hx]
    have hnfk : ¬ f.ctorFailAt = some k := hnf k le_rfl (by omega)
    obtain ⟨b, hbl⟩ := hall k (by omega)
    obtain ⟨cs, hcs, hc⟩ := construct_eq hs x hbl
    obtain ⟨hs2, hpk2⟩ := write_ok hs (some x) hbl hcs
    have hblk := hs.blocks _ b hbl
    have hso2 : Shape (h.withBlock b (cs.set ((F + k) % BLOCK_SIZE) (some x))) o lo :=
      shape_withBlock hso b _ (by
        rw [List.length_set]
        obtain ⟨_, cs2, hcs2, hlen⟩ := hblk
        rw [hcs] at hcs2
        cases hcs2
        exact hlen) hblk.1
    have hsrc2 : ∀ q, peekLin (h.withBlock b (cs.set ((F + k) % BLOCK_SIZE) (some x))) lo q
        = peekLin h lo q := by
      intro q
      apply peekLin_congr
      intro r b2 hb2
      exact withBlock_other h _ (fun e => hdis r _ b2 hb2 (by rw [e]; exact hbl))
    obtain ⟨h3, hrun, hs3, hso3, hb3, hpk3, hout3, hsrc3⟩ :=
      ih (k + 1) f2 _ (by omega) (by omega) (fun c hc1 hc2 => hnf c (by omega) hc2) hs2 hso2
        (building_withBlock hb _ hbl)
        (by intro i hi; rw [hsrc2]; exact hsrc i hi)
        (by
          intro i hi
          rw [hpk2]
          by_cases e2 : F + i = F + k
          · have : i = k := by omega
            subst this
            rw [if_pos rfl, hx]
          · rw [if_neg e2]; exact hpk i (by omega))
    refine ⟨h3, ?_, hs3, hso3, hb3, hpk3, ?_, ?_⟩
    · rw [copy_loop, if_neg e1, hld]
      simp only []
      rw [if_neg hnfk, hc]
      simp only []
      rw [inc_at d.arr (F + k) (by omega), inc_at o.arr (F + k) (by omega)]
      exact hrun
    · intro q hq
      rw [hout3 q (by omega), hpk2, if_neg (by omega)]
    · intro q
      rw [hsrc3, hsrc2]

theorem clear_rows_ok (arr : Nat) (l : List (Option Nat))
    (hinj : ∀ (r r2 b : Nat), l[r]? = some (some b) → l[r2]? = some (some b) → r = r2) :
    ∀ (row : Nat) (h : Heap α), h.index arr = some l → row ≤ l.length →
      (∀ (r b : Nat), r < row → l[r]? = some (some b) → ∃ cs, h.block b = some cs) →
      ∃ h2, clear_rows arr row h = some h2 ∧ h2.index = h.index ∧
        h2.nextIndex = h.nextIndex ∧ h2.nextBlock = h.nextBlock ∧
        (∀ (r b : Nat), r < row → l[r]? = some (some b) → h2.block b = none) ∧
        (∀ (b : Nat), (∀ (r : Nat), r < row → l[r]? ≠ some (some b)) →
          h2.block b = h.block b) := by
  intro row
  induction row with
  | zero =>
    intro h _ _ _
    exact ⟨h, rfl, rfl, rfl, rfl, fun r b hr => by omega, fun _ _ => rfl⟩
  | succ row ih =>
    intro h hi hrow hlive
    have hsl : h.slot arr row = l[row]? := by
      unfold Heap.slot
      rw [hi]
    rcases hx : l[row]? with _ | _ | b
    · rw [List.getElem?_eq_none_iff] at hx; omega
    · obtain ⟨h2, hrun, h2i, h2n, h2b, hfreed, hkept⟩ :=
        ih h hi (by omega) (fun r b hr hb => hlive r b (by omega) hb)
      refine ⟨h2, ?_, h2i, h2n, h2b, ?_, ?_⟩
      · rw [clear_rows, hsl, hx]
        exact hrun
      · intro r b hr hb
        by_cases e : r = row
        · subst e; rw [hx] at hb; cases hb
        · exact hfreed r b (by omega) hb
      · intro b hb
        exact hkept b (fun r hr => hb r (by omega))
    · obtain ⟨cs, hcs⟩ := hlive row b (by omega) hx
      have hfree : h.freeBlock (some b)
          = some { h with block := Function.update h.block b none } := by
        unfold Heap.freeBlock
        simp only []
        rw [hcs]
      obtain ⟨h2, hrun, h2i, h2n, h2b, hfreed, hkept⟩ :=
        ih { h with block := Function.update h.block b none } hi (by omega) (by
          intro r b2 hr hb2
          have hne : b2 ≠ b := by
            intro e
            rw [e] at hb2
            have := hinj r row b hb2 hx
            omega
          obtain ⟨cs2, hcs2⟩ := hlive r b2 (by omega) hb2
          exact ⟨cs2, by simp only [Function.update_noteq hne]; exact hcs2⟩)
      refine ⟨h2, ?_, h2i, h2n, h2b, ?_, ?_⟩
      · rw [clear_rows, hsl, hx]
        simp only []
        rw [hfree]
        exact hrun
      · intro r b2 hr hb2
        by_cases e : r = row
        · subst e
          have eb : b2 = b := by
            rw [hx] at hb2
            exact (Option.some.inj (Option.some.inj hb2)).symm
          rw [eb, hkept b (fun r2 hr2 e2 => by have := hinj r2 r b e2 hx; omega)]
          simp
        · exact hfreed r b2 (by omega) hb2
      · intro b2 hb2
        have hne : b2 ≠ b := by
          intro e
          rw [e] at hb2
          exact hb2 row (by omega) hx
        rw [hkept b2 (fun r hr => hb2 r (by omega))]
        simp only [Function.update_noteq hne]

theorem unbuild_ok {h0 h : Heap α} {d : Deque} {l : List (Option Nat)} (hs : Shape h d l)
    (hb : Building h0 h d.arr l) (hwf : h0.WF) (row : Nat) (hrow : row ≤ d.capacity)
    (hnull : ∀ r, row ≤ r → r < d.capacity → l[r]? = some none) :
    ∃ h3, clear d.arr row true h = some h3 ∧ h3.index = h0.index ∧ h3.block = h0.block ∧
      h3.nextIndex = h.nextIndex ∧ h3.nextBlock = h.nextBlock := by
  have hlen := hs.length_eq
  obtain ⟨h2, hrun, h2i, h2n, h2b, hfreed, hkept⟩ :=
    clear_rows_ok d.arr l hs.inj row h hs.index_eq (by omega) (by
      intro r b _ hb2
      obtain ⟨_, cs, hcs, _⟩ := hs.blocks r b hb2
      exact ⟨cs, hcs⟩)
  have hidx : h2.index d.arr = some l := by rw [h2i]; exact hs.index_eq
  refine ⟨{ h2 with index := Function.update h2.index d.arr none }, ?_, ?_, ?_, h2n, h2b⟩
  · unfold clear
    rw [hrun]
    show (if true = true then h2.freeIndex d.arr else some h2) = _
    rw [if_pos rfl]
    unfold Heap.freeIndex
    rw [hidx]
  · funext a
    show Function.update h2.index d.arr none a = h0.index a
    by_cases e : a = d.arr
    · rw [e, Function.update_same, hwf.1 d.arr hb.arr_fresh]
    · rw [Function.update_noteq e, h2i, hb.index_other a e]
  · funext b
    show h2.block b = h0.block b
    rcases Classical.em (∃ (r : Nat), l[r]? = some (some b)) with e | e
    · obtain ⟨r, hr⟩ := e
      have hr2 : r < row := by
        by_contra hge
        have hlt : r < d.capacity := by
          rcases Nat.lt_or_ge r l.length with e2 | e2
          · omega
          · rw [List.getElem?_eq_none e2] at hr; cases hr
        rw [hnull r (by omega) hlt] at hr
        cases hr
      rw [hfreed r b hr2 hr, hwf.2 b (hb.block_fresh r b hr)]
    · rw [hkept b (fun r _ hr => e ⟨r, hr⟩)]
      exact hb.block_other b (fun r hr => e ⟨r, hr⟩)

theorem destroy_loop_ok {d : Deque} {l : List (Option Nat)} (F e : Nat)
    (hF : F + e < SIZE_MOD) :
    ∀ (j k fuel : Nat) (h : Heap α) (log : List Iter), k + j = e → j ≤ fuel → Shape h d l →
      (∀ i, k ≤ i → i < e → ∃ x, peekLin h l (F + i) = some x) →
      ∃ h2, destroy_loop ⟨d.arr, (F + e) / BLOCK_SIZE, (F + e) % BLOCK_SIZE⟩ fuel h
          ⟨d.arr, (F + k) / BLOCK_SIZE, (F + k) % BLOCK_SIZE⟩ log
          = some (some (h2, log ++ (List.range' k j).map fun i =>
              (⟨d.arr, (F + i) / BLOCK_SIZE, (F + i) % BLOCK_SIZE⟩ : Iter))) ∧
        Shape h2 d l ∧ h2.index = h.index ∧
        (∀ (b : Nat), (∀ (r : Nat), l[r]? ≠ some (some b)) → h2.block b = h.block b) ∧
        h2.nextIndex = h.nextIndex ∧ h2.nextBlock = h.nextBlock := by
  intro j
  induction j with
  | zero =>
    intro k fuel h log hk _ hs _
    have hke : k = e := by omega
    subst hke
    refine ⟨h, ?_, hs, rfl, fun _ _ => rfl, rfl, rfl⟩
    have e1 : Iter.eq ⟨d.arr, (F + k) / BLOCK_SIZE, (F + k) % BLOCK_SIZE⟩
        ⟨d.arr, (F + k) / BLOCK_SIZE, (F + k) % BLOCK_SIZE⟩ = true := (eq_at_iff _ _ _).2 rfl
    cases fuel with
    | zero => rw [destroy_loop, if_pos e1]; simp
    | succ f => rw [destroy_loop, if_pos e1]; simp
  | succ j ih =>
    intro k fuel h log hk hfuel hs hlive
    obtain ⟨f, rfl⟩ : ∃ f, fuel = f + 1 := ⟨fuel - 1, by omega⟩
    have e1 : ¬ Iter.eq ⟨d.arr, (F + k) / BLOCK_SIZE, (F + k) % BLOCK_SIZE⟩
        ⟨d.arr, (F + e) / BLOCK_SIZE, (F + e) % BLOCK_SIZE⟩ = true := by
      rw [eq_at_iff]; omega
    obtain ⟨x, hx⟩ := hlive k le_rfl (by omega)
    obtain ⟨b, hbl⟩ := peekLin_some hx
    obtain ⟨cs, hcs, hdes⟩ := destroy_eq hs hbl
    obtain ⟨hs2, hpk2⟩ := write_ok hs (none : Option α) hbl hcs
    obtain ⟨h3, hrun, hs3, hidx3, hblk3, hni3, hnb3⟩ :=
      ih (k + 1) f _ (log ++ [⟨d.arr, (F + k) / BLOCK_SIZE, (F + k) % BLOCK_SIZE⟩]) (by omega)
        (by omega) hs2 (by
          intro i hi1 hi2
          obtain ⟨y, hy⟩ := hlive i (by omega) hi2
          exact ⟨y, by rw [hpk2, if_neg (by omega)]; exact hy⟩)
    refine ⟨h3, ?_, hs3, ?_, ?_, ?_, ?_⟩
    · rw [destroy_loop, if_neg e1, load_eq_peekLin hs, hx]
      simp only []
      rw [hdes]
      simp only []
      rw [inc_at d.arr (F + k) (by omega), show F + k + 1 = F + (k + 1) from rfl, hrun,
        List.range'_succ, List.map_cons, List.append_assoc]
      rfl
    · rw [hidx3]; rfl
    · intro b2 hb2
      rw [hblk3 b2 hb2]
      exact withBlock_other h _ (fun e2 => hb2 _ (by rw [e2]; exact hbl))
    · rw [hni3]; rfl
    · rw [hnb3]; rfl

theorem clear_ok {h : Heap α} {d : Deque} {l : List (Option Nat)} (hs : Shape h d l)
    (row : Nat) (hrow : row ≤ d.capacity) :
    ∃ h3, clear d.arr row true h = some h3 ∧
      h3.index = Function.update h.index d.arr none ∧
      (∀ (r b : Nat), r < row → l[r]? = some (some b) → h3.block b = none) ∧
      (∀ (b : Nat), (∀ (r : Nat), r < row → l[r]? ≠ some (some b)) → h3.block b = h.block b) ∧
      h3.nextIndex = h.nextIndex ∧ h3.nextBlock = h.nextBlock := by
  have hlen := hs.length_eq
  obtain ⟨h2, hrun, h2i, h2n, h2b, hfreed, hkept⟩ :=
    clear_rows_ok d.arr l hs.inj row h hs.index_eq (by omega) (by
      intro r b _ hb2
      obtain ⟨_, cs, hcs, _⟩ := hs.blocks r b hb2
      exact ⟨cs, hcs⟩)
  have hidx : h2.index d.arr = some l := by rw [h2i]; exact hs.index_eq
  refine ⟨{ h2 with index := Function.update h2.index d.arr none }, ?_, ?_, hfreed, hkept,
    h2n, h2b⟩
  · unfold clear
    rw [hrun]
    show (if true = true then h2.freeIndex d.arr else some h2) = _
    rw [if_pos rfl]
    unfold Heap.freeIndex
    rw [hidx]
  · show Function.update h2.index d.arr none = _
    rw [h2i]

theorem clear_elements_ok {h : Heap α} {d : Deque} {l : List (Option Nat)} (hs : Shape h d l)
    (e : Nat) (he : e ≤ d.size_)
    (hlive : ∀ i, i < e → ∃ x, peekLin h l (front d + i) = some x) :
    ∃ h3, clear_elements h d ⟨d.arr, (front d + e) / BLOCK_SIZE, (front d + e) % BLOCK_SIZE⟩
        = some (some (h3, (List.range' 0 e).map fun i =>
            (⟨d.arr, (front d + i) / BLOCK_SIZE, (front d + i) % BLOCK_SIZE⟩ : Iter))) ∧
      h3.index = Function.update h.index d.arr none ∧
      (∀ (r b : Nat), l[r]? = some (some b) → h3.block b = none) ∧
      (∀ (b : Nat), (∀ (r : Nat), l[r]? ≠ some (some b)) → h3.block b = h.block b) ∧
      h3.nextIndex = h.nextIndex ∧ h3.nextBlock = h.nextBlock := by
  have hfits := hs.fits
  have hrep := hs.cap_rep
  have hlen := hs.length_eq
  obtain ⟨h2, hloop, hs2, hidx2, hblk2, hni2, hnb2⟩ :=
    destroy_loop_ok (d := d) (l := l) (front d) e (by omega) e 0 d.size_ h [] (by omega) he hs
      (fun i _ hi => hlive i hi)
  obtain ⟨h3, hclr, hidx3, hfreed, hkept, hni3, hnb3⟩ := clear_ok hs2 d.capacity le_rfl
  refine ⟨h3, ?_, ?_, ?_, ?_, by rw [hni3, hni2], by rw [hnb3, hnb2]⟩
  · unfold clear_elements
    rw [begin_eq hs]
    rw [Nat.add_zero] at hloop
    rw [hloop]
    show (match clear d.arr d.capacity true h2 with
      | none => some none
      | some h4 => some (some (h4, _))) = _
    rw [hclr]
    rfl
  · rw [hidx3, hidx2]
  · intro r b hb
    have hr : r < d.capacity := by
      rcases Nat.lt_or_ge r l.length with e2 | e2
      · omega
      · rw [List.getElem?_eq_none e2] at hb; cases hb
    exact hfreed r b hr hb
  · intro b hb
    rw [hkept b (fun r _ => hb r), hblk2 b hb]

theorem destruct_ok {h : Heap α} {d : Deque} {l : List (Option Nat)} {m : List α}
    (hr : Repr h d l m) :
    ∃ h3, destruct h d = some (some (h3, (List.range' 0 d.size_).map fun i =>
            (⟨d.arr, (front d + i) / BLOCK_SIZE, (front d + i) % BLOCK_SIZE⟩ : Iter))) ∧
      h3.index = Function.update h.index d.arr none ∧
      (∀ (r b : Nat), l[r]? = some (some b) → h3.block b = none) ∧
      (∀ (b : Nat), (∀ (r : Nat), l[r]? ≠ some (some b)) → h3.block b = h.block b) ∧
      h3.nextIndex = h.nextIndex ∧ h3.nextBlock = h.nextBlock := by
  have hn := hr.2.1
  obtain ⟨h3, hce, hrest⟩ := clear_elements_ok hr.1 d.size_ le_rfl (by
    intro i hi
    have hi2 : i < m.length := by omega
    exact ⟨m[i], by rw [hr.2.2 i hi2, List.getElem?_eq_getElem hi2]⟩)
  refine ⟨h3, ?_, hrest⟩
  unfold destruct
  rw [end_eq hr.1]
  exact hce

theorem building_frame {h0 h h2 : Heap α} {arr : Nat} {l : List (Option Nat)}
    (hb : Building h0 h arr l) (hi : h2.index = h.index)
    (hk : ∀ (b : Nat), (∀ (r : Nat), l[r]? ≠ some (some b)) → h2.block b = h.block b)
    (hni : h2.nextIndex = h.nextIndex) (hnb : h2.nextBlock = h.nextBlock) :
    Building h0 h2 arr l := by
  constructor
  · intro a ha; rw [hi]; exact hb.index_other a ha
  · intro b hb2; rw [hk b hb2]; exact hb.block_other b hb2
  · exact hb.arr_fresh
  · exact hb.block_fresh
  · rw [hni]; exact hb.nextIndex_le
  · rw [hnb]; exact hb.nextBlock_le

theorem wf_of_same {h h3 : Heap α} (hwf : h.WF) (hi : h3.index = h.index)
    (hb : h3.block = h.block) (hni : h.nextIndex ≤ h3.nextIndex)
    (hnb : h.nextBlock ≤ h3.nextBlock) : h3.WF :=
  ⟨fun a ha => by rw [hi]; exact hwf.1 a (by omega),
   fun b hb2 => by rw [hb]; exact hwf.2 b (by omega)⟩

theorem copy_prepare (f : CopyFaults) {h : Heap α} {o : Deque} {lo : List (Option Nat)}
    {mo : List α} (hr : Repr h o lo mo) (e : Nat) (he : e ≤ o.capacity)
    (hstop : e = o.capacity ∨ (f.blockFailAt = some e ∧ ∃ b, lo[e]? = some (some b)))
    (hclean : ∀ r, r < e → f.blockFailAt ≠ some r ∨ lo[r]? = some none) :
    ∃ h2 l2, copy_rows f o.arr (h.newIndex (List.replicate o.capacity none)).2 o.capacity 0
          (h.newIndex (List.replicate o.capacity none)).1
          = (if e = o.capacity then .ok (h2, o.capacity) else .threw (h2, e)) ∧
      Shape h2 { o with arr := (h.newIndex (List.replicate o.capacity none)).2 } l2 ∧
      Repr h2 o lo mo ∧
      Building h h2 (h.newIndex (List.replicate o.capacity none)).2 l2 ∧
      (∀ r, r < e → (l2[r]? = some none ↔ lo[r]? = some none)) ∧
      (∀ r, e ≤ r → r < o.capacity → l2[r]? = some none) ∧
      (∀ (r r2 b : Nat), lo[r]? = some (some b) → l2[r2]? ≠ some (some b)) := by
  have hs := hr.1
  have hwf := shape_wf hs
  have harr : o.arr < h.nextIndex := hs.arr_lt
  obtain ⟨h2, l2, hrun, hs2, hb2, hpat, hnull, _⟩ :=
    copy_rows_ok f h o.arr (h.newIndex (List.replicate o.capacity none)).2 o.capacity e lo
      hs.index_eq (by show o.arr ≠ h.nextIndex; omega) hs.length_eq he hstop e 0
      (h.newIndex (List.replicate o.capacity none)).1 (List.replicate o.capacity none)
      (shape_newIndex h hwf o.capacity hs.cap_rep) (building_newIndex h o.capacity)
      (by omega) hclean
      (by intro r _ hr2; rw [List.getElem?_replicate, if_pos hr2])
      (by intro r hr2; omega)
  have e1 : e + (o.capacity - e) = o.capacity := by omega
  rw [e1] at hrun
  have hdis : ∀ (r r2 b : Nat), lo[r]? = some (some b) → l2[r2]? ≠ some (some b) := by
    intro r r2 b hb hb3
    have h1 := (hs.blocks r b hb).1
    have h3 := hb2.block_fresh r2 b hb3
    omega
  have hwf2 : h2.WF := shape_wf hs2
  have hro : Repr h2 o lo mo :=
    repr_frame hr (hb2.index_other _ (by show o.arr ≠ h.nextIndex; omega))
      (fun r b hb => hb2.block_other b (fun r2 => hdis r r2 b hb))
      hb2.nextIndex_le hb2.nextBlock_le hwf2
  refine ⟨h2, l2, hrun, ?_, hro, hb2, hpat, hnull, hdis⟩
  exact ⟨hs.col_lt, hs.cap_rep, hs.size_int, hs.fits, hs2.arr_lt, hs2.index_eq, hs2.length_eq,
    hs2.blocks, hs2.inj, hs2.index_fresh, hs2.block_fresh⟩

theorem copy_elements (f : CopyFaults) {h h2 : Heap α} {o : Deque} {lo l2 : List (Option Nat)}
    {mo : List α} (arr : Nat)
    (hsd : Shape h2 { o with arr := arr } l2) (hro : Repr h2 o lo mo)
    (hb : Building h h2 arr l2)
    (hpat : ∀ r, r < o.capacity → (l2[r]? = some none ↔ lo[r]? = some none))
    (hdis : ∀ (r r2 b : Nat), lo[r]? = some (some b) → l2[r2]? ≠ some (some b))
    (e : Nat) (he : e ≤ o.size_) (hstop : e = o.size_ ∨ f.ctorFailAt = some e)
    (hclean : ∀ c, c < e → f.ctorFailAt ≠ some c) :
    ∃ h3, copy_loop f (end_ o) o.size_ 0 h2 (begin { o with arr := arr }) (begin o)
        = some (if e = o.size_
            then .ok (h3, ⟨arr, (front o + e) / BLOCK_SIZE, (front o + e) % BLOCK_SIZE⟩)
            else .threw (h3, ⟨arr, (front o + e) / BLOCK_SIZE, (front o + e) % BLOCK_SIZE⟩)) ∧
      Shape h3 { o with arr := arr } l2 ∧ Repr h3 o lo mo ∧ Building h h3 arr l2 ∧
      (∀ i, i < e → peekLin h3 l2 (front o + i) = mo[i]?) := by
  have hs := hro.1
  have hfits := hs.fits
  have hrep := hs.cap_rep
  have hn := hro.2.1
  have hall : ∀ q, q < o.size_ → ∃ b, l2[(front o + q) / BLOCK_SIZE]? = some (some b) := by
    intro q hq
    have hq2 : q < mo.length := by omega
    have hpk := hro.2.2 q hq2
    rw [List.getElem?_eq_getElem hq2] at hpk
    obtain ⟨b, hbl⟩ := peekLin_some hpk
    have hrow : (front o + q) / BLOCK_SIZE < o.capacity := by
      simp only [BLOCK_SIZE] at *; omega
    have hlen := hsd.length_eq
    have hrow2 : (front o + q) / BLOCK_SIZE < l2.length := by rw [hlen]; exact hrow
    rcases hx : l2[(front o + q) / BLOCK_SIZE] with _ | b2
    · have e1 : l2[(front o + q) / BLOCK_SIZE]? = some none := by
        rw [List.getElem?_eq_getElem hrow2, hx]
      rw [(hpat _ hrow).1 e1] at hbl
      cases hbl
    · exact ⟨b2, by rw [List.getElem?_eq_getElem hrow2, hx]⟩
  obtain ⟨h3, hrun, hs3, hso3, hb3, hpk3, _, hsrc3⟩ :=
    copy_loop_ok f h o { o with arr := arr } lo l2 mo o.size_ e (front o) hn.symm (by omega) he
      hstop hdis hall e 0 o.size_ h2 (by omega) (by split <;> omega)
      (fun c _ hc => hclean c hc) hsd hs hb (fun i hi => hro.2.2 i (by omega))
      (fun i hi => by omega)
  rw [Nat.add_zero] at hrun
  refine ⟨h3, ?_, hs3, ⟨hso3, hn, fun i hi => by rw [hsrc3]; exact hro.2.2 i hi⟩, hb3, hpk3⟩
  rw [end_eq hs, begin_eq hs, begin_eq hsd]
  exact hrun

theorem slot_of_shape {h : Heap α} {d : Deque} {l : List (Option Nat)} (hs : Shape h d l)
    (r : Nat) : h.slot d.arr r = l[r]? := by
  simp [Heap.slot, hs.index_eq]

theorem unbuilt {h0 h h3 : Heap α} {arr : Nat} {l : List (Option Nat)}
    (hb : Building h0 h arr l) (hwf : h0.WF)
    (hi : h3.index = Function.update h.index arr none)
    (hfreed : ∀ (r b : Nat), l[r]? = some (some b) → h3.block b = none)
    (hkept : ∀ (b : Nat), (∀ (r : Nat), l[r]? ≠ some (some b)) → h3.block b = h.block b) :
    h3.index = h0.index ∧ h3.block = h0.block := by
  constructor
  · funext a
    rw [hi]
    by_cases e : a = arr
    · subst e
      rw [Function.update_same, hwf.1 a hb.arr_fresh]
    · rw [Function.update_noteq e, hb.index_other a e]
  · funext b
    rcases Classical.em (∃ (r : Nat), l[r]? = some (some b)) with ⟨r, hr⟩ | hn
    · rw [hfreed r b hr, hwf.2 b (hb.block_fresh r b hr)]
    · have hn2 : ∀ (r : Nat), l[r]? ≠ some (some b) := fun r hr => hn ⟨r, hr⟩
      rw [hkept b hn2, hb.block_other b hn2]

theorem mk_copy_ok (f : CopyFaults) {h : Heap α} {o : Deque} {lo : List (Option Nat)}
    {mo : List α} (hr : Repr h o lo mo) (hidx : f.indexAlloc = true)
    (hblk : ∀ r, r < o.capacity → f.blockFailAt ≠ some r ∨ lo[r]? = some none)
    (hctor : ∀ c, c < o.size_ → f.ctorFailAt ≠ some c) :
    ∃ h3 l3, mk_copy f h o = some (.ok h3 { o with arr := h.nextIndex }) ∧
      Repr h3 { o with arr := h.nextIndex } l3 mo ∧ Repr h3 o lo mo ∧
      Apart o { o with arr := h.nextIndex } lo l3 ∧ Building h h3 h.nextIndex l3 ∧
      (∀ r, r < o.capacity → (l3[r]? = some none ↔ lo[r]? = some none)) := by
  obtain ⟨h2, l2, hrows, hsd, hro, hb, hpat, _, hdis⟩ :=
    copy_prepare f hr o.capacity le_rfl (Or.inl rfl) hblk
  rw [if_pos rfl] at hrows
  obtain ⟨h3, hloop, hs3, hro3, hb3, hpk3⟩ :=
    copy_elements f _ hsd hro hb hpat hdis o.size_ le_rfl (Or.inl rfl) hctor
  rw [if_pos rfl] at hloop
  have harr := hr.1.arr_lt
  refine ⟨h3, l2, ?_, ⟨hs3, hr.2.1, fun i hi => hpk3 i (by rw [hr.2.1]; exact hi)⟩, hro3,
    ⟨by show o.arr ≠ h.nextIndex; omega, hdis⟩, hb3, hpat⟩
  unfold mk_copy
  rw [if_neg (by rw [hidx]; decide), hrows]
  show copy_done _ (copy_loop f (end_ o) o.size_ 0 h2 _ (begin o)) = _
  rw [hloop]
  rfl

theorem mk_copy_block_fails (f : CopyFaults) {h : Heap α} {o : Deque} {lo : List (Option Nat)}
    {mo : List α} (hr : Repr h o lo mo) (hidx : f.indexAlloc = true) (e b : Nat)
    (hfail : f.blockFailAt = some e) (hbe : lo[e]? = some (some b)) :
    ∃ h3, mk_copy f h o = some (.threw h3 []) ∧ h3.index = h.index ∧ h3.block = h.block ∧
      h.nextIndex ≤ h3.nextIndex ∧ h.nextBlock ≤ h3.nextBlock := by
  have hlen := hr.1.length_eq
  have he : e < o.capacity := by
    rcases Nat.lt_or_ge e lo.length with e2 | e2
    · omega
    · rw [List.getElem?_eq_none e2] at hbe; cases hbe
  obtain ⟨h2, l2, hrows, hsd, hro, hb, _, hnull, _⟩ :=
    copy_prepare f hr e (by omega) (Or.inr ⟨hfail, b, hbe⟩) (by
      intro r hr2
      left
      rw [hfail]
      intro e2
      have := Option.some.inj e2
      omega)
  rw [if_neg (by omega)] at hrows
  obtain ⟨h3, hclr, hi3, hb3, hni3, hnb3⟩ :=
    unbuild_ok hsd hb (shape_wf hr.1) e (by show e ≤ o.capacity; omega) hnull
  refine ⟨h3, ?_, hi3, hb3, by rw [hni3]; exact hb.nextIndex_le,
    by rw [hnb3]; exact hb.nextBlock_le⟩
  unfold mk_copy
  rw [if_neg (by rw [hidx]; decide), hrows]
  show copy_cleared (clear _ e true h2) = _
  rw [hclr]
  rfl

theorem mk_copy_ctor_fails (f : CopyFaults) {h : Heap α} {o : Deque} {lo : List (Option Nat)}
    {mo : List α} (hr : Repr h o lo mo) (hidx : f.indexAlloc = true)
    (hblk : ∀ r, r < o.capacity → f.blockFailAt ≠ some r ∨ lo[r]? = some none)
    (e : Nat) (he : e < o.size_) (hfail : f.ctorFailAt = some e) :
    ∃ h3, mk_copy f h o = some (.threw h3 ((List.range' 0 e).map fun i =>
          (⟨h.nextIndex, (front o + i) / BLOCK_SIZE, (front o + i) % BLOCK_SIZE⟩ : Iter))) ∧
      h3.index = h.index ∧ h3.block = h.block ∧
      h.nextIndex ≤ h3.nextIndex ∧ h.nextBlock ≤ h3.nextBlock := by
  obtain ⟨h2, l2, hrows, hsd, hro, hb, hpat, _, hdis⟩ :=
    copy_prepare f hr o.capacity le_rfl (Or.inl rfl) hblk
  rw [if_pos rfl] at hrows
  obtain ⟨h3, hloop, hs3, hro3, hb3, hpk3⟩ :=
    copy_elements f _ hsd hro hb hpat hdis e (by omega) (Or.inr hfail) (by
      intro c hc
      rw [hfail]
      intro e2
      have := Option.some.inj e2
      omega)
  rw [if_neg (by omega)] at hloop
  have hn := hr.2.1
  obtain ⟨h4, hce, hi4, hfreed, hkept, hni4, hnb4⟩ :=
    clear_elements_ok hs3 e (by show e ≤ o.size_; omega) (by
      intro i hi
      have hi2 : i < mo.length := by omega
      exact ⟨mo[i], by
        show peekLin h3 l2 (front o + i) = _
        rw [hpk3 i hi, List.getElem?_eq_getElem hi2]⟩)
  obtain ⟨e1, e2⟩ := unbuilt hb3 (shape_wf hr.1) hi4 hfreed hkept
  refine ⟨h4, ?_, e1, e2, by rw [hni4]; exact hb3.nextIndex_le,
    by rw [hnb4]; exact hb3.nextBlock_le⟩
  unfold mk_copy
  rw [if_neg (by rw [hidx]; decide), hrows]
  show copy_done _ (copy_loop f (end_ o) o.size_ 0 h2 _ (begin o)) = _
  rw [hloop]
  show copy_unwound (clear_elements h3 _ _) = _
  exact (congrArg copy_unwound hce).trans rfl

theorem some_iff_not_none {l : List (Option Nat)} {r : Nat} (hr : r < l.length) :
    (∃ b, l[r]? = some (some b)) ↔ ¬ l[r]? = some none := by
  rw [List.getElem?_eq_getElem hr]
  rcases l[r] with _ | b
  · simp
  · simp

theorem source_kept {h h2 : Heap α} {o : Deque} {lo : List (Option Nat)} {mo : List α}
    (hr : Repr h o lo mo) (hr2 : Repr h2 o lo mo) :
    ∀ i, i < size o → subscript h2 o i = subscript h o i := by
  intro i hi
  have hi2 : i < mo.length := by rw [← hr.2.1]; exact hi
  rw [subscript_eq hr i hi2, subscript_eq hr2 i hi2]

/-- C5, as amended: for every valid source of fewer than `2 ^ 31` elements whose index array,
blocks and element copies are all obtained, the
copy constructor builds a valid container with the size of the source and, at every position,
the element of the source; it has the `min_row`, `min_col` and `capacity` of the source and a
block in exactly the rows where the source has one, in an index array of its own; the source,
its index array and the contents of its blocks are as before. -/
theorem C5_copy_constructor_copies (f : CopyFaults) (h : Heap α) (o : Deque) (hv : Valid h o) (hint : size o < 2 ^ 31)
    (hidx : f.indexAlloc = true) (hblk : f.blockFailAt = none)
    (hctor : ∀ c, c < size o → f.ctorFailAt ≠ some c) :
    ∃ h2 d, mk_copy f h o = some (.ok h2 d) ∧ Valid h2 d ∧ size d = size o ∧
      (∀ i, i < size o → subscript h2 d i = subscript h o i ∧ (subscript h o i).isSome) ∧
      d.min_row = o.min_row ∧ d.min_col = o.min_col ∧ d.capacity = o.capacity ∧
      (∀ r, r < o.capacity →
        ((∃ b, h2.slot d.arr r = some (some b)) ↔ ∃ b, h.slot o.arr r = some (some b))) ∧
      d.arr ≠ o.arr ∧ Valid h2 o ∧ h2.index o.arr = h.index o.arr ∧
      (∀ r b, h.slot o.arr r = some (some b) → h2.block b = h.block b) ∧
      (∀ i, i < size o → subscript h2 o i = subscript h o i) := by
  obtain ⟨lo, mo, hr⟩ := validInt_of_valid hv hint
  obtain ⟨h3, l3, hrun, hrd, hro, hap, hb, hpat⟩ :=
    mk_copy_ok f hr hidx (fun r _ => Or.inl (by rw [hblk]; exact fun e => by cases e)) hctor
  have harr := hr.1.arr_lt
  have hne : o.arr ≠ h.nextIndex := by omega
  refine ⟨h3, _, hrun, valid_of_repr hrd, rfl, ?_, rfl, rfl, rfl, ?_, fun e => hne e.symm,
    valid_of_repr hro, ?_, ?_, source_kept hr hro⟩
  · intro i hi
    have hi2 : i < mo.length := by rw [← hr.2.1]; exact hi
    rw [subscript_eq hr i hi2, subscript_eq hrd i hi2, List.getElem?_eq_getElem hi2]
    exact ⟨rfl, rfl⟩
  · intro r hr2
    rw [slot_of_shape hrd.1, slot_of_shape hr.1,
      some_iff_not_none (by rw [hrd.1.length_eq]; exact hr2),
      some_iff_not_none (by rw [hr.1.length_eq]; exact hr2), hpat r hr2]
  · rw [hro.1.index_eq, hr.1.index_eq]
  · intro r b hb2
    rw [slot_of_shape hr.1] at hb2
    exact hb.block_other b (fun r2 => hap.2 r r2 b hb2)

/-- C5 on the container holding `[0, 1, 2]` that the scenario builds. -/
theorem C5_on_scenario :
    Valid scenarioState.1 scenarioState.2 ∧ size scenarioState.2 < 2 ^ 31 ∧ noCopyFault.indexAlloc = true ∧
    noCopyFault.blockFailAt = none ∧
    (∀ c, c < size scenarioState.2 → noCopyFault.ctorFailAt ≠ some c) ∧
    ∃ h2 d, mk_copy noCopyFault scenarioState.1 scenarioState.2 = some (.ok h2 d) ∧
      Valid h2 d ∧ size d = size scenarioState.2 ∧
      (∀ i, i < size scenarioState.2 →
        subscript h2 d i = subscript scenarioState.1 scenarioState.2 i ∧
        (subscript scenarioState.1 scenarioState.2 i).isSome) ∧
      d.min_row = scenarioState.2.min_row ∧ d.min_col = scenarioState.2.min_col ∧
      d.capacity = scenarioState.2.capacity ∧
      (∀ r, r < scenarioState.2.capacity →
        ((∃ b, h2.slot d.arr r = some (some b)) ↔
          ∃ b, scenarioState.1.slot scenarioState.2.arr r = some (some b))) ∧
      d.arr ≠ scenarioState.2.arr ∧ Valid h2 scenarioState.2 ∧
      h2.index scenarioState.2.arr = scenarioState.1.index scenarioState.2.arr ∧
      (∀ r b, scenarioState.1.slot scenarioState.2.arr r = some (some b) →
        h2.block b = scenarioState.1.block b) ∧
      (∀ i, i < size scenarioState.2 →
        subscript h2 scenarioState.2 i = subscript scenarioState.1 scenarioState.2 i) :=
  ⟨scenario_honest, by decide, rfl, rfl, (fun _ _ e => by cases e),
    C5_copy_constructor_copies noCopyFault scenarioState.1 scenarioState.2 scenario_honest
      (by decide) rfl rfl
      (fun _ _ e => by cases e)⟩

theorem cell_inj (a F i j : Nat)
    (e : (⟨a, (F + i) / BLOCK_SIZE, (F + i) % BLOCK_SIZE⟩ : Iter)
      = ⟨a, (F + j) / BLOCK_SIZE, (F + j) % BLOCK_SIZE⟩) : i = j := by
  rw [Iter.mk.injEq] at e
  obtain ⟨_, e1, e2⟩ := e
  simp only [BLOCK_SIZE] at e1 e2
  omega

theorem repr_of_building {h h3 : Heap α} {a : Deque} {la l3 : List (Option Nat)} {ma : List α}
    (hra : Repr h a la ma) (hb : Building h h3 h.nextIndex l3) (hwf : h3.WF) :
    Repr h3 a la ma := by
  have harr := hra.1.arr_lt
  refine repr_frame hra (hb.index_other _ (by omega)) (fun r b hb2 => ?_) hb.nextIndex_le
    hb.nextBlock_le hwf
  refine hb.block_other b (fun r2 hb3 => ?_)
  have h1 := (hra.1.blocks r b hb2).1
  have h2 := hb.block_fresh r2 b hb3
  omega

theorem assign_ok (f : CopyFaults) {h : Heap α} {a b : Deque} {la lb : List (Option Nat)}
    {ma mb : List α} (hra : Repr h a la ma) (hrb : Repr h b lb mb)
    (hidx : f.indexAlloc = true)
    (hblk : ∀ r, r < b.capacity → f.blockFailAt ≠ some r ∨ lb[r]? = some none)
    (hctor : ∀ c, c < b.size_ → f.ctorFailAt ≠ some c) :
    ∃ h4 l4, assign f h a b = some (.ok (h4, { b with arr := h.nextIndex })) ∧
      Repr h4 { b with arr := h.nextIndex } l4 mb ∧
      (Apart a b la lb → Repr h4 b lb mb ∧ Apart b { b with arr := h.nextIndex } lb l4) ∧
      h4.index a.arr = none := by
  obtain ⟨h3, l3, hrun, hrd, hro, hap, hb, _⟩ := mk_copy_ok f hrb hidx hblk hctor
  have hwf3 := shape_wf hrd.1
  have hra3 : Repr h3 a la ma := repr_of_building hra hb hwf3
  obtain ⟨h4, hdes, hi4, hfreed, hkept, hni4, hnb4⟩ := destruct_ok hra3
  have harr := hra.1.arr_lt
  have hwf4 : h4.WF := by
    constructor
    · intro x hx
      rw [hi4]
      by_cases e : x = a.arr
      · rw [e, Function.update_same]
      · rw [Function.update_noteq e]
        exact hwf3.1 x (by omega)
    · intro x hx
      rcases Classical.em (∃ (r : Nat), la[r]? = some (some x)) with ⟨r, hr⟩ | hn
      · exact hfreed r x hr
      · rw [hkept x (fun r hr => hn ⟨r, hr⟩)]
        exact hwf3.2 x (by omega)
  have hnew : ∀ (r r2 x : Nat), l3[r]? = some (some x) → la[r2]? ≠ some (some x) := by
    intro r r2 x hx hx2
    have h1 := (hra.1.blocks r2 x hx2).1
    have h2 := hb.block_fresh r x hx
    omega
  refine ⟨h4, l3, ?_, ?_, ?_, by rw [hi4, Function.update_same]⟩
  · unfold assign
    rw [hrun]
    show assign_destroyed _ (destruct h3 a) = _
    rw [hdes]
    rfl
  · refine repr_frame hrd ?_ (fun r x hx => hkept x (fun r2 => hnew r r2 x hx)) (by omega)
      (by omega) hwf4
    have hne : h.nextIndex ≠ a.arr := by omega
    rw [hi4]
    exact Function.update_noteq hne _ _
  · intro hab
    refine ⟨repr_frame hro ?_ (fun r x hx => hkept x (fun r2 hx2 => hab.2 r2 r x hx2 hx))
      (by omega) (by omega) hwf4, hap⟩
    rw [hi4, Function.update_noteq (fun e => hab.1 e.symm)]

theorem assign_fails (f : CopyFaults) {h : Heap α} (a : Deque) {b : Deque}
    {lb : List (Option Nat)} {mb : List α} (hrb : Repr h b lb mb)
    (hfail : f.indexAlloc = false ∨
      (f.indexAlloc = true ∧ ∃ e x, f.blockFailAt = some e ∧ lb[e]? = some (some x)) ∨
      (f.indexAlloc = true ∧ f.blockFailAt = none ∧ ∃ k, k < b.size_ ∧ f.ctorFailAt = some k)) :
    ∃ h2, assign f h a b = some (.threw (h2, a)) ∧ h2.index = h.index ∧ h2.block = h.block ∧
      h.nextIndex ≤ h2.nextIndex ∧ h.nextBlock ≤ h2.nextBlock := by
  rcases hfail with hidx | ⟨hidx, e, x, hf, hx⟩ | ⟨hidx, hblk, k, hk, hf⟩
  · refine ⟨h, ?_, rfl, rfl, le_rfl, le_rfl⟩
    have hrun : mk_copy f h b = some (.threw h []) := by
      unfold mk_copy; rw [if_pos hidx]
    unfold assign
    rw [hrun]
    rfl
  · obtain ⟨h3, hrun, hrest⟩ := mk_copy_block_fails f hrb hidx e x hf hx
    refine ⟨h3, ?_, hrest⟩
    unfold assign
    rw [hrun]
    rfl
  · obtain ⟨h3, hrun, hrest⟩ :=
      mk_copy_ctor_fails f hrb hidx
        (fun r _ => Or.inl (by rw [hblk]; exact fun e => by cases e)) k hk hf
    refine ⟨h3, ?_, hrest⟩
    unfold assign
    rw [hrun]
    rfl

theorem budget_mono {d : Deque} {k : Nat} (hb : Budget d k) : Budget d (k + 1) := by
  have b2 := hb.size_le
  have b3 := hb.slack_front
  have b4 := hb.slack_back
  have b5 := hb.cap_le
  exact ⟨hb.cap_pos, by omega, by omega, by omega, by omega⟩

theorem budget_copy {d : Deque} {k : Nat} (hb : Budget d k) (a : Nat) :
    Budget { d with arr := a } k :=
  ⟨hb.cap_pos, hb.size_le, hb.slack_front, hb.slack_back, hb.cap_le⟩

theorem apart_symm {a b : Deque} {la lb : List (Option Nat)} (hab : Apart a b la lb) :
    Apart b a lb la :=
  ⟨fun e => hab.1 e.symm, fun r r2 x hx hx2 => hab.2 r2 r x hx2 hx⟩

theorem store_at_ok {h : Heap α} {d : Deque} {l : List (Option Nat)} {m : List α}
    (hr : Repr h d l m) (pos : Nat) (v : α) (hp : pos < d.size_) :
    ∃ h1, store_at h d pos v = .ok (h1, d) ∧ Repr h1 d l (m.set pos v) ∧
      Effect h h1 d.arr d.arr l l := by
  have hs := hr.1
  have hn := hr.2.1
  have hp2 : pos < m.length := by omega
  have hx : peekLin h l (front d + pos) = some m[pos] := by
    rw [hr.2.2 pos hp2, List.getElem?_eq_getElem hp2]
  obtain ⟨b, hbl⟩ := peekLin_some hx
  obtain ⟨cs, hcs, hcon⟩ := construct_eq hs v hbl
  obtain ⟨hs2, hpk2⟩ := write_ok hs (some v) hbl hcs
  refine ⟨_, ?_, ⟨hs2, by rw [List.length_set]; exact hn, ?_⟩, effect_withBlock h d.arr _ hbl⟩
  · unfold store_at
    rw [begin_add hs pos (by omega), load_eq_peekLin hs, hx]
    simp only []
    rw [hcon]
  · intro i hi
    rw [List.length_set] at hi
    rw [hpk2, List.getElem?_set]
    by_cases e : pos = i
    · subst e
      rw [if_pos rfl, if_pos rfl, if_pos hp2]
    · rw [if_neg (by omega), if_neg e]
      exact hr.2.2 i hi

theorem call_step (c : Call α) {h : Heap α} {d : Deque} {l : List (Option Nat)} {m m1 : List α}
    {k : Nat} (hr : Repr h d l m) (hb : Budget d k) (hk : k + 1 < 2 ^ 31)
    (hm : c.model m = some m1) :
    ∃ h3 d3 l3, c.apply (h, d) = some (.ok (h3, d3)) ∧ Repr h3 d3 l3 m1 ∧ Budget d3 (k + 1) ∧
      Effect h h3 d.arr d3.arr l l3 := by
  have hs := hr.1
  have hfits := hs.fits
  have hsz : d.size_ + 1 < 2 ^ 31 := by have := hb.size_le; omega
  have hcap : (d.capacity + 2 * growth d.capacity) * BLOCK_SIZE < SIZE_MOD := by
    have := hb.cap_le
    simp only [growth, BLOCK_SIZE, SIZE_MOD]
    omega
  have b1 := hb.cap_pos
  have b2 := hb.size_le
  have b3 := hb.slack_front
  have b4 := hb.slack_back
  have b5 := hb.cap_le
  cases c with
  | push_front v =>
    simp only [Call.model, Option.some.injEq] at hm
    subst hm
    obtain ⟨h3, d3, l3, k3, hrun, hr3f, hd3, _, _, heff, _⟩ :=
      push_front_ok hr noFault rfl rfl rfl v b1 hcap
    have hb3 : Budget d3 (k + 1) := by
      rcases hd3 with ⟨hz, _, rfl⟩ | ⟨hz, _, rfl⟩
      · constructor <;>
          simp only [relocatedState, front, withFront, growth, BLOCK_SIZE] at hz hfits b3 b4 ⊢ <;> omega
      · constructor <;> simp only [front, withFront, BLOCK_SIZE] at hz hfits b3 b4 ⊢ <;> omega
    exact ⟨h3, d3, l3, (apply_call_push_front v h d).trans (congrArg some hrun), hr3f hsz, hb3,
      heff⟩
  | push_back v =>
    simp only [Call.model, Option.some.injEq] at hm
    subst hm
    obtain ⟨h3, d3, l3, k3, hrun, hr3f, hd3, _, heff, _⟩ :=
      push_back_ok hr noFault rfl rfl rfl v b1 hcap
    exact ⟨h3, d3, l3, (apply_call_push_back v h d).trans (congrArg some hrun), hr3f hsz,
      budget_pushed_back hb hd3, heff⟩
  | pop_front =>
    rcases m with _ | ⟨x, m0⟩
    · simp [Call.model] at hm
    · simp only [Call.model, List.length_cons, Nat.add_one_ne_zero, if_false,
        List.drop_succ_cons, List.drop_zero, Option.some.injEq] at hm
      subst hm
      obtain ⟨h3, hrun, hr3, _, heff⟩ := pop_front_ok hr
      have hsize : d.size_ = m0.length + 1 := by simpa using hr.2.1
      have hb3 : Budget (withFront d (front d + 1) (d.size_ - 1)) (k + 1) := by
        constructor <;> simp only [front, withFront, BLOCK_SIZE] at hfits b3 b4 ⊢ <;> omega
      exact ⟨h3, _, l, (apply_call_pop_front h d).trans (congrArg some hrun), hr3, hb3, heff⟩
  | pop_back =>
    rcases List.eq_nil_or_concat m with rfl | ⟨m0, x, hmx⟩
    · simp [Call.model] at hm
    · rw [List.concat_eq_append] at hmx
      subst hmx
      simp only [Call.model, List.length_append, List.length_singleton,
        Nat.add_one_ne_zero, if_false, List.dropLast_concat, Option.some.injEq] at hm
      subst hm
      obtain ⟨h3, hrun, hr3, _, heff⟩ := pop_back_ok hr
      have hsize : d.size_ = m0.length + 1 := by simpa using hr.2.1
      have hb3 : Budget { d with size_ := d.size_ - 1 } (k + 1) := by
        constructor <;> simp only [front, BLOCK_SIZE] at hfits b3 b4 ⊢ <;> omega
      exact ⟨h3, _, l, (apply_call_pop_back h d).trans (congrArg some hrun), hr3, hb3, heff⟩
  | insert p v =>
    have hn : d.size_ = m.length := hr.2.1
    by_cases hp : p ≤ m.length
    · simp only [Call.model, if_pos hp, Option.some.injEq] at hm
      subst hm
      obtain ⟨h3, d3, l3, k3, hrun, hr3, hd3, heff, _⟩ := insert_ok hr v p (by omega) b1 hsz hcap
      exact ⟨h3, d3, l3, (apply_call_insert p v h d).trans hrun, hr3,
        budget_pushed_back hb hd3, heff⟩
    · simp [Call.model, if_neg hp] at hm
  | erase p =>
    have hn : d.size_ = m.length := hr.2.1
    by_cases hp : p < m.length
    · simp only [Call.model, if_pos hp, Option.some.injEq] at hm
      subst hm
      obtain ⟨h3, hrun, hr3, heff⟩ := erase_ok hr p (by omega)
      have hb3 : Budget { d with size_ := d.size_ - 1 } (k + 1) := by
        constructor <;> simp only [front, BLOCK_SIZE] at hfits b3 b4 ⊢ <;> omega
      exact ⟨h3, _, l, (apply_call_erase p h d).trans hrun, hr3, hb3, heff⟩
    · simp [Call.model, if_neg hp] at hm

theorem mutation_step (x : Mutation α) {h : Heap α} {d : Deque} {l : List (Option Nat)}
    {m m1 : List α} {k : Nat} (hr : Repr h d l m) (hb : Budget d k) (hk : k + 1 < 2 ^ 31)
    (hm : x.model m = some m1) :
    ∃ h3 d3 l3, x.apply (h, d) = some (.ok (h3, d3)) ∧ Repr h3 d3 l3 m1 ∧ Budget d3 (k + 1) ∧
      Effect h h3 d.arr d3.arr l l3 := by
  cases x with
  | call c => exact call_step c hr hb hk hm
  | store pos v =>
    have hn : d.size_ = m.length := hr.2.1
    by_cases hp : pos < m.length
    · simp only [Mutation.model, if_pos hp, Option.some.injEq] at hm
      subst hm
      obtain ⟨h1, hrun, hr1, heff⟩ := store_at_ok hr pos v (by omega)
      exact ⟨h1, d, l, congrArg some hrun, hr1, budget_mono hb, heff⟩
    · simp [Mutation.model, if_neg hp] at hm

theorem mutate_pair_ok (xs : List (Bool × Mutation α)) :
    ∀ (h : Heap α) (a b : Deque) (la lb : List (Option Nat)) (ma mb : List α) (k : Nat)
      (ms : List α × List α),
      Repr h a la ma → Repr h b lb mb → Apart a b la lb → Budget a k → Budget b k →
      k + xs.length < 2 ^ 31 → modelPair xs (ma, mb) = some ms →
      ∃ h2 a2 b2 la2 lb2, mutate_pair xs (h, a, b) = some (.ok (h2, a2, b2)) ∧
        Repr h2 a2 la2 ms.1 ∧ Repr h2 b2 lb2 ms.2 ∧ Apart a2 b2 la2 lb2 := by
  induction xs with
  | nil =>
    intro h a b la lb ma mb k ms hra hrb hab _ _ _ hm
    simp only [modelPair, Option.some.injEq] at hm
    subst hm
    exact ⟨h, a, b, la, lb, rfl, hra, hrb, hab⟩
  | cons x xs ih =>
    intro h a b la lb ma mb k ms hra hrb hab hba hbb hk hm
    simp only [List.length_cons] at hk
    obtain ⟨t, y⟩ := x
    cases t with
    | true =>
      rcases hy : y.model ma with _ | m1
      · simp [modelPair, hy] at hm
      · simp only [modelPair, hy] at hm
        obtain ⟨h3, a3, la3, hrun, hr3, hb3, heff⟩ := mutation_step y hra hba (by omega) hy
        have hrb3 : Repr h3 b lb mb :=
          repr_of_effect hrb heff (fun e => hab.1 e.symm) (apart_symm hab).2 (shape_wf hr3.1)
        have hab3 : Apart a3 b la3 lb :=
          apart_symm (apart_of_effect hrb.1 heff (fun e => hab.1 e.symm) (apart_symm hab).2)
        obtain ⟨h4, a4, b4, la4, lb4, hrun4, hra4, hrb4, hab4⟩ :=
          ih h3 a3 b la3 lb m1 mb (k + 1) ms hr3 hrb3 hab3 hb3 (budget_mono hbb) (by omega) hm
        refine ⟨h4, a4, b4, la4, lb4, ?_, hra4, hrb4, hab4⟩
        show pair_after (mutate_pair xs) _ (y.apply (h, a)) = _
        rw [hrun]
        exact hrun4
    | false =>
      rcases hy : y.model mb with _ | m1
      · simp [modelPair, hy] at hm
      · simp only [modelPair, hy] at hm
        obtain ⟨h3, b3, lb3, hrun, hr3, hb3, heff⟩ := mutation_step y hrb hbb (by omega) hy
        have hra3 : Repr h3 a la ma :=
          repr_of_effect hra heff hab.1 hab.2 (shape_wf hr3.1)
        have hab3 : Apart a b3 la lb3 := apart_of_effect hra.1 heff hab.1 hab.2
        obtain ⟨h4, a4, b4, la4, lb4, hrun4, hra4, hrb4, hab4⟩ :=
          ih h3 a b3 la lb3 ma m1 (k + 1) ms hra3 hr3 hab3 (budget_mono hba) hb3 (by omega) hm
        refine ⟨h4, a4, b4, la4, lb4, ?_, hra4, hrb4, hab4⟩
        show pair_after (mutate_pair xs) _ (y.apply (h, b)) = _
        rw [hrun]
        exact hrun4

theorem modelPair_first_kept (xs : List (Bool × Mutation α)) :
    ∀ (ma mb : List α) (ms : List α × List α), modelPair xs (ma, mb) = some ms →
      (∀ x, x ∈ xs → x.1 = false) → ms.1 = ma := by
  induction xs with
  | nil =>
    intro ma mb ms hm _
    simp only [modelPair, Option.some.injEq] at hm
    rw [← hm]
  | cons x xs ih =>
    intro ma mb ms hm hall
    obtain ⟨t, y⟩ := x
    have ht : t = false := hall (t, y) (List.mem_cons_self _ _)
    subst ht
    rcases hy : y.model mb with _ | m1
    · simp [modelPair, hy] at hm
    · simp only [modelPair, hy] at hm
      exact ih ma m1 ms hm (fun x hx => hall x (List.mem_cons_of_mem _ hx))

theorem modelPair_second_kept (xs : List (Bool × Mutation α)) :
    ∀ (ma mb : List α) (ms : List α × List α), modelPair xs (ma, mb) = some ms →
      (∀ x, x ∈ xs → x.1 = true) → ms.2 = mb := by
  induction xs with
  | nil =>
    intro ma mb ms hm _
    simp only [modelPair, Option.some.injEq] at hm
    rw [← hm]
  | cons x xs ih =>
    intro ma mb ms hm hall
    obtain ⟨t, y⟩ := x
    have ht : t = true := hall (t, y) (List.mem_cons_self _ _)
    subst ht
    rcases hy : y.model ma with _ | m1
    · simp [modelPair, hy] at hm
    · simp only [modelPair, hy] at hm
      exact ih m1 mb ms hm (fun x hx => hall x (List.mem_cons_of_mem _ hx))

theorem scenario_budget : Budget scenarioState.2 5 :=
  ⟨by decide, by decide, by decide, by decide, by decide⟩

theorem scenarioCopy_ok :
    ∃ lo l, Repr scenarioCopy.1 scenarioCopy.2.1 lo [0, 1, 2] ∧
      Repr scenarioCopy.1 scenarioCopy.2.2 l [0, 1, 2] ∧
      Apart scenarioCopy.2.1 scenarioCopy.2.2 lo l := by
  obtain ⟨lo, hr⟩ := scenario_repr
  obtain ⟨h3, l3, hrun, hrd, hro, hap, _, _⟩ :=
    mk_copy_ok noCopyFault hr rfl (fun _ _ => Or.inl (fun e => by cases e))
      (fun _ _ e => by cases e)
  have e : scenarioCopy
      = (h3, scenarioState.2, { scenarioState.2 with arr := scenarioState.1.nextIndex }) := by
    unfold scenarioCopy
    rw [hrun]
  rw [e]
  exact ⟨lo, l3, hro, hrd, hap⟩

theorem apart_of_slots {h : Heap α} {a b : Deque} {la lb : List (Option Nat)}
    (hsa : Shape h a la) (hsb : Shape h b lb) :
    Apart a b la lb ↔ (a.arr ≠ b.arr ∧ ∀ (r r2 x : Nat),
      h.slot a.arr r = some (some x) → h.slot b.arr r2 ≠ some (some x)) := by
  unfold Apart
  constructor
  · rintro ⟨h1, h2⟩
    refine ⟨h1, fun r r2 x => ?_⟩
    rw [slot_of_shape hsa, slot_of_shape hsb]
    exact h2 r r2 x
  · rintro ⟨h1, h2⟩
    refine ⟨h1, fun r r2 x => ?_⟩
    have := h2 r r2 x
    rw [slot_of_shape hsa, slot_of_shape hsb] at this
    exact this

/-- The copy constructed from a valid source within the bounds of `k` calls has an index
array of its own and no block of the source. Whatever mutations follow, each a call of
`push_front`, `push_back`, `pop_front`, `pop_back`, `insert`, `erase` or an element write on the
source or on the copy, both containers end holding what the list model gives each of them from
its own mutations; so when only the copy is mutated the source keeps its size and every
`operator[]`, and when only the source is mutated the copy does. -/
theorem copy_is_independent (h : Heap α) (o : Deque) (lo : List (Option Nat)) (mo : List α)
    (k : Nat) (xs : List (Bool × Mutation α)) (ms : List α × List α)
    (hr : Repr h o lo mo) (hb : Budget o k) (hlen : k + xs.length < 2 ^ 31)
    (hm : modelPair xs (mo, mo) = some ms) :
    ∃ h1 d, mk_copy noCopyFault h o = some (.ok h1 d) ∧ d.arr ≠ o.arr ∧
      (∀ (r r2 x : Nat), h1.slot o.arr r = some (some x) → h1.slot d.arr r2 ≠ some (some x)) ∧
      ∃ h2 o2 d2, mutate_pair xs (h1, o, d) = some (.ok (h2, o2, d2)) ∧
        size o2 = ms.1.length ∧ size d2 = ms.2.length ∧
        (∀ i, i < ms.1.length → subscript h2 o2 i = ms.1[i]?) ∧
        (∀ i, i < ms.2.length → subscript h2 d2 i = ms.2[i]?) ∧
        ((∀ x, x ∈ xs → x.1 = false) →
          size o2 = size o ∧ ∀ i, i < size o → subscript h2 o2 i = subscript h o i) ∧
        ((∀ x, x ∈ xs → x.1 = true) →
          size d2 = size o ∧ ∀ i, i < size o → subscript h2 d2 i = subscript h o i) := by
  obtain ⟨h1, l1, hrun, hrd, hro, hap, _, _⟩ :=
    mk_copy_ok noCopyFault hr rfl (fun _ _ => Or.inl (fun e => by cases e))
      (fun _ _ e => by cases e)
  obtain ⟨h2, o2, d2, lo2, ld2, hrun2, hro2, hrd2, _⟩ :=
    mutate_pair_ok xs h1 o _ lo l1 mo mo k ms hro hrd hap hb (budget_copy hb _) hlen hm
  have hsep := (apart_of_slots hro.1 hrd.1).1 hap
  refine ⟨h1, _, hrun, fun e => hsep.1 e.symm, hsep.2, h2, o2, d2, hrun2, hro2.2.1, hrd2.2.1,
    fun i hi => subscript_eq hro2 i hi, fun i hi => subscript_eq hrd2 i hi, ?_, ?_⟩
  · intro hall
    have e := modelPair_first_kept xs mo mo ms hm hall
    rw [e] at hro2
    refine ⟨hro2.2.1.trans hr.2.1.symm, fun i hi => ?_⟩
    have hi2 : i < mo.length := by rw [← hr.2.1]; exact hi
    rw [subscript_eq hro2 i hi2, subscript_eq hr i hi2]
  · intro hall
    have e := modelPair_second_kept xs mo mo ms hm hall
    rw [e] at hrd2
    refine ⟨hrd2.2.1.trans hr.2.1.symm, fun i hi => ?_⟩
    have hi2 : i < mo.length := by rw [← hr.2.1]; exact hi
    rw [subscript_eq hrd2 i hi2, subscript_eq hr i hi2]

/-- The independence of the copy of the container holding `[0, 1, 2]`, the copy then being
mutated by `push_back(9)`, `copy[0] = 5`, `insert(begin() + 1, 4)`. -/
theorem copy_is_independent_on_scenario :
    Budget scenarioState.2 5 ∧
    5 + [(false, Mutation.call (Call.push_back 9)), (false, Mutation.store 0 5),
      (false, Mutation.call (Call.insert 1 4))].length < 2 ^ 31 ∧
    modelPair [(false, Mutation.call (Call.push_back 9)), (false, Mutation.store 0 5),
      (false, Mutation.call (Call.insert 1 4))] ([0, 1, 2], [0, 1, 2])
      = some ([0, 1, 2], [5, 4, 1, 2, 9]) ∧
    ∃ lo, Repr scenarioState.1 scenarioState.2 lo [0, 1, 2] ∧
    ∃ h1 d, mk_copy noCopyFault scenarioState.1 scenarioState.2 = some (.ok h1 d) ∧
      d.arr ≠ scenarioState.2.arr ∧
      (∀ (r r2 x : Nat), h1.slot scenarioState.2.arr r = some (some x) →
        h1.slot d.arr r2 ≠ some (some x)) ∧
      ∃ h2 o2 d2, mutate_pair [(false, Mutation.call (Call.push_back 9)),
          (false, Mutation.store 0 5), (false, Mutation.call (Call.insert 1 4))]
          (h1, scenarioState.2, d) = some (.ok (h2, o2, d2)) ∧
        size o2 = [0, 1, 2].length ∧ size d2 = [5, 4, 1, 2, 9].length ∧
        (∀ i, i < [0, 1, 2].length → subscript h2 o2 i = [0, 1, 2][i]?) ∧
        (∀ i, i < [5, 4, 1, 2, 9].length → subscript h2 d2 i = [5, 4, 1, 2, 9][i]?) ∧
        ((∀ x, x ∈ [(false, Mutation.call (Call.push_back 9)), (false, Mutation.store 0 5),
            (false, Mutation.call (Call.insert 1 4))] → x.1 = false) →
          size o2 = size scenarioState.2 ∧ ∀ i, i < size scenarioState.2 →
            subscript h2 o2 i = subscript scenarioState.1 scenarioState.2 i) ∧
        ((∀ x, x ∈ [(false, Mutation.call (Call.push_back 9)), (false, Mutation.store 0 5),
            (false, Mutation.call (Call.insert 1 4))] → x.1 = true) →
          size d2 = size scenarioState.2 ∧ ∀ i, i < size scenarioState.2 →
            subscript h2 d2 i = subscript scenarioState.1 scenarioState.2 i) :=
  ⟨scenario_budget, by decide, rfl,
    let ⟨lo, hr⟩ := scenario_repr
    ⟨lo, hr, copy_is_independent scenarioState.1 scenarioState.2 lo [0, 1, 2] 5 _
      ([0, 1, 2], [5, 4, 1, 2, 9]) hr scenario_budget (by decide) rfl⟩⟩

/-- C13, as amended: for valid containers `a` and `b` of one heap, of fewer than `2 ^ 31`
elements each, the same object or two that share no
index array and no block: when the index array, the blocks and the element copies of the
parameter of `operator=` are all obtained, `a = b` returns, `a` is valid with the size and the
elements of `b`, and `b`, when another object, is valid with the elements it had; when the
allocation of the index array, the allocation of a block or the copy of an element of `b`
throws, the exception leaves the assignment, the members of `a` are the ones before, and the
heap holds the index arrays and blocks it held, so `a` is valid with the elements it had. -/
theorem C13_assignment_copies_and_swaps (f : CopyFaults) (h : Heap α) (a b : Deque)
    (hva : Valid h a) (hvb : Valid h b)
    (hinta : size a < 2 ^ 31) (hintb : size b < 2 ^ 31)
    (hsep : a = b ∨ (a.arr ≠ b.arr ∧ ∀ (r r2 x : Nat),
      h.slot a.arr r = some (some x) → h.slot b.arr r2 ≠ some (some x))) :
    (f.indexAlloc = true → f.blockFailAt = none → (∀ c, c < size b → f.ctorFailAt ≠ some c) →
      ∃ h2 a2, assign f h a b = some (.ok (h2, a2)) ∧ Valid h2 a2 ∧ size a2 = size b ∧
        (∀ i, i < size b → subscript h2 a2 i = subscript h b i ∧ (subscript h b i).isSome) ∧
        (a ≠ b → Valid h2 b ∧ ∀ i, i < size b → subscript h2 b i = subscript h b i)) ∧
    ((f.indexAlloc = false ∨
        (f.indexAlloc = true ∧ ∃ e x, f.blockFailAt = some e ∧
          h.slot b.arr e = some (some x)) ∨
        (f.indexAlloc = true ∧ f.blockFailAt = none ∧
          ∃ c, c < size b ∧ f.ctorFailAt = some c)) →
      ∃ h2, assign f h a b = some (.threw (h2, a)) ∧ h2.index = h.index ∧
        h2.block = h.block ∧ Valid h2 a ∧
        ∀ i, i < size a → subscript h2 a i = subscript h a i) := by
  obtain ⟨la, ma, hra⟩ := validInt_of_valid hva hinta
  obtain ⟨lb, mb, hrb⟩ := validInt_of_valid hvb hintb
  constructor
  · intro hidx hblk hctor
    obtain ⟨h4, l4, hrun, hrd, hrest, _⟩ :=
      assign_ok f hra hrb hidx (fun r _ => Or.inl (by rw [hblk]; exact fun e => by cases e))
        hctor
    refine ⟨h4, _, hrun, valid_of_repr hrd, rfl, ?_, ?_⟩
    · intro i hi
      have hi2 : i < mb.length := by rw [← hrb.2.1]; exact hi
      rw [subscript_eq hrb i hi2, subscript_eq hrd i hi2, List.getElem?_eq_getElem hi2]
      exact ⟨rfl, rfl⟩
    · intro hne
      rcases hsep with e | hs
      · exact absurd e hne
      · have hrb4 := (hrest ((apart_of_slots hra.1 hrb.1).2 hs)).1
        exact ⟨valid_of_repr hrb4, source_kept hrb hrb4⟩
  · intro hfail
    have hfail2 : f.indexAlloc = false ∨
        (f.indexAlloc = true ∧ ∃ e x, f.blockFailAt = some e ∧ lb[e]? = some (some x)) ∨
        (f.indexAlloc = true ∧ f.blockFailAt = none ∧
          ∃ c, c < b.size_ ∧ f.ctorFailAt = some c) := by
      rcases hfail with h1 | ⟨h1, e, x, h2, h3⟩ | h1
      · exact Or.inl h1
      · exact Or.inr (Or.inl ⟨h1, e, x, h2, by rw [← slot_of_shape hrb.1]; exact h3⟩)
      · exact Or.inr (Or.inr h1)
    obtain ⟨h2, hrun, hi2, hb2, hni2, hnb2⟩ := assign_fails f a hrb hfail2
    have hra2 : Repr h2 a la ma :=
      repr_frame hra (by rw [hi2]) (fun r x _ => by rw [hb2]) hni2 hnb2
        (wf_of_same (shape_wf hra.1) hi2 hb2 hni2 hnb2)
    exact ⟨h2, hrun, hi2, hb2, valid_of_repr hra2, source_kept hra hra2⟩

theorem push_unmake_new {h : Heap α} {d : Deque} {l : List (Option Nat)} (hs : Shape h d l)
    {row : Nat} (hl : l[row]? = some none) :
    ∃ h2, push_unmake true row (h.withNewBlock d.arr l row) d = some h2 ∧
      h2.index = h.index ∧ h2.block = h.block ∧ h2.nextIndex = h.nextIndex ∧
      h.nextBlock ≤ h2.nextBlock := by
  have hrow : row < l.length := by
    rcases Nat.lt_or_ge row l.length with e | e
    · exact e
    · rw [List.getElem?_eq_none e] at hl; cases hl
  have hset : (l.set row (some h.nextBlock)).set row none = l := by
    apply List.ext_getElem?
    intro i
    rw [List.set_set, List.getElem?_set]
    by_cases e : row = i
    · subst e; rw [if_pos rfl, if_pos hrow, hl]
    · rw [if_neg e]
  refine ⟨{ h with nextBlock := h.nextBlock + 1 }, ?_, rfl, rfl, rfl, Nat.le_succ _⟩
  have e1 : Function.update (Function.update h.index d.arr (some (l.set row (some h.nextBlock))))
      d.arr (some l) = h.index := by
    rw [Function.update_idem, ← hs.index_eq, Function.update_eq_self]
  have e2 : Function.update (Function.update h.block h.nextBlock
      (some (List.replicate BLOCK_SIZE (none : Option α)))) h.nextBlock none = h.block := by
    rw [Function.update_idem]
    have := hs.block_fresh h.nextBlock le_rfl
    rw [← this, Function.update_eq_self]
  simp [push_unmake, Heap.withNewBlock, Heap.slot, Heap.freeBlock, Heap.setSlot, hrow, hset, e1,
    e2]

theorem push_back_failed {h : Heap α} {d : Deque} {l : List (Option Nat)} (hs : Shape h d l)
    (f : Faults) (v : α) (hroom : (front d + d.size_) / BLOCK_SIZE < d.capacity)
    (hfail : f.ctor = false ∨
      (f.blockAlloc = false ∧ l[(front d + d.size_) / BLOCK_SIZE]? = some none))
    (previous : Nat) :
    ∃ h2 nr, push_back_try f v previous h d = .threw (h2, d, nr) ∧
      ∃ h3, push_unmake nr ((front d + d.size_) / BLOCK_SIZE) h2 d = some h3 ∧
      h3.index = h.index ∧ h3.block = h.block ∧ h3.nextIndex = h.nextIndex ∧
      h.nextBlock ≤ h3.nextBlock := by
  have hlen := hs.length_eq
  have hslot : h.slot d.arr ((front d + d.size_) / BLOCK_SIZE)
      = l[(front d + d.size_) / BLOCK_SIZE]? := by simp [Heap.slot, hs.index_eq]
  rcases hx : l[(front d + d.size_) / BLOCK_SIZE]? with _ | _ | b
  · rw [List.getElem?_eq_none_iff] at hx; omega
  · by_cases hb : f.blockAlloc = false
    · refine ⟨h, true, ?_, h, ?_, rfl, rfl, rfl, le_rfl⟩
      · unfold push_back_try
        simp only [end_eq hs, hslot, hx, make_exist_fail hs f hx hb]
        rfl
      · unfold push_unmake
        rw [if_pos rfl, hslot, hx]
        show (match h.freeBlock none with
          | none => none
          | some h1 => h1.setSlot d.arr _ none) = _
        exact setSlot_same hs.index_eq hx
    · have hb1 : f.blockAlloc = true := by
        rcases hb2 : f.blockAlloc with _ | _
        · exact absurd hb2 hb
        · rfl
      have hc : f.ctor = false := by
        rcases hfail with hc | ⟨hb2, _⟩
        · exact hc
        · exact absurd hb2 hb
      obtain ⟨h3, hun, hrest⟩ := push_unmake_new hs hx
      refine ⟨_, true, ?_, h3, hun, hrest⟩
      unfold push_back_try
      simp only [end_eq hs, hslot, hx, make_exist_alloc hs f hx hb1, hc]
      rfl
  · have hc : f.ctor = false := by
      rcases hfail with hc | ⟨_, hn⟩
      · exact hc
      · rw [hx] at hn; cases hn
    refine ⟨h, false, ?_, h, rfl, rfl, rfl, rfl, le_rfl⟩
    unfold push_back_try
    simp only [end_eq hs, hslot, hx, make_exist_present hs f hx, hc]
    rfl

theorem push_back_fails {h : Heap α} {d : Deque} {l : List (Option Nat)} {m : List α}
    (hr : Repr h d l m) (f : Faults) (hf0 : f.indexAlloc = true) (v : α)
    (hpos : 0 < d.capacity)
    (hcap : (d.capacity + 2 * growth d.capacity) * BLOCK_SIZE < SIZE_MOD)
    (hfail : f.ctor = false ∨ (f.blockAlloc = false ∧
      (front d + d.size_ = d.capacity * BLOCK_SIZE ∨
        l[(front d + d.size_) / BLOCK_SIZE]? = some none))) :
    ∃ h3, push_back f v h d = .threw (h3, d) ∧ h3.index = h.index ∧ h3.block = h.block ∧
      h.nextIndex ≤ h3.nextIndex ∧ h.nextBlock ≤ h3.nextBlock := by
  have hs := hr.1
  have hfits := hs.fits
  by_cases hfull : full_at_back d = true
  · have hfull2 := (full_at_back_iff hs).1 hfull
    have hr1 := repr_relocated hr hcap
    have hroom : (front (relocatedState h d l).2 + (relocatedState h d l).2.size_) / BLOCK_SIZE
        < (relocatedState h d l).2.capacity := by
      simp only [relocatedState, front, growth, BLOCK_SIZE] at hfull2 hfits hpos ⊢
      omega
    have hrow : (front (relocatedState h d l).2 + (relocatedState h d l).2.size_) / BLOCK_SIZE
        = d.capacity + growth d.capacity := by
      simp only [relocatedState, front, growth, BLOCK_SIZE] at hfull2 hfits hpos ⊢
      omega
    have hnull : (relocated l d.capacity (growth d.capacity)
        (d.capacity + 2 * growth d.capacity))[(front (relocatedState h d l).2
          + (relocatedState h d l).2.size_) / BLOCK_SIZE]? = some none := by
      rw [hrow, relocated_get, if_pos (by simp only [growth]; omega),
        if_neg (by omega)]
    obtain ⟨h2, nr, htry, h3, hun, hi3, hb3, hni3, hnb3⟩ :=
      push_back_failed hr1.1 f v hroom (by
        rcases hfail with hc | ⟨hb, _⟩
        · exact Or.inl hc
        · exact Or.inr ⟨hb, hnull⟩) d.arr
    have harr := hs.arr_lt
    have hne : (relocatedState h d l).2.arr ≠ d.arr := by
      show h.nextIndex ≠ d.arr; omega
    have hidx : h3.index h.nextIndex = some (relocated l d.capacity (growth d.capacity)
        (d.capacity + 2 * growth d.capacity)) := by
      rw [hi3]; exact hr1.1.index_eq
    refine ⟨{ h3 with index := Function.update h3.index h.nextIndex none }, ?_, ?_, hb3, ?_, hnb3⟩
    · unfold push_back
      rw [if_pos hfull, relocate_eq hs f hf0 hcap]
      show push_back_body f v d.arr d.min_row d.capacity (relocatedState h d l).1
        (relocatedState h d l).2 = _
      unfold push_back_body
      rw [htry]
      show push_back_catch d.arr d.min_row d.capacity h2 (relocatedState h d l).2 nr = _
      unfold push_back_catch
      rw [end_eq hr1.1, hun]
      show (match push_restore d.arr d.min_row d.capacity h3 (relocatedState h d l).2 with
        | none => Outcome.ub
        | some s => .threw s) = _
      unfold push_restore
      rw [if_pos hne]
      have hfree : h3.freeIndex (relocatedState h d l).2.arr
          = some { h3 with index := Function.update h3.index h.nextIndex none } := by
        show h3.freeIndex h.nextIndex = _
        unfold Heap.freeIndex
        rw [hidx]
      rw [hfree]
      rfl
    · show Function.update h3.index h.nextIndex none = _
      rw [hi3]
      show Function.update (Function.update h.index h.nextIndex _) h.nextIndex none = _
      rw [Function.update_idem]
      have := hs.index_fresh h.nextIndex le_rfl
      rw [← this, Function.update_eq_self]
    · show h.nextIndex ≤ h3.nextIndex
      rw [hni3]
      exact Nat.le_succ _
  · have hroom : (front d + d.size_) / BLOCK_SIZE < d.capacity := by
      have hne : (front d + d.size_) / BLOCK_SIZE ≠ d.capacity :=
        fun e => hfull ((full_at_back_iff hs).2 e)
      have hc := hs.cap_rep
      simp only [front, BLOCK_SIZE] at hne hfits hc ⊢
      omega
    obtain ⟨h2, nr, htry, h3, hun, hi3, hb3, hni3, hnb3⟩ :=
      push_back_failed hs f v hroom (by
        rcases hfail with hc | ⟨hb, hx | hx⟩
        · exact Or.inl hc
        · exfalso
          rw [hx] at hroom
          simp only [BLOCK_SIZE] at hroom
          omega
        · exact Or.inr ⟨hb, hx⟩) d.arr
    refine ⟨h3, ?_, hi3, hb3, by rw [hni3], hnb3⟩
    unfold push_back
    rw [if_neg hfull]
    unfold push_back_body
    rw [htry]
    show push_back_catch d.arr d.min_row d.capacity h2 d nr = _
    unfold push_back_catch
    rw [end_eq hs, hun]
    show (match push_restore d.arr d.min_row d.capacity h3 d with
      | none => Outcome.ub
      | some s => .threw s) = _
    unfold push_restore
    rw [if_neg (fun e => e rfl)]

theorem insert_fails (f : Faults) (it : Iter) (v : α) {h : Heap α} {d : Deque}
    {s : Heap α × Deque} (hp : push_back f v h d = .threw s) :
    insert f it v h d = some (.threw s) := by
  unfold insert
  by_cases hfull : full_at_back d = true
  · rw [if_pos hfull]
    unfold insert_body
    rw [hp]
    rfl
  · rw [if_neg hfull]
    unfold insert_body
    rw [hp]
    rfl

theorem emptySized_repr : Repr emptySized.1 emptySized.2 [] ([] : List Nat) := by
  refine ⟨⟨by decide, by decide, by decide, by decide, by decide, rfl, rfl, ?_, ?_, ?_, ?_⟩, rfl,
    ?_⟩
  · intro r b hb; simp at hb
  · intro r r2 b hb; simp at hb
  · intro a ha
    have hne : a ≠ 0 := by
      have : (1 : Nat) ≤ a := ha
      omega
    simp [emptySized, Heap.newIndex, Heap.empty, Function.update_noteq hne]
  · intro b _; rfl
  · intro i hi; simp at hi

theorem push_back_rollback (f : Faults) (h : Heap α) (d : Deque) (v : α) (hv : ValidInt h d)
    (hpos : 0 < d.capacity)
    (hcap : (d.capacity + 2 * growth d.capacity) * BLOCK_SIZE < SIZE_MOD)
    (hf0 : f.indexAlloc = true)
    (hfail : f.ctor = false ∨ (f.blockAlloc = false ∧
      (full_at_back d = true ∨ h.slot d.arr (end_ d).row = some none))) :
    ∃ h2, push_back f v h d = .threw (h2, d) ∧ h2.index = h.index ∧ h2.block = h.block ∧
      ValidInt h2 d ∧ ∀ i, i < size d → subscript h2 d i = subscript h d i := by
  obtain ⟨l, m, hr⟩ := hv
  have hs := hr.1
  have hfits := hs.fits
  obtain ⟨h3, hrun, hi3, hb3, hni3, hnb3⟩ := push_back_fails hr f hf0 v hpos hcap (by
    rcases hfail with hc | ⟨hb, hx | hx⟩
    · exact Or.inl hc
    · refine Or.inr ⟨hb, Or.inl ?_⟩
      have hfull2 := (full_at_back_iff hs).1 hx
      simp only [BLOCK_SIZE] at hfull2 hfits ⊢
      omega
    · refine Or.inr ⟨hb, Or.inr ?_⟩
      rw [end_eq hs, slot_of_shape hs] at hx
      exact hx)
  have hr3 : Repr h3 d l m :=
    repr_frame hr (by rw [hi3]) (fun r x _ => by rw [hb3]) hni3 hnb3
      (wf_of_same (shape_wf hs) hi3 hb3 hni3 hnb3)
  exact ⟨h3, hrun, hi3, hb3, ⟨l, m, hr3⟩, source_kept hr hr3⟩

/-- C2: on the container `Deque(0, v)` leaves, which is valid (capacity 0, an index array of
length 0), a `push_back` whose element construction or block allocation would throw reads
`arr[0]`, outside the array, before reaching either: the call is undefined instead of
propagating the failure from an unchanged container. On every valid container of capacity at
least 1, whether or not the call relocates the index array, such a `push_back` ends with the
exception, the members are the ones before the call, the heap holds the same index arrays and
blocks, and every `operator[]` reads what it read. -/
theorem C2_push_back_on_empty_sized_is_undefined :
    ValidInt emptySized.1 emptySized.2 ∧
    full_at_back emptySized.2 = true ∧
    relocate ctorFails emptySized.1 emptySized.2
      = .ok ((emptySized.1.newIndex []).1, { emptySized.2 with arr := 1 }) ∧
    (end_ { emptySized.2 with arr := 1 }).row = 0 ∧
    (emptySized.1.newIndex []).1.slot 1 0 = none ∧
    push_back ctorFails 1 emptySized.1 emptySized.2 = .ub ∧
    push_back blockAllocFails 1 emptySized.1 emptySized.2 = .ub ∧
    ∀ (f : Faults) (h : Heap α) (d : Deque) (v : α), ValidInt h d → 0 < d.capacity →
      (d.capacity + 2 * growth d.capacity) * BLOCK_SIZE < SIZE_MOD → f.indexAlloc = true →
      (f.ctor = false ∨ (f.blockAlloc = false ∧
        (full_at_back d = true ∨ h.slot d.arr (end_ d).row = some none))) →
      ∃ h2, push_back f v h d = .threw (h2, d) ∧ h2.index = h.index ∧
        h2.block = h.block ∧ ValidInt h2 d ∧
        ∀ i, i < size d → subscript h2 d i = subscript h d i :=
  ⟨⟨[], [], emptySized_repr⟩, rfl, rfl, rfl, rfl, rfl, rfl,
    fun f h d v hv hpos hcap hf0 hfail => push_back_rollback f h d v hv hpos hcap hf0 hfail⟩

/-- C24: on the container `Deque(0, v)` leaves, which is valid and has `begin() == end()`, an
`insert` at that iterator whose element construction or block allocation would throw is
undefined: its `push_back` reads `arr[0]` of an index array of length 0. On every valid
container of capacity at least 1 such an `insert`, at any iterator, ends with the exception of
`push_back`, before its loop of swaps: the members are the ones before the call, the heap holds
the same index arrays and blocks, and every `operator[]` reads what it read. -/
theorem C24_insert_on_empty_sized_is_undefined :
    ValidInt emptySized.1 emptySized.2 ∧ begin emptySized.2 = end_ emptySized.2 ∧
    insert ctorFails (begin emptySized.2) 1 emptySized.1 emptySized.2 = some .ub ∧
    insert blockAllocFails (begin emptySized.2) 1 emptySized.1 emptySized.2 = some .ub ∧
    ∀ (f : Faults) (h : Heap α) (d : Deque) (it : Iter) (v : α), ValidInt h d → 0 < d.capacity →
      (d.capacity + 2 * growth d.capacity) * BLOCK_SIZE < SIZE_MOD → f.indexAlloc = true →
      (f.ctor = false ∨ (f.blockAlloc = false ∧
        (full_at_back d = true ∨ h.slot d.arr (end_ d).row = some none))) →
      ∃ h2, insert f it v h d = some (.threw (h2, d)) ∧ h2.index = h.index ∧
        h2.block = h.block ∧ ValidInt h2 d ∧
        ∀ i, i < size d → subscript h2 d i = subscript h d i := by
  refine ⟨⟨[], [], emptySized_repr⟩, rfl, rfl, rfl, ?_⟩
  intro f h d it v hv hpos hcap hf0 hfail
  obtain ⟨h2, hrun, hrest⟩ := push_back_rollback f h d v hv hpos hcap hf0 hfail
  exact ⟨h2, insert_fails f it v hrun, hrest⟩

/-- C13 on the scenario's container, assigned from its copy, with every step succeeding and
with the copy of the second element throwing. -/
theorem C13_on_scenario_and_its_copy :
    Valid scenarioCopy.1 scenarioCopy.2.1 ∧ Valid scenarioCopy.1 scenarioCopy.2.2 ∧
    size scenarioCopy.2.1 < 2 ^ 31 ∧ size scenarioCopy.2.2 < 2 ^ 31 ∧
    (scenarioCopy.2.1 = scenarioCopy.2.2 ∨ (scenarioCopy.2.1.arr ≠ scenarioCopy.2.2.arr ∧
      ∀ (r r2 x : Nat), scenarioCopy.1.slot scenarioCopy.2.1.arr r = some (some x) →
        scenarioCopy.1.slot scenarioCopy.2.2.arr r2 ≠ some (some x))) ∧
    (∃ h2 a2, assign noCopyFault scenarioCopy.1 scenarioCopy.2.1 scenarioCopy.2.2
        = some (.ok (h2, a2)) ∧ Valid h2 a2 ∧ size a2 = size scenarioCopy.2.2 ∧
      (∀ i, i < size scenarioCopy.2.2 →
        subscript h2 a2 i = subscript scenarioCopy.1 scenarioCopy.2.2 i ∧
        (subscript scenarioCopy.1 scenarioCopy.2.2 i).isSome) ∧
      (scenarioCopy.2.1 ≠ scenarioCopy.2.2 → Valid h2 scenarioCopy.2.2 ∧
        ∀ i, i < size scenarioCopy.2.2 →
          subscript h2 scenarioCopy.2.2 i = subscript scenarioCopy.1 scenarioCopy.2.2 i)) :=
  let ⟨lo, l, hra, hrb, hab⟩ := scenarioCopy_ok
  ⟨valid_of_repr hra, valid_of_repr hrb, hra.1.size_int, hrb.1.size_int, Or.inr ((apart_of_slots hra.1 hrb.1).1 hab),
    (C13_assignment_copies_and_swaps noCopyFault scenarioCopy.1 scenarioCopy.2.1
      scenarioCopy.2.2 (valid_of_repr hra) (valid_of_repr hrb) hra.1.size_int hrb.1.size_int
      (Or.inr ((apart_of_slots hra.1 hrb.1).1 hab))).1 rfl rfl (fun _ _ e => by cases e)⟩

theorem push_back_room {h : Heap α} {d : Deque} {l : List (Option Nat)} {m : List α}
    (hr : Repr h d l m) (v : α) (hroom : front d + d.size_ < d.capacity * BLOCK_SIZE) :
    ∃ h2 l2, push_back noFault v h d = .ok (h2, { d with size_ := d.size_ + 1 }) ∧
      Stores h2 { d with size_ := d.size_ + 1 } l2 (m ++ [v]) ∧
      Effect h h2 d.arr d.arr l l2 ∧ Keeps 0 l l2 := by
  have hs := hr.1
  have hfits := hs.fits
  have hc := hs.cap_rep
  have hroom2 : (front d + d.size_) / BLOCK_SIZE < d.capacity := by
    simp only [front, BLOCK_SIZE] at hroom hfits hc ⊢
    omega
  have hfull : ¬ full_at_back d = true := by
    intro e
    have := (full_at_back_iff hs).1 e
    omega
  obtain ⟨h2, l2, nr, htry, hs2, hpk, heff2, hkeep2⟩ :=
    push_back_try_ok hs noFault v (Or.inl rfl) rfl hroom2 d.arr (Or.inl rfl)
  rw [if_pos rfl] at htry
  refine ⟨h2, l2, ?_, ⟨?_, ?_, ?_⟩, heff2, hkeep2⟩
  · unfold push_back
    rw [if_neg hfull]
    unfold push_back_body
    rw [htry]
  · exact ⟨hs2.col_lt, hs2.cap_rep, by show front d + (d.size_ + 1) ≤ d.capacity * BLOCK_SIZE; omega, hs2.arr_lt,
      hs2.index_eq, hs2.length_eq, hs2.blocks, hs2.inj, hs2.index_fresh, hs2.block_fresh⟩
  · show d.size_ + 1 = _
    rw [hr.2.1]; simp
  · intro i hi
    show peekLin h2 l2 (front d + i) = _
    rw [hpk]
    simp only [List.length_append, List.length_singleton] at hi
    by_cases e : i = m.length
    · subst e; simp [hr.2.1]
    · have hi2 : i < m.length := by omega
      have hne : front d + i ≠ front d + d.size_ := by have := hr.2.1; omega
      simp only [hne, if_false]
      rw [hr.2.2 i hi2, List.getElem?_append_left hi2]

theorem big_filled (v : α) :
    ∃ h1 h l, mk_filled ((2 ^ 31 - 1 : Nat) : Int) v (Heap.empty : Heap α)
        = some (.ok (h1, maxSized)) ∧
      ValidInt h1 maxSized ∧
      push_back noFault v h1 maxSized = .ok (h, bigDeque) ∧
      Stores h bigDeque l (List.replicate (2 ^ 31 - 1) v ++ [v]) := by
  obtain ⟨h1, l1, hrun, hr, _⟩ := mk_filled_ok (Heap.empty : Heap α) empty_wf (2 ^ 31 - 1)
    (by decide) v
  have e : (⟨0, 0, 2 ^ 31 - 1, (2 ^ 31 - 1 + 63) / 64, (Heap.empty : Heap α).nextIndex⟩ : Deque)
      = maxSized := by
    show (⟨0, 0, 2 ^ 31 - 1, (2 ^ 31 - 1 + 63) / 64, 0⟩ : Deque) = _
    decide
  rw [e] at hrun hr
  obtain ⟨h2, l2, hpush, hst, _⟩ := push_back_room hr v (by decide)
  exact ⟨h1, h2, l2, hrun, ⟨l1, _, hr⟩, hpush, hst⟩

theorem invariant_of_stores {h : Heap α} {d : Deque} {l : List (Option Nat)} {m : List α}
    (hr : Stores h d l m) : Invariant h d := by
  have hs := hr.1
  have hfits := hs.fits
  have hcol := hs.col_lt
  refine ⟨hcol, ?_, ?_⟩
  · simp only [front, BLOCK_SIZE] at hfits hcol ⊢
    omega
  · intro row col ⟨hc, hlo, hhi⟩
    obtain ⟨i, hi⟩ : ∃ i, row * BLOCK_SIZE + col = front d + i := ⟨_, (Nat.add_sub_cancel' hlo).symm⟩
    have hil : i < m.length := by have := hr.2.1; omega
    have hpk := hr.2.2 i hil
    rw [← hi, List.getElem?_eq_getElem hil] at hpk
    obtain ⟨b, hb⟩ := peekLin_some hpk
    have hrow : (row * BLOCK_SIZE + col) / BLOCK_SIZE = row := by
      simp only [BLOCK_SIZE] at hc ⊢; omega
    rw [hrow] at hb
    obtain ⟨_, cs, hcs, _⟩ := hs.blocks row b hb
    refine ⟨b, cs, ?_, hcs⟩
    unfold Heap.slot
    rw [hs.index_eq]
    exact hb

theorem slot_outside {h : Heap α} {d : Deque} {l : List (Option Nat)} (hl : Layout h d l)
    (row : Nat) (hrow : d.capacity ≤ row) : h.slot d.arr row = none := by
  unfold Heap.slot
  rw [hl.index_eq]
  exact List.getElem?_eq_none (by rw [hl.length_eq]; exact hrow)

theorem end_big : end_ bigDeque = ⟨0, 2 ^ 58 - 2 ^ 25, 0⟩ := by decide

theorem pop_back_big {h : Heap α} {l : List (Option Nat)} (hl : Layout h bigDeque l) :
    pop_back h bigDeque = .ub := by
  have hdec : (end_ bigDeque).dec = ⟨0, 2 ^ 58 - 2 ^ 25 - 1, 63⟩ := by decide
  have hslot : h.slot 0 (2 ^ 58 - 2 ^ 25 - 1) = none :=
    slot_outside hl _ (by decide)
  unfold pop_back
  rw [hdec]
  unfold Iter.destroy
  rw [hslot]

/-- C16, counterexample: `Deque(INT_MAX, 7)` followed by `push_back(7)` returns a valid container
of `2 ^ 31` elements, which satisfies the data-model invariant; there `end()`, which is
`begin() + int(size_)`, is `begin() + INT_MIN`, at row `2 ^ 58 - 2 ^ 25`, and
`end() - begin()` is `-2 ^ 31`, not `size()`. -/
theorem C16_end_minus_begin_beyond_int :
    ∃ (h1 h : Heap Nat),
      mk_filled ((2 ^ 31 - 1 : Nat) : Int) 7 Heap.empty = some (.ok (h1, maxSized)) ∧
      push_back noFault 7 h1 maxSized = .ok (h, bigDeque) ∧
      Valid h bigDeque ∧ Invariant h bigDeque ∧ size bigDeque = 2 ^ 31 ∧
      end_ bigDeque = ⟨0, 2 ^ 58 - 2 ^ 25, 0⟩ ∧
      (end_ bigDeque).diff (begin bigDeque) = -2 ^ 31 ∧
      (end_ bigDeque).diff (begin bigDeque) ≠ size bigDeque := by
  obtain ⟨h1, h, l, hrun, _, hpush, hst⟩ := big_filled (7 : Nat)
  exact ⟨h1, h, hrun, hpush, ⟨l, _, hst⟩, invariant_of_stores hst, rfl, end_big, by decide,
    by decide⟩

/-- C18, counterexample: on the valid container of `2 ^ 31` elements that `Deque(INT_MAX, 7)`
followed by `push_back(7)` returns, which is not empty, `pop_back()` destroys `*--end()` with
`end() = begin() + INT_MIN`: the cell of row `2 ^ 58 - 2 ^ 25 - 1`, outside the index array of
`2 ^ 25` slots. The call is undefined; no element is kept by it. -/
theorem C18_pop_back_beyond_int :
    ∃ (h1 h : Heap Nat),
      mk_filled ((2 ^ 31 - 1 : Nat) : Int) 7 Heap.empty = some (.ok (h1, maxSized)) ∧
      push_back noFault 7 h1 maxSized = .ok (h, bigDeque) ∧
      Valid h bigDeque ∧ 0 < size bigDeque ∧
      (end_ bigDeque).dec = ⟨0, 2 ^ 58 - 2 ^ 25 - 1, 63⟩ ∧
      h.slot bigDeque.arr (2 ^ 58 - 2 ^ 25 - 1) = none ∧
      pop_back h bigDeque = .ub := by
  obtain ⟨h1, h, l, hrun, _, hpush, hst⟩ := big_filled (7 : Nat)
  exact ⟨h1, h, hrun, hpush, ⟨l, _, hst⟩, by decide, by decide,
    slot_outside hst.1 _ (by decide), pop_back_big hst.1⟩

theorem copy_loop_runs_on (f : CopyFaults) (last : Iter) :
    ∀ (fuel c : Nat) (h : Heap α) (it j : Iter),
      (∀ i, i ≤ fuel → (Iter.inc^[i] j).eq last = false) →
      ∀ s, copy_loop f last fuel c h it j ≠ some (.ok s) := by
  intro fuel
  induction fuel with
  | zero =>
    intro c h it j hne s
    have e : j.eq last = false := hne 0 le_rfl
    rw [copy_loop, e]
    simp
  | succ fuel ih =>
    intro c h it j hne s
    have e : j.eq last = false := hne 0 (Nat.zero_le _)
    rw [copy_loop, e]
    simp only [Bool.false_eq_true, if_false]
    rcases j.load h with _ | v
    · simp
    · simp only []
      by_cases hc : f.ctorFailAt = some c
      · rw [if_pos hc]; simp
      · rw [if_neg hc]
        rcases it.construct h v with _ | h1
        · simp
        · exact ih (c + 1) h1 it.inc j.inc (fun i hi => by
            have := hne (i + 1) (by omega)
            rwa [Function.iterate_succ_apply] at this) s

theorem copy_done_not_ok (d : Deque) (r : Option (Outcome (Heap α × Iter)))
    (hr : ∀ s, r ≠ some (.ok s)) : ∀ h2 d2, copy_done d r ≠ some (.ok h2 d2) := by
  intro h2 d2
  rcases r with _ | _ | ⟨h, it⟩ | _
  · simp [copy_done]
  · exact absurd rfl (hr _)
  · show copy_unwound (clear_elements h d it) ≠ _
    rcases clear_elements h d it with _ | _ | ⟨h3, log⟩ <;> simp [copy_unwound]
  · simp [copy_done]

theorem mk_copy_runs_on (f : CopyFaults) (h : Heap α) (o : Deque)
    (hne : ∀ i, i ≤ o.size_ → (Iter.inc^[i] (begin o)).eq (end_ o) = false) :
    ∀ h2 d2, mk_copy f h o ≠ some (.ok h2 d2) := by
  intro h2 d2
  unfold mk_copy
  by_cases hi : f.indexAlloc = false
  · rw [if_pos hi]; simp
  · rw [if_neg hi]
    rcases copy_rows f o.arr (h.newIndex (List.replicate o.capacity none)).2 o.capacity 0
      (h.newIndex (List.replicate o.capacity none)).1 with ⟨h3, r⟩ | ⟨h3, r⟩ | _
    · show copy_done _ (copy_loop f (end_ o) o.size_ 0 h3 _ (begin o)) ≠ _
      exact copy_done_not_ok _ _
        (copy_loop_runs_on f (end_ o) o.size_ 0 h3 _ (begin o) hne) h2 d2
    · show copy_cleared (clear _ r true h3) ≠ _
      rcases clear _ r true h3 with _ | h4 <;> simp [copy_cleared]
    · simp [copy_filled]

theorem big_never_at_end :
    ∀ i, i ≤ bigDeque.size_ → (Iter.inc^[i] (begin bigDeque)).eq (end_ bigDeque) = false := by
  intro i hi
  have hi2 : i ≤ 2 ^ 31 := hi
  have e1 : begin bigDeque = ⟨0, 0 / BLOCK_SIZE, 0 % BLOCK_SIZE⟩ := by decide
  have e2 : end_ bigDeque
      = ⟨0, (2 ^ 64 - 2 ^ 31) / BLOCK_SIZE, (2 ^ 64 - 2 ^ 31) % BLOCK_SIZE⟩ := by decide
  rw [e1, e2, iterate_inc_at 0 0 i (by simp only [SIZE_MOD]; omega)]
  rcases hb : Iter.eq ⟨0, (0 + i) / BLOCK_SIZE, (0 + i) % BLOCK_SIZE⟩
    ⟨0, (2 ^ 64 - 2 ^ 31) / BLOCK_SIZE, (2 ^ 64 - 2 ^ 31) % BLOCK_SIZE⟩ with _ | _
  · rfl
  · have := (eq_at_iff 0 (0 + i) (2 ^ 64 - 2 ^ 31)).1 hb
    omega

theorem assign_runs_on (f : CopyFaults) (h : Heap α) (a o : Deque)
    (hne : ∀ h2 d2, mk_copy f h o ≠ some (.ok h2 d2)) :
    ∀ s, assign f h a o ≠ some (.ok s) := by
  intro s
  unfold assign
  rcases hc : mk_copy f h o with _ | ⟨h2, d2⟩ | ⟨h2, log⟩ | _
  · simp [assign_copied]
  · exact absurd hc (hne h2 d2)
  · simp [assign_copied]
  · simp [assign_copied]

/-- C5, counterexample: the valid container of `2 ^ 31` elements that `Deque(INT_MAX, 7)`
followed by `push_back(7)` returns cannot be copied. The loop of the copy constructor runs
until `j == other.cend()`, and `cend()` is `cbegin() + INT_MIN`, which `j` does not reach in
`size_` steps from `cbegin()`: with every allocation and every copy succeeding the constructor
does not return a container; it goes on past the last element. -/
theorem C5_copy_beyond_int :
    ∃ (h1 h : Heap Nat),
      mk_filled ((2 ^ 31 - 1 : Nat) : Int) 7 Heap.empty = some (.ok (h1, maxSized)) ∧
      push_back noFault 7 h1 maxSized = .ok (h, bigDeque) ∧
      Valid h bigDeque ∧ size bigDeque = 2 ^ 31 ∧
      (∀ i, i ≤ size bigDeque → Iter.inc^[i] (begin bigDeque) ≠ end_ bigDeque) ∧
      ∀ h2 d2, mk_copy noCopyFault h bigDeque ≠ some (.ok h2 d2) := by
  obtain ⟨h1, h, l, hrun, _, hpush, hst⟩ := big_filled (7 : Nat)
  refine ⟨h1, h, hrun, hpush, ⟨l, _, hst⟩, rfl, ?_, mk_copy_runs_on _ _ _ big_never_at_end⟩
  intro i hi e
  have := big_never_at_end i hi
  rw [e] at this
  simp [Iter.eq] at this

/-- C13, counterexample: with `b` the valid container of `2 ^ 31` elements that
`Deque(INT_MAX, 7)` followed by `push_back(7)` returns, the assignment `a = b` does not
complete for any `a`, `b` itself included: copying `b` into the parameter of `operator=` runs
past the last element, every allocation and copy succeeding. -/
theorem C13_assign_beyond_int :
    ∃ (h1 h : Heap Nat),
      mk_filled ((2 ^ 31 - 1 : Nat) : Int) 7 Heap.empty = some (.ok (h1, maxSized)) ∧
      push_back noFault 7 h1 maxSized = .ok (h, bigDeque) ∧
      Valid h bigDeque ∧ size bigDeque = 2 ^ 31 ∧
      (∀ s, assign noCopyFault h bigDeque bigDeque ≠ some (.ok s)) ∧
      ∀ a s, assign noCopyFault h a bigDeque ≠ some (.ok s) := by
  obtain ⟨h1, h, l, hrun, _, hpush, hst⟩ := big_filled (7 : Nat)
  exact ⟨h1, h, hrun, hpush, ⟨l, _, hst⟩, rfl,
    assign_runs_on _ _ _ _ (mk_copy_runs_on _ _ _ big_never_at_end),
    fun a => assign_runs_on _ _ a _ (mk_copy_runs_on _ _ _ big_never_at_end)⟩

/-- C6: the copy of the container `Deque(0, v)` leaves is built, with an index array of its
own, of length 0 like that of the source; a `push_back` or a `push_front` applied to the copy,
allocation and construction succeeding, reads `arr[0]`, respectively `arr[SIZE_MAX]`, outside
that array. The call is undefined, so nothing is known of the source after it. For a source
reached from a default-constructed container by a run of calls, and mutations of the source
and of the copy that together with the run are fewer than `2 ^ 31` and meet their
preconditions, the copy has its own index array and blocks, and both containers end holding
what the list model gives each of them from its own mutations. -/
theorem C6_copy_of_empty_sized_cannot_be_pushed :
    Valid emptySized.1 emptySized.2 ∧
    (∃ h1, mk_copy noCopyFault emptySized.1 emptySized.2 = some (.ok h1 ⟨0, 0, 0, 0, 1⟩) ∧
      (⟨0, 0, 0, 0, 1⟩ : Deque).arr ≠ emptySized.2.arr ∧
      push_back noFault 1 h1 ⟨0, 0, 0, 0, 1⟩ = .ub ∧
      push_front noFault 1 h1 ⟨0, 0, 0, 0, 1⟩ = .ub ∧
      mutate_pair [(false, Mutation.call (Call.push_back 1))]
        (h1, emptySized.2, ⟨0, 0, 0, 0, 1⟩) = some .ub) ∧
    ∀ (h0 : Heap α) (pre : List (Call α)) (mo : List α) (xs : List (Bool × Mutation α))
      (ms : List α × List α), h0.WF → pre.length + xs.length < 2 ^ 31 →
      modelCalls pre [] = some mo → modelPair xs (mo, mo) = some ms →
      ∃ h o, calls pre (mk_default h0) = some (.ok (h, o)) ∧
      ∃ h1 d, mk_copy noCopyFault h o = some (.ok h1 d) ∧ d.arr ≠ o.arr ∧
        (∀ (r r2 x : Nat), h1.slot o.arr r = some (some x) →
          h1.slot d.arr r2 ≠ some (some x)) ∧
        ∃ h2 o2 d2, mutate_pair xs (h1, o, d) = some (.ok (h2, o2, d2)) ∧
          size o2 = ms.1.length ∧ size d2 = ms.2.length ∧
          (∀ i, i < ms.1.length → subscript h2 o2 i = ms.1[i]?) ∧
          (∀ i, i < ms.2.length → subscript h2 d2 i = ms.2[i]?) ∧
          ((∀ x, x ∈ xs → x.1 = false) →
            size o2 = size o ∧ ∀ i, i < size o → subscript h2 o2 i = subscript h o i) ∧
          ((∀ x, x ∈ xs → x.1 = true) →
            size d2 = size o ∧ ∀ i, i < size o → subscript h2 d2 i = subscript h o i) := by
  refine ⟨⟨[], [], stores_of_repr emptySized_repr⟩, ⟨_, rfl, by decide, rfl, rfl, rfl⟩, ?_⟩
  intro h0 pre mo xs ms hwf hlen hm hmp
  obtain ⟨h, o, lo, hrun, hr, hb⟩ :=
    calls_refine pre (mk_default h0).1 (mk_default h0).2 [none] [] 0 mo
      (mk_default_repr h0 hwf) (mk_default_budget h0) (by omega) hm
  exact ⟨h, o, hrun,
    copy_is_independent h o lo mo (0 + pre.length) xs ms hr hb (by omega) hmp⟩

theorem run_append_ok {a b : List (Op α)} {s s1 : Heap α × Deque} (ha : run a s = .ok s1) :
    run (a ++ b) s = run b s1 := by
  induction a generalizing s with
  | nil =>
    simp only [run, Outcome.ok.injEq] at ha
    subst ha
    rfl
  | cons op ops ih =>
    rw [List.cons_append]
    rcases hop : op.apply s with s2 | s2 | _
    · rw [run_cons_ok hop] at ha ⊢
      exact ih ha
    · rw [run, hop] at ha; cases ha
    · rw [run, hop] at ha; cases ha

theorem replicate_merge (a b : Nat) (x : α) :
    List.replicate b x ++ x :: List.replicate a x = List.replicate (a + (b + 1)) x := by
  rw [List.eq_replicate_iff]
  refine ⟨by simp; omega, ?_⟩
  intro y hy
  simp only [List.mem_append, List.mem_cons, List.mem_replicate] at hy
  rcases hy with ⟨_, e⟩ | e | ⟨_, e⟩ <;> exact e

/-- The `push_front` of a well-laid-out container of any size whose front is not at linear
position 0: the index array does not grow. -/
theorem push_front_lay {h : Heap α} {d : Deque} {l : List (Option Nat)} {m : List α}
    (hst : Stores h d l m) (v : α) (hpos : 0 < front d) (hw : d.size_ + 1 < SIZE_MOD) :
    ∃ h2 l2, push_front noFault v h d = .ok (h2, withFront d (front d - 1) (d.size_ + 1)) ∧
      Stores h2 (withFront d (front d - 1) (d.size_ + 1)) l2 (v :: m) := by
  obtain ⟨hl, hsize, he⟩ := hst
  have hfits := hl.fits
  have hcr := hl.cap_rep
  have hcl := hl.col_lt
  have hlen := hl.length_eq
  have hs0 : Shape h { d with size_ := 0 } l :=
    shape_resize hl 0 (by decide) (by show front d + 0 ≤ _; omega)
  have hroom : (front d - 1) / BLOCK_SIZE < d.capacity := by
    simp only [BLOCK_SIZE] at hfits ⊢
    omega
  obtain ⟨h1, h2, l2, hme, hc, hs2, hpk, heff, hkeep, hidx⟩ :=
    store_ok hs0 noFault (front d - 1) v (Or.inl rfl) hroom
  have hme2 : make_exist noFault h d ((front d - 1) / BLOCK_SIZE) = .ok h1 := hme
  have hc2 : Iter.construct h1 ⟨d.arr, (front d - 1) / BLOCK_SIZE, (front d - 1) % BLOCK_SIZE⟩ v
      = some h2 := hc
  have hbd : (begin d).dec
      = ⟨d.arr, (front d - 1) / BLOCK_SIZE, (front d - 1) % BLOCK_SIZE⟩ := by
    have hb0 := begin_dec hs0 hpos
    exact hb0
  have hprev : prev d
      = { d with min_row := (front d - 1) / BLOCK_SIZE, min_col := (front d - 1) % BLOCK_SIZE } := by
    simp only [prev, front, wsub, BLOCK_SIZE, SIZE_MOD] at *
    by_cases hc : d.min_col = 0
    · rw [if_pos hc, Deque.mk.injEq]; exact ⟨by omega, by omega, rfl, rfl, rfl⟩
    · rw [if_neg hc, Deque.mk.injEq]; exact ⟨by omega, by omega, rfl, rfl, rfl⟩
  have hd := dropPrevious_eq h2 { prev d with size_ := d.size_ + 1 } d.arr
    (by rw [hprev]; exact Or.inl rfl)
  have hw2 : wadd d.size_ 1 = d.size_ + 1 := by
    simp only [wadd, SIZE_MOD] at *; omega
  have hslot : h.slot d.arr ((front d - 1) / BLOCK_SIZE)
      = l[(front d - 1) / BLOCK_SIZE]? := by simp [Heap.slot, hl.index_eq]
  obtain ⟨x, hx⟩ : ∃ x, l[(front d - 1) / BLOCK_SIZE]? = some x := by
    rcases hx : l[(front d - 1) / BLOCK_SIZE]? with _ | x
    · rw [List.getElem?_eq_none_iff] at hx; omega
    · exact ⟨x, rfl⟩
  have hf2 : (noFault).ctor = true := rfl
  have htry : push_front_try noFault v d.arr h d
      = .ok (h2, withFront d (front d - 1) (d.size_ + 1), x.isNone) := by
    unfold push_front_try
    simp only [hbd, hslot, hx, hme2, hf2, hc2, hw2, hd]
    simp [hprev, withFront]
  have hz : ¬ (d.min_row = 0 ∧ d.min_col = 0) := by
    simp only [front, BLOCK_SIZE] at hpos
    omega
  have hfr := front_withFront d (front d - 1) (d.size_ + 1)
  refine ⟨h2, l2, ?_, ⟨?_, ?_, ?_⟩⟩
  · unfold push_front
    rw [if_neg hz]
    unfold push_front_body
    rw [htry]
  · exact ⟨Nat.mod_lt _ (by decide), hs2.cap_rep,
      by rw [hfr]; show front d - 1 + (d.size_ + 1) ≤ d.capacity * BLOCK_SIZE; omega,
      hs2.arr_lt, hs2.index_eq, hs2.length_eq, hs2.blocks, hs2.inj, hs2.index_fresh,
      hs2.block_fresh⟩
  · show d.size_ + 1 = _
    rw [hsize]; rfl
  · intro i hi
    rw [hfr, hpk]
    simp only [List.length_cons] at hi
    rcases i with _ | j
    · simp
    · have : front d - 1 + (j + 1) ≠ front d - 1 := by omega
      simp only [this, if_false]
      have e2 : front d - 1 + (j + 1) = front d + j := by omega
      rw [e2, he j (by omega)]
      simp

theorem modelRun_append (a b : List (Op α)) :
    ∀ (m m1 : List α), modelRun a m = some m1 → modelRun (a ++ b) m = modelRun b m1 := by
  induction a with
  | nil =>
    intro m m1 e
    simp only [modelRun, Option.some.injEq] at e
    subst e
    rfl
  | cons op ops ih =>
    intro m m1 e
    rw [List.cons_append]
    rcases hop : op.model m with _ | m2
    · rw [modelRun, hop] at e; cases e
    · rw [modelRun, hop] at e ⊢
      exact ih m2 m1 e

theorem load_outside {h : Heap α} {d : Deque} {l : List (Option Nat)} (hl : Layout h d l)
    (it : Iter) (harr : it.arr = d.arr) (hrow : d.capacity ≤ it.row) : it.load h = none := by
  unfold Iter.load
  rw [harr, slot_outside hl _ hrow]

theorem modelRun_single (op : Op α) (m m1 : List α) (hop : op.model m = some m1) :
    modelRun [op] m = some m1 := by
  rw [modelRun, hop]
  rfl

theorem run_single_ok (op : Op α) (s s1 : Heap α × Deque) (hop : op.apply s = .ok s1) :
    run [op] s = .ok s1 := by
  rw [run, hop]
  rfl

theorem alternating_succ (n : Nat) :
    alternating (n + 1)
      = alternating n ++ [if n % 2 = 0 then Op.push_front n else Op.push_back n] := by
  simp [alternating, List.range_succ]

/-- The state after `n < 2 ^ 31` alternating pushes on a default-constructed container: the
front has moved down by the number of `push_front` calls from the middle of the index array,
whose length is odd and at most twice what the pushes at one end need. -/
theorem alternating_inv (h0 : Heap Nat) (hwf : h0.WF) :
    ∀ n, n < 2 ^ 31 → ∃ h d l m,
      run (alternating n) (mk_default h0) = .ok (h, d) ∧ Repr h d l m ∧
      modelRun (alternating n) [] = some m ∧ d.size_ = n ∧
      front d + (n + 1) / 2 = 32 * d.capacity ∧ 16 * (d.capacity - 1) ≤ (n + 1) / 2 ∧
      d.capacity % 2 = 1 := by
  intro n
  induction n with
  | zero =>
    intro _
    exact ⟨_, _, _, _, rfl, mk_default_repr h0 hwf, rfl, rfl,
      by show 0 * BLOCK_SIZE + BLOCK_SIZE / 2 + (0 + 1) / 2 = 32 * 1; decide,
      by show 16 * (1 - 1) ≤ (0 + 1) / 2; decide, by show 1 % 2 = 1; decide⟩
  | succ n ih =>
    intro hn
    obtain ⟨h, d, l, m, hrun, hr, hmodel, hsz, hfr, hcp, hodd⟩ := ih (by omega)
    have hpos : 0 < d.capacity := by omega
    have hcap : (d.capacity + 2 * growth d.capacity) * BLOCK_SIZE < SIZE_MOD := by
      simp only [growth, BLOCK_SIZE, SIZE_MOD]; omega
    have hfits := hr.1.fits
    have hlen : m.length = n := by rw [← hr.2.1, hsz]
    have hrel : front (relocatedState h d l).2 = front d + growth d.capacity * BLOCK_SIZE := by
      simp only [relocatedState, front]; ring
    by_cases hpar : n % 2 = 0
    · obtain ⟨h3, d3, l3, k, hrun3, hr3f, hd3, _⟩ :=
        push_front_ok hr noFault rfl rfl rfl n hpos hcap
      have hr3 := hr3f (by omega)
      refine ⟨h3, d3, l3, n :: m, ?_, hr3, ?_, ?_, ?_⟩
      · rw [alternating_succ, if_pos hpar, run_append_ok hrun]
        exact run_single_ok _ _ _ ((apply_push_front n h d).trans hrun3)
      · rw [alternating_succ, if_pos hpar, modelRun_append _ _ _ _ hmodel]
        exact modelRun_single _ _ _ rfl
      · rw [hr3.2.1, List.length_cons, hlen]
      · rcases hd3 with ⟨hz, _, e⟩ | ⟨hz, _, e⟩
        · have hc3 : d3.capacity = d.capacity + 2 * growth d.capacity := by rw [e]; rfl
          have hf3 : front d3 = front d + growth d.capacity * BLOCK_SIZE - 1 := by
            rw [e, front_withFront, hrel]
          rw [hc3, hf3]
          have hg : growth d.capacity = (d.capacity + 1) / 2 := rfl
          simp only [BLOCK_SIZE] at hfits ⊢
          omega
        · have hc3 : d3.capacity = d.capacity := by rw [e]; rfl
          have hf3 : front d3 = front d - 1 := by rw [e, front_withFront]
          rw [hc3, hf3]
          omega
    · obtain ⟨h3, d3, l3, k, hrun3, hr3f, hd3, _⟩ :=
        push_back_ok hr noFault rfl rfl rfl n hpos hcap
      have hr3 := hr3f (by omega)
      refine ⟨h3, d3, l3, m ++ [n], ?_, hr3, ?_, ?_, ?_⟩
      · rw [alternating_succ, if_neg hpar, run_append_ok hrun]
        exact run_single_ok _ _ _ ((apply_push_back n h d).trans hrun3)
      · rw [alternating_succ, if_neg hpar, modelRun_append _ _ _ _ hmodel]
        exact modelRun_single _ _ _ rfl
      · rw [hr3.2.1, List.length_append, List.length_singleton, hlen]
      · rcases hd3 with ⟨hz, _, e⟩ | ⟨hz, _, e⟩
        · have hc3 : d3.capacity = d.capacity + 2 * growth d.capacity := by rw [e]; rfl
          have hf3 : front d3 = front d + growth d.capacity * BLOCK_SIZE := by
            rw [e]
            exact hrel
          rw [hc3, hf3]
          have hg : growth d.capacity = (d.capacity + 1) / 2 := rfl
          simp only [BLOCK_SIZE] at hfits hz ⊢
          omega
        · have hc3 : d3.capacity = d.capacity := by rw [e]
          have hf3 : front d3 = front d := by rw [e]; rfl
          rw [hc3, hf3]
          omega

theorem add_int_min_row (a F : Nat) (hF : F < 2 ^ 31) :
    2 ^ 57 ≤ (Iter.add ⟨a, F / BLOCK_SIZE, F % BLOCK_SIZE⟩
      (toInt32 ((2 ^ 31 : Nat) : Int))).row := by
  have e : toSizeT (toInt32 ((2 ^ 31 : Nat) : Int)) = 2 ^ 64 - 2 ^ 31 := by decide
  simp only [Iter.add, e, wadd, wmul, BLOCK_SIZE, SIZE_MOD]
  omega

theorem getElem?_last_of_pushed (m : List α) (x v : α) (k : Nat) (hk : m.length = k) :
    (v :: (m ++ [x]))[k + 1]? = some x := by
  rw [List.getElem?_cons_succ, List.getElem?_append_right (by omega), hk, Nat.sub_self]
  rfl

/-- C22 fails beyond the range of `int`: the `2 ^ 31 + 1` alternating pushes on a
default-constructed container all return normally and leave a valid container of `2 ^ 31 + 1`
elements, whose element of index `2 ^ 31` is, in the reference model, the value `2 ^ 31 - 1`
pushed last at the back; but `operator[](2 ^ 31)` is `*(begin() + INT_MIN)`, a read outside the
index array. -/
theorem C22_alternating_beyond_int :
    ∃ (h : Heap Nat) (d : Deque) (m : List Nat),
      modelRun (alternating (2 ^ 31 + 1)) [] = some m ∧
      run (alternating (2 ^ 31 + 1)) (mk_default Heap.empty) = .ok (h, d) ∧
      size d = 2 ^ 31 + 1 ∧ Valid h d ∧
      m[2 ^ 31]? = some (2 ^ 31 - 1) ∧ subscript h d (2 ^ 31) = none := by
  obtain ⟨h, d, l, m, hrun, hr, hmodel, hsz, hfr, hcp, hodd⟩ :=
    alternating_inv Heap.empty empty_wf (2 ^ 31 - 1) (by decide)
  have hfits := hr.1.fits
  have hlen : m.length = 2 ^ 31 - 1 := by rw [← hr.2.1, hsz]
  have hfr2 : front d + 2 ^ 30 = 32 * d.capacity := hfr
  have hcp2 : 16 * (d.capacity - 1) ≤ 2 ^ 30 := hcp
  simp only [BLOCK_SIZE] at hfits
  obtain ⟨h1, l1, hpush1, hst1, _⟩ := push_back_room hr (2 ^ 31 - 1)
    (by simp only [BLOCK_SIZE]; omega)
  have hfr1 : front ({ d with size_ := d.size_ + 1 } : Deque) = front d := rfl
  obtain ⟨h2, l2, hpush2, hst2⟩ := push_front_lay hst1 (2 ^ 31)
    (by rw [hfr1]; omega) (by show d.size_ + 1 + 1 < SIZE_MOD; simp only [SIZE_MOD]; omega)
  rw [hfr1] at hpush2 hst2
  have e1 : alternating (2 ^ 31) = alternating (2 ^ 31 - 1) ++ [Op.push_back (2 ^ 31 - 1)] := by
    have := alternating_succ (2 ^ 31 - 1)
    rw [if_neg (by decide)] at this
    exact this
  have e2 : alternating (2 ^ 31 + 1) = alternating (2 ^ 31) ++ [Op.push_front (2 ^ 31)] := by
    have := alternating_succ (2 ^ 31)
    rw [if_pos (by decide)] at this
    exact this
  have hrunA : run (alternating (2 ^ 31)) (mk_default Heap.empty)
      = .ok (h1, { d with size_ := d.size_ + 1 }) := by
    rw [e1, run_append_ok hrun]
    exact run_single_ok _ _ _ ((apply_push_back _ h d).trans hpush1)
  have hmodelA : modelRun (alternating (2 ^ 31)) [] = some (m ++ [2 ^ 31 - 1]) := by
    rw [e1, modelRun_append _ _ _ _ hmodel]
    exact modelRun_single _ _ _ rfl
  refine ⟨h2, _, 2 ^ 31 :: (m ++ [2 ^ 31 - 1]), ?_, ?_, ?_, ⟨l2, _, hst2⟩, ?_, ?_⟩
  · rw [e2, modelRun_append _ _ _ _ hmodelA]
    exact modelRun_single _ _ _ rfl
  · rw [e2, run_append_ok hrunA]
    exact run_single_ok _ _ _ ((apply_push_front _ h1 _).trans hpush2)
  · rw [size]
    show d.size_ + 1 + 1 = 2 ^ 31 + 1
    omega
  · exact getElem?_last_of_pushed m _ _ (2 ^ 31 - 1) hlen
  · have hrow := add_int_min_row d.arr (front d - 1) (by omega)
    unfold subscript
    refine load_outside hst2.1 _ rfl ?_
    show d.capacity ≤ (Iter.add ⟨d.arr, (front d - 1) / BLOCK_SIZE, (front d - 1) % BLOCK_SIZE⟩
      (toInt32 ((2 ^ 31 : Nat) : Int))).row
    omega

theorem copy_loop_fuel (f : CopyFaults) (last : Iter) :
    ∀ (fuel c : Nat) (h : Heap α) (it j : Iter) (r : Outcome (Heap α × Iter)),
      copy_loop f last fuel c h it j = some r →
      ∀ fuel2, fuel ≤ fuel2 → copy_loop f last fuel2 c h it j = some r := by
  intro fuel
  induction fuel with
  | zero =>
    intro c h it j r hrun fuel2 _
    rw [copy_loop] at hrun
    by_cases e : j.eq last = true
    · rw [if_pos e] at hrun
      cases fuel2 with
      | zero => rw [copy_loop, if_pos e]; exact hrun
      | succ f2 => rw [copy_loop, if_pos e]; exact hrun
    · rw [if_neg e] at hrun; cases hrun
  | succ fuel ih =>
    intro c h it j r hrun fuel2 hle
    obtain ⟨f2, rfl⟩ : ∃ f2, fuel2 = f2 + 1 := ⟨fuel2 - 1, by omega⟩
    rw [copy_loop] at hrun ⊢
    by_cases e : j.eq last = true
    · rw [if_pos e] at hrun ⊢; exact hrun
    · rw [if_neg e] at hrun ⊢
      rcases hl : j.load h with _ | v
      · rw [hl] at hrun; exact hrun
      · rw [hl] at hrun
        simp only [] at hrun ⊢
        by_cases e2 : f.ctorFailAt = some c
        · rw [if_pos e2] at hrun ⊢; exact hrun
        · rw [if_neg e2] at hrun ⊢
          rcases hc : it.construct h v with _ | h1
          · rw [hc] at hrun; exact hrun
          · rw [hc] at hrun
            exact ih _ _ _ _ _ hrun f2 (by omega)

/-- A run of the element loop of the copy constructor that ends with an exception does not
depend on the iterator it compares with, as long as the source iterator has not met it. -/
theorem copy_loop_threw_last (f : CopyFaults) (last last2 : Iter) :
    ∀ (fuel c : Nat) (h : Heap α) (it j : Iter) (r : Heap α × Iter),
      copy_loop f last2 fuel c h it j = some (.threw r) →
      (∀ i, i < fuel → (Iter.inc^[i] j).eq last = false) →
      copy_loop f last fuel c h it j = some (.threw r) := by
  intro fuel
  induction fuel with
  | zero =>
    intro c h it j r hrun _
    rw [copy_loop] at hrun
    by_cases e : j.eq last2 = true
    · rw [if_pos e] at hrun; cases hrun
    · rw [if_neg e] at hrun; cases hrun
  | succ fuel ih =>
    intro c h it j r hrun hne
    have h0 : j.eq last = false := hne 0 (Nat.succ_pos _)
    rw [copy_loop] at hrun ⊢
    rw [if_neg (by rw [h0]; exact Bool.false_ne_true)]
    by_cases e : j.eq last2 = true
    · rw [if_pos e] at hrun; cases hrun
    · rw [if_neg e] at hrun
      rcases hl : j.load h with _ | v
      · rw [hl] at hrun; cases hrun
      · rw [hl] at hrun
        simp only [] at hrun ⊢
        by_cases e2 : f.ctorFailAt = some c
        · rw [if_pos e2] at hrun ⊢; exact hrun
        · rw [if_neg e2] at hrun ⊢
          rcases hc : it.construct h v with _ | h1
          · rw [hc] at hrun; cases hrun
          · rw [hc] at hrun
            exact ih _ _ _ _ _ hrun (fun i hi => by
              have := hne (i + 1) (by omega)
              rwa [Function.iterate_succ_apply] at this)

theorem clear_elements_lay {h : Heap α} {d : Deque} {l : List (Option Nat)}
    (hl : Layout h d l) (e : Nat) (he : e ≤ d.size_)
    (hlive : ∀ i, i < e → ∃ x, peekLin h l (front d + i) = some x) :
    ∃ h3, clear_elements h d ⟨d.arr, (front d + e) / BLOCK_SIZE, (front d + e) % BLOCK_SIZE⟩
        = some (some (h3, (List.range' 0 e).map fun i =>
            (⟨d.arr, (front d + i) / BLOCK_SIZE, (front d + i) % BLOCK_SIZE⟩ : Iter))) ∧
      h3.index = Function.update h.index d.arr none ∧
      (∀ (r b : Nat), l[r]? = some (some b) → h3.block b = none) ∧
      (∀ (b : Nat), (∀ (r : Nat), l[r]? ≠ some (some b)) → h3.block b = h.block b) ∧
      h3.nextIndex = h.nextIndex ∧ h3.nextBlock = h.nextBlock := by
  have hfits := hl.fits
  have hrep := hl.cap_rep
  have hlen := hl.length_eq
  have hs0 : Shape h { d with size_ := 0 } l :=
    shape_resize hl 0 (by decide) (by show front d + 0 ≤ _; omega)
  obtain ⟨h2, hloop, hs2, hidx2, hblk2, hni2, hnb2⟩ :=
    destroy_loop_ok (d := { d with size_ := 0 }) (l := l) (front d) e (by omega) e 0 d.size_
      h [] (by omega) he hs0 (fun i _ hi => hlive i hi)
  have hloop2 : destroy_loop ⟨d.arr, (front d + e) / BLOCK_SIZE, (front d + e) % BLOCK_SIZE⟩
      d.size_ h ⟨d.arr, front d / BLOCK_SIZE, front d % BLOCK_SIZE⟩ []
      = some (some (h2, [] ++ (List.range' 0 e).map fun i =>
          (⟨d.arr, (front d + i) / BLOCK_SIZE, (front d + i) % BLOCK_SIZE⟩ : Iter))) := hloop
  have hbeg : begin d = ⟨d.arr, front d / BLOCK_SIZE, front d % BLOCK_SIZE⟩ := by
    have hb0 := begin_eq hs0
    exact hb0
  obtain ⟨h3, hclr, hidx3, hfreed, hkept, hni3, hnb3⟩ :=
    clear_ok hs2 d.capacity (Nat.le_refl _)
  have hclr2 : clear d.arr d.capacity true h2 = some h3 := hclr
  refine ⟨h3, ?_, ?_, ?_, ?_, by rw [hni3, hni2], by rw [hnb3, hnb2]⟩
  · unfold clear_elements
    rw [hbeg, hloop2]
    show (match clear d.arr d.capacity true h2 with
      | none => some none
      | some h4 => some (some (h4, _))) = _
    rw [hclr2]
    rfl
  · rw [hidx3, hidx2]
  · intro r b hb
    have hr : r < d.capacity := by
      rcases Nat.lt_or_ge r l.length with e2 | e2
      · omega
      · rw [List.getElem?_eq_none e2] at hb; cases hb
    exact hfreed r b hr hb
  · intro b hb
    rw [hkept b (fun r _ => hb r), hblk2 b hb]

theorem layout_frame {h h2 : Heap α} {o : Deque} {lo : List (Option Nat)} (hl : Layout h o lo)
    (hi : h2.index o.arr = h.index o.arr)
    (hb : ∀ (r b : Nat), lo[r]? = some (some b) → h2.block b = h.block b)
    (hni : h.nextIndex ≤ h2.nextIndex) (hnb : h.nextBlock ≤ h2.nextBlock) (hwf : h2.WF) :
    Layout h2 o lo := by
  have hs0 : Shape h { o with size_ := 0 } lo :=
    shape_resize hl 0 (by decide) (by have := hl.fits; show front o + 0 ≤ _; omega)
  have hs2 := shape_frame hs0 hi hb hni hnb hwf
  exact ⟨hl.col_lt, hl.cap_rep, hl.fits, hs2.arr_lt, hs2.index_eq, hs2.length_eq, hs2.blocks,
    hs2.inj, hs2.index_fresh, hs2.block_fresh⟩

theorem layout_wf {h : Heap α} {d : Deque} {l : List (Option Nat)} (hl : Layout h d l) : h.WF :=
  ⟨hl.index_fresh, hl.block_fresh⟩

/-- The copy constructor on a well-laid-out source of any size, the copy of the element of index
`e` throwing and the loop reaching it: the exception leaves the constructor, the destructor has
run on the `e` elements built, and the heap holds what it held before. -/
theorem mk_copy_ctor_fails_lay (f : CopyFaults) {h : Heap α} {o : Deque}
    {lo : List (Option Nat)} {mo : List α} (hst : Stores h o lo mo)
    (hidx : f.indexAlloc = true)
    (hblk : ∀ r, r < o.capacity → f.blockFailAt ≠ some r ∨ lo[r]? = some none)
    (e : Nat) (he : e < o.size_) (hfail : f.ctorFailAt = some e)
    (hreach : ∀ i, i < e + 1 → (Iter.inc^[i] (begin o)).eq (end_ o) = false) :
    ∃ h3, mk_copy f h o = some (.threw h3 ((List.range' 0 e).map fun i =>
          (⟨h.nextIndex, (front o + i) / BLOCK_SIZE, (front o + i) % BLOCK_SIZE⟩ : Iter))) ∧
      h3.index = h.index ∧ h3.block = h.block ∧
      h.nextIndex ≤ h3.nextIndex ∧ h.nextBlock ≤ h3.nextBlock := by
  obtain ⟨hl, hsize, hcont⟩ := hst
  have hfits := hl.fits
  have hrep := hl.cap_rep
  have hs0 : Shape h { o with size_ := 0 } lo :=
    shape_resize hl 0 (by decide) (by show front o + 0 ≤ _; omega)
  have hr0 : Repr h { o with size_ := 0 } lo ([] : List α) :=
    ⟨hs0, rfl, fun i hi => by simp at hi⟩
  obtain ⟨h2, l2, hrows, hsd, hro, hb, hpat, _, hdis⟩ :=
    copy_prepare f hr0 o.capacity (Nat.le_refl _) (Or.inl rfl) hblk
  rw [if_pos rfl] at hrows
  have hrows2 : copy_rows f o.arr (h.newIndex (List.replicate o.capacity none)).2 o.capacity 0
      (h.newIndex (List.replicate o.capacity none)).1 = .ok (h2, o.capacity) := hrows
  have hsrc2 : ∀ q, peekLin h2 lo q = peekLin h lo q := fun q =>
    peekLin_congr (fun r b hb2 => hb.block_other b (fun r2 => hdis r r2 b hb2)) q
  have htake : (mo.take (e + 1)).length = e + 1 := by
    rw [List.length_take]; omega
  have hall : ∀ q, q < e + 1 → ∃ b, l2[(front o + q) / BLOCK_SIZE]? = some (some b) := by
    intro q hq
    have hq2 : q < mo.length := by omega
    have hpk := hcont q hq2
    rw [List.getElem?_eq_getElem hq2] at hpk
    obtain ⟨b, hbl⟩ := peekLin_some hpk
    have hrow : (front o + q) / BLOCK_SIZE < o.capacity := by
      simp only [BLOCK_SIZE] at *; omega
    have hlen := hsd.length_eq
    have hrow2 : (front o + q) / BLOCK_SIZE < l2.length := by rw [hlen]; exact hrow
    rcases hx : l2[(front o + q) / BLOCK_SIZE] with _ | b2
    · have e1 : l2[(front o + q) / BLOCK_SIZE]? = some none := by
        rw [List.getElem?_eq_getElem hrow2, hx]
      rw [(hpat _ hrow).1 e1] at hbl
      cases hbl
    · exact ⟨b2, by rw [List.getElem?_eq_getElem hrow2, hx]⟩
  obtain ⟨h3, hrun, hs3, hso3, hb3, hpk3, _, hsrc3⟩ :=
    copy_loop_ok f h { o with size_ := 0 }
      { ({ o with size_ := 0 } : Deque) with arr := (h.newIndex (List.replicate o.capacity none)).2 }
      lo l2 (mo.take (e + 1)) (e + 1) e (front o) htake (by omega) (by omega)
      (Or.inr hfail) hdis hall e 0 (e + 1) h2 (by omega) (by rw [if_neg (by omega)])
      (fun c _ hc => by
        rw [hfail]
        intro e2
        have := Option.some.inj e2
        omega) hsd hro.1 hb
      (fun i hi => by
        rw [hsrc2, hcont i (by omega), List.getElem?_take, if_pos hi])
      (fun i hi => by omega)
  rw [if_neg (by omega), Nat.add_zero] at hrun
  have hrun2 : copy_loop f ⟨o.arr, (front o + (e + 1)) / BLOCK_SIZE,
      (front o + (e + 1)) % BLOCK_SIZE⟩ (e + 1) 0 h2
      ⟨h.nextIndex, front o / BLOCK_SIZE, front o % BLOCK_SIZE⟩
      ⟨o.arr, front o / BLOCK_SIZE, front o % BLOCK_SIZE⟩
      = some (.threw (h3, ⟨h.nextIndex, (front o + e) / BLOCK_SIZE,
          (front o + e) % BLOCK_SIZE⟩)) := hrun
  have hbo : begin o = ⟨o.arr, front o / BLOCK_SIZE, front o % BLOCK_SIZE⟩ := by
    have hb0 := begin_eq hs0
    exact hb0
  have hbd : begin ({ o with arr := (h.newIndex (List.replicate o.capacity none)).2 } : Deque)
      = ⟨h.nextIndex, front o / BLOCK_SIZE, front o % BLOCK_SIZE⟩ := by
    have hb0 := begin_eq hsd
    exact hb0
  rw [hbo] at hreach
  have hloop : copy_loop f (end_ o) o.size_ 0 h2
      ⟨h.nextIndex, front o / BLOCK_SIZE, front o % BLOCK_SIZE⟩
      ⟨o.arr, front o / BLOCK_SIZE, front o % BLOCK_SIZE⟩
      = some (.threw (h3, ⟨h.nextIndex, (front o + e) / BLOCK_SIZE,
          (front o + e) % BLOCK_SIZE⟩)) :=
    copy_loop_fuel f _ _ _ _ _ _ _
      (copy_loop_threw_last f (end_ o) _ _ _ _ _ _ _ hrun2 hreach) _ (by omega)
  have hld : Layout h3 ({ o with arr := (h.newIndex (List.replicate o.capacity none)).2 } : Deque)
      l2 :=
    ⟨hs3.col_lt, hs3.cap_rep, hfits, hs3.arr_lt, hs3.index_eq, hs3.length_eq, hs3.blocks,
      hs3.inj, hs3.index_fresh, hs3.block_fresh⟩
  obtain ⟨h4, hce, hi4, hfreed, hkept, hni4, hnb4⟩ :=
    clear_elements_lay hld e (by show e ≤ o.size_; omega) (by
      intro i hi
      have hi2 : i < mo.length := by omega
      exact ⟨mo[i], by
        show peekLin h3 l2 (front o + i) = _
        rw [hpk3 i hi, List.getElem?_take, if_pos (by omega), List.getElem?_eq_getElem hi2]⟩)
  obtain ⟨e1, e2⟩ := unbuilt hb3 (layout_wf hl) hi4 hfreed hkept
  refine ⟨h4, ?_, e1, e2, by rw [hni4]; exact hb3.nextIndex_le,
    by rw [hnb4]; exact hb3.nextBlock_le⟩
  unfold mk_copy
  rw [if_neg (by rw [hidx]; decide), hrows2]
  show copy_done _ (copy_loop f (end_ o) o.size_ 0 h2 (begin _) (begin o)) = _
  rw [hbd, hbo, hloop]
  show copy_unwound (clear_elements h3 _ _) = _
  exact (congrArg copy_unwound hce).trans rfl

theorem toSizeT_int_small (s : Nat) (hlt : s < 2 ^ 31) : toSizeT (toInt32 (s : Int)) = s := by
  simp only [toInt32, toSizeT]; omega

theorem toSizeT_int_large (s : Nat) (hlt : ¬ s < 2 ^ 31) (hs : s < 2 ^ 32) :
    toSizeT (toInt32 (s : Int)) = 2 ^ 64 - 2 ^ 32 + s := by
  simp only [toInt32, toSizeT]; omega

theorem end_formula (o : Deque) :
    end_ o = ⟨o.arr,
      wadd (wadd (wmul o.min_row BLOCK_SIZE) o.min_col) (toSizeT (toInt32 o.size_)) / BLOCK_SIZE,
      wadd o.min_col (toSizeT (toInt32 o.size_)) % BLOCK_SIZE⟩ := rfl

theorem eq_iff_fields (a b : Iter) :
    a.eq b = true ↔ a.arr = b.arr ∧ a.row = b.row ∧ a.col = b.col := by
  simp only [Iter.eq, decide_eq_true_eq]

theorem not_at_end_small (r c s i : Nat) (hi : i < s) (hs : s < 2 ^ 31)
    (h3 : (r * 64 + c + i) / 64 = (((r * 64) % 2 ^ 64 + c) % 2 ^ 64 + s) % 2 ^ 64 / 64)
    (h4 : (r * 64 + c + i) % 64 = (c + s) % 2 ^ 64 % 64) : False := by
  omega

theorem not_at_end_large (r c s i : Nat) (hi : i < s) (hs : s < 2 ^ 32) (hlt : ¬ s < 2 ^ 31)
    (h3 : (r * 64 + c + i) / 64
      = (((r * 64) % 2 ^ 64 + c) % 2 ^ 64 + (2 ^ 64 - 2 ^ 32 + s)) % 2 ^ 64 / 64)
    (h4 : (r * 64 + c + i) % 64 = (c + (2 ^ 64 - 2 ^ 32 + s)) % 2 ^ 64 % 64) : False := by
  omega

/-- In a well-laid-out source of fewer than `2 ^ 32` elements the element loop of the copy
constructor does not meet `cend()` at any of the elements: `cend()` is `cbegin() + (int)size_`,
the position of the end for sizes below `2 ^ 31` and a position before `cbegin()` above. -/
theorem copy_reaches {h : Heap α} {o : Deque} {lo : List (Option Nat)} (hl : Layout h o lo)
    (hs : o.size_ < 2 ^ 32) :
    ∀ i, i < o.size_ → (Iter.inc^[i] (begin o)).eq (end_ o) = false := by
  intro i hi
  have hfits := hl.fits
  have hrep := hl.cap_rep
  have hs0 : Shape h { o with size_ := 0 } lo :=
    shape_resize hl 0 (by decide) (by show front o + 0 ≤ _; omega)
  have hbo : begin o = ⟨o.arr, front o / BLOCK_SIZE, front o % BLOCK_SIZE⟩ := by
    have hb0 := begin_eq hs0
    exact hb0
  have hit := iterate_inc_at o.arr (front o) i
    (by simp only [BLOCK_SIZE, SIZE_MOD] at hfits hrep ⊢; omega)
  rw [hbo, hit, end_formula]
  rcases hb : Iter.eq ⟨o.arr, (front o + i) / BLOCK_SIZE, (front o + i) % BLOCK_SIZE⟩
    ⟨o.arr,
      wadd (wadd (wmul o.min_row BLOCK_SIZE) o.min_col) (toSizeT (toInt32 o.size_)) / BLOCK_SIZE,
      wadd o.min_col (toSizeT (toInt32 o.size_)) % BLOCK_SIZE⟩
    with _ | _
  · rfl
  · exfalso
    obtain ⟨_, h1, h2⟩ := (eq_iff_fields _ _).1 hb
    have h3 : (front o + i) / BLOCK_SIZE
        = wadd (wadd (wmul o.min_row BLOCK_SIZE) o.min_col) (toSizeT (toInt32 o.size_))
          / BLOCK_SIZE := h1
    have h4 : (front o + i) % BLOCK_SIZE
        = wadd o.min_col (toSizeT (toInt32 o.size_)) % BLOCK_SIZE := h2
    by_cases hlt : o.size_ < 2 ^ 31
    · rw [toSizeT_int_small _ hlt] at h3 h4
      exact not_at_end_small o.min_row o.min_col o.size_ i hi hlt h3 h4
    · rw [toSizeT_int_large _ hlt hs] at h3 h4
      exact not_at_end_large o.min_row o.min_col o.size_ i hi hs hlt h3 h4

theorem load_same {h h2 : Heap α} (hi : h2.index = h.index) (hb : h2.block = h.block)
    (it : Iter) : it.load h2 = it.load h := by
  simp only [Iter.load, Heap.slot, Heap.cell, hi, hb]

/-- C17: when the copy constructor reaches the copy of the `k`-th element of a valid source of
size `s`, `1 ≤ k ≤ s` (the loop has not met `cend()` at an earlier element; so it is for every
`k` when `s < 2 ^ 32`) and that copy throws, the exception leaves the constructor; the
destructor has run on the cells of the first `k - 1` positions of the new instance, once each
and in order, and on no other; the heap holds the index arrays and blocks it held before the
call, so the index array and every block of the new instance are released; the source is valid
with the elements it had. -/
theorem C17_failed_copy_unwinds (f : CopyFaults) (h : Heap α) (o : Deque) (k : Nat)
    (hv : Valid h o) (hidx : f.indexAlloc = true) (hblk : f.blockFailAt = none)
    (hk1 : 1 ≤ k) (hk : k ≤ size o) (hfail : f.ctorFailAt = some (k - 1))
    (hreach : ∀ i, i < k → (Iter.inc^[i] (begin o)).eq (end_ o) = false) :
    (∃ h2 log, mk_copy f h o = some (.threw h2 log) ∧
      log = (List.range (k - 1)).map (fun i =>
        (⟨h.nextIndex, (front o + i) / BLOCK_SIZE, (front o + i) % BLOCK_SIZE⟩ : Iter)) ∧
      log.length = k - 1 ∧ log.Nodup ∧
      h2.index = h.index ∧ h2.block = h.block ∧ h2.index h.nextIndex = none ∧
      Valid h2 o ∧ (∀ i, i < size o → subscript h2 o i = subscript h o i)) ∧
    (size o < 2 ^ 32 → ∀ i, i < size o → (Iter.inc^[i] (begin o)).eq (end_ o) = false) := by
  obtain ⟨lo, mo, hst⟩ := hv
  refine ⟨?_, fun hs => copy_reaches hst.1 hs⟩
  obtain ⟨h3, hrun, hi3, hb3, hni3, hnb3⟩ :=
    mk_copy_ctor_fails_lay f hst hidx (fun r _ => Or.inl (by rw [hblk]; exact fun e => by cases e))
      (k - 1) (by show k - 1 < o.size_; have : k ≤ o.size_ := hk; omega) hfail
      (fun i hi => hreach i (by omega))
  have hwf := layout_wf hst.1
  have hl3 : Layout h3 o lo :=
    layout_frame hst.1 (by rw [hi3]) (fun r b _ => by rw [hb3]) hni3 hnb3
      (wf_of_same hwf hi3 hb3 hni3 hnb3)
  have hpk : ∀ q, peekLin h3 lo q = peekLin h lo q := fun q =>
    peekLin_congr (fun r b _ => by rw [hb3]) q
  refine ⟨h3, _, hrun, by rw [List.range_eq_range'], by simp, ?_, hi3, hb3,
    by rw [hi3]; exact hwf.1 _ (Nat.le_refl _),
    ⟨lo, mo, hl3, hst.2.1, fun i hi => (hpk _).trans (hst.2.2 i hi)⟩,
    fun i _ => load_same hi3 hb3 _⟩
  exact List.Nodup.map_on (fun x _ y _ e => cell_inj _ _ x y e) (List.nodup_range' _ _)

/-- C17 on the container holding `[0, 1, 2]` that the scenario builds, the second copy
failing. -/
theorem C17_on_scenario :
    Valid scenarioState.1 scenarioState.2 ∧ 2 ≤ size scenarioState.2 ∧
    (∀ i, i < 2 →
      (Iter.inc^[i] (begin scenarioState.2)).eq (end_ scenarioState.2) = false) ∧
    (∃ h2 log, mk_copy ⟨true, none, some 1⟩ scenarioState.1 scenarioState.2
        = some (.threw h2 log) ∧
      log = (List.range (2 - 1)).map (fun i =>
        (⟨scenarioState.1.nextIndex, (front scenarioState.2 + i) / BLOCK_SIZE,
          (front scenarioState.2 + i) % BLOCK_SIZE⟩ : Iter)) ∧
      log.length = 2 - 1 ∧ log.Nodup ∧
      h2.index = scenarioState.1.index ∧ h2.block = scenarioState.1.block ∧
      h2.index scenarioState.1.nextIndex = none ∧
      Valid h2 scenarioState.2 ∧
      (∀ i, i < size scenarioState.2 →
        subscript h2 scenarioState.2 i = subscript scenarioState.1 scenarioState.2 i)) ∧
    (size scenarioState.2 < 2 ^ 32 → ∀ i, i < size scenarioState.2 →
      (Iter.inc^[i] (begin scenarioState.2)).eq (end_ scenarioState.2) = false) :=
  ⟨scenario_honest, by decide, by decide,
    C17_failed_copy_unwinds ⟨true, none, some 1⟩ scenarioState.1 scenarioState.2 2
      scenario_honest rfl rfl (by decide) (by decide) rfl (by decide)⟩

end Deque

/-! # Theorems about StackStorage and List -/

namespace StackStorage

theorem get_pointer_in_range (s : StackStorage) (size align_ : Nat) (halign : 0 < align_)
    (hN : s.N < Deque.SIZE_MOD) (hb : s.begin ≤ s.N) (hsize : size ≤ s.N - s.begin) :
    (get_pointer s size align_).2.begin ≤ s.N ∧
    s.begin ≤ (get_pointer s size align_).2.begin ∧
    ∀ a, (get_pointer s size align_).1 = some a →
      s.base + s.begin ≤ a ∧ a + size ≤ s.base + (get_pointer s size align_).2.begin ∧
      a % align_ = 0 := by
  have hsp : Deque.wsub (Deque.wsub s.N s.begin) size = s.N - s.begin - size := by
    simp only [Deque.wsub, Deque.SIZE_MOD] at *
    omega
  have hal : s.base + s.begin ≤ (s.base + s.begin + align_ - 1) / align_ * align_ := by
    have h1 := Nat.div_add_mod (s.base + s.begin + align_ - 1) align_
    have h2 := Nat.mod_lt (s.base + s.begin + align_ - 1) halign
    have h3 : align_ * ((s.base + s.begin + align_ - 1) / align_)
        = (s.base + s.begin + align_ - 1) / align_ * align_ := Nat.mul_comm _ _
    omega
  have hmod : (s.base + s.begin + align_ - 1) / align_ * align_ % align_ = 0 :=
    Nat.mul_mod_left _ _
  simp only [get_pointer, std_align, hsp]
  by_cases hfit : (s.base + s.begin + align_ - 1) / align_ * align_ - (s.base + s.begin) + size
      ≤ s.N - s.begin - size
  · rw [if_pos hfit]
    simp only [Deque.wsub, Deque.SIZE_MOD] at *
    refine ⟨by omega, by omega, ?_⟩
    intro a ha
    cases ha
    exact ⟨hal, by omega, hmod⟩
  · rw [if_neg hfit]
    simp only [Deque.wsub, Deque.SIZE_MOD] at *
    refine ⟨by omega, by omega, ?_⟩
    intro a ha
    cases ha

/-- C28: in `StackStorage<16>`, `get_pointer(10, 1)` computes `space = 16 - 0 - 10 = 6`, gets a
null pointer from `std::align` and sets `begin = 16 - 6 = 10`; a second `get_pointer(10, 1)`
computes `space = 16 - 10 - 10`, which wraps to `2 ^ 64 - 4`, gets the pointer `arr + 10` and
sets `begin` to 20: the byte range `[10, 20)` of the non-null result leaves the buffer and
`begin > N`. A single `get_pointer(17, 1)` does the same with the range `[0, 17)`. -/
theorem C28_get_pointer_leaves_the_buffer :
    (get_pointer (mk_storage 16 0) 10 1).1 = none ∧
    (get_pointer (mk_storage 16 0) 10 1).2.begin = 10 ∧
    Deque.wsub (Deque.wsub 16 10) 10 = 2 ^ 64 - 4 ∧
    (get_pointer (get_pointer (mk_storage 16 0) 10 1).2 10 1).1 = some 10 ∧
    ¬ (10 + 10 ≤ (mk_storage 16 0).N) ∧
    (get_pointer (get_pointer (mk_storage 16 0) 10 1).2 10 1).2.begin = 20 ∧
    ¬ ((get_pointer (get_pointer (mk_storage 16 0) 10 1).2 10 1).2.begin ≤ (mk_storage 16 0).N) ∧
    (get_pointer (mk_storage 16 0) 17 1).1 = some 0 ∧
    (get_pointer (mk_storage 16 0) 17 1).2.begin = 17 := by
  refine ⟨by decide, by decide, by decide, by decide, by decide, by decide, by decide, by decide,
    by decide⟩

end StackStorage

namespace LinkedList
variable {α : Type}

theorem nodup_getElem?_inj {β : Type} {l : List β} (hnd : l.Nodup) {i j : Nat} {x : β}
    (hi : l[i]? = some x) (hj : l[j]? = some x) : i = j := by
  have hil : i < l.length := by
    rcases Nat.lt_or_ge i l.length with e | e
    · exact e
    · rw [List.getElem?_eq_none e] at hi; cases hi
  have hjl : j < l.length := by
    rcases Nat.lt_or_ge j l.length with e | e
    · exact e
    · rw [List.getElem?_eq_none e] at hj; cases hj
  rcases Nat.lt_trichotomy i j with e | e | e
  · exact absurd (hi.trans hj.symm) (List.nodup_iff_getElem?_ne_getElem?.1 hnd i j e hjl)
  · exact e
  · exact absurd (hj.trans hi.symm) (List.nodup_iff_getElem?_ne_getElem?.1 hnd j i e hil)

theorem ringAt_low (fake : Nat) (ns : List Nat) (i : Nat) (hi : i ≤ ns.length) :
    (fake :: ns)[i]? = some (ringAt fake ns i) := by
  cases i with
  | zero => simp [ringAt]
  | succ j =>
    have hj : j < ns.length := by omega
    simp [ringAt, List.getElem?_eq_getElem hj]

theorem ringAt_high (fake : Nat) (ns : List Nat) (j : Nat) (hj : j ≤ ns.length) :
    (ns ++ [fake])[j]? = some (ringAt fake ns (j + 1)) := by
  by_cases e : j < ns.length
  · rw [List.getElem?_append_left e]
    simp [ringAt, List.getElem?_eq_getElem e]
  · have e2 : j = ns.length := by omega
    subst e2
    simp [ringAt]

theorem ringAt_mem (fake : Nat) (ns : List Nat) (i : Nat) : ringAt fake ns i ∈ fake :: ns := by
  cases i with
  | zero => simp [ringAt]
  | succ j =>
    by_cases e : j < ns.length
    · simp [ringAt, List.getElem?_eq_getElem e]
    · simp [ringAt, List.getElem?_eq_none (Nat.le_of_not_lt e)]

theorem ringAt_last (fake : Nat) (ns : List Nat) : ringAt fake ns (ns.length + 1) = fake := by
  simp [ringAt]

theorem ring_inj_low {fake : Nat} {ns : List Nat} (hnd : (fake :: ns).Nodup) {i j : Nat}
    (hi : i ≤ ns.length) (hj : j ≤ ns.length) (he : ringAt fake ns i = ringAt fake ns j) :
    i = j :=
  nodup_getElem?_inj hnd (ringAt_low fake ns i hi) (by rw [he]; exact ringAt_low fake ns j hj)

theorem ring_inj_high {fake : Nat} {ns : List Nat} (hnd : (fake :: ns).Nodup) {i j : Nat}
    (hi : i ≤ ns.length) (hj : j ≤ ns.length)
    (he : ringAt fake ns (i + 1) = ringAt fake ns (j + 1)) : i = j := by
  have hnd2 : (ns ++ [fake]).Nodup := by
    rw [List.nodup_middle]
    simpa using hnd
  exact nodup_getElem?_inj hnd2 (ringAt_high fake ns i hi)
    (by rw [he]; exact ringAt_high fake ns j hj)

theorem ringAt_insert (fake : Nat) (ns : List Nat) (p a i : Nat) (hp : p ≤ ns.length) :
    ringAt fake (ns.take p ++ a :: ns.drop p) i
      = if i ≤ p then ringAt fake ns i else if i = p + 1 then a else ringAt fake ns (i - 1) := by
  cases i with
  | zero => simp [ringAt]
  | succ j =>
    show ((ns.take p ++ a :: ns.drop p)[j]?).getD fake = _
    rw [Deque.getElem?_insertAt ns p a hp j]
    by_cases e1 : j < p
    · simp only [if_pos e1, if_pos (show j + 1 ≤ p by omega)]
      rfl
    · by_cases e2 : j = p
      · simp only [if_neg e1, if_pos e2, if_neg (show ¬ j + 1 ≤ p by omega)]
        rw [if_pos (by omega)]
        rfl
      · simp only [if_neg e1, if_neg e2, if_neg (show ¬ j + 1 ≤ p by omega),
          if_neg (show ¬ j + 1 = p + 1 by omega)]
        obtain ⟨k, rfl⟩ : ∃ k, j = k + 1 := ⟨j - 1, by omega⟩
        rfl

theorem ringAt_erase (fake : Nat) (ns : List Nat) (p i : Nat) (hp : p < ns.length) :
    ringAt fake (ns.take p ++ ns.drop (p + 1)) i
      = if i ≤ p then ringAt fake ns i else ringAt fake ns (i + 1) := by
  cases i with
  | zero => simp [ringAt]
  | succ j =>
    show ((ns.take p ++ ns.drop (p + 1))[j]?).getD fake = _
    rw [Deque.getElem?_eraseAt ns p hp j]
    by_cases e1 : j < p
    · simp only [if_pos e1, if_pos (show j + 1 ≤ p by omega)]
      rfl
    · simp only [if_neg e1, if_neg (show ¬ j + 1 ≤ p by omega)]
      rfl

theorem add_node_eq (m : Mem α) (l : LinkedList) (nx left : Nat) (v : α)
    (hprev : m.prev nx = some left) (hnext : ∃ y, m.next left = some y)
    (hnx : nx ≠ m.fresh) (hleft : left ≠ m.fresh) :
    ∃ m2, add_node m l nx v = some (m2, { l with size_ := Deque.wadd l.size_ 1 }) ∧
      (∀ x, m2.next x = if x = m.fresh then some nx else if x = left then some m.fresh
        else m.next x) ∧
      (∀ x, m2.prev x = if x = nx then some m.fresh else if x = m.fresh then some left
        else m.prev x) ∧
      (∀ x, m2.value x = if x = m.fresh then some v else m.value x) ∧
      m2.fresh = m.fresh + 1 := by
  obtain ⟨y, hy⟩ := hnext
  refine ⟨{ next := Function.update (Function.update (Function.update m.next m.fresh
              (some m.fresh)) left (some m.fresh)) m.fresh (some nx)
            prev := Function.update (Function.update (Function.update m.prev m.fresh
              (some m.fresh)) m.fresh (some left)) nx (some m.fresh)
            value := Function.update m.value m.fresh (some v)
            fresh := m.fresh + 1 }, ?_, ?_, ?_, ?_, rfl⟩
  · simp [add_node, merge, Mem.newNode, Mem.setNext, Mem.setPrev, Function.update_noteq hnx,
      Function.update_noteq hleft, hprev, hy, Function.update_noteq hleft.symm]
  · intro x
    by_cases e1 : x = m.fresh
    · subst e1; simp
    · by_cases e2 : x = left
      · subst e2; simp [Function.update_noteq e1, e1]
      · simp [Function.update_noteq e1, Function.update_noteq e2, e1, e2]
  · intro x
    by_cases e1 : x = nx
    · subst e1; simp
    · by_cases e2 : x = m.fresh
      · subst e2; simp [Function.update_noteq e1, e1]
      · simp [Function.update_noteq e1, Function.update_noteq e2, e1, e2]
  · intro x
    by_cases e1 : x = m.fresh
    · subst e1; simp
    · simp [Function.update_noteq e1, e1]

theorem del_node_eq (m : Mem α) (l : LinkedList) (node p n : Nat) (v : α)
    (hprev : m.prev node = some p) (hnext : m.next node = some n)
    (hp : ∃ y, m.next p = some y) (hn : ∃ y, m.prev n = some y)
    (hv : m.value node = some v) (hpn : p ≠ node) :
    ∃ m2, del_node m l node = some (m2, { l with size_ := Deque.wsub l.size_ 1 }) ∧
      (∀ x, m2.next x = if x = node then none else if x = p then some n else m.next x) ∧
      (∀ x, m2.prev x = if x = node then none else if x = n then some p else m.prev x) ∧
      (∀ x, m2.value x = if x = node then none else m.value x) ∧
      m2.fresh = m.fresh := by
  obtain ⟨y, hy⟩ := hp
  obtain ⟨z, hz⟩ := hn
  refine ⟨{ next := Function.update (Function.update m.next p (some n)) node none
            prev := Function.update (Function.update m.prev n (some p)) node none
            value := Function.update m.value node none
            fresh := m.fresh }, ?_, ?_, ?_, ?_, rfl⟩
  · simp [del_node, del_node_rest, Mem.setNext, Mem.setPrev, Mem.free, hprev, hnext, hy, hz, hv,
      Function.update_noteq hpn.symm]
  · intro x
    by_cases e1 : x = node
    · subst e1; simp
    · by_cases e2 : x = p
      · subst e2; simp [Function.update_noteq e1, e1]
      · simp [Function.update_noteq e1, Function.update_noteq e2, e1, e2]
  · intro x
    by_cases e1 : x = node
    · subst e1; simp
    · by_cases e2 : x = n
      · subst e2; simp [Function.update_noteq e1, e1]
      · simp [Function.update_noteq e1, Function.update_noteq e2, e1, e2]
  · intro x
    by_cases e1 : x = node
    · subst e1; simp
    · simp [Function.update_noteq e1, e1]

theorem ring_ne_fresh {m : Mem α} {l : LinkedList} {ns : List Nat} {vs : List α}
    (hr : Ring m l ns vs) (i : Nat) : ringAt l.fake ns i ≠ m.fresh := by
  have := hr.fresh _ (ringAt_mem l.fake ns i)
  omega

theorem add_node_ok {m : Mem α} {l : LinkedList} {ns : List Nat} {vs : List α}
    (hr : Ring m l ns vs) (p : Nat) (v : α) (hp : p ≤ ns.length)
    (hsz : ns.length + 1 < Deque.SIZE_MOD) :
    ∃ m2 l2, add_node m l (ringAt l.fake ns (p + 1)) v = some (m2, l2) ∧ l2.fake = l.fake ∧
      Ring m2 l2 (ns.take p ++ m.fresh :: ns.drop p) (vs.take p ++ v :: vs.drop p) := by
  have hlen := hr.length_eq
  obtain ⟨m2, hadd, hnext, hprev, hval, hfresh⟩ :=
    add_node_eq m l (ringAt l.fake ns (p + 1)) (ringAt l.fake ns p) v (hr.prev_eq p hp)
      ⟨_, hr.next_eq p hp⟩ (ring_ne_fresh hr _) (ring_ne_fresh hr _)
  have hnotin : m.fresh ∉ l.fake :: ns := fun hmem => by
    have := hr.fresh _ hmem
    omega
  have hlen2 : (ns.take p ++ m.fresh :: ns.drop p).length = ns.length + 1 := by
    simp; omega
  refine ⟨m2, _, hadd, rfl, ?_⟩
  constructor
  · show (l.fake :: (ns.take p ++ m.fresh :: ns.drop p)).Nodup
    have h1 : (m.fresh :: l.fake :: ns).Nodup := List.nodup_cons.2 ⟨hnotin, hr.nodup⟩
    have h2 : (l.fake :: (ns.take p ++ m.fresh :: ns.drop p)).Perm (m.fresh :: l.fake :: ns) := by
      have h3 : (ns.take p ++ m.fresh :: ns.drop p).Perm (m.fresh :: ns) := by
        have := @List.perm_middle _ m.fresh (ns.take p) (ns.drop p)
        rwa [List.take_append_drop] at this
      exact (List.Perm.cons _ h3).trans (List.Perm.swap _ _ _)
    exact (List.Perm.nodup_iff h2).2 h1
  · rw [hlen2]; simp; omega
  · show Deque.wadd l.size_ 1 = _
    rw [hlen2, hr.size_eq]
    simp only [Deque.wadd, Deque.SIZE_MOD] at *
    omega
  · intro i hi
    rw [hlen2] at hi
    show m2.next (ringAt l.fake _ i) = some (ringAt l.fake _ (i + 1))
    rw [ringAt_insert l.fake ns p m.fresh i hp, ringAt_insert l.fake ns p m.fresh (i + 1) hp,
      hnext]
    by_cases e1 : i < p
    · have hne : ringAt l.fake ns i ≠ ringAt l.fake ns p := fun e => by
        have := ring_inj_low hr.nodup (by omega) hp e
        omega
      simp only [if_pos (show i ≤ p by omega), if_pos (show i + 1 ≤ p by omega),
        if_neg (ring_ne_fresh hr i), if_neg hne]
      exact hr.next_eq i (by omega)
    · by_cases e2 : i = p
      · subst e2
        simp only [if_pos (le_refl i), if_neg (show ¬ i + 1 ≤ i by omega),
          if_neg (ring_ne_fresh hr i)]
        simp
      · by_cases e3 : i = p + 1
        · subst e3
          simp only [if_neg (show ¬ p + 1 ≤ p by omega), if_neg (show ¬ p + 1 + 1 ≤ p by omega),
            if_neg (show ¬ p + 1 + 1 = p + 1 by omega)]
          simp
        · have hne : ringAt l.fake ns (i - 1) ≠ ringAt l.fake ns p := fun e => by
            have := ring_inj_low hr.nodup (by omega) hp e
            omega
          simp only [if_neg (show ¬ i ≤ p by omega), if_neg e3,
            if_neg (show ¬ i + 1 ≤ p by omega), if_neg (show ¬ i + 1 = p + 1 by omega),
            if_neg (ring_ne_fresh hr (i - 1)), if_neg hne]
          have := hr.next_eq (i - 1) (by omega)
          rw [show i - 1 + 1 = i by omega] at this
          exact this
  · intro i hi
    rw [hlen2] at hi
    show m2.prev (ringAt l.fake _ (i + 1)) = some (ringAt l.fake _ i)
    rw [ringAt_insert l.fake ns p m.fresh i hp, ringAt_insert l.fake ns p m.fresh (i + 1) hp,
      hprev]
    by_cases e1 : i < p
    · have hne : ringAt l.fake ns (i + 1) ≠ ringAt l.fake ns (p + 1) := fun e => by
        have := ring_inj_high hr.nodup (by omega) hp e
        omega
      simp only [if_pos (show i ≤ p by omega), if_pos (show i + 1 ≤ p by omega),
        if_neg (ring_ne_fresh hr (i + 1)), if_neg hne]
      exact hr.prev_eq i (by omega)
    · by_cases e2 : i = p
      · subst e2
        have hne := Ne.symm (ring_ne_fresh hr (i + 1))
        simp [hne]
      · by_cases e3 : i = p + 1
        · subst e3
          simp only [if_neg (show ¬ p + 1 ≤ p by omega), if_neg (show ¬ p + 1 + 1 ≤ p by omega),
            if_neg (show ¬ p + 1 + 1 = p + 1 by omega)]
          simp
        · have hne : ringAt l.fake ns i ≠ ringAt l.fake ns (p + 1) := fun e => by
            have e4 : ringAt l.fake ns (i - 1 + 1) = ringAt l.fake ns (p + 1) := by
              rw [show i - 1 + 1 = i by omega]; exact e
            have := ring_inj_high hr.nodup (by omega) hp e4
            omega
          simp only [if_neg (show ¬ i ≤ p by omega), if_neg e3,
            if_neg (show ¬ i + 1 ≤ p by omega), if_neg (show ¬ i + 1 = p + 1 by omega),
            show i + 1 - 1 = i by omega, if_neg (ring_ne_fresh hr i), if_neg hne]
          have := hr.prev_eq (i - 1) (by omega)
          rw [show i - 1 + 1 = i by omega] at this
          exact this
  · intro i hi
    rw [hlen2] at hi
    show m2.value (ringAt l.fake _ (i + 1)) = _
    rw [ringAt_insert l.fake ns p m.fresh (i + 1) hp, hval,
      Deque.getElem?_insertAt vs p v (by omega) i]
    by_cases e1 : i < p
    · simp only [if_pos (show i + 1 ≤ p by omega), if_pos e1, if_neg (ring_ne_fresh hr (i + 1))]
      exact hr.value_eq i (by omega)
    · by_cases e2 : i = p
      · subst e2
        simp only [if_neg (show ¬ i + 1 ≤ i by omega), if_neg e1]
        simp
      · simp only [if_neg (show ¬ i + 1 ≤ p by omega), if_neg e1, if_neg e2,
          if_neg (show ¬ i + 1 = p + 1 by omega), show i + 1 - 1 = i by omega,
          if_neg (ring_ne_fresh hr i)]
        have := hr.value_eq (i - 1) (by omega)
        rw [show i - 1 + 1 = i by omega] at this
        exact this
  · show m2.value l.fake = none
    have h0 : l.fake ≠ m.fresh := ring_ne_fresh hr 0
    rw [hval, if_neg h0]
    exact hr.fake_value
  · intro a ha
    rw [hfresh]
    have hmem : a = m.fresh ∨ a ∈ l.fake :: ns := by
      simp only [List.mem_cons, List.mem_append] at ha ⊢
      rcases ha with e | e | e | e
      · exact Or.inr (Or.inl e)
      · exact Or.inr (Or.inr (List.mem_of_mem_take e))
      · exact Or.inl e
      · exact Or.inr (Or.inr (List.mem_of_mem_drop e))
    rcases hmem with e | e
    · omega
    · have := hr.fresh a e
      omega

theorem del_node_ok {m : Mem α} {l : LinkedList} {ns : List Nat} {vs : List α}
    (hr : Ring m l ns vs) (p : Nat) (hp : p < ns.length) (hsz : ns.length < Deque.SIZE_MOD) :
    ∃ m2 l2, del_node m l (ringAt l.fake ns (p + 1)) = some (m2, l2) ∧ l2.fake = l.fake ∧
      Ring m2 l2 (ns.take p ++ ns.drop (p + 1)) (vs.take p ++ vs.drop (p + 1)) := by
  have hlen := hr.length_eq
  have hnd := hr.nodup
  obtain ⟨x, hx⟩ : ∃ x, vs[p]? = some x := ⟨vs[p], List.getElem?_eq_getElem (by omega)⟩
  have hpn : ringAt l.fake ns p ≠ ringAt l.fake ns (p + 1) := fun e => by
    have := ring_inj_low hnd (by omega) (by omega) e
    omega
  obtain ⟨m2, hdel, hnext, hprev, hval, hfresh⟩ :=
    del_node_eq m l (ringAt l.fake ns (p + 1)) (ringAt l.fake ns p) (ringAt l.fake ns (p + 2)) x
      (hr.prev_eq p (by omega)) (hr.next_eq (p + 1) (by omega)) ⟨_, hr.next_eq p (by omega)⟩
      ⟨_, hr.prev_eq (p + 1) (by omega)⟩ ((hr.value_eq p hp).trans hx) hpn
  have hlen2 : (ns.take p ++ ns.drop (p + 1)).length = ns.length - 1 := by
    simp; omega
  have low : ∀ i, i ≤ ns.length → i ≠ p + 1 →
      ringAt l.fake ns i ≠ ringAt l.fake ns (p + 1) := fun i hi hne e =>
    hne (ring_inj_low hnd hi (by omega) e)
  have low2 : ∀ i, i ≤ ns.length → i ≠ p →
      ringAt l.fake ns i ≠ ringAt l.fake ns p := fun i hi hne e =>
    hne (ring_inj_low hnd hi (by omega) e)
  have high : ∀ i, i ≤ ns.length → i ≠ p →
      ringAt l.fake ns (i + 1) ≠ ringAt l.fake ns (p + 1) := fun i hi hne e =>
    hne (ring_inj_high hnd hi (by omega) e)
  have high2 : ∀ i, i ≤ ns.length → i ≠ p + 1 →
      ringAt l.fake ns (i + 1) ≠ ringAt l.fake ns (p + 2) := fun i hi hne e =>
    hne (ring_inj_high hnd hi (by omega) e)
  refine ⟨m2, _, hdel, rfl, ?_⟩
  constructor
  · show (l.fake :: (ns.take p ++ ns.drop (p + 1))).Nodup
    have hsub : (ns.take p ++ ns.drop (p + 1)).Sublist ns := by
      rw [← List.eraseIdx_eq_take_drop_succ]
      exact List.eraseIdx_sublist ns p
    exact List.Nodup.sublist (List.Sublist.cons₂ _ hsub) hnd
  · rw [hlen2]; simp; omega
  · show Deque.wsub l.size_ 1 = _
    rw [hlen2, hr.size_eq]
    simp only [Deque.wsub, Deque.SIZE_MOD] at *
    omega
  · intro i hi
    rw [hlen2] at hi
    show m2.next (ringAt l.fake _ i) = some (ringAt l.fake _ (i + 1))
    rw [ringAt_erase l.fake ns p i hp, ringAt_erase l.fake ns p (i + 1) hp, hnext]
    by_cases e1 : i < p
    · simp only [if_pos (show i ≤ p by omega), if_pos (show i + 1 ≤ p by omega),
        if_neg (low i (by omega) (by omega)), if_neg (low2 i (by omega) (by omega))]
      exact hr.next_eq i (by omega)
    · by_cases e2 : i = p
      · subst e2
        have h1 := low i (by omega) (by omega)
        simp [h1]
      · simp only [if_neg (show ¬ i ≤ p by omega), if_neg (show ¬ i + 1 ≤ p by omega),
          if_neg (low (i + 1) (by omega) (by omega)), if_neg (low2 (i + 1) (by omega) (by omega))]
        exact hr.next_eq (i + 1) (by omega)
  · intro i hi
    rw [hlen2] at hi
    show m2.prev (ringAt l.fake _ (i + 1)) = some (ringAt l.fake _ i)
    rw [ringAt_erase l.fake ns p i hp, ringAt_erase l.fake ns p (i + 1) hp, hprev]
    by_cases e1 : i < p
    · simp only [if_pos (show i ≤ p by omega), if_pos (show i + 1 ≤ p by omega),
        if_neg (high i (by omega) (by omega)), if_neg (high2 i (by omega) (by omega))]
      exact hr.prev_eq i (by omega)
    · by_cases e2 : i = p
      · subst e2
        have h1 := high (i + 1) (by omega) (by omega)
        simp [h1]
      · simp only [if_neg (show ¬ i ≤ p by omega), if_neg (show ¬ i + 1 ≤ p by omega),
          if_neg (high (i + 1) (by omega) (by omega)),
          if_neg (high2 (i + 1) (by omega) (by omega))]
        exact hr.prev_eq (i + 1) (by omega)
  · intro i hi
    rw [hlen2] at hi
    show m2.value (ringAt l.fake _ (i + 1)) = _
    rw [ringAt_erase l.fake ns p (i + 1) hp, hval, Deque.getElem?_eraseAt vs p (by omega) i]
    by_cases e1 : i < p
    · simp only [if_pos (show i + 1 ≤ p by omega), if_pos e1,
        if_neg (high i (by omega) (by omega))]
      exact hr.value_eq i (by omega)
    · simp only [if_neg (show ¬ i + 1 ≤ p by omega), if_neg e1,
        if_neg (high (i + 1) (by omega) (by omega))]
      exact hr.value_eq (i + 1) (by omega)
  · show m2.value l.fake = none
    have h0 : l.fake ≠ ringAt l.fake ns (p + 1) := low 0 (by omega) (by omega)
    rw [hval, if_neg h0]
    exact hr.fake_value
  · intro a ha
    rw [hfresh]
    apply hr.fresh
    simp only [List.mem_cons, List.mem_append] at ha ⊢
    rcases ha with e | e | e
    · exact Or.inl e
    · exact Or.inr (List.mem_of_mem_take e)
    · exact Or.inr (List.mem_of_mem_drop e)

theorem traverse_ok {m : Mem α} {l : LinkedList} {ns : List Nat} {vs : List α}
    (hr : Ring m l ns vs) :
    ∀ (k j fuel : Nat), j + k = ns.length → k ≤ fuel →
      traverse m l.fake fuel (ringAt l.fake ns (j + 1)) = some (vs.drop j) := by
  have hlen := hr.length_eq
  intro k
  induction k with
  | zero =>
    intro j fuel hj _
    have e : j = ns.length := by omega
    subst e
    rw [ringAt_last, List.drop_of_length_le (by omega)]
    cases fuel with
    | zero => rw [traverse, if_pos rfl]
    | succ f => rw [traverse, if_pos rfl]
  | succ k ih =>
    intro j fuel hj hfuel
    obtain ⟨f, rfl⟩ : ∃ f, fuel = f + 1 := ⟨fuel - 1, by omega⟩
    have hne : ringAt l.fake ns (j + 1) ≠ l.fake := fun e => by
      have e2 : ringAt l.fake ns (j + 1) = ringAt l.fake ns 0 := e
      have := ring_inj_low hr.nodup (by omega) (by omega) e2
      omega
    have hjl : j < vs.length := by omega
    rw [traverse, if_neg hne, hr.value_eq j (by omega), List.getElem?_eq_getElem hjl]
    simp only []
    rw [hr.next_eq (j + 1) (by omega)]
    simp only []
    rw [ih (j + 1) f (by omega) (by omega)]
    simp only []
    rw [List.drop_eq_getElem_cons hjl]

theorem toList_ok {m : Mem α} {l : LinkedList} {ns : List Nat} {vs : List α}
    (hr : Ring m l ns vs) (fuel : Nat) (hfuel : ns.length ≤ fuel) :
    toList m l fuel = some vs := by
  unfold toList
  have h0 := hr.next_eq 0 (by omega)
  have h1 : ringAt l.fake ns 0 = l.fake := rfl
  rw [h1] at h0
  rw [h0]
  simp only []
  rw [traverse_ok hr ns.length 0 fuel (by omega) hfuel]
  rfl

theorem advance_ok {m : Mem α} {l : LinkedList} {ns : List Nat} {vs : List α}
    (hr : Ring m l ns vs) :
    ∀ (p i : Nat), i + p ≤ ns.length + 1 →
      advance m p (some (ringAt l.fake ns i)) = some (ringAt l.fake ns (i + p)) := by
  intro p
  induction p with
  | zero => intro i _; rfl
  | succ p ih =>
    intro i hi
    rw [advance, hr.next_eq i (by omega), ih (i + 1) (by omega)]
    rw [show i + 1 + p = i + (p + 1) by omega]

theorem begin_ok {m : Mem α} {l : LinkedList} {ns : List Nat} {vs : List α}
    (hr : Ring m l ns vs) : begin m l = some (ringAt l.fake ns 1) :=
  hr.next_eq 0 (by omega)

theorem linked_of_ring {m : Mem α} {l : LinkedList} {ns : List Nat} {vs : List α}
    (hr : Ring m l ns vs) (i : Nat) (hi : i ≤ ns.length) : Linked m (ringAt l.fake ns i) := by
  constructor
  · exact ⟨_, hr.next_eq i hi, hr.prev_eq i hi⟩
  · cases i with
    | zero =>
      refine ⟨ringAt l.fake ns ns.length, ?_, ?_⟩
      · have := hr.prev_eq ns.length le_rfl
        rw [ringAt_last] at this
        exact this
      · have := hr.next_eq ns.length le_rfl
        rw [ringAt_last] at this
        exact this
    | succ j => exact ⟨_, hr.prev_eq j (by omega), hr.next_eq j (by omega)⟩

theorem mk_alloc_ring (m0 : Mem α) :
    Ring (mk_alloc m0).1 (mk_alloc m0).2 [] ([] : List α) := by
  constructor
  · simp
  · rfl
  · rfl
  · intro i hi
    have e : i = 0 := by simpa using hi
    subst e
    simp [mk_alloc, Mem.newBase, ringAt]
  · intro i hi
    have e : i = 0 := by simpa using hi
    subst e
    simp [mk_alloc, Mem.newBase, ringAt]
  · intro i hi
    simp at hi
  · simp [mk_alloc, Mem.newBase]
  · intro a ha
    simp [mk_alloc, Mem.newBase] at ha ⊢
    omega

theorem run_calls_cons {c : Deque.Call α} {cs : List (Deque.Call α)}
    {s s1 : Mem α × LinkedList} (hc : apply_call c s = some s1) :
    run_calls (c :: cs) s = run_calls cs s1 := by
  rw [run_calls, hc]

theorem apply_call_ok {m : Mem α} {l : LinkedList} {ns : List Nat} {vs : List α}
    (hr : Ring m l ns vs) (c : Deque.Call α) (vs2 : List α)
    (hsz : ns.length + 1 < Deque.SIZE_MOD) (hm : c.model vs = some vs2) :
    ∃ m2 l2 ns2, apply_call c (m, l) = some (m2, l2) ∧ Ring m2 l2 ns2 vs2 ∧
      ns2.length ≤ ns.length + 1 := by
  have hlen := hr.length_eq
  have hb := begin_ok hr
  cases c with
  | push_front v =>
    simp only [Deque.Call.model, Option.some.injEq] at hm
    subst hm
    obtain ⟨m2, l2, hadd, _, hr2⟩ := add_node_ok hr 0 v (by omega) hsz
    refine ⟨m2, l2, _, ?_, by simpa using hr2, by simp⟩
    show push_front m l v = _
    unfold push_front
    unfold begin at hb
    rw [hb]
    exact hadd
  | push_back v =>
    simp only [Deque.Call.model, Option.some.injEq] at hm
    subst hm
    obtain ⟨m2, l2, hadd, _, hr2⟩ := add_node_ok hr ns.length v le_rfl hsz
    rw [ringAt_last] at hadd
    have e1 : vs.take ns.length = vs := List.take_of_length_le (by omega)
    have e2 : vs.drop ns.length = [] := List.drop_of_length_le (by omega)
    rw [e1, e2] at hr2
    exact ⟨m2, l2, _, hadd, hr2, by simp⟩
  | pop_front =>
    rcases vs with _ | ⟨x, vs1⟩
    · simp [Deque.Call.model] at hm
    · simp only [Deque.Call.model, List.length_cons, Nat.add_one_ne_zero, if_false,
        Option.some.injEq] at hm
      subst hm
      obtain ⟨m2, l2, hdel, _, hr2⟩ := del_node_ok hr 0 (by simp at hlen; omega) (by omega)
      refine ⟨m2, l2, _, ?_, by simpa using hr2, by simp; omega⟩
      show pop_front m l = _
      unfold pop_front
      unfold begin at hb
      rw [hb]
      exact hdel
  | pop_back =>
    rcases List.eq_nil_or_concat vs with rfl | ⟨vs1, x, hvx⟩
    · simp [Deque.Call.model] at hm
    · rw [List.concat_eq_append] at hvx
      subst hvx
      simp only [Deque.Call.model, List.length_append, List.length_singleton,
        Nat.add_one_ne_zero, if_false, List.dropLast_concat, Option.some.injEq] at hm
      subst hm
      have hn : ns.length = vs1.length + 1 := by simpa using hlen
      obtain ⟨m2, l2, hdel, _, hr2⟩ := del_node_ok hr vs1.length (by omega) (by omega)
      have hprev := hr.prev_eq ns.length le_rfl
      rw [ringAt_last] at hprev
      rw [hn] at hprev
      have e1 : (vs1 ++ [x]).take vs1.length = vs1 := by simp
      have e2 : (vs1 ++ [x]).drop (vs1.length + 1) = [] := by simp
      rw [e1, e2, List.append_nil] at hr2
      refine ⟨m2, l2, _, ?_, hr2, by simp; omega⟩
      show pop_back m l = _
      unfold pop_back
      rw [hprev]
      exact hdel
  | insert p v =>
    by_cases hp : p ≤ vs.length
    · simp only [Deque.Call.model, if_pos hp, Option.some.injEq] at hm
      subst hm
      obtain ⟨m2, l2, hadd, _, hr2⟩ := add_node_ok hr p v (by omega) hsz
      refine ⟨m2, l2, _, ?_, hr2, by simp; omega⟩
      show insert m l (advance m p (begin m l)) v = _
      rw [hb, advance_ok hr p 1 (by omega), show 1 + p = p + 1 by omega]
      exact hadd
    · simp [Deque.Call.model, if_neg hp] at hm
  | erase p =>
    by_cases hp : p < vs.length
    · simp only [Deque.Call.model, if_pos hp, Option.some.injEq] at hm
      subst hm
      obtain ⟨m2, l2, hdel, _, hr2⟩ := del_node_ok hr p (by omega) (by omega)
      refine ⟨m2, l2, _, ?_, hr2, by simp; omega⟩
      show erase m l (advance m p (begin m l)) = _
      rw [hb, advance_ok hr p 1 (by omega), show 1 + p = p + 1 by omega]
      exact hdel
    · simp [Deque.Call.model, if_neg hp] at hm

theorem run_calls_refine (ops : List (Deque.Call α)) :
    ∀ (m : Mem α) (l : LinkedList) (ns : List Nat) (vs s : List α),
      Ring m l ns vs → ns.length + ops.length < Deque.SIZE_MOD →
      Deque.modelCalls ops vs = some s →
      ∃ m2 l2 ns2, run_calls ops (m, l) = some (m2, l2) ∧ Ring m2 l2 ns2 s := by
  induction ops with
  | nil =>
    intro m l ns vs s hr _ hm
    simp only [Deque.modelCalls, Option.some.injEq] at hm
    subst hm
    exact ⟨m, l, ns, rfl, hr⟩
  | cons c cs ih =>
    intro m l ns vs s hr hlen hm
    simp only [List.length_cons] at hlen
    rcases hc : c.model vs with _ | vs2
    · simp [Deque.modelCalls, hc] at hm
    · simp only [Deque.modelCalls, hc] at hm
      obtain ⟨m2, l2, ns2, happ, hr2, hle⟩ := apply_call_ok hr c vs2 (by omega) hc
      obtain ⟨m3, l3, ns3, hrun, hr3⟩ := ih m2 l2 ns2 vs2 s hr2 (by omega) hm
      exact ⟨m3, l3, ns3, by rw [run_calls_cons happ, hrun], hr3⟩

/-- C30: from the empty list built by `List(alloc)`, which is also what `List(0)` builds, a
sequence of calls whose preconditions hold in the reference list model runs without following a
dangling pointer, and afterwards `size()` is the length of the model list `s`, the traversal from
`begin()` to `end()` reads `s`, `size() + 1` steps of `++` from the sentinel lead back to it, and
every node met on the way satisfies `x.next.prev == x` and `x.prev.next == x`. -/
theorem C30_list_refines_model (m0 : Mem α) (ops : List (Deque.Call α)) (s : List α) (dflt : α)
    (hlen : ops.length < Deque.SIZE_MOD) (hm : Deque.modelCalls ops [] = some s) :
    mk_sized 0 dflt m0 = some (mk_alloc m0) ∧
    ∃ m l, run_calls ops (mk_alloc m0) = some (m, l) ∧ size l = s.length ∧
      toList m l (size l) = some s ∧
      advance m (size l + 1) (some (end_ l)) = some (end_ l) ∧
      ∀ i, i ≤ size l → ∃ x, advance m i (some (end_ l)) = some x ∧ Linked m x := by
  refine ⟨rfl, ?_⟩
  obtain ⟨m, l, ns, hrun, hr⟩ :=
    run_calls_refine ops _ _ [] [] s (mk_alloc_ring m0) (by simpa using hlen) hm
  have hsize : l.size_ = s.length := by rw [hr.size_eq, hr.length_eq]
  have hns : ns.length = l.size_ := hr.size_eq.symm
  refine ⟨m, l, hrun, hsize, toList_ok hr _ (by rw [hns]; exact le_rfl), ?_, ?_⟩
  · have := advance_ok hr (ns.length + 1) 0 (by omega)
    rw [Nat.zero_add, ringAt_last] at this
    show advance m (l.size_ + 1) (some l.fake) = some l.fake
    rw [← hns]
    exact this
  · intro i hi
    have := advance_ok hr i 0 (by simp only [size] at hi; omega)
    rw [Nat.zero_add] at this
    exact ⟨_, this, linked_of_ring hr i (by simp only [size] at hi; omega)⟩

/-- C30 on the calls `push_back(1)`, `push_front(0)`, `insert(begin() + 1, 5)`,
`erase(begin())`, `pop_back()`, whose model result is `[5]`. -/
theorem C30_on_five_calls :
    [Deque.Call.push_back 1, Deque.Call.push_front 0, Deque.Call.insert 1 5,
      Deque.Call.erase 0, Deque.Call.pop_back].length < Deque.SIZE_MOD ∧
    Deque.modelCalls [Deque.Call.push_back 1, Deque.Call.push_front 0, Deque.Call.insert 1 5,
      Deque.Call.erase 0, Deque.Call.pop_back] [] = some [5] ∧
    (mk_sized 0 0 (Mem.empty : Mem Nat) = some (mk_alloc Mem.empty) ∧
    ∃ m l, run_calls [Deque.Call.push_back 1, Deque.Call.push_front 0, Deque.Call.insert 1 5,
        Deque.Call.erase 0, Deque.Call.pop_back] (mk_alloc Mem.empty) = some (m, l) ∧
      size l = [5].length ∧ toList m l (size l) = some [5] ∧
      advance m (size l + 1) (some (end_ l)) = some (end_ l) ∧
      ∀ i, i ≤ size l → ∃ x, advance m i (some (end_ l)) = some x ∧ Linked m x) :=
  ⟨by decide, rfl, C30_list_refines_model Mem.empty _ [5] 0 (by decide) rfl⟩

/-- C29: with `a = [1]` and `b` empty, both built by `List(alloc)`, the assignment `a = b`
returns with `a.size() == 0` but with the sentinel of `a` linked, in both directions, to the
address of the local `newfake` of `operator=`, which no longer holds a node: `begin()` differs
from `end()` and the traversal follows a dangling pointer. With `b = [7]` the same assignment
leaves `a` and `b` reading `[7]`. -/
theorem C29_assigning_an_empty_list_leaves_dangling_links :
    ∃ m a b m2 a2, oneAndEmpty = some (m, a, b) ∧
      toList m a 1 = some [1] ∧ toList m b 0 = some [] ∧ size b = 0 ∧
      assign m a b 1 = some (m2, a2) ∧ size a2 = 0 ∧
      (m.newBase).2 = 3 ∧ begin m2 a2 = some 3 ∧ m2.prev (end_ a2) = some 3 ∧ end_ a2 = 0 ∧
      m2.next 3 = none ∧ m2.prev 3 = none ∧
      (∀ fuel, toList m2 a2 fuel = none) ∧
      ∃ m3 b3 m4 a4, push_back m b 7 = some (m3, b3) ∧ assign m3 a b3 1 = some (m4, a4) ∧
        toList m4 a4 1 = some [7] ∧ toList m4 b3 1 = some [7] :=
  ⟨_, _, _, _, _, rfl, rfl, rfl, rfl, rfl, rfl, rfl, rfl, rfl, rfl, rfl, rfl,
    fun fuel => by cases fuel <;> rfl, _, _, _, _, rfl, rfl, rfl, rfl⟩

end LinkedList

/-! # Theorems about Polygon equality -/

namespace Polygon

theorem matchAt_of_get {points other : List Point} {j k : Nat} {a b : Point}
    (ha : points[j]? = some a) (hb : other[k]? = some b) :
    matchAt points other j k = a.eq b := by
  unfold matchAt
  rw [ha, hb]

theorem eq_inner_last (points other : List Point) (n i : Nat) (hp : points.length = n)
    (hq : other.length = n) (hn : n < 2 ^ 63) (hi : i < n) :
    ∀ (k j : Nat) (s : Bool × Bool), j + k = n →
      eq_inner points other n i k j s
        = some (if k = 0 then s
            else (matchAt points other (n - 1) ((i + (n - 1)) % n),
                  matchAt points other (n - 1) ((i + n - (n - 1)) % n))) := by
  intro k
  induction k with
  | zero =>
    intro j s _
    rfl
  | succ k ih =>
    intro j s hj
    have hpos : 0 < n := by omega
    have e1 : Deque.wadd i j = i + j := by
      simp only [Deque.wadd, Deque.SIZE_MOD]; omega
    have e2 : Deque.wsub (Deque.wadd i n) j = i + n - j := by
      simp only [Deque.wadd, Deque.wsub, Deque.SIZE_MOD]; omega
    have hj2 : j < points.length := by omega
    have hb2 : (i + j) % n < other.length := by rw [hq]; exact Nat.mod_lt _ hpos
    have hc2 : (i + n - j) % n < other.length := by rw [hq]; exact Nat.mod_lt _ hpos
    have ha := List.getElem?_eq_getElem hj2
    have hb := List.getElem?_eq_getElem hb2
    have hc := List.getElem?_eq_getElem hc2
    rw [eq_inner, e1, e2, ha, hb, hc]
    simp only []
    rw [ih (j + 1) _ (by omega), if_neg (Nat.succ_ne_zero k)]
    by_cases hk : k = 0
    · have hjn : j = n - 1 := by omega
      rw [if_pos hk, ← hjn, matchAt_of_get ha hb, matchAt_of_get ha hc]
    · rw [if_neg hk]

theorem eq_flags_some (r l1 r1 : Bool) :
    eq_flags (some r) (some (l1, r1)) = some ((l1 || r1) || r) := by
  cases l1 <;> cases r1 <;> rfl

theorem eq_outer_any (points other : List Point) (n : Nat) (hp : points.length = n)
    (hq : other.length = n) (hn : n < 2 ^ 63) :
    ∀ (k i : Nat), i + k = n →
      eq_outer points other n k i
        = some ((List.range' i k).any fun s =>
            matchAt points other (n - 1) ((s + (n - 1)) % n)
              || matchAt points other (n - 1) ((s + n - (n - 1)) % n)) := by
  intro k
  induction k with
  | zero =>
    intro i _
    rfl
  | succ k ih =>
    intro i hi
    rw [eq_outer, ih (i + 1) (by omega),
      eq_inner_last points other n i hp hq hn (by omega) n 0 (true, true) (by omega),
      if_neg (by omega), eq_flags_some, List.range'_succ, List.any_cons]

theorem shifts_cover (f : Nat → Bool) (n : Nat) :
    ((List.range' 0 n).any fun s => f ((s + (n - 1)) % n) || f ((s + n - (n - 1)) % n))
      = (List.range n).any f := by
  rw [Bool.eq_iff_iff, List.any_eq_true, List.any_eq_true]
  constructor
  · rintro ⟨s, hs, hf⟩
    rw [List.mem_range'_1] at hs
    have hpos : 0 < n := by omega
    rw [Bool.or_eq_true] at hf
    rcases hf with hf | hf
    · exact ⟨_, List.mem_range.2 (Nat.mod_lt _ hpos), hf⟩
    · exact ⟨_, List.mem_range.2 (Nat.mod_lt _ hpos), hf⟩
  · rintro ⟨k, hk, hf⟩
    rw [List.mem_range] at hk
    refine ⟨(k + 1) % n, ?_, ?_⟩
    · rw [List.mem_range'_1]
      exact ⟨Nat.zero_le _, by rw [Nat.zero_add]; exact Nat.mod_lt _ (by omega)⟩
    · rw [Bool.or_eq_true]
      left
      have e : ((k + 1) % n + (n - 1)) % n = k := by
        by_cases hlast : k + 1 = n
        · rw [hlast, Nat.mod_self, Nat.zero_add, Nat.mod_eq_of_lt (show n - 1 < n by omega)]
          omega
        · rw [Nat.mod_eq_of_lt (show k + 1 < n by omega),
            show k + 1 + (n - 1) = k + n by omega,
            Nat.add_mod_right, Nat.mod_eq_of_lt hk]
      rw [e]
      exact hf

theorem eq_last_vertex (p q : Polygon) (hn : p.verticesCount < 2 ^ 63) :
    p.eq q = some (decide (p.verticesCount = q.verticesCount) &&
      (List.range p.verticesCount).any fun k =>
        matchAt p.points q.points (p.verticesCount - 1) k) := by
  unfold eq
  by_cases he : p.verticesCount = q.verticesCount
  · rw [if_neg (fun hne => hne he),
      eq_outer_any p.points q.points p.verticesCount rfl he.symm hn p.verticesCount 0
        (Nat.zero_add _),
      shifts_cover (fun k => matchAt p.points q.points (p.verticesCount - 1) k)]
    simp [he]
  · rw [if_pos he]
    simp [he]

theorem eq_of_coincide (p q : Polygon) (hn : p.verticesCount < 2 ^ 63)
    (hpos : 0 < p.verticesCount) (hc : CoincideUpToRotation p q) : p.eq q = some true := by
  obtain ⟨he, i, hi⟩ := hc
  rw [eq_last_vertex p q hn]
  have hany : ((List.range p.verticesCount).any fun k =>
      matchAt p.points q.points (p.verticesCount - 1) k) = true := by
    rw [List.any_eq_true]
    rcases hi with hi | hi
    · exact ⟨_, List.mem_range.2 (Nat.mod_lt _ hpos), hi (p.verticesCount - 1) (by omega)⟩
    · refine ⟨_, List.mem_range.2 ?_, hi (p.verticesCount - 1) (by omega)⟩
      have h1 := Int.emod_nonneg ((i : Int) - ((p.verticesCount - 1 : Nat) : Int))
        (show (p.verticesCount : Int) ≠ 0 by omega)
      have h2 := Int.emod_lt_of_pos ((i : Int) - ((p.verticesCount - 1 : Nat) : Int))
        (show (0 : Int) < (p.verticesCount : Int) by omega)
      omega
  rw [hany]
  simp [he]

theorem twoA_first_unmatched (k : Nat) : matchAt twoA.points twoB.points 0 k = false := by
  rcases k with _ | _ | k
  · norm_num [matchAt, twoA, twoB, Point.eq, Geometry.equal, Point.eps]
  · norm_num [matchAt, twoA, twoB, Point.eq, Geometry.equal, Point.eps]
  · simp [matchAt, twoA, twoB]

/-- C31: `operator==` assigns its flags in every iteration of the inner loop, so they hold the
comparison of the last vertex only: for polygons of fewer than `2 ^ 63` vertices it returns true
exactly when the numbers of vertices agree and the last vertex of `p` equals some vertex of `q`.
With `p = (0, 0), (1, 1)` and `q = (5, 5), (1, 1)` it returns true although the first vertex of
`p` equals no vertex of `q`, so the vertex sequences do not coincide up to rotation and reversal;
for two polygons without vertices it returns false although the relation of the specification
holds of them. The other direction holds: for polygons with a vertex that coincide up to
rotation and reversal it returns true. -/
theorem C31_polygon_equality_tests_the_last_vertex_only :
    (twoA.eq twoB = some true ∧ (∀ k, matchAt twoA.points twoB.points 0 k = false) ∧
      ¬ CoincideUpToRotation twoA twoB) ∧
    ((⟨[]⟩ : Polygon).eq ⟨[]⟩ = some false ∧ CoincideUpToRotation ⟨[]⟩ ⟨[]⟩) ∧
    (∀ (p q : Polygon), p.verticesCount < 2 ^ 63 →
      p.eq q = some (decide (p.verticesCount = q.verticesCount) &&
        (List.range p.verticesCount).any fun k =>
          matchAt p.points q.points (p.verticesCount - 1) k)) ∧
    (∀ (p q : Polygon), p.verticesCount < 2 ^ 63 → 0 < p.verticesCount →
      CoincideUpToRotation p q → p.eq q = some true) := by
  refine ⟨⟨?_, twoA_first_unmatched, ?_⟩, ⟨rfl, rfl, 0, Or.inl (fun j hj => ?_)⟩,
    eq_last_vertex, eq_of_coincide⟩
  · norm_num [Polygon.eq, twoA, twoB, verticesCount, eq_outer, eq_inner, eq_flags, Deque.wadd,
      Deque.wsub, Deque.SIZE_MOD, Point.eq, Geometry.equal, Point.eps]
  · rintro ⟨_, i, hi | hi⟩
    · have := hi 0 (by decide)
      rw [twoA_first_unmatched] at this
      cases this
    · have := hi 0 (by decide)
      rw [twoA_first_unmatched] at this
      cases this
  · exact absurd hj (Nat.not_lt_zero j)

end Polygon
